import Mathlib

/-! Domain transition analysis (libapol, `domain-trans-analysis.c`)

A shallow embedding of the transition table, its construction, the lookup
primitives and the forward and reverse analyses, followed by theorems about
them.

Conventions of the embedding:

* a `qpol_type_t` handle is a `Nat`, the value (ordinal, counted from 1) of the
  type or attribute it points to; a nullable handle is an `Option Nat`;
* a vector is a `List`; a nullable vector is an `Option (List _)`;
* the table is passed explicitly and returned with its `used` marks updated;
* a function that returns `-1` yields `Except.error failure.einval`; a read
  through a null pointer or outside an array yields `Except.error failure.fault`;
* allocation failures are not modelled.
-/

namespace Apol

/-! ## Policy object model -/

/-- Object classes the analysis distinguishes by name. -/
inductive obj_class where
  | process
  | file
  | other
deriving DecidableEq, Repr

/-- Permissions the analysis distinguishes by name. -/
inductive perm where
  | transition
  | setexec
  | execute
  | entrypoint
  | execute_no_trans
  | other
deriving DecidableEq, Repr

/-- An allow rule of the policy. -/
structure qpol_avrule_t where
  source : Nat
  target : Nat
  object_class : obj_class
  perms : List perm
deriving DecidableEq, Repr

/-- A type_transition rule of the policy. -/
structure qpol_terule_t where
  source : Nat
  target : Nat
  object_class : obj_class
  default_type : Nat
deriving DecidableEq, Repr

/-- The untyped rule pointer stored in rule vectors. -/
inductive rule_ref where
  | avrule (r : qpol_avrule_t)
  | terule (r : qpol_terule_t)
deriving DecidableEq, Repr

/-- Source type of a raw rule (`qpol_avrule_get_source_type`,
`qpol_terule_get_source_type`). -/
def rule_ref.source : rule_ref → Nat
  | .avrule r => r.source
  | .terule r => r.source

/-- Target type of a raw rule. -/
def rule_ref.target : rule_ref → Nat
  | .avrule r => r.target
  | .terule r => r.target

/-- Default type of a raw rule; only type rules have one. -/
def rule_ref.default_type : rule_ref → Option Nat
  | .avrule _ => none
  | .terule r => some r.default_type

/-- One entry of the policy's type symbol table: the attribute flag and, for an
attribute, its member types. -/
structure type_datum where
  isattr : Bool
  types : List Nat
deriving DecidableEq, Repr

/-- The loaded policy as the analysis sees it. The entry of the type with value
`v` is `types[v - 1]`; `avrules` are the allow rules and `terules` the
type_transition rules, in iteration order. Modelled from the spec: the value of
a type is a small integer, here one that a C `int` holds: the policy has fewer
than 2^31 types and attributes (`types_fit`). -/
structure apol_policy_t where
  types : List type_datum
  policy_version : Nat
  is_modular : Bool
  avrules : List qpol_avrule_t
  terules : List qpol_terule_t
  types_fit : types.length < 2147483648 := by decide

/-- Symbol table entry of a type handle. -/
def type_datum_of (policy : apol_policy_t) (t : Nat) : Option type_datum :=
  if t = 0 then none else policy.types[t - 1]?

/-- Modelled from the spec: the oracle's is-attribute query
(`qpol_type_get_isattr`), which lives in the policy object model. -/
def qpol_type_get_isattr (policy : apol_policy_t) (t : Nat) : Bool :=
  match type_datum_of policy t with
  | some d => d.isattr
  | none => false

/-- Modelled from the spec: the oracle's expansion (`apol_query_expand_type`): an
attribute yields its member types, a type yields itself. -/
def apol_query_expand_type (policy : apol_policy_t) (t : Nat) : List Nat :=
  match type_datum_of policy t with
  | some d => if d.isattr then d.types else [t]
  | none => [t]

/-- Modelled from the spec: member types of an attribute
(`qpol_type_get_type_iter`). -/
def qpol_type_get_type_iter (policy : apol_policy_t) (t : Nat) : List Nat :=
  match type_datum_of policy t with
  | some d => d.types
  | none => []

/-- Modelled from the spec: the allow-rule query (`apol_avrule_get_by_query`)
restricted to what the table build asks: rules whose class is among `classes`
and, when `perms` is not empty, that grant one of `perms`. -/
def apol_avrule_get_by_query (policy : apol_policy_t) (classes : List obj_class)
    (perms : List perm) : List qpol_avrule_t :=
  policy.avrules.filter fun r =>
    decide (r.object_class ∈ classes) &&
      (perms.isEmpty || r.perms.any fun q => decide (q ∈ perms))

/-- Modelled from the spec: the type-rule query (`apol_terule_get_by_query`) for
type_transition rules of the given classes. -/
def apol_terule_get_by_query (policy : apol_policy_t) (classes : List obj_class) :
    List qpol_terule_t :=
  policy.terules.filter fun r => decide (r.object_class ∈ classes)

/-- The test `policy_version >= 15 || is_modular`. -/
def needs_type_trans_or_setexec (policy_version : Nat) (is_modular : Bool) : Bool :=
  decide (policy_version ≥ 15) || is_modular

/-! ## Table data -/

/-- Rule container with meta data. -/
structure apol_domain_trans_rule_t where
  type : Nat
  dflt : Option Nat
  rules : List rule_ref
  used : Bool
  has_no_trans : Bool
deriving DecidableEq, Repr

/-- Node of a domain and the rules contributing to its transitions. -/
structure apol_domain_trans_dom_node_t where
  proc_trans_rules : List apol_domain_trans_rule_t
  ep_rules : List apol_domain_trans_rule_t
  setexec_rules : List apol_domain_trans_rule_t
  type_trans_rules : List apol_domain_trans_rule_t
deriving DecidableEq, Repr

/-- Node of an executable type and the rules allowing its use. -/
structure apol_domain_trans_exec_node_t where
  exec_rules : List apol_domain_trans_rule_t
  ep_rules : List apol_domain_trans_rule_t
deriving DecidableEq, Repr

/-- The transition table; both arrays are indexed by type value minus one. -/
structure apol_domain_trans_table_t where
  size : Nat
  dom_list : List apol_domain_trans_dom_node_t
  exec_list : List apol_domain_trans_exec_node_t
deriving DecidableEq, Repr

/-- Internal representation of a potential transition. The `next` link is
represented by the list that holds the candidates. -/
structure apol_domain_trans_t where
  start_type : Option Nat
  ep_type : Option Nat
  end_type : Option Nat
  proc_trans_rules : Option (List rule_ref)
  ep_rules : Option (List rule_ref)
  exec_rules : Option (List rule_ref)
  setexec_rules : Option (List rule_ref)
  type_trans_rules : Option (List rule_ref)
  valid : Bool
  access_rules : List qpol_avrule_t
deriving DecidableEq, Repr

/-- Ways a call can fail: the `-1` return with `EINVAL`, a memory fault, and the
`-1` return that passes on the error of a callee outside this file (name
resolution, pattern matching). -/
inductive failure where
  | einval
  | fault
  | upstream
deriving DecidableEq, Repr

/-- Modelled from the spec: `apol_vector_get_size`, which is 0 for a null
vector. -/
def apol_vector_get_size {α : Type} : Option (List α) → Nat
  | none => 0
  | some v => v.length

/-- The six rule vectors of the table. -/
inductive bucket_id where
  | proc_trans
  | dom_ep
  | setexec
  | type_trans
  | exec
  | exec_ep
deriving DecidableEq, Repr

/-- Apply `f` to element `n` of a list, if there is one. -/
def list_update {α : Type} (f : α → α) : List α → Nat → List α
  | [], _ => []
  | x :: xs, 0 => f x :: xs
  | x :: xs, n + 1 => x :: list_update f xs n

/-- The rule vector `k` of node `n` (array index). -/
def get_rules (table : apol_domain_trans_table_t) :
    bucket_id → Nat → Option (List apol_domain_trans_rule_t)
  | .proc_trans, n => (table.dom_list[n]?).map fun d => d.proc_trans_rules
  | .dom_ep, n => (table.dom_list[n]?).map fun d => d.ep_rules
  | .setexec, n => (table.dom_list[n]?).map fun d => d.setexec_rules
  | .type_trans, n => (table.dom_list[n]?).map fun d => d.type_trans_rules
  | .exec, n => (table.exec_list[n]?).map fun d => d.exec_rules
  | .exec_ep, n => (table.exec_list[n]?).map fun d => d.ep_rules

/-- Store `v` as the rule vector `k` of node `n`. -/
def put_rules (table : apol_domain_trans_table_t) :
    bucket_id → Nat → List apol_domain_trans_rule_t → apol_domain_trans_table_t
  | .proc_trans, n, v =>
    { table with dom_list := list_update (fun d => { d with proc_trans_rules := v }) table.dom_list n }
  | .dom_ep, n, v =>
    { table with dom_list := list_update (fun d => { d with ep_rules := v }) table.dom_list n }
  | .setexec, n, v =>
    { table with dom_list := list_update (fun d => { d with setexec_rules := v }) table.dom_list n }
  | .type_trans, n, v =>
    { table with dom_list := list_update (fun d => { d with type_trans_rules := v }) table.dom_list n }
  | .exec, n, v =>
    { table with exec_list := list_update (fun d => { d with exec_rules := v }) table.exec_list n }
  | .exec_ep, n, v =>
    { table with exec_list := list_update (fun d => { d with ep_rules := v }) table.exec_list n }

/-- Array index `val - 1` of a type value; value 0 has none. -/
def node_index (val : Nat) : Except failure Nat :=
  if val = 0 then .error .fault else .ok (val - 1)

/-- Read the rule vector `k` of node `n`; a node outside the arrays is a fault. -/
def rules_at (table : apol_domain_trans_table_t) (k : bucket_id) (n : Nat) :
    Except failure (List apol_domain_trans_rule_t) :=
  match get_rules table k n with
  | some v => .ok v
  | none => .error .fault

/-- Element `i` of a vector that is then dereferenced. -/
def element_at {α : Type} (v : List α) (i : Nat) : Except failure α :=
  match v[i]? with
  | some x => .ok x
  | none => .error .fault

/-- The assignment `rule->used = true` for element `i` of vector `k` of node `n`. -/
def set_used (table : apol_domain_trans_table_t) (k : bucket_id) (n i : Nat) :
    apol_domain_trans_table_t :=
  match get_rules table k n with
  | some v => put_rules table k n (list_update (fun r => { r with used := true }) v i)
  | none => table

/-! ## Lookup primitives -/

/-- Result of a lookup: a pointer to element `i` of the searched vector, NULL
without error, NULL with `EINVAL`, a read outside the vector, or the iteration
bound of the embedding exhausted. -/
inductive rule_ptr where
  | rule (i : Nat)
  | null
  | einval
  | fault
  | nofuel
deriving DecidableEq, Repr

/-- The do-while loop of `apol_domain_trans_find_rule_for_type`, with `left`,
`right` and `i` as C ints; the first argument bounds the iterations. -/
def find_rule_for_type_loop (rule_list : List apol_domain_trans_rule_t) (type_val : Nat) :
    Nat → Int → Int → Int → rule_ptr
  | 0, _, _, _ => .nofuel
  | fuel + 1, left, right, i =>
    if i < 0 then .fault
    else
      match rule_list[i.toNat]? with
      | none => .fault
      | some rule =>
        if rule.type = type_val then .rule i.toNat
        else if rule.type < type_val then
          if right ≥ i + 1 then
            find_rule_for_type_loop rule_list type_val fuel (i + 1) right
              (i + ((right - i).tdiv 2 + (right - i).tmod 2))
          else .null
        else
          if i - 1 ≥ left then
            find_rule_for_type_loop rule_list type_val fuel left (i - 1)
              (i - ((i - left).tdiv 2 + (i - left).tmod 2))
          else .null

/-- Binary search of a rule vector for the entry of a type. -/
def apol_domain_trans_find_rule_for_type (policy : apol_policy_t)
    (rule_list : List apol_domain_trans_rule_t) (type : Nat) : rule_ptr :=
  let list_sz : Int := rule_list.length
  if qpol_type_get_isattr policy type then .einval
  else if rule_list.length = 0 then .null
  else
    find_rule_for_type_loop rule_list type rule_list.length 0 (list_sz - 1) (list_sz.tdiv 2)

/-- The for loop of `apol_domain_trans_find_rule_for_dflt` from index `i` on. -/
def find_rule_for_dflt_loop (dflt_val : Nat) :
    List apol_domain_trans_rule_t → Nat → rule_ptr
  | [], _ => .null
  | rule :: rest, i =>
    if rule.dflt = some dflt_val then .rule i
    else find_rule_for_dflt_loop dflt_val rest (i + 1)

/-- Linear search of a rule vector for the first entry with a default type. -/
def apol_domain_trans_find_rule_for_dflt (policy : apol_policy_t)
    (rule_list : List apol_domain_trans_rule_t) (dflt : Nat) : rule_ptr :=
  if qpol_type_get_isattr policy dflt then .einval
  else find_rule_for_dflt_loop dflt rule_list 0

/-- A lookup whose result is tested against NULL and then dereferenced: the
index and the entry when found, `none` for NULL. -/
def deref_rule (v : List apol_domain_trans_rule_t) :
    rule_ptr → Except failure (Option (Nat × apol_domain_trans_rule_t))
  | .rule i =>
    match v[i]? with
    | some r => .ok (some (i, r))
    | none => .error .fault
  | .null => .ok none
  | .einval => .ok none
  | .fault => .error .fault
  | .nofuel => .error .fault

/-! ## Insertion -/

/-- The conversion `(int)` of a `uint32_t` value: values from 2^31 on come out
negative. -/
def int_of_uint32 (x : Nat) : Int :=
  if x % 4294967296 < 2147483648 then ((x % 4294967296 : Nat) : Int)
  else ((x % 4294967296 : Nat) : Int) - 4294967296

/-- The result of an `int` operation, kept in 32 bits: a result outside the
range of `int`, undefined in C, wraps around as the usual targets have it. -/
def int_wrap (z : Int) : Int :=
  (z + 2147483648) % 4294967296 - 2147483648

/-- Comparison of two entries by the value of their type:
`(int)a_val - (int)b_val`. -/
def apol_domain_trans_rule_compare (a b : apol_domain_trans_rule_t) : Int :=
  int_wrap (int_of_uint32 a.type - int_of_uint32 b.type)

/-- Ordered insertion by a comparison function. -/
def vector_sort_insert {α : Type} (cmp : α → α → Int) (x : α) : List α → List α
  | [] => [x]
  | y :: ys => if cmp x y ≤ 0 then x :: y :: ys else y :: vector_sort_insert cmp x ys

/-- Modelled from the spec: `apol_vector_sort`, which orders a vector by the
comparison function; the buckets it is applied to hold one entry per key, so the
order of equal elements does not matter. -/
def apol_vector_sort {α : Type} (cmp : α → α → Int) (v : List α) : List α :=
  v.foldr (vector_sort_insert cmp) []

/-- Add a raw rule to a rule vector: append it to the entry of `type` when there
is one, create the entry otherwise, then sort. -/
def apol_domain_trans_add_rule_to_list (policy : apol_policy_t)
    (rule_list : List apol_domain_trans_rule_t) (type : Nat)
    (dflt : Option Nat) (rule : rule_ref) (has_no_trans : Bool) :
    Except failure (List apol_domain_trans_rule_t) :=
  if qpol_type_get_isattr policy type then .error .einval
  else
    match apol_domain_trans_find_rule_for_type policy rule_list type with
    | .rule i =>
      match rule_list[i]? with
      | some tmp_rule =>
        .ok (apol_vector_sort apol_domain_trans_rule_compare
          (rule_list.set i
            { tmp_rule with
              rules := tmp_rule.rules ++ [rule]
              has_no_trans := if has_no_trans then true else tmp_rule.has_no_trans }))
      | none => .error .fault
    | .null =>
      .ok (apol_vector_sort apol_domain_trans_rule_compare
        (rule_list ++ [{ type := type, dflt := dflt, rules := [rule], used := false,
                         has_no_trans := has_no_trans }]))
    | .einval =>
      .ok (apol_vector_sort apol_domain_trans_rule_compare
        (rule_list ++ [{ type := type, dflt := dflt, rules := [rule], used := false,
                         has_no_trans := has_no_trans }]))
    | .fault => .error .fault
    | .nofuel => .error .fault

/-! ## Table construction -/

/-- Modelled from the spec: the rule category bits of the public header
`apol/domain-trans-analysis.h`, which is not among the sources. -/
def APOL_DOMAIN_TRANS_RULE_PROC_TRANS : Nat := 0x01

/-- Modelled from the spec: category bit of execute rules. -/
def APOL_DOMAIN_TRANS_RULE_EXEC : Nat := 0x02

/-- Modelled from the spec: category bit of execute_no_trans. -/
def APOL_DOMAIN_TRANS_RULE_EXEC_NO_TRANS : Nat := 0x04

/-- Modelled from the spec: category bit of entrypoint rules. -/
def APOL_DOMAIN_TRANS_RULE_ENTRYPOINT : Nat := 0x08

/-- Modelled from the spec: category bit of type_transition rules. -/
def APOL_DOMAIN_TRANS_RULE_TYPE_TRANS : Nat := 0x10

/-- Modelled from the spec: category bit of setexec rules. -/
def APOL_DOMAIN_TRANS_RULE_SETEXEC : Nat := 0x20

/-- A table with `size` nodes on each side, all rule vectors empty. -/
def apol_domain_trans_table_new (policy : apol_policy_t) : apol_domain_trans_table_t :=
  let size := (policy.types.filter fun d => !d.isattr).length
    + (policy.types.filter fun d => d.isattr).length
  { size := size
    dom_list := List.replicate size
      { proc_trans_rules := [], ep_rules := [], setexec_rules := [], type_trans_rules := [] }
    exec_list := List.replicate size { exec_rules := [], ep_rules := [] } }

/-- The call `apol_domain_trans_add_rule_to_list(policy, table->..[val - 1].k, ...)`. -/
def add_rule_at (policy : apol_policy_t) (table : apol_domain_trans_table_t) (k : bucket_id)
    (val : Nat) (type : Nat) (dflt : Option Nat) (rule : rule_ref)
    (has_no_trans : Bool) : Except failure apol_domain_trans_table_t := do
  let n ← node_index val
  let v ← rules_at table k n
  let v' ← apol_domain_trans_add_rule_to_list policy v type dflt rule has_no_trans
  pure (put_rules table k n v')

/-- Insert one raw rule into every rule vector its categories `rule_type` name,
for each pair of the expanded source and target types. -/
def apol_domain_trans_table_add_rule (policy : apol_policy_t)
    (table : apol_domain_trans_table_t) (rule_type : Nat) (rule : rule_ref) :
    Except failure apol_domain_trans_table_t := do
  let dflt : Option Nat :=
    if rule_type &&& APOL_DOMAIN_TRANS_RULE_TYPE_TRANS ≠ 0 then rule.default_type else none
  let src_types := apol_query_expand_type policy rule.source
  let tgt_types := apol_query_expand_type policy rule.target
  let table ←
    (if rule_type &&& APOL_DOMAIN_TRANS_RULE_PROC_TRANS ≠ 0 then
      src_types.foldlM (fun t src =>
        tgt_types.foldlM (fun t tgt =>
          add_rule_at policy t .proc_trans src tgt none rule false) t) table
    else pure table)
  let table ←
    (if rule_type &&& APOL_DOMAIN_TRANS_RULE_EXEC ≠ 0 then
      tgt_types.foldlM (fun t tgt =>
        src_types.foldlM (fun t src =>
          add_rule_at policy t .exec tgt src none rule
            (decide (rule_type &&& APOL_DOMAIN_TRANS_RULE_EXEC_NO_TRANS ≠ 0))) t) table
    else pure table)
  let table ←
    (if rule_type &&& APOL_DOMAIN_TRANS_RULE_ENTRYPOINT ≠ 0 then
      tgt_types.foldlM (fun t tgt =>
        src_types.foldlM (fun t src => do
          let t ← add_rule_at policy t .dom_ep src tgt none rule false
          add_rule_at policy t .exec_ep tgt src none rule false) t) table
    else pure table)
  let table ←
    (if rule_type &&& APOL_DOMAIN_TRANS_RULE_TYPE_TRANS ≠ 0 then
      tgt_types.foldlM (fun t tgt =>
        src_types.foldlM (fun t src =>
          add_rule_at policy t .type_trans src tgt dflt rule false) t) table
    else pure table)
  (if rule_type &&& APOL_DOMAIN_TRANS_RULE_SETEXEC ≠ 0 then
    tgt_types.foldlM (fun t tgt =>
      src_types.foldlM (fun t src =>
        if src ≠ tgt then pure t
        else add_rule_at policy t .setexec src tgt none rule false) t) table
  else pure table)

/-- Category bits of an allow rule of class file, from its permission names. -/
def file_rule_type (perms : List perm) : Nat :=
  perms.foldl (fun rule_type p =>
    match p with
    | .execute => rule_type ||| APOL_DOMAIN_TRANS_RULE_EXEC
    | .entrypoint => rule_type ||| APOL_DOMAIN_TRANS_RULE_ENTRYPOINT
    | .execute_no_trans => rule_type ||| APOL_DOMAIN_TRANS_RULE_EXEC_NO_TRANS
    | _ => rule_type) 0

/-- Build the table of a policy; `existing` is the table the policy already
holds, if any. -/
def apol_policy_build_domain_trans_table (policy : apol_policy_t)
    (existing : Option apol_domain_trans_table_t) : Except failure apol_domain_trans_table_t :=
  match existing with
  | some table => .ok table
  | none => do
    let table := apol_domain_trans_table_new policy
    let table ← (apol_avrule_get_by_query policy [.process] [.transition]).foldlM
      (fun t avrule =>
        apol_domain_trans_table_add_rule policy t APOL_DOMAIN_TRANS_RULE_PROC_TRANS
          (.avrule avrule)) table
    let table ←
      (if needs_type_trans_or_setexec policy.policy_version policy.is_modular then
        (apol_avrule_get_by_query policy [.process] [.setexec]).foldlM
          (fun t avrule =>
            apol_domain_trans_table_add_rule policy t APOL_DOMAIN_TRANS_RULE_SETEXEC
              (.avrule avrule)) table
      else pure table)
    let table ← (apol_avrule_get_by_query policy [.file] []).foldlM
      (fun t avrule =>
        if file_rule_type avrule.perms ≠ 0 then
          apol_domain_trans_table_add_rule policy t (file_rule_type avrule.perms)
            (.avrule avrule)
        else pure t) table
    (apol_terule_get_by_query policy [.process]).foldlM
      (fun t terule =>
        apol_domain_trans_table_add_rule policy t APOL_DOMAIN_TRANS_RULE_TYPE_TRANS
          (.terule terule)) table

/-- Clear every used mark except those of the setexec vectors. -/
def apol_policy_reset_domain_trans_table (table : apol_domain_trans_table_t) :
    apol_domain_trans_table_t :=
  let clear := fun (v : List apol_domain_trans_rule_t) => v.map fun r => { r with used := false }
  { table with
    dom_list := table.dom_list.map fun d =>
      { d with
        proc_trans_rules := clear d.proc_trans_rules
        type_trans_rules := clear d.type_trans_rules
        ep_rules := clear d.ep_rules }
    exec_list := table.exec_list.map fun d =>
      { d with
        ep_rules := clear d.ep_rules
        exec_rules := clear d.exec_rules } }

/-! ## Forward and reverse analysis -/

/-- A fresh candidate (`apol_domain_trans_new`): all fields null, not valid. -/
def apol_domain_trans_new : apol_domain_trans_t :=
  { start_type := none, ep_type := none, end_type := none, proc_trans_rules := none,
    ep_rules := none, exec_rules := none, setexec_rules := none, type_trans_rules := none,
    valid := false, access_rules := [] }

/-- Modelled from the spec: `qpol_type_get_value` on a nullable handle, which
yields 0 for a null one. -/
def type_value : Option Nat → Nat
  | none => 0
  | some t => t

/-- The condition under which the analyses set `entry->valid`. -/
def valid_condition (policy_version : Nat) (is_modular : Bool) (entry : apol_domain_trans_t) :
    Bool :=
  decide (apol_vector_get_size entry.exec_rules ≠ 0) &&
    decide (apol_vector_get_size entry.ep_rules ≠ 0) &&
    decide (apol_vector_get_size entry.proc_trans_rules ≠ 0) &&
    (if needs_type_trans_or_setexec policy_version is_modular then
      decide (apol_vector_get_size entry.type_trans_rules ≠ 0) ||
        decide (apol_vector_get_size entry.setexec_rules ≠ 0)
     else true)

/-- The state of an analysis loop: the table and the list headed by `cur_head`. -/
abbrev trans_state := apol_domain_trans_table_t × List apol_domain_trans_t

/-- Lookup of `type` in vector `k` of node `n`, tested against NULL by the
caller. -/
def find_at (policy : apol_policy_t) (table : apol_domain_trans_table_t) (k : bucket_id)
    (n : Nat) (type : Nat) :
    Except failure (Option (Nat × apol_domain_trans_rule_t)) := do
  let v ← rules_at table k n
  deref_rule v (apol_domain_trans_find_rule_for_type policy v type)

/-- The assignment `rule->used = true` guarded by `if (rule)`. -/
def mark_found (table : apol_domain_trans_table_t) (k : bucket_id) (n : Nat)
    (r : Option (Nat × apol_domain_trans_rule_t)) : apol_domain_trans_table_t :=
  match r with
  | some (i, _) => set_used table k n i
  | none => table

/-- The copy of `rule->rules` guarded by `if (rule)`: the raw rules of the entry
found, a null vector when the lookup returned NULL. -/
def found_rules (r : Option (Nat × apol_domain_trans_rule_t)) : Option (List rule_ref) :=
  match r with
  | some (_, e) => some e.rules
  | none => none

/-- The test `if (rule && rule->used) rule = NULL;` of the sweep. -/
def drop_used (r : Option (Nat × apol_domain_trans_rule_t)) :
    Option (Nat × apol_domain_trans_rule_t) :=
  match r with
  | some (k, e) => if e.used then none else some (k, e)
  | none => none

/-- The test `dflt_val == end_val` on the type transition entry found by the
reverse analysis: the entry counts only with that default type. -/
def keep_default (end_type : Nat) (r : Option (Nat × apol_domain_trans_rule_t)) :
    Option (Nat × apol_domain_trans_rule_t) :=
  match r with
  | some (k, e) => if type_value e.dflt = end_type then some (k, e) else none
  | none => none

/-- Lookup by default type `dflt` in vector `k` of node `n`, tested against NULL
by the caller. -/
def find_dflt_at (policy : apol_policy_t) (table : apol_domain_trans_table_t) (k : bucket_id)
    (n : Nat) (dflt : Nat) :
    Except failure (Option (Nat × apol_domain_trans_rule_t)) := do
  let v ← rules_at table k n
  deref_rule v (apol_domain_trans_find_rule_for_dflt policy v dflt)

/-- Body of the loop over the type_transition entries of the start type. -/
def forward_type_trans_step (policy : apol_policy_t) (start : Nat) (st : trans_state)
    (i : Nat) : Except failure trans_state := do
  let n ← node_index start
  let v ← rules_at st.1 .type_trans n
  let rule_entry ← element_at v i
  let table := set_used st.1 .type_trans n i
  let ep_n ← node_index rule_entry.type
  let end_val := type_value rule_entry.dflt
  let r1 ← find_at policy table .proc_trans n end_val
  let table := mark_found table .proc_trans n r1
  let r2 ← find_at policy table .exec ep_n start
  let table := mark_found table .exec ep_n r2
  let r3 ← find_at policy table .exec_ep ep_n end_val
  let table := mark_found table .exec_ep ep_n r3
  let r4 ← find_at policy table .setexec n start
  let entry : apol_domain_trans_t :=
    { apol_domain_trans_new with
      start_type := some start
      ep_type := some rule_entry.type
      end_type := rule_entry.dflt
      type_trans_rules := some rule_entry.rules
      proc_trans_rules := found_rules r1
      exec_rules := found_rules r2
      ep_rules := found_rules r3
      setexec_rules := found_rules r4 }
  pure (table,
    { entry with valid := valid_condition policy.policy_version policy.is_modular entry }
      :: st.2)

/-- The loop "verify type transition rules" of the forward analysis. -/
def forward_type_trans_pass (policy : apol_policy_t) (start : Nat) (st : trans_state) :
    Except failure trans_state := do
  let n ← node_index start
  let v ← rules_at st.1 .type_trans n
  (List.range v.length).foldlM (forward_type_trans_step policy start) st

/-- Body of the loop over the entrypoints of `end_type` in the forward
analysis; `rule_entry` is the process transition entry being followed. -/
def forward_entrypoint_step (policy : apol_policy_t) (start : Nat)
    (rule_entry : apol_domain_trans_rule_t) (st : trans_state) (j : Nat) :
    Except failure trans_state := do
  let n ← node_index start
  let end_type := rule_entry.type
  let end_n ← node_index end_type
  let v ← rules_at st.1 .dom_ep end_n
  let tmp_rule ← element_at v j
  let table := set_used st.1 .dom_ep end_n j
  let ep := tmp_rule.type
  let ep_n ← node_index ep
  let r ← find_at policy table .exec_ep ep_n end_type
  match r with
  | none => .error .fault
  | some (k, tmp_rule2) =>
    if tmp_rule2.used then pure (table, st.2)
    else do
      let table := set_used table .exec_ep ep_n k
      let r1 ← find_at policy table .exec ep_n start
      let r2 ← find_at policy table .setexec n start
      let entry : apol_domain_trans_t :=
        { apol_domain_trans_new with
          start_type := some start
          ep_type := some ep
          end_type := some end_type
          proc_trans_rules := some rule_entry.rules
          ep_rules := some tmp_rule.rules
          exec_rules := found_rules r1
          setexec_rules := found_rules r2 }
      pure (table,
        { entry with valid := valid_condition policy.policy_version policy.is_modular entry }
          :: st.2)

/-- Body of the loop "follow process transition rules" of the forward
analysis. -/
def forward_proc_trans_step (policy : apol_policy_t) (start : Nat) (st : trans_state)
    (i : Nat) : Except failure trans_state := do
  let n ← node_index start
  let v ← rules_at st.1 .proc_trans n
  let rule_entry ← element_at v i
  if rule_entry.used then pure st
  else if rule_entry.type = start then pure st
  else do
    let table := set_used st.1 .proc_trans n i
    let end_n ← node_index rule_entry.type
    let eps ← rules_at table .dom_ep end_n
    let st' ← (List.range eps.length).foldlM
      (forward_entrypoint_step policy start rule_entry) (table, st.2)
    if eps.length = 0 then
      pure (st'.1,
        { apol_domain_trans_new with
          start_type := some start
          end_type := some rule_entry.type
          proc_trans_rules := some rule_entry.rules } :: st'.2)
    else pure st'

/-- The loop "follow process transition rules" of the forward analysis. -/
def forward_proc_trans_pass (policy : apol_policy_t) (start : Nat) (st : trans_state) :
    Except failure trans_state := do
  let n ← node_index start
  let v ← rules_at st.1 .proc_trans n
  (List.range v.length).foldlM (forward_proc_trans_step policy start) st

/-- Forward analysis from `start`: the table with its marks updated and the
candidates found, linked in front of `trans`. -/
def apol_domain_trans_table_get_all_forward_trans (policy : apol_policy_t)
    (table : apol_domain_trans_table_t) (trans : List apol_domain_trans_t)
    (start : Nat) : Except failure trans_state :=
  if qpol_type_get_isattr policy start then .error .einval
  else do
    let st ← forward_type_trans_pass policy start (table, [])
    let st ← forward_proc_trans_pass policy start st
    pure (st.1, st.2 ++ trans)

/-- The state of the entrypoint walk of the reverse analysis: table, candidates
and the function-wide `dead` flag. -/
abbrev reverse_state := apol_domain_trans_table_t × List apol_domain_trans_t × Bool

/-- Source type of the first raw rule of an entry. -/
def first_rule_source (rules : List rule_ref) : Except failure Nat :=
  match rules with
  | [] => .error .fault
  | r :: _ => .ok r.source

/-- Body of the loop over the execute rules of entrypoint `ep` in the reverse
analysis; `rule_entry` is the entrypoint entry being followed. -/
def reverse_exec_step (policy : apol_policy_t) (end_type : Nat)
    (rule_entry : apol_domain_trans_rule_t) (st : reverse_state) (j : Nat) :
    Except failure reverse_state := do
  let ep := rule_entry.type
  let ep_n ← node_index ep
  let v ← rules_at st.1 .exec ep_n
  let tmp_rule ← element_at v j
  let start := tmp_rule.type
  if start = end_type then
    if v.length = 1 then pure (st.1, st.2.1, true) else pure st
  else if tmp_rule.used then pure st
  else do
    let table := set_used st.1 .exec ep_n j
    let start_n ← node_index start
    let r1 ← find_at policy table .proc_trans start_n end_type
    let table := mark_found table .proc_trans start_n r1
    let r2 ← find_at policy table .type_trans start_n ep
    let r2 := keep_default end_type r2
    let table := mark_found table .type_trans start_n r2
    let r3 ← find_at policy table .setexec start_n start
    let entry : apol_domain_trans_t :=
      { apol_domain_trans_new with
        end_type := some end_type
        ep_type := some ep
        start_type := some start
        ep_rules := some rule_entry.rules
        exec_rules := some tmp_rule.rules
        proc_trans_rules := found_rules r1
        type_trans_rules := found_rules r2
        setexec_rules := found_rules r3 }
    pure (table,
      { entry with valid := valid_condition policy.policy_version policy.is_modular entry }
        :: st.2.1, st.2.2)

/-- Body of the loop "follow entrypoints" of the reverse analysis. -/
def reverse_entrypoint_step (policy : apol_policy_t) (end_type : Nat)
    (st : reverse_state) (i : Nat) : Except failure reverse_state := do
  let n ← node_index end_type
  let v ← rules_at st.1 .dom_ep n
  let rule_entry ← element_at v i
  let ep := rule_entry.type
  let table := set_used st.1 .dom_ep n i
  let ep_n ← node_index ep
  let execs ← rules_at table .exec ep_n
  let st' ← (List.range execs.length).foldlM
    (reverse_exec_step policy end_type rule_entry) (table, st.2.1, st.2.2)
  if execs.length = 0 || st'.2.2 then
    pure (st'.1,
      { apol_domain_trans_new with
        end_type := some end_type
        ep_type := some ep
        ep_rules := some rule_entry.rules } :: st'.2.1, st'.2.2)
  else pure st'

/-- The loop "follow entrypoints" of the reverse analysis. -/
def reverse_entrypoint_pass (policy : apol_policy_t) (end_type : Nat)
    (st : reverse_state) : Except failure reverse_state := do
  let n ← node_index end_type
  let v ← rules_at st.1 .dom_ep n
  (List.range v.length).foldlM (reverse_entrypoint_step policy end_type) st

/-- The lookup "attempt to find an execute rule" of the sweep, made only when a
type transition entry was found; `start` is the source of the raw rule. -/
def sweep_exec_lookup (policy : apol_policy_t) (table : apol_domain_trans_table_t)
    (tmp_rule : Option apol_domain_trans_rule_t) (start : Nat) :
    Except failure (Option (Nat × apol_domain_trans_rule_t)) :=
  match tmp_rule with
  | some r => do
    let ep_n ← node_index r.type
    find_at policy table .exec ep_n start
  | none => pure none

/-- Body of the loop over the resolved source types in the sweep of the reverse
analysis. `start` is the source of the raw rule, `member` the resolved type. -/
def reverse_sweep_member_step (policy : apol_policy_t) (end_type : Nat)
    (rule_entry tmp_rule : Option apol_domain_trans_rule_t) (start : Nat)
    (st : trans_state) (member : Nat) : Except failure trans_state := do
  let x ← sweep_exec_lookup policy st.1 tmp_rule start
  let table :=
    match tmp_rule with
    | some r => mark_found st.1 .exec (r.type - 1) x
    | none => st.1
  let start_n ← node_index member
  let y ← find_at policy table .setexec start_n member
  let entry : apol_domain_trans_t :=
    { apol_domain_trans_new with
      start_type := some member
      ep_type := tmp_rule.map fun r => r.type
      end_type := some end_type
      proc_trans_rules := rule_entry.map fun r => r.rules
      type_trans_rules := tmp_rule.map fun r => r.rules
      exec_rules := found_rules x
      setexec_rules := found_rules y }
  pure (table, entry :: st.2)

/-- The start type the sweep takes from the first raw rule: of the process
transition entry when there is one, of the type transition entry otherwise. -/
def sweep_source (rule_entry tmp_rule : Option (Nat × apol_domain_trans_rule_t)) :
    Except failure Nat :=
  match rule_entry, tmp_rule with
  | some (_, e), _ => first_rule_source e.rules
  | none, some (_, e) => first_rule_source e.rules
  | none, none => .error .fault

/-- Body of the loop "find unused process transitions and type_transition rules
to end" of the reverse analysis; `i` is the array index of the node. -/
def reverse_sweep_step (policy : apol_policy_t) (end_type : Nat) (st : trans_state)
    (i : Nat) : Except failure trans_state := do
  if i = end_type then pure st
  else do
    let r ← find_at policy st.1 .proc_trans i end_type
    let rule_entry := drop_used r
    let r ← find_dflt_at policy st.1 .type_trans i end_type
    let tmp_rule := drop_used r
    if rule_entry.isNone && tmp_rule.isNone then pure st
    else do
      let table := mark_found st.1 .type_trans i tmp_rule
      let table := mark_found table .proc_trans i rule_entry
      let start ← sweep_source rule_entry tmp_rule
      let v :=
        if qpol_type_get_isattr policy start then qpol_type_get_type_iter policy start
        else [start]
      v.foldlM
        (reverse_sweep_member_step policy end_type (rule_entry.map fun x => x.2)
          (tmp_rule.map fun x => x.2) start)
        (table, st.2)

/-- The sweep loop of the reverse analysis over all nodes of the table. -/
def reverse_sweep_pass (policy : apol_policy_t) (end_type : Nat) (st : trans_state) :
    Except failure trans_state :=
  (List.range st.1.size).foldlM (reverse_sweep_step policy end_type) st

/-- Reverse analysis from `end_type`: the table with its marks updated and the
candidates found, linked in front of `trans`. -/
def apol_domain_trans_table_get_all_reverse_trans (policy : apol_policy_t)
    (table : apol_domain_trans_table_t) (trans : List apol_domain_trans_t)
    (end_type : Nat) : Except failure trans_state :=
  if qpol_type_get_isattr policy end_type then .error .einval
  else do
    let st ← reverse_entrypoint_pass policy end_type (table, [], false)
    let st ← reverse_sweep_pass policy end_type (st.1, st.2.1)
    pure (st.1, st.2 ++ trans)

/-! ## Requests, filters and results -/

/-- Modelled from the spec: the direction values of the public header
`apol/domain-trans-analysis.h`, which is not among the sources. -/
def APOL_DOMAIN_TRANS_DIRECTION_FORWARD : Nat := 0x01

/-- Modelled from the spec: direction value of a reverse analysis. -/
def APOL_DOMAIN_TRANS_DIRECTION_REVERSE : Nat := 0x02

/-- Modelled from the spec: validity bit "valid transitions" of the public
header. -/
def APOL_DOMAIN_TRANS_SEARCH_VALID : Nat := 0x01

/-- Modelled from the spec: validity bit "invalid transitions". -/
def APOL_DOMAIN_TRANS_SEARCH_INVALID : Nat := 0x02

/-- Modelled from the spec: both validity bits. -/
def APOL_DOMAIN_TRANS_SEARCH_BOTH : Nat :=
  APOL_DOMAIN_TRANS_SEARCH_VALID ||| APOL_DOMAIN_TRANS_SEARCH_INVALID

/-- The C expression `x & ~mask`: the bits of `x` without those it shares with
`mask`. -/
def land_not (x mask : Nat) : Nat := x ^^^ (x &&& mask)

/-- Modelled from the spec: an object class name with a set of permission names
(`apol_obj_perm_t`). -/
structure apol_obj_perm_t where
  obj_name : String
  perms : List String
deriving DecidableEq, Repr

/-- The analysis request. The compiled pattern `result_regex` is a cache of the
pattern matcher and is not represented. -/
structure apol_domain_trans_analysis_t where
  direction : Nat
  valid : Nat
  start_type : Option String
  result : Option String
  access_types : Option (List String)
  access_class_perms : Option (List apol_obj_perm_t)
deriving DecidableEq, Repr

/-- A result of the analysis, owned by the caller. -/
structure apol_domain_trans_result_t where
  start_type : Option Nat
  ep_type : Option Nat
  end_type : Option Nat
  proc_trans_rules : Option (List rule_ref)
  ep_rules : Option (List rule_ref)
  exec_rules : Option (List rule_ref)
  setexec_rules : Option (List rule_ref)
  type_trans_rules : Option (List rule_ref)
  valid : Bool
  access_rules : List qpol_avrule_t
deriving DecidableEq, Repr

/-- The loop of `apol_domain_trans_filter_valid`. The list is `kept ++ rest`:
`kept` are the nodes up to `prev`, `rest` starts at `cur`. -/
def filter_valid_loop (valid : Bool) :
    List apol_domain_trans_t → List apol_domain_trans_t → List apol_domain_trans_t
  | kept, [] => kept
  | kept, cur :: next =>
    if cur.valid == valid then filter_valid_loop valid (kept ++ [cur]) next
    else filter_valid_loop valid kept next

/-- Remove the candidates that do not have the validity `valid`. -/
def apol_domain_trans_filter_valid (trans : List apol_domain_trans_t) (valid : Bool) :
    Except failure (List apol_domain_trans_t) :=
  .ok (filter_valid_loop valid [] trans)

/-- The loop of `apol_domain_trans_filter_result_types`; `apol_compare_type` is
the pattern matcher, which is not among the sources and is taken as a
parameter. -/
def filter_result_types_loop (apol_compare_type : Option Nat → Option String → Int)
    (dta : apol_domain_trans_analysis_t) :
    List apol_domain_trans_t → List apol_domain_trans_t →
      Except failure (List apol_domain_trans_t)
  | kept, [] => .ok kept
  | kept, cur :: next =>
    let type :=
      if dta.direction = APOL_DOMAIN_TRANS_DIRECTION_REVERSE then cur.start_type
      else cur.end_type
    let compval := apol_compare_type type dta.result
    if compval < 0 then .error .upstream
    else if compval > 0 then
      filter_result_types_loop apol_compare_type dta (kept ++ [cur]) next
    else filter_result_types_loop apol_compare_type dta kept next

/-- Keep the candidates whose result type the pattern of the request matches. -/
def apol_domain_trans_filter_result_types
    (apol_compare_type : Option Nat → Option String → Int)
    (dta : apol_domain_trans_analysis_t) (trans : List apol_domain_trans_t) :
    Except failure (List apol_domain_trans_t) :=
  filter_result_types_loop apol_compare_type dta [] trans

/-- The two inner loops of `apol_domain_trans_filter_access` for one candidate:
the rules found for each access type and each class and permission set are
appended to the candidate's access rules. `avrule_query` is the allow-rule
query by source, target, class and permissions, which is not among the sources
and is taken as a parameter. The source of the query is the end type of the
candidate; the candidates of the forward analysis, the only ones the filter is
run on, have one. -/
def access_rules_of
    (avrule_query : Option Nat → Nat → String → List String → List qpol_avrule_t)
    (access_types : List Nat) (obj_perm_sets : List apol_obj_perm_t)
    (cur : apol_domain_trans_t) : List qpol_avrule_t :=
  access_types.foldl
    (fun acc type =>
      obj_perm_sets.foldl
        (fun acc op => acc ++ avrule_query cur.end_type type op.obj_name op.perms) acc)
    cur.access_rules

/-- The outer loop of `apol_domain_trans_filter_access`, with `kept` and the
rest of the list as in `filter_valid_loop`. -/
def filter_access_loop
    (avrule_query : Option Nat → Nat → String → List String → List qpol_avrule_t)
    (access_types : List Nat) (obj_perm_sets : List apol_obj_perm_t) :
    List apol_domain_trans_t → List apol_domain_trans_t → List apol_domain_trans_t
  | kept, [] => kept
  | kept, cur :: next =>
    let cur := { cur with
      access_rules := access_rules_of avrule_query access_types obj_perm_sets cur }
    if cur.access_rules.length ≠ 0 then
      filter_access_loop avrule_query access_types obj_perm_sets (kept ++ [cur]) next
    else filter_access_loop avrule_query access_types obj_perm_sets kept next

/-- Keep the candidates whose end type has access to one of the access types
for one of the class and permission sets. -/
def apol_domain_trans_filter_access
    (avrule_query : Option Nat → Nat → String → List String → List qpol_avrule_t)
    (trans : List apol_domain_trans_t) (access_types : List Nat)
    (obj_perm_sets : Option (List apol_obj_perm_t)) :
    Except failure (List apol_domain_trans_t) :=
  match obj_perm_sets with
  | none => .error .einval
  | some sets =>
    if trans.isEmpty then .ok []
    else .ok (filter_access_loop avrule_query access_types sets [] trans)

/-- The loop of `apol_domain_trans_analysis_do` that resolves the names of the
access types. Modelled from the spec: `apol_vector_append_unique` appends a type
that is not in the vector and returns 0, and returns non-zero with `EEXIST` for a
type that is; the loop sends every non-zero return to `err`, so a type named
twice fails the run. -/
def resolve_access_types (qpol_policy_get_type_by_name : String → Option Nat)
    (names : List String) : Except failure (List Nat) :=
  names.foldlM
    (fun type_v name =>
      match qpol_policy_get_type_by_name name with
      | none => .error .upstream
      | some tmp_type =>
        if tmp_type ∈ type_v then .error .upstream else .ok (type_v ++ [tmp_type]))
    []

/-- The assignments that move a candidate into a result. -/
def result_of_trans (cur : apol_domain_trans_t) : apol_domain_trans_result_t :=
  { start_type := cur.start_type
    ep_type := cur.ep_type
    end_type := cur.end_type
    proc_trans_rules := cur.proc_trans_rules
    ep_rules := cur.ep_rules
    exec_rules := cur.exec_rules
    setexec_rules := cur.setexec_rules
    type_trans_rules := cur.type_trans_rules
    valid := cur.valid
    access_rules := cur.access_rules }

/-- The test "validate analysis options" of `apol_domain_trans_analysis_do`. -/
def options_invalid (dta : apol_domain_trans_analysis_t) : Bool :=
  decide (dta.direction = 0) ||
    decide (land_not dta.valid APOL_DOMAIN_TRANS_SEARCH_BOTH ≠ 0) ||
    (decide (apol_vector_get_size dta.access_types ≠ 0) &&
      decide (apol_vector_get_size dta.access_class_perms = 0)) ||
    (decide (apol_vector_get_size dta.access_types = 0) &&
      decide (apol_vector_get_size dta.access_class_perms ≠ 0)) ||
    (decide (apol_vector_get_size dta.access_types ≠ 0) &&
      decide (apol_vector_get_size dta.access_class_perms ≠ 0) &&
      decide (dta.direction = APOL_DOMAIN_TRANS_DIRECTION_REVERSE)) ||
    dta.start_type.isNone

/-- The filters and the result vector of `apol_domain_trans_analysis_do`, from
the candidate list of the analysis on. -/
def filter_and_collect (qpol_policy_get_type_by_name : String → Option Nat)
    (apol_compare_type : Option Nat → Option String → Int)
    (avrule_query : Option Nat → Nat → String → List String → List qpol_avrule_t)
    (dta : apol_domain_trans_analysis_t) (trans_list : List apol_domain_trans_t) :
    Except failure (List apol_domain_trans_result_t) := do
  let trans_list ←
    (if dta.valid ≠ APOL_DOMAIN_TRANS_SEARCH_BOTH then
      apol_domain_trans_filter_valid trans_list
        (decide (dta.valid &&& APOL_DOMAIN_TRANS_SEARCH_VALID ≠ 0))
    else pure trans_list)
  let trans_list ←
    (if dta.result.isSome then
      apol_domain_trans_filter_result_types apol_compare_type dta trans_list
    else pure trans_list)
  let trans_list ←
    (if apol_vector_get_size dta.access_types ≠ 0 then do
      let type_v ← resolve_access_types qpol_policy_get_type_by_name
        (dta.access_types.getD [])
      apol_domain_trans_filter_access avrule_query trans_list type_v dta.access_class_perms
    else pure trans_list)
  pure (trans_list.map result_of_trans)

/-- Run the analysis of a request. `existing` is the table the policy holds on
entry; the first component of the value is the table it holds on return, the
second the return value with the results. The name resolution of the policy, the
pattern matcher and the allow-rule query are not among the sources and are taken
as parameters. After a fault of the traversal the table is not defined; the
table of before the traversal stands for it. -/
def apol_domain_trans_analysis_do (policy : apol_policy_t)
    (existing : Option apol_domain_trans_table_t)
    (qpol_policy_get_type_by_name : String → Option Nat)
    (apol_compare_type : Option Nat → Option String → Int)
    (avrule_query : Option Nat → Nat → String → List String → List qpol_avrule_t)
    (dta : apol_domain_trans_analysis_t) :
    Option apol_domain_trans_table_t × Except failure (List apol_domain_trans_result_t) :=
  match apol_policy_build_domain_trans_table policy existing with
  | .error e => (none, .error e)
  | .ok table =>
    if options_invalid dta then (some table, .error .einval)
    else
      match dta.start_type.bind qpol_policy_get_type_by_name with
      | none => (some table, .error .upstream)
      | some start_type =>
        match
          (if dta.direction = APOL_DOMAIN_TRANS_DIRECTION_REVERSE then
            apol_domain_trans_table_get_all_reverse_trans policy table [] start_type
          else apol_domain_trans_table_get_all_forward_trans policy table [] start_type)
        with
        | .error e => (some table, .error e)
        | .ok st =>
          (some st.1,
            filter_and_collect qpol_policy_get_type_by_name apol_compare_type avrule_query
              dta st.2)

/-- The bitmask `apol_domain_trans_table_verify_trans` returns when one of the
three types is null. -/
def verify_trans_of_null (policy : apol_policy_t) (start_dom ep_type end_dom : Option Nat) :
    Nat :=
  let missing_rules := APOL_DOMAIN_TRANS_RULE_TYPE_TRANS
  let missing_rules :=
    if start_dom.isNone then
      let missing_rules :=
        missing_rules ||| (APOL_DOMAIN_TRANS_RULE_PROC_TRANS ||| APOL_DOMAIN_TRANS_RULE_EXEC)
      if needs_type_trans_or_setexec policy.policy_version policy.is_modular then
        missing_rules ||| APOL_DOMAIN_TRANS_RULE_SETEXEC
      else missing_rules
    else missing_rules
  let missing_rules :=
    if ep_type.isNone then
      missing_rules ||| (APOL_DOMAIN_TRANS_RULE_EXEC ||| APOL_DOMAIN_TRANS_RULE_ENTRYPOINT)
    else missing_rules
  if end_dom.isNone then
    missing_rules ||| (APOL_DOMAIN_TRANS_RULE_PROC_TRANS ||| APOL_DOMAIN_TRANS_RULE_ENTRYPOINT)
  else missing_rules

/-- The lookups of `apol_domain_trans_table_verify_trans` for three types that
are not null. -/
def verify_trans_lookup (policy : apol_policy_t) (table : apol_domain_trans_table_t)
    (start_dom ep_type end_dom : Nat) : Except failure Nat := do
  let missing_rules := 0
  let start_n ← node_index start_dom
  let retv ← find_at policy table .proc_trans start_n end_dom
  let missing_rules :=
    if retv.isNone then missing_rules ||| APOL_DOMAIN_TRANS_RULE_PROC_TRANS else missing_rules
  let ep_n ← node_index ep_type
  let retv ← find_at policy table .exec ep_n start_dom
  let missing_rules :=
    if retv.isNone then missing_rules ||| APOL_DOMAIN_TRANS_RULE_EXEC else missing_rules
  let end_n ← node_index end_dom
  let retv ← find_at policy table .dom_ep end_n ep_type
  let missing_rules :=
    if retv.isNone then missing_rules ||| APOL_DOMAIN_TRANS_RULE_ENTRYPOINT
    else missing_rules
  if needs_type_trans_or_setexec policy.policy_version policy.is_modular then do
    let rule ← find_at policy table .type_trans start_n ep_type
    let dflt_val :=
      match rule with
      | some (_, e) => type_value e.dflt
      | none => 0
    if rule.isNone || decide (dflt_val ≠ end_dom) then do
      let retv ← find_at policy table .setexec start_n start_dom
      let missing_rules :=
        if dflt_val = 0 then missing_rules ||| APOL_DOMAIN_TRANS_RULE_TYPE_TRANS
        else missing_rules
      if retv.isNone then pure (missing_rules ||| APOL_DOMAIN_TRANS_RULE_SETEXEC)
      else pure 0
    else pure missing_rules
  else pure missing_rules

/-- Verify one transition: the bitmask of the rule categories that are missing.
`existing` is the table the policy holds on entry and the first component of
the value the table it holds on return. -/
def apol_domain_trans_table_verify_trans (policy : apol_policy_t)
    (existing : Option apol_domain_trans_table_t) (start_dom ep_type end_dom : Option Nat) :
    Option apol_domain_trans_table_t × Except failure Nat :=
  match start_dom, ep_type, end_dom with
  | some start, some ep, some end_dom =>
    match apol_policy_build_domain_trans_table policy existing with
    | .error e => (none, .error e)
    | .ok table => (some table, verify_trans_lookup policy table start ep end_dom)
  | _, _, _ => (existing, .ok (verify_trans_of_null policy start_dom ep_type end_dom))


/-! ## Request setters and the body of the binary search -/

/-- Set the validity mode of a request (`apol_domain_trans_analysis_set_valid`);
`valid` is an `unsigned char`. -/
def apol_domain_trans_analysis_set_valid (dta : apol_domain_trans_analysis_t) (valid : Nat) :
    Except failure apol_domain_trans_analysis_t :=
  if land_not valid APOL_DOMAIN_TRANS_SEARCH_BOTH ≠ 0 then .error .einval
  else .ok { dta with valid := valid }

/-- Modelled from the spec: `apol_obj_perm_append_perm` of the policy query code,
which is not among the sources: a null permission clears the permission list of
the class, a permission is added unless the list holds it. -/
def apol_obj_perm_append_perm (op : apol_obj_perm_t) (perm : Option String) :
    apol_obj_perm_t :=
  match perm with
  | none => { op with perms := [] }
  | some p => if p ∈ op.perms then op else { op with perms := op.perms ++ [p] }

/-- Modelled from the spec: `apol_vector_get_index` with
`compare_class_perm_by_class_name`: the index of the first element whose class
name is `class_name`, `none` for the negative return. -/
def class_perm_index : List apol_obj_perm_t → String → Option Nat
  | [], _ => none
  | op :: rest, class_name =>
    if op.obj_name = class_name then some 0
    else (class_perm_index rest class_name).map fun i => i + 1

/-- The class and permission sets of a request; a null vector holds none, and
`apol_domain_trans_analysis_append_class_perm` creates it empty before it looks
a class up. -/
def class_perms (dta : apol_domain_trans_analysis_t) : List apol_obj_perm_t :=
  match dta.access_class_perms with
  | some v => v
  | none => []

/-- Add a class and permission to the request, or clear
(`apol_domain_trans_analysis_append_class_perm`); a null name is `none`. -/
def apol_domain_trans_analysis_append_class_perm (dta : apol_domain_trans_analysis_t)
    (class_name perm_name : Option String) : Except failure apol_domain_trans_analysis_t :=
  match class_name with
  | none => .ok { dta with access_class_perms := none }
  | some c =>
    let v : List apol_obj_perm_t := class_perms dta
    match class_perm_index v c with
    | none =>
      match perm_name with
      | some p =>
        .ok { dta with access_class_perms := some (v ++ [{ obj_name := c, perms := [p] }]) }
      | none => .ok { dta with access_class_perms := some v }
    | some i =>
      match v[i]? with
      | some op =>
        .ok { dta with
          access_class_perms := some (v.set i (apol_obj_perm_append_perm op perm_name)) }
      | none => .error .fault

/-- A fresh request (`apol_domain_trans_analysis_create`): all fields zero but
the validity mode, which is valid. -/
def apol_domain_trans_analysis_create : apol_domain_trans_analysis_t :=
  { direction := 0, valid := APOL_DOMAIN_TRANS_SEARCH_VALID, start_type := none,
    result := none, access_types := none, access_class_perms := none }

/-- What one pass through the body of the do-while loop of
`apol_domain_trans_find_rule_for_type` does: return the entry at an index,
leave the loop with NULL, go round again with new values of `left`, `right` and
`i`, or read outside the vector. -/
inductive search_outcome where
  | found (k : Nat)
  | stop
  | next (left right i : Int)
  | outside
deriving DecidableEq, Repr

/-- The body of the do-while loop of `apol_domain_trans_find_rule_for_type`
with its loop test, on C ints. -/
def find_rule_for_type_body (rule_list : List apol_domain_trans_rule_t) (type_val : Nat)
    (left right i : Int) : search_outcome :=
  if i < 0 then .outside
  else
    match rule_list[i.toNat]? with
    | none => .outside
    | some rule =>
      if rule.type = type_val then .found i.toNat
      else if rule.type < type_val then
        if right ≥ i + 1 then
          .next (i + 1) right (i + ((right - i).tdiv 2 + (right - i).tmod 2))
        else .stop
      else
        if i - 1 ≥ left then
          .next left (i - 1) (i - ((i - left).tdiv 2 + (i - left).tmod 2))
        else .stop
/-! ## Predicates used in the statements -/

/-- A rule vector is strictly ascending by the value of its entries' types. -/
def bucket_sorted (v : List apol_domain_trans_rule_t) : Prop :=
  (v.map fun r => r.type).Pairwise (· < ·)

instance bucket_sorted_decidable (v : List apol_domain_trans_rule_t) :
    Decidable (bucket_sorted v) := by
  unfold bucket_sorted
  infer_instance

/-- Every entry of the vector has a type value below 2^31, one that a C `int`
holds. -/
def bucket_fits (v : List apol_domain_trans_rule_t) : Prop :=
  ∀ e ∈ v, e.type < 2147483648

instance bucket_fits_decidable (v : List apol_domain_trans_rule_t) :
    Decidable (bucket_fits v) := by
  unfold bucket_fits
  infer_instance

/-- The entry created for a type without one. -/
def new_rule_entry (type : Nat) (dflt : Option Nat) (rule : rule_ref) (has_no_trans : Bool) :
    apol_domain_trans_rule_t :=
  { type := type, dflt := dflt, rules := [rule], used := false, has_no_trans := has_no_trans }

/-- Two policies the analysis cannot tell apart: same types, same rules and the
same outcome of the version test. -/
def policy_agree (p q : apol_policy_t) : Prop :=
  p.types = q.types ∧ p.avrules = q.avrules ∧ p.terules = q.terules ∧
    needs_type_trans_or_setexec p.policy_version p.is_modular =
      needs_type_trans_or_setexec q.policy_version q.is_modular

/-- Candidates of a forward analysis over a table built for the occasion. -/
def forward_on_new_table (policy : apol_policy_t) (start : Nat) :
    Except failure (List apol_domain_trans_t) := do
  let table ← apol_policy_build_domain_trans_table policy none
  let r ← apol_domain_trans_table_get_all_forward_trans policy table [] start
  pure r.2

/-- Candidates of a reverse analysis over a table built for the occasion. -/
def reverse_on_new_table (policy : apol_policy_t) (end_type : Nat) :
    Except failure (List apol_domain_trans_t) := do
  let table ← apol_policy_build_domain_trans_table policy none
  let r ← apol_domain_trans_table_get_all_reverse_trans policy table [] end_type
  pure r.2

/-- Start, entrypoint and end type of a candidate. -/
def triple (c : apol_domain_trans_t) : Option Nat × Option Nat × Option Nat :=
  (c.start_type, c.ep_type, c.end_type)

/-- Start, entrypoint and end type of a candidate with its valid flag. -/
def triple_valid (c : apol_domain_trans_t) : Option Nat × Option Nat × Option Nat × Bool :=
  (c.start_type, c.ep_type, c.end_type, c.valid)

/-- The rule sets the valid flag stands for, in the words of the spec. -/
def has_required_rules (policy : apol_policy_t) (c : apol_domain_trans_t) : Prop :=
  apol_vector_get_size c.exec_rules ≠ 0 ∧
    apol_vector_get_size c.ep_rules ≠ 0 ∧
    apol_vector_get_size c.proc_trans_rules ≠ 0 ∧
    ((policy.policy_version ≥ 15 ∨ policy.is_modular = true) →
      (apol_vector_get_size c.type_trans_rules ≠ 0 ∨
        apol_vector_get_size c.setexec_rules ≠ 0))

/-- The flag of a candidate tells whether it has the required rules. -/
def flag_ok (policy : apol_policy_t) (c : apol_domain_trans_t) : Prop :=
  c.valid = true ↔ has_required_rules policy c

/-- The value of a successful call, `d` for a failed one. -/
def value_or {α : Type} (d : α) : Except failure α → α
  | .ok a => a
  | .error _ => d

/-- A table without nodes. -/
def empty_table : apol_domain_trans_table_t :=
  { size := 0, dom_list := [], exec_list := [] }

/-- The table built from a policy, for the examples. -/
def table_of (policy : apol_policy_t) : apol_domain_trans_table_t :=
  value_or empty_table (apol_policy_build_domain_trans_table policy none)

/-- A forward candidate without type transition rules has distinct start and
end types. -/
def forward_distinct (c : apol_domain_trans_t) : Prop :=
  c.type_trans_rules = none → c.start_type ≠ c.end_type

/-- A reverse candidate with entrypoint rules has distinct start and end
types. -/
def reverse_distinct (c : apol_domain_trans_t) : Prop :=
  c.ep_rules ≠ none → c.start_type ≠ c.end_type

/-- The value of a type of a policy with `size` types and attributes. -/
def type_in_range (size t : Nat) : Prop := 1 ≤ t ∧ t ≤ size

instance type_in_range_decidable (size t : Nat) : Decidable (type_in_range size t) := by
  unfold type_in_range
  infer_instance

/-- A policy whose rules name types of the policy and whose attributes have
types of the policy, not attributes, as members. -/
def policy_wf (p : apol_policy_t) : Prop :=
  (∀ r ∈ p.avrules,
    type_in_range p.types.length r.source ∧ type_in_range p.types.length r.target) ∧
  (∀ r ∈ p.terules,
    type_in_range p.types.length r.source ∧ type_in_range p.types.length r.target ∧
      type_in_range p.types.length r.default_type ∧
      qpol_type_get_isattr p r.default_type = false) ∧
  (∀ d ∈ p.types, d.isattr = true →
    ∀ m ∈ d.types, type_in_range p.types.length m ∧ qpol_type_get_isattr p m = false)

instance policy_wf_decidable (p : apol_policy_t) : Decidable (policy_wf p) := by
  unfold policy_wf
  infer_instance

/-- An entry as the build creates them: its type is a type of the policy, not an
attribute, it holds at least one raw rule, and the sources of its raw rules are
types or attributes of the policy. -/
def entry_ok (policy : apol_policy_t) (e : apol_domain_trans_rule_t) : Prop :=
  type_in_range policy.types.length e.type ∧ qpol_type_get_isattr policy e.type = false ∧
    e.rules ≠ [] ∧ ∀ r ∈ e.rules, type_in_range policy.types.length r.source

/-- The arrays have one node per type and every rule vector is strictly
ascending with entries as the build creates them. -/
def table_base (policy : apol_policy_t) (t : apol_domain_trans_table_t) : Prop :=
  t.size = policy.types.length ∧ t.dom_list.length = t.size ∧ t.exec_list.length = t.size ∧
    ∀ k n v, get_rules t k n = some v → bucket_sorted v ∧ ∀ e ∈ v, entry_ok policy e

/-- Whether a rule vector has an entry of the type. -/
def has_type (v : Option (List apol_domain_trans_rule_t)) (x : Nat) : Prop :=
  ∃ l, v = some l ∧ ∃ e ∈ l, e.type = x

/-- Entrypoint rules are indexed on both sides: the domain node of `s` has an
entrypoint entry of type `x` exactly when the exec node of `x` has an entrypoint
entry of type `s` (nodes given by array index). -/
def table_dual (t : apol_domain_trans_table_t) : Prop :=
  ∀ s x, has_type (get_rules t .dom_ep s) (x + 1) ↔ has_type (get_rules t .exec_ep x) (s + 1)

/-- No entry of the table is marked used. -/
def table_unmarked (t : apol_domain_trans_table_t) : Prop :=
  ∀ k n v, get_rules t k n = some v → ∀ e ∈ v, e.used = false

/-- The invariant of the table that the analyses rely on: the basic invariant
and the two-sided indexing of entrypoint rules. -/
def table_inv (policy : apol_policy_t) (t : apol_domain_trans_table_t) : Prop :=
  table_base policy t ∧ table_dual t

/-- The invariant of the build: the invariant of the table, and no mark. -/
def table_built (policy : apol_policy_t) (t : apol_domain_trans_table_t) : Prop :=
  table_inv policy t ∧ table_unmarked t

/-- What an entry holds apart from its mark. -/
def entry_view (e : apol_domain_trans_rule_t) : Nat × Option Nat × List rule_ref × Bool :=
  (e.type, e.dflt, e.rules, e.has_no_trans)

/-- The second table is the first one up to the used marks. -/
def same_shape (t0 t : apol_domain_trans_table_t) : Prop :=
  t.size = t0.size ∧ ∀ k n, (get_rules t k n).map (List.map entry_view) =
    (get_rules t0 k n).map (List.map entry_view)

/-- The used mark of entry `i` of vector `k` of node `n`; false when there is no
such entry. -/
def used_at (t : apol_domain_trans_table_t) (k : bucket_id) (n i : Nat) : Bool :=
  match get_rules t k n with
  | some v =>
    match v[i]? with
    | some e => e.used
    | none => false
  | none => false

/-- The type transition vector of `a` has an entry of type `p` with default
type `b`. -/
def type_trans_entry (t : apol_domain_trans_table_t) (a p b : Nat) : Prop :=
  ∃ v, get_rules t .type_trans (a - 1) = some v ∧ ∃ e ∈ v, e.type = p ∧ e.dflt = some b

/-- The table holds what a valid transition from `a` through `p` to `b` needs:
a process transition entry of `a` for `b`, an execute entry for `a` and an
entrypoint entry for `b` in the exec node of `p` and, when the version test
succeeds, a type transition entry of `a` for `p` with default `b` or a setexec
entry of `a`. -/
def transition_in_table (policy : apol_policy_t) (t : apol_domain_trans_table_t)
    (a p b : Nat) : Prop :=
  has_type (get_rules t .proc_trans (a - 1)) b ∧
    has_type (get_rules t .exec (p - 1)) a ∧
    has_type (get_rules t .exec_ep (p - 1)) b ∧
    (needs_type_trans_or_setexec policy.policy_version policy.is_modular = true →
      type_trans_entry t a p b ∨ has_type (get_rules t .setexec (a - 1)) a)

/-- A valid candidate has a start, an entrypoint and an end type, and the table
holds what the transition needs. -/
def candidate_sound (policy : apol_policy_t) (t : apol_domain_trans_table_t)
    (c : apol_domain_trans_t) : Prop :=
  c.valid = true → ∃ a p b, triple c = (some a, some p, some b) ∧ 1 ≤ a ∧ 1 ≤ p ∧
    transition_in_table policy t a p b

/-- No entry of type `x` in vector `k` of node `n` is marked used in `t`; the
entries are located in `t0`, a table of the same shape. -/
def unused_type (t0 t : apol_domain_trans_table_t) (k : bucket_id) (n x : Nat) : Prop :=
  ∀ v0, get_rules t0 k n = some v0 → ∀ i, ∀ hi : i < v0.length, v0[i].type = x →
    used_at t k n i = false

/-- Start `s`, entrypoint `p` and end `b` of a transition whose type transition
entries do not stand in the way of the forward analysis: `s` has a type
transition entry for `p` with default `b`, or no type transition entry with
default `b` at all. -/
def type_trans_agrees (t : apol_domain_trans_table_t) (s p b : Nat) : Prop :=
  type_trans_entry t s p b ∨ ¬ ∃ q, type_trans_entry t s q b

/-- The type a candidate is reported under: the end type when the direction is
forward, the start type when it is reverse. -/
def reported_type (direction : Nat) (c : apol_domain_trans_t) : Option Nat :=
  if direction = APOL_DOMAIN_TRANS_DIRECTION_FORWARD then c.end_type else c.start_type

/-- The rules the allow-rule query finds for a candidate over all pairs of an
access type and a class and permission set, in the order of the pairs. -/
def access_evidence
    (q : Option Nat → Nat → String → List String → List qpol_avrule_t)
    (T : List Nat) (P : List apol_obj_perm_t) (c : apol_domain_trans_t) :
    List qpol_avrule_t :=
  T.flatMap fun t => P.flatMap fun p => q c.end_type t p.obj_name p.perms

/-- Vector `k` of node `n` has an entry of type `x` whose raw rules include
`r`. -/
def has_rule (t : apol_domain_trans_table_t) (k : bucket_id) (n x : Nat) (r : rule_ref) :
    Prop :=
  ∃ v, get_rules t k n = some v ∧ ∃ e ∈ v, e.type = x ∧ r ∈ e.rules

/-- A rule vector has an entry of type `x` whose raw rules are `R`. -/
def has_entry (v : Option (List apol_domain_trans_rule_t)) (x : Nat) (R : List rule_ref) :
    Prop :=
  ∃ l, v = some l ∧ ∃ e ∈ l, e.type = x ∧ e.rules = R

/-- Every rule vector of the table is strictly ascending. -/
def table_sorted (t : apol_domain_trans_table_t) : Prop :=
  ∀ k n v, get_rules t k n = some v → bucket_sorted v

/-- The arrays have one node per type of the policy, and the vectors whose
entries are for types that index the arrays, the entrypoint vectors of both
sides and the setexec vectors, are strictly ascending and hold types of the
policy. -/
def table_indexed (policy : apol_policy_t) (t : apol_domain_trans_table_t) : Prop :=
  t.dom_list.length = policy.types.length ∧ t.exec_list.length = policy.types.length ∧
    ∀ k, k = bucket_id.dom_ep ∨ k = bucket_id.exec_ep ∨ k = bucket_id.setexec →
      ∀ n v, get_rules t k n = some v →
        bucket_sorted v ∧ ∀ e ∈ v, e.type ≤ policy.types.length

/-- Entrypoint rules are indexed on both sides with the same raw rules: the
domain node of `s` has an entry for the type of node `x` with rules `R` exactly
when the exec node of `x` has an entry for the type of node `s` with rules `R`. -/
def table_dual_rules (t : apol_domain_trans_table_t) : Prop :=
  ∀ s x R, has_entry (get_rules t .dom_ep s) (x + 1) R ↔
    has_entry (get_rules t .exec_ep x) (s + 1) R

/-- The bitmask of the rule categories that are structurally required when some
of the three types are null: type transition always; process transition and
execute, and setexec when `needs`, for a null start; execute and entrypoint for
a null entrypoint; process transition and entrypoint for a null end. -/
def null_case_mask (needs start_null ep_null end_null : Bool) : Nat :=
  APOL_DOMAIN_TRANS_RULE_TYPE_TRANS |||
    (if start_null then
      APOL_DOMAIN_TRANS_RULE_PROC_TRANS ||| APOL_DOMAIN_TRANS_RULE_EXEC |||
        (if needs then APOL_DOMAIN_TRANS_RULE_SETEXEC else 0)
     else 0) |||
    (if ep_null then APOL_DOMAIN_TRANS_RULE_EXEC ||| APOL_DOMAIN_TRANS_RULE_ENTRYPOINT else 0) |||
    (if end_null then APOL_DOMAIN_TRANS_RULE_PROC_TRANS ||| APOL_DOMAIN_TRANS_RULE_ENTRYPOINT
     else 0)

/-- Start, entrypoint and end type of a result with its valid flag. -/
def result_tuple (r : apol_domain_trans_result_t) :
    Option Nat × Option Nat × Option Nat × Bool :=
  (r.start_type, r.ep_type, r.end_type, r.valid)

/-- The request is one that `apol_domain_trans_analysis_do` rejects: no
direction, validity bits outside valid and invalid, one of the access type list
and the class and permission list without the other, both with the reverse
direction, no start type name, or a start type name the policy does not
resolve. -/
def request_rejected (qpol_policy_get_type_by_name : String → Option Nat)
    (dta : apol_domain_trans_analysis_t) : Prop :=
  dta.direction = 0 ∨
    (∃ i, dta.valid.testBit i = true ∧ APOL_DOMAIN_TRANS_SEARCH_BOTH.testBit i = false) ∨
    (apol_vector_get_size dta.access_types ≠ 0 ∧
      apol_vector_get_size dta.access_class_perms = 0) ∨
    (apol_vector_get_size dta.access_types = 0 ∧
      apol_vector_get_size dta.access_class_perms ≠ 0) ∨
    (apol_vector_get_size dta.access_types ≠ 0 ∧
      apol_vector_get_size dta.access_class_perms ≠ 0 ∧
      dta.direction = APOL_DOMAIN_TRANS_DIRECTION_REVERSE) ∨
    dta.start_type = none ∨
    ∃ name, dta.start_type = some name ∧ qpol_policy_get_type_by_name name = none

/-! ## Example data -/

/-- Policy of nine types, none an attribute, without rules. -/
def c9_policy : apol_policy_t :=
  { types := List.replicate 9 ⟨false, []⟩, policy_version := 20, is_modular := false,
    avrules := [], terules := [] }

/-- A strictly ascending vector of five entries. -/
def c9_bucket : List apol_domain_trans_rule_t :=
  [2, 3, 5, 7, 8].map fun t =>
    { type := t, dflt := none, rules := [], used := false, has_no_trans := false }

/-- The policy of the scenarios: three types with the given values, the rules
`allow init_t httpd_t : process transition;` and
`allow httpd_t httpd_exec_t : file { execute entrypoint };` and, on demand,
`type_transition init_t httpd_exec_t : process httpd_t;`. -/
def scenario_policy (init_t httpd_t httpd_exec_t : Nat) (type_transition : Bool)
    (policy_version : Nat) (is_modular : Bool) : apol_policy_t :=
  { types := [⟨false, []⟩, ⟨false, []⟩, ⟨false, []⟩]
    policy_version := policy_version
    is_modular := is_modular
    avrules := [⟨init_t, httpd_t, .process, [.transition]⟩,
                ⟨httpd_t, httpd_exec_t, .file, [.execute, .entrypoint]⟩]
    terules := if type_transition then [⟨init_t, httpd_exec_t, .process, httpd_t⟩] else [] }

/-- The three values are 1, 2 and 3 in some order. -/
def values_of_three (a b c : Nat) : Prop :=
  (a, b, c) ∈ [(1, 2, 3), (1, 3, 2), (2, 1, 3), (2, 3, 1), (3, 1, 2), (3, 2, 1)]

instance values_of_three_decidable (a b c : Nat) : Decidable (values_of_three a b c) := by
  unfold values_of_three
  infer_instance

/-- The rule `allow init_t httpd_t : process transition;`. -/
def scenario_transition_rule (init_t httpd_t : Nat) : rule_ref :=
  .avrule ⟨init_t, httpd_t, .process, [.transition]⟩

/-- The rule `allow httpd_t httpd_exec_t : file { execute entrypoint };`. -/
def scenario_file_rule (httpd_t httpd_exec_t : Nat) : rule_ref :=
  .avrule ⟨httpd_t, httpd_exec_t, .file, [.execute, .entrypoint]⟩

/-- The rule `type_transition init_t httpd_exec_t : process httpd_t;`. -/
def scenario_type_rule (init_t httpd_t httpd_exec_t : Nat) : rule_ref :=
  .terule ⟨init_t, httpd_exec_t, .process, httpd_t⟩

/-- The five rule vectors attached to a candidate: process transition,
entrypoint, execute, setexec and type transition rules. -/
def evidence (c : apol_domain_trans_t) :
    Option (List rule_ref) × Option (List rule_ref) × Option (List rule_ref) ×
      Option (List rule_ref) × Option (List rule_ref) :=
  (c.proc_trans_rules, c.ep_rules, c.exec_rules, c.setexec_rules, c.type_trans_rules)

/-- Forward analysis from `init_t` returns one candidate and reverse analysis
from `httpd_t` returns a candidate with the same triple and the same process
transition, execute, setexec and type transition rules but no entrypoint rules,
while the forward candidate carries the entrypoint rule. -/
def reverse_matches_forward_but_ep (p : apol_policy_t) (init_t httpd_t httpd_exec_t : Nat) :
    Prop :=
  ∃ cf rl cr,
    forward_on_new_table p init_t = .ok [cf] ∧
    reverse_on_new_table p httpd_t = .ok rl ∧
    cr ∈ rl ∧
    triple cf = (some init_t, some httpd_exec_t, some httpd_t) ∧
    triple cr = (some init_t, some httpd_exec_t, some httpd_t) ∧
    cr.proc_trans_rules = cf.proc_trans_rules ∧
    cr.exec_rules = cf.exec_rules ∧
    cr.setexec_rules = cf.setexec_rules ∧
    cr.type_trans_rules = cf.type_trans_rules ∧
    cr.ep_rules = none ∧
    cf.ep_rules = some [scenario_file_rule httpd_t httpd_exec_t]

/-- A policy with a complete transition: init_t (1) may transition to httpd_t
(2), may execute httpd_exec_t (3), which is an entrypoint of httpd_t, and a
type_transition rule names httpd_t as the default. -/
def complete_policy (policy_version : Nat) : apol_policy_t :=
  { types := [⟨false, []⟩, ⟨false, []⟩, ⟨false, []⟩]
    policy_version := policy_version
    is_modular := false
    avrules := [⟨1, 2, .process, [.transition]⟩, ⟨1, 3, .file, [.execute]⟩,
                ⟨2, 3, .file, [.entrypoint]⟩]
    terules := [⟨1, 3, .process, 2⟩] }

/-- A policy with a type that may transition to itself: type a_t (1), type
a_exec_t (2), `allow a_t a_t : process transition;` and
`type_transition a_t a_exec_t : process a_t;`. -/
def self_policy : apol_policy_t :=
  { types := [⟨false, []⟩, ⟨false, []⟩]
    policy_version := 20
    is_modular := false
    avrules := [⟨1, 1, .process, [.transition]⟩]
    terules := [⟨1, 2, .process, 1⟩] }

/-- A policy whose type a_t (1) may transition to itself through a_exec_t (2):
`allow a_t a_t : process transition;`,
`allow a_t a_exec_t : file { execute entrypoint };` and
`type_transition a_t a_exec_t : process a_t;`. -/
def self_exec_policy : apol_policy_t :=
  { types := [⟨false, []⟩, ⟨false, []⟩]
    policy_version := 20
    is_modular := false
    avrules := [⟨1, 1, .process, [.transition]⟩, ⟨1, 2, .file, [.execute, .entrypoint]⟩]
    terules := [⟨1, 2, .process, 1⟩] }

/-- A policy whose type_transition rule names another entrypoint than its allow
rules, at a version without the type_transition requirement: s_t (1), end_t (2),
ep_t (3), other_t (4), `allow s_t end_t : process transition;`,
`allow s_t ep_t : file execute;`, `allow end_t ep_t : file entrypoint;` and
`type_transition s_t other_t : process end_t;`. -/
def other_entrypoint_policy : apol_policy_t :=
  { types := [⟨false, []⟩, ⟨false, []⟩, ⟨false, []⟩, ⟨false, []⟩]
    policy_version := 14
    is_modular := false
    avrules := [⟨1, 2, .process, [.transition]⟩, ⟨1, 3, .file, [.execute]⟩,
                ⟨2, 3, .file, [.entrypoint]⟩]
    terules := [⟨1, 4, .process, 2⟩] }

/-- A policy with a setexec rule and without a process transition rule: s_t (1),
ep_t (2), end_t (3), `allow s_t s_t : process setexec;`,
`allow s_t ep_t : file execute;` and `allow end_t ep_t : file entrypoint;`, at
version 20. -/
def setexec_only_policy : apol_policy_t :=
  { types := [⟨false, []⟩, ⟨false, []⟩, ⟨false, []⟩]
    policy_version := 20
    is_modular := false
    avrules := [⟨1, 1, .process, [.setexec]⟩, ⟨1, 2, .file, [.execute]⟩,
                ⟨3, 2, .file, [.entrypoint]⟩]
    terules := [] }

/-- A policy with an attribute: a_t (1), b_t (2) and the attribute dom (3) with
members a_t and b_t. -/
def attr_policy : apol_policy_t :=
  { types := [⟨false, []⟩, ⟨false, []⟩, ⟨true, [1, 2]⟩]
    policy_version := 20
    is_modular := false
    avrules := []
    terules := [] }

/-- Three candidates: a valid one to type 2, an invalid one to type 5 and a
valid one to type 2 without entrypoint. -/
def example_candidates : List apol_domain_trans_t :=
  [{ apol_domain_trans_new with
      start_type := some 1, ep_type := some 3, end_type := some 2, valid := true },
   { apol_domain_trans_new with
      start_type := some 1, ep_type := some 4, end_type := some 5, valid := false },
   { apol_domain_trans_new with start_type := some 1, end_type := some 2, valid := true }]

/-- A match function that matches type 2 only and never fails. -/
def example_match : Option Nat → Option String → Int :=
  fun type _ => if type = some 2 then 1 else 0

/-- A forward request for valid transitions with a result pattern. -/
def example_request : apol_domain_trans_analysis_t :=
  { direction := APOL_DOMAIN_TRANS_DIRECTION_FORWARD
    valid := APOL_DOMAIN_TRANS_SEARCH_VALID
    start_type := some "a_t"
    result := some "b_t"
    access_types := none
    access_class_perms := none }

/-- An allow-rule query that finds one rule from type 2 to type 7. -/
def example_query : Option Nat → Nat → String → List String → List qpol_avrule_t :=
  fun source target _ _ =>
    if source = some 2 ∧ target = 7 then [⟨2, 7, .file, [.other]⟩] else []

/-- One access type, type 7. -/
def example_access_types : List Nat := [7]

/-- One class and permission set. -/
def example_obj_perms : List apol_obj_perm_t := [⟨"file", ["read"]⟩]

/-- A name resolution that knows the names a_t (1) and b_t (2). -/
def example_names : String → Option Nat :=
  fun name => if name = "a_t" then some 1 else if name = "b_t" then some 2 else none

/-! ## Predicates and example data for the later statements -/

/-- One call of an analysis on the table: forward from a start type or reverse
from an end type, with the list the candidates are linked in front of. -/
inductive analysis_call where
  | forward (trans : List apol_domain_trans_t) (start : Nat)
  | reverse (trans : List apol_domain_trans_t) (end_type : Nat)

/-- The table after one analysis call. -/
def table_after_call (policy : apol_policy_t) (table : apol_domain_trans_table_t) :
    analysis_call → Except failure apol_domain_trans_table_t
  | .forward l start => do
    let st ← apol_domain_trans_table_get_all_forward_trans policy table l start
    pure st.1
  | .reverse l end_type => do
    let st ← apol_domain_trans_table_get_all_reverse_trans policy table l end_type
    pure st.1

/-- The table after a sequence of analysis calls, each on the table the one
before left. -/
def table_after_calls (policy : apol_policy_t) (table : apol_domain_trans_table_t)
    (calls : List analysis_call) : Except failure apol_domain_trans_table_t :=
  calls.foldlM (table_after_call policy) table

/-- A result carries the types, the valid flag and the rule collections of a
candidate. -/
def result_carries (r : apol_domain_trans_result_t) (c : apol_domain_trans_t) : Prop :=
  r.start_type = c.start_type ∧ r.ep_type = c.ep_type ∧ r.end_type = c.end_type ∧
    r.valid = c.valid ∧ r.proc_trans_rules = c.proc_trans_rules ∧
    r.ep_rules = c.ep_rules ∧ r.exec_rules = c.exec_rules ∧
    r.setexec_rules = c.setexec_rules ∧ r.type_trans_rules = c.type_trans_rules ∧
    r.access_rules = c.access_rules

/-- The analysis of the example request on the policy with a complete
transition, which holds no table yet. -/
def example_run :
    Option apol_domain_trans_table_t × Except failure (List apol_domain_trans_result_t) :=
  apol_domain_trans_analysis_do (complete_policy 20) none example_names example_match
    example_query example_request

/-- The type transition vector of node `n` has an entry with default type
`dflt`. -/
def has_default (t : apol_domain_trans_table_t) (n dflt : Nat) : Prop :=
  ∃ v, get_rules t .type_trans n = some v ∧ ∃ e ∈ v, e.dflt = some dflt

/-- Whether the end type of a candidate is `x`. -/
def ends_at (x : Nat) (c : apol_domain_trans_t) : Bool :=
  decide (c.end_type = some x)

/-- The candidate the forward analysis emits for a process transition entry
whose end type has no entrypoint: start, end and the process transition rules,
nothing else, not valid. -/
def forward_degenerate (start end_type : Nat) (rules : List rule_ref) :
    apol_domain_trans_t :=
  { start_type := some start, ep_type := none, end_type := some end_type,
    proc_trans_rules := some rules, ep_rules := none, exec_rules := none,
    setexec_rules := none, type_trans_rules := none, valid := false, access_rules := [] }

/-- A candidate of the entrypoint walk without start type: entrypoint and end
type with the entrypoint rules only. -/
def reverse_degenerate (c : apol_domain_trans_t) (ep end_type : Nat) : Prop :=
  c.start_type = none ∧ c.ep_type = some ep ∧ c.end_type = some end_type ∧
    c.ep_rules.isSome = true ∧ c.proc_trans_rules = none ∧ c.exec_rules = none

instance reverse_degenerate_decidable (c : apol_domain_trans_t) (ep end_type : Nat) :
    Decidable (reverse_degenerate c ep end_type) := by
  unfold reverse_degenerate
  infer_instance

/-- A type_transition rule from type 1 with target type 2 and the given default
type. -/
def default_rule (dflt : Nat) : rule_ref := .terule ⟨1, 2, .process, dflt⟩

/-- A type transition vector that holds an entry for type 2 with default type
3. -/
def default_bucket : List apol_domain_trans_rule_t :=
  [{ type := 2, dflt := some 3, rules := [default_rule 3], used := false,
     has_no_trans := false }]

/-- The vector `default_bucket` with the rule of default type 4 appended to its
entry for type 2, whose default type is still 3. -/
def merged_bucket : List apol_domain_trans_rule_t :=
  [{ type := 2, dflt := some 3, rules := [default_rule 3, default_rule 4], used := false,
     has_no_trans := false }]

/-- A policy with two type_transition rules of the same source and target and
different default types: `type_transition 1 2 : process 3;` and
`type_transition 1 2 : process 4;` over four types, at version 20. -/
def two_defaults_policy : apol_policy_t :=
  { types := [⟨false, []⟩, ⟨false, []⟩, ⟨false, []⟩, ⟨false, []⟩]
    policy_version := 20
    is_modular := false
    avrules := []
    terules := [⟨1, 2, .process, 3⟩, ⟨1, 2, .process, 4⟩] }

/-- A policy whose end type e_t (1) has two entrypoints: ep1_t (2), which only
e_t itself may execute, and ep2_t (3), which s_t (4) may execute:
`allow e_t ep1_t : file entrypoint;`, `allow e_t ep1_t : file execute;`,
`allow e_t ep2_t : file entrypoint;` and `allow s_t ep2_t : file execute;`. -/
def dead_policy : apol_policy_t :=
  { types := [⟨false, []⟩, ⟨false, []⟩, ⟨false, []⟩, ⟨false, []⟩]
    policy_version := 20
    is_modular := false
    avrules := [⟨1, 2, .file, [.entrypoint]⟩, ⟨1, 2, .file, [.execute]⟩,
                ⟨1, 3, .file, [.entrypoint]⟩, ⟨4, 3, .file, [.execute]⟩]
    terules := [] }

/-- A policy of two types whose second type may transition to the first:
`allow b_t a_t : process transition;` with a_t (1) and b_t (2). -/
def successor_policy : apol_policy_t :=
  { types := [⟨false, []⟩, ⟨false, []⟩]
    policy_version := 20
    is_modular := false
    avrules := [⟨2, 1, .process, [.transition]⟩]
    terules := [] }

/-- A policy of two types whose first type may transition to itself:
`allow a_t a_t : process transition;` with a_t (1) and b_t (2). -/
def own_node_policy : apol_policy_t :=
  { types := [⟨false, []⟩, ⟨false, []⟩]
    policy_version := 20
    is_modular := false
    avrules := [⟨1, 1, .process, [.transition]⟩]
    terules := [] }

/-- A policy whose process transition rule has an attribute as its source: a_t
(1), b_t (2), the attribute dom (3) with members a_t and b_t, e_t (4) and
`allow dom e_t : process transition;`. -/
def attr_source_policy : apol_policy_t :=
  { types := [⟨false, []⟩, ⟨false, []⟩, ⟨true, [1, 2]⟩, ⟨false, []⟩]
    policy_version := 20
    is_modular := false
    avrules := [⟨3, 4, .process, [.transition]⟩]
    terules := [] }

/-- A policy with a process transition to a type without entrypoint: s_t (1),
end_t (2) and `allow s_t end_t : process transition;`. -/
def no_entrypoint_policy : apol_policy_t :=
  { types := [⟨false, []⟩, ⟨false, []⟩]
    policy_version := 20
    is_modular := false
    avrules := [⟨1, 2, .process, [.transition]⟩]
    terules := [] }

/-- The process transition entry of s_t for end_t in the table built from
`no_entrypoint_policy`. -/
def no_entrypoint_entry : apol_domain_trans_rule_t :=
  { type := 2, dflt := none, rules := [.avrule ⟨1, 2, .process, [.transition]⟩],
    used := false, has_no_trans := false }

/-- A policy with a setexec rule between two different types and one of a type
on itself: `allow a_t b_t : process setexec;` and
`allow a_t a_t : process setexec;` with a_t (1) and b_t (2). -/
def setexec_pair_policy : apol_policy_t :=
  { types := [⟨false, []⟩, ⟨false, []⟩]
    policy_version := 20
    is_modular := false
    avrules := [⟨1, 2, .process, [.setexec]⟩, ⟨1, 1, .process, [.setexec]⟩]
    terules := [] }

/-- A name resolution that knows a_t (1), b_t (2) and var_t (7), and var_alias_t
as a second name of type 7. -/
def access_names : String → Option Nat :=
  fun name => if name = "a_t" then some 1 else if name = "b_t" then some 2
    else if name = "var_t" then some 7 else if name = "var_alias_t" then some 7 else none

/-- The example request with one access type and one class and permission
set. -/
def access_request : apol_domain_trans_analysis_t :=
  { example_request with
    access_types := some ["var_t"], access_class_perms := some example_obj_perms }

/-- The analysis of the request with an access type on the policy with a
complete transition, which holds no table yet. -/
def access_run :
    Option apol_domain_trans_table_t × Except failure (List apol_domain_trans_result_t) :=
  apol_domain_trans_analysis_do (complete_policy 20) none access_names example_match
    example_query access_request

/-! ## Predicates for the statements on lookups, marks and requests -/

/-- The state of the binary search at the top of the loop body lies within the
vector: `0 ≤ left ≤ i ≤ right < size`. -/
def search_state_ok (v : List apol_domain_trans_rule_t) (left right i : Int) : Prop :=
  0 ≤ left ∧ left ≤ i ∧ i ≤ right ∧ right < v.length

instance search_state_ok_decidable (v : List apol_domain_trans_rule_t) (left right i : Int) :
    Decidable (search_state_ok v left right i) := by
  unfold search_state_ok
  infer_instance

/-- A vector of four entries that is not ascending. -/
def unsorted_bucket : List apol_domain_trans_rule_t :=
  [5, 2, 8, 3].map fun t =>
    { type := t, dflt := none, rules := [], used := false, has_no_trans := false }

/-- A forward request from a_t with validity mode 0 and no result pattern. -/
def mode_zero_request : apol_domain_trans_analysis_t :=
  { example_request with valid := 0, result := none }

/-- The class names of the class and permission sets of a request, in order. -/
def class_names (dta : apol_domain_trans_analysis_t) : List String :=
  (class_perms dta).map fun op => op.obj_name

/-- A sequence of calls of `apol_domain_trans_analysis_append_class_perm`, each
with its class name and permission name, on the request the one before left. -/
def append_class_perms (dta : apol_domain_trans_analysis_t)
    (calls : List (Option String × Option String)) :
    Except failure apol_domain_trans_analysis_t :=
  calls.foldlM (fun d c => apol_domain_trans_analysis_append_class_perm d c.1 c.2) dta

/-- The entrypoint entry of httpd_t for httpd_exec_t in the table built from the
policy with a complete transition. -/
def complete_entrypoint_entry : apol_domain_trans_rule_t :=
  { type := 3, dflt := none, rules := [.avrule ⟨2, 3, .file, [.entrypoint]⟩], used := false,
    has_no_trans := false }

/-- The table of the policy with a complete transition after a forward analysis
from init_t, with the marks the analysis left. -/
def complete_table_after_forward : apol_domain_trans_table_t :=
  (value_or (empty_table, []) (apol_domain_trans_table_get_all_forward_trans
    (complete_policy 20) (table_of (complete_policy 20)) [] 1)).1

/-- The raw rules of the entry of type `x` in vector `k` of node `n`, null when
the vector has no entry of that type. -/
def rules_for (t : apol_domain_trans_table_t) (k : bucket_id) (n x : Nat) :
    Option (List rule_ref) :=
  match get_rules t k n with
  | some v => (v.find? fun e => decide (e.type = x)).map fun e => e.rules
  | none => none

/-- The raw rules of the type transition entry of type `p` at node `n` when its
default type is `b`, null otherwise. -/
def type_trans_rules_for (t : apol_domain_trans_table_t) (n p b : Nat) :
    Option (List rule_ref) :=
  match get_rules t .type_trans n with
  | some v =>
    match v.find? fun e => decide (e.type = p) with
    | some e => if e.dflt = some b then some e.rules else none
    | none => none
  | none => none

/-- A candidate with its valid flag set from its rules. -/
def with_valid (policy : apol_policy_t) (entry : apol_domain_trans_t) : apol_domain_trans_t :=
  { entry with valid := valid_condition policy.policy_version policy.is_modular entry }

/-- The candidate for a type transition entry of the start type, with the rules
the table holds for it. -/
def type_trans_candidate (policy : apol_policy_t) (t : apol_domain_trans_table_t) (S : Nat)
    (e : apol_domain_trans_rule_t) : apol_domain_trans_t :=
  with_valid policy
    { apol_domain_trans_new with
      start_type := some S
      ep_type := some e.type
      end_type := e.dflt
      type_trans_rules := some e.rules
      proc_trans_rules := rules_for t .proc_trans (S - 1) (type_value e.dflt)
      exec_rules := rules_for t .exec (e.type - 1) S
      ep_rules := rules_for t .exec_ep (e.type - 1) (type_value e.dflt)
      setexec_rules := rules_for t .setexec (S - 1) S }

/-- The candidate for a process transition entry, given by its type and raw
rules, and an entrypoint entry of that type, with the rules the table holds for
it. -/
def proc_trans_candidate (policy : apol_policy_t) (t : apol_domain_trans_table_t) (S : Nat)
    (end_type : Nat) (rules : List rule_ref) (de : apol_domain_trans_rule_t) :
    apol_domain_trans_t :=
  with_valid policy
    { apol_domain_trans_new with
      start_type := some S
      ep_type := some de.type
      end_type := some end_type
      proc_trans_rules := some rules
      ep_rules := some de.rules
      exec_rules := rules_for t .exec (de.type - 1) S
      setexec_rules := rules_for t .setexec (S - 1) S }

/-- The candidates for a process transition entry in the order of the list the
analysis builds: one per entrypoint of its type, last entrypoint first, or the
candidate without entrypoint when the type has none. -/
def proc_trans_emitted (policy : apol_policy_t) (t : apol_domain_trans_table_t) (S : Nat)
    (pe : apol_domain_trans_rule_t) : List apol_domain_trans_t :=
  match get_rules t .dom_ep (pe.type - 1) with
  | some eps =>
    if eps.length = 0 then [forward_degenerate S pe.type pe.rules]
    else (eps.map (proc_trans_candidate policy t S pe.type pe.rules)).reverse
  | none => []

/-- A process transition entry that the second loop of the forward analysis
follows on a table without marks: its type is not the start type and is not the
default type of a type transition entry of the start type. -/
def proc_trans_selected (S : Nat) (vt : List apol_domain_trans_rule_t)
    (pe : apol_domain_trans_rule_t) : Bool :=
  decide (pe.type ≠ S) && vt.all fun e => decide (type_value e.dflt ≠ pe.type)

/-- The candidates of the first `i` type transition entries, last first. -/
def type_trans_expected (policy : apol_policy_t) (t : apol_domain_trans_table_t) (S : Nat)
    (vt : List apol_domain_trans_rule_t) (i : Nat) : List apol_domain_trans_t :=
  ((vt.take i).map (type_trans_candidate policy t S)).reverse

/-- The candidates of the first `i` process transition entries, last first. -/
def proc_trans_expected (policy : apol_policy_t) (t : apol_domain_trans_table_t) (S : Nat)
    (vt vp : List apol_domain_trans_rule_t) (i : Nat) : List apol_domain_trans_t :=
  ((((vp.take i).filter (proc_trans_selected S vt)).map
    (proc_trans_emitted policy t S)).reverse).flatten

/-- The candidate list of a forward analysis from `S` over table `t` when `t`
has no marks, read off the vectors of `t`. -/
def forward_expected (policy : apol_policy_t) (t : apol_domain_trans_table_t) (S : Nat) :
    List apol_domain_trans_t :=
  match get_rules t .type_trans (S - 1), get_rules t .proc_trans (S - 1) with
  | some vt, some vp =>
    proc_trans_expected policy t S vt vp vp.length ++
      type_trans_expected policy t S vt vt.length
  | _, _ => []

/-- The new candidates are among the expected ones in their order, and are all
of them when `exact` holds. -/
def emits (exact : Prop) (new full : List apol_domain_trans_t) : Prop :=
  new.Sublist full ∧ (exact → new = full)

/-- A policy in which both passes of the forward analysis from type 1 find a
transition through entrypoint 3: to type 2 by a type transition rule, to type 4
by a process transition rule alone. -/
def two_pass_policy : apol_policy_t :=
  { types := [⟨false, []⟩, ⟨false, []⟩, ⟨false, []⟩, ⟨false, []⟩]
    policy_version := 20
    is_modular := false
    avrules := [⟨1, 2, .process, [.transition]⟩, ⟨1, 4, .process, [.transition]⟩,
                ⟨1, 3, .file, [.execute]⟩, ⟨2, 3, .file, [.entrypoint]⟩,
                ⟨4, 3, .file, [.entrypoint]⟩]
    terules := [⟨1, 3, .process, 2⟩] }

/-- The table of the two-pass policy after a forward analysis from type 1, with
the marks the analysis left. -/
def two_pass_table_after_forward : apol_domain_trans_table_t :=
  (value_or (empty_table, []) (apol_domain_trans_table_get_all_forward_trans
    two_pass_policy (table_of two_pass_policy) [] 1)).1
/-! # Theorems -/

/-! ## Lookup -/

theorem bucket_sorted_cons {x : apol_domain_trans_rule_t} {l : List apol_domain_trans_rule_t} :
    bucket_sorted (x :: l) ↔ (∀ y ∈ l, x.type < y.type) ∧ bucket_sorted l := by
  simp [bucket_sorted]

theorem bucket_sorted_lt {v : List apol_domain_trans_rule_t} (hs : bucket_sorted v)
    {a b : Nat} (ha : a < v.length) (hb : b < v.length) (hab : a < b) :
    v[a].type < v[b].type := by
  unfold bucket_sorted at hs
  rw [List.pairwise_iff_getElem] at hs
  have := hs a b (by simpa using ha) (by simpa using hb) hab
  simpa using this

theorem bucket_sorted_le {v : List apol_domain_trans_rule_t} (hs : bucket_sorted v)
    {a b : Nat} (ha : a < v.length) (hb : b < v.length) (hab : a ≤ b) :
    v[a].type ≤ v[b].type := by
  rcases Nat.lt_or_eq_of_le hab with h | h
  · exact Nat.le_of_lt (bucket_sorted_lt hs ha hb h)
  · subst h; exact Nat.le_refl _

/-- In a strictly ascending vector a type has at most one index. -/
theorem bucket_sorted_index_unique {v : List apol_domain_trans_rule_t} (hs : bucket_sorted v)
    {a b : Nat} (ha : a < v.length) (hb : b < v.length) (h : v[a].type = v[b].type) : a = b := by
  rcases Nat.lt_trichotomy a b with h1 | h1 | h1
  · exact absurd h (Nat.ne_of_lt (bucket_sorted_lt hs ha hb h1))
  · exact h1
  · exact absurd h.symm (Nat.ne_of_lt (bucket_sorted_lt hs hb ha h1))

theorem ceil_half_bounds (d : Int) (hd : 0 ≤ d) :
    0 ≤ d.tdiv 2 + d.tmod 2 ∧ d.tdiv 2 + d.tmod 2 ≤ d ∧ (1 ≤ d → 1 ≤ d.tdiv 2 + d.tmod 2) := by
  rw [Int.tdiv_eq_ediv hd (by norm_num), Int.tmod_eq_emod hd (by norm_num)]
  omega

/-- The search loop never reads outside the vector and ends within its bound. -/
theorem find_rule_for_type_loop_total (v : List apol_domain_trans_rule_t) (t : Nat) :
    ∀ (fuel : Nat) (left right i : Int), 0 ≤ left → left ≤ i → i ≤ right →
      right < v.length → right - left + 1 ≤ fuel →
      (∃ k, k < v.length ∧ v[k]?.map (fun r => r.type) = some t ∧
          find_rule_for_type_loop v t fuel left right i = .rule k) ∨
        find_rule_for_type_loop v t fuel left right i = .null := by
  intro fuel
  induction fuel with
  | zero => intro left right i h0 h1 h2 h3 h4; omega
  | succ fuel ih =>
    intro left right i h0 h1 h2 h3 h4
    have hi : i.toNat < v.length := by omega
    have hnn : ¬ i < 0 := by omega
    unfold find_rule_for_type_loop
    simp only [hnn, if_false, List.getElem?_eq_getElem hi]
    by_cases heq : v[i.toNat].type = t
    · left
      exact ⟨i.toNat, hi, by simp [List.getElem?_eq_getElem hi, heq], by simp [heq]⟩
    · simp only [heq, if_false]
      by_cases hlt : v[i.toNat].type < t
      · simp only [hlt, if_true]
        by_cases hr : right ≥ i + 1
        · simp only [hr, if_true]
          have hc := ceil_half_bounds (right - i) (by omega)
          exact ih (i + 1) right _ (by omega) (by omega) (by omega) h3 (by omega)
        · simp [hr]
      · simp only [hlt, if_false]
        by_cases hl : i - 1 ≥ left
        · simp only [hl, if_true]
          have hc := ceil_half_bounds (i - left) (by omega)
          exact ih left (i - 1) _ h0 (by omega) (by omega) (by omega) (by omega)
        · simp [hl]

/-- On a strictly ascending vector the loop ends with NULL only when no entry
between `left` and `right` (hence none at all) has the searched type. -/
theorem find_rule_for_type_loop_null (v : List apol_domain_trans_rule_t) (t : Nat)
    (hs : bucket_sorted v) :
    ∀ (fuel : Nat) (left right i : Int), 0 ≤ left → left ≤ i → i ≤ right →
      right < v.length →
      (∀ k (hk : k < v.length), v[k].type = t → left ≤ (k : Int) ∧ (k : Int) ≤ right) →
      find_rule_for_type_loop v t fuel left right i = .null →
      ∀ k (hk : k < v.length), v[k].type ≠ t := by
  intro fuel
  induction fuel with
  | zero =>
    intro left right i h0 h1 h2 h3 hin hres
    simp [find_rule_for_type_loop] at hres
  | succ fuel ih =>
    intro left right i h0 h1 h2 h3 hin hres
    have hi : i.toNat < v.length := by omega
    have hnn : ¬ i < 0 := by omega
    unfold find_rule_for_type_loop at hres
    simp only [hnn, if_false, List.getElem?_eq_getElem hi] at hres
    by_cases heq : v[i.toNat].type = t
    · simp [heq] at hres
    · simp only [heq, if_false] at hres
      by_cases hlt : v[i.toNat].type < t
      · simp only [hlt, if_true] at hres
        have hin' : ∀ k (hk : k < v.length), v[k].type = t → i + 1 ≤ (k : Int) ∧ (k : Int) ≤ right := by
          intro k hk hkt
          refine ⟨?_, (hin k hk hkt).2⟩
          by_contra hcon
          have hle : k ≤ i.toNat := by omega
          have := bucket_sorted_le hs hk hi hle
          rw [hkt] at this
          exact absurd hlt (Nat.not_lt.mpr this)
        by_cases hr : right ≥ i + 1
        · simp only [hr, if_true] at hres
          have hc := ceil_half_bounds (right - i) (by omega)
          exact ih (i + 1) right _ (by omega) (by omega) (by omega) h3 hin' hres
        · intro k hk hkt
          have := hin' k hk hkt
          omega
      · simp only [hlt, if_false] at hres
        have hin' : ∀ k (hk : k < v.length), v[k].type = t → left ≤ (k : Int) ∧ (k : Int) ≤ i - 1 := by
          intro k hk hkt
          refine ⟨(hin k hk hkt).1, ?_⟩
          by_contra hcon
          have hle : i.toNat ≤ k := by omega
          have := bucket_sorted_le hs hi hk hle
          rw [hkt] at this
          rcases Nat.lt_or_eq_of_le this with h5 | h5
          · exact hlt h5
          · exact heq h5
        by_cases hl : i - 1 ≥ left
        · simp only [hl, if_true] at hres
          have hc := ceil_half_bounds (i - left) (by omega)
          exact ih left (i - 1) _ h0 (by omega) (by omega) (by omega) hin' hres
        · intro k hk hkt
          have := hin' k hk hkt
          omega

/-- For a type that is not an attribute the search yields a pointer to an entry
of that type or NULL without error, on every vector. -/
theorem find_rule_for_type_total (policy : apol_policy_t) (v : List apol_domain_trans_rule_t)
    (t : Nat) (hc : qpol_type_get_isattr policy t = false) :
    (∃ k, ∃ hk : k < v.length, v[k].type = t ∧
        apol_domain_trans_find_rule_for_type policy v t = .rule k) ∨
      apol_domain_trans_find_rule_for_type policy v t = .null := by
  unfold apol_domain_trans_find_rule_for_type
  simp only [hc, Bool.false_eq_true, if_false]
  by_cases h0 : v.length = 0
  · simp [h0]
  · simp only [h0, if_false]
    have hpos : 0 < v.length := Nat.pos_of_ne_zero h0
    have hd : (v.length : Int).tdiv 2 = (v.length : Int) / 2 :=
      Int.tdiv_eq_ediv (by omega) (by norm_num)
    rw [hd]
    rcases find_rule_for_type_loop_total v t v.length 0 ((v.length : Int) - 1)
        ((v.length : Int) / 2) (by omega) (by omega) (by omega) (by omega) (by omega) with h | h
    · obtain ⟨k, hk, hkt, hres⟩ := h
      left
      refine ⟨k, hk, ?_, hres⟩
      simpa [List.getElem?_eq_getElem hk] using hkt
    · right; exact h

/-- On a strictly ascending vector, NULL means that no entry has the type. -/
theorem find_rule_for_type_null (policy : apol_policy_t) (v : List apol_domain_trans_rule_t)
    (t : Nat) (hs : bucket_sorted v)
    (h : apol_domain_trans_find_rule_for_type policy v t = .null) :
    ∀ e ∈ v, e.type ≠ t := by
  unfold apol_domain_trans_find_rule_for_type at h
  by_cases ha : qpol_type_get_isattr policy t = true
  · simp [ha] at h
  · simp only [ha, if_false] at h
    by_cases h0 : v.length = 0
    · have : v = [] := List.length_eq_zero.mp h0
      subst this; simp
    · simp only [h0, if_false] at h
      have hpos : 0 < v.length := Nat.pos_of_ne_zero h0
      have hd : (v.length : Int).tdiv 2 = (v.length : Int) / 2 :=
        Int.tdiv_eq_ediv (by omega) (by norm_num)
      rw [hd] at h
      have := find_rule_for_type_loop_null v t hs v.length 0 ((v.length : Int) - 1)
        ((v.length : Int) / 2) (by omega) (by omega) (by omega) (by omega)
        (fun k hk _ => by omega) h
      intro e he
      obtain ⟨k, hk, rfl⟩ := List.getElem_of_mem he
      exact this k hk

/-- C9. On a rule vector that is strictly ascending by type value, the search
for a type that is not an attribute returns the entry of that type when there is
one, and NULL without error when there is none. -/
theorem find_rule_for_type_correct (policy : apol_policy_t)
    (v : List apol_domain_trans_rule_t) (t : Nat) (hs : bucket_sorted v)
    (hc : qpol_type_get_isattr policy t = false) :
    (∀ k (hk : k < v.length), v[k].type = t →
        apol_domain_trans_find_rule_for_type policy v t = .rule k) ∧
      ((∀ e ∈ v, e.type ≠ t) → apol_domain_trans_find_rule_for_type policy v t = .null) := by
  constructor
  · intro k hk hkt
    rcases find_rule_for_type_total policy v t hc with ⟨k', hk', hkt', hres⟩ | h
    · have : k' = k := bucket_sorted_index_unique hs hk' hk (hkt'.trans hkt.symm)
      rw [hres, this]
    · exact absurd hkt (find_rule_for_type_null policy v t hs h _ (List.getElem_mem hk))
  · intro hne
    rcases find_rule_for_type_total policy v t hc with ⟨k', hk', hkt', _⟩ | h
    · exact absurd hkt' (hne _ (List.getElem_mem hk'))
    · exact h

theorem find_rule_for_type_correct_witness :
    apol_domain_trans_find_rule_for_type c9_policy c9_bucket 7 = .rule 3 ∧
      apol_domain_trans_find_rule_for_type c9_policy c9_bucket 4 = .null :=
  have h := find_rule_for_type_correct c9_policy c9_bucket
  ⟨(h 7 (by decide) (by rfl)).1 3 (by decide) (by rfl),
   (h 4 (by decide) (by rfl)).2 (by decide)⟩

/-! ## Insertion -/

/-- For type values that a C `int` holds the comparison is the difference of the
values. -/
theorem rule_compare_of_fits (a b : apol_domain_trans_rule_t)
    (ha : a.type < 2147483648) (hb : b.type < 2147483648) :
    apol_domain_trans_rule_compare a b = (a.type : Int) - (b.type : Int) := by
  unfold apol_domain_trans_rule_compare int_of_uint32 int_wrap
  have h1 : a.type % 4294967296 = a.type := Nat.mod_eq_of_lt (by omega)
  have h2 : b.type % 4294967296 = b.type := Nat.mod_eq_of_lt (by omega)
  rw [h1, h2, if_pos ha, if_pos hb]
  omega

theorem vector_sort_insert_perm (x : apol_domain_trans_rule_t) (l : List apol_domain_trans_rule_t) :
    (vector_sort_insert apol_domain_trans_rule_compare x l).Perm (x :: l) := by
  induction l with
  | nil => simp [vector_sort_insert]
  | cons y ys ih =>
    unfold vector_sort_insert
    split
    · exact List.Perm.refl _
    · exact (List.Perm.cons y ih).trans (List.Perm.swap x y ys)

theorem vector_sort_insert_sorted (x : apol_domain_trans_rule_t)
    (l : List apol_domain_trans_rule_t) (hs : bucket_sorted l)
    (hx : ∀ y ∈ l, y.type ≠ x.type)
    (hfx : x.type < 2147483648) (hfl : bucket_fits l) :
    bucket_sorted (vector_sort_insert apol_domain_trans_rule_compare x l) := by
  induction l with
  | nil => simp [vector_sort_insert, bucket_sorted]
  | cons y ys ih =>
    rw [bucket_sorted_cons] at hs
    unfold vector_sort_insert
    have hne : y.type ≠ x.type := hx y (by simp)
    have hfy : y.type < 2147483648 := hfl y (by simp)
    have hcmp := rule_compare_of_fits x y hfx hfy
    by_cases hc : apol_domain_trans_rule_compare x y ≤ 0
    · simp only [hc, if_true]
      have hlt : x.type < y.type := by
        rw [hcmp] at hc
        omega
      rw [bucket_sorted_cons]
      refine ⟨?_, bucket_sorted_cons.mpr hs⟩
      intro z hz
      rcases List.mem_cons.mp hz with h | h
      · subst h; exact hlt
      · exact Nat.lt_trans hlt (hs.1 z h)
    · simp only [hc, if_false]
      have hlt : y.type < x.type := by
        rw [hcmp] at hc
        omega
      rw [bucket_sorted_cons]
      refine ⟨?_, ih hs.2 (fun z hz => hx z (List.mem_cons_of_mem _ hz))
        (fun z hz => hfl z (List.mem_cons_of_mem _ hz))⟩
      intro z hz
      have := (vector_sort_insert_perm x ys).mem_iff.mp hz
      rcases List.mem_cons.mp this with h | h
      · subst h; exact hlt
      · exact hs.1 z h

theorem apol_vector_sort_perm (l : List apol_domain_trans_rule_t) :
    (apol_vector_sort apol_domain_trans_rule_compare l).Perm l := by
  induction l with
  | nil => simp [apol_vector_sort]
  | cons y ys ih =>
    have : apol_vector_sort apol_domain_trans_rule_compare (y :: ys)
        = vector_sort_insert apol_domain_trans_rule_compare y
            (apol_vector_sort apol_domain_trans_rule_compare ys) := rfl
    rw [this]
    exact (vector_sort_insert_perm y _).trans (List.Perm.cons y ih)

/-- Sorting keeps the type values within what a C `int` holds. -/
theorem apol_vector_sort_fits (l : List apol_domain_trans_rule_t) (hf : bucket_fits l) :
    bucket_fits (apol_vector_sort apol_domain_trans_rule_compare l) :=
  fun e he => hf e ((apol_vector_sort_perm l).mem_iff.mp he)

/-- Sorting a vector with one entry per type, of type values that a C `int`
holds, yields a strictly ascending one. -/
theorem apol_vector_sort_sorted (l : List apol_domain_trans_rule_t)
    (hn : (l.map fun r => r.type).Nodup) (hf : bucket_fits l) :
    bucket_sorted (apol_vector_sort apol_domain_trans_rule_compare l) := by
  induction l with
  | nil => simp [apol_vector_sort, bucket_sorted]
  | cons y ys ih =>
    have : apol_vector_sort apol_domain_trans_rule_compare (y :: ys)
        = vector_sort_insert apol_domain_trans_rule_compare y
            (apol_vector_sort apol_domain_trans_rule_compare ys) := rfl
    rw [this]
    simp only [List.map_cons, List.nodup_cons] at hn
    have hfys : bucket_fits ys := fun z hz => hf z (List.mem_cons_of_mem _ hz)
    apply vector_sort_insert_sorted _ _ (ih hn.2 hfys)
    · intro z hz h
      have hz' := (apol_vector_sort_perm ys).mem_iff.mp hz
      exact hn.1 (List.mem_map.mpr ⟨z, hz', h⟩)
    · exact hf y (List.mem_cons_self _ _)
    · exact apol_vector_sort_fits ys hfys

/-- Sorting leaves a strictly ascending vector of type values that a C `int`
holds as it is. -/
theorem apol_vector_sort_of_sorted (l : List apol_domain_trans_rule_t) (hs : bucket_sorted l)
    (hf : bucket_fits l) :
    apol_vector_sort apol_domain_trans_rule_compare l = l := by
  induction l with
  | nil => rfl
  | cons y ys ih =>
    have : apol_vector_sort apol_domain_trans_rule_compare (y :: ys)
        = vector_sort_insert apol_domain_trans_rule_compare y
            (apol_vector_sort apol_domain_trans_rule_compare ys) := rfl
    rw [this]
    rw [bucket_sorted_cons] at hs
    rw [ih hs.2 (fun z hz => hf z (List.mem_cons_of_mem _ hz))]
    cases ys with
    | nil => rfl
    | cons z zs =>
      have hlt := hs.1 z (by simp)
      have hc : apol_domain_trans_rule_compare y z ≤ 0 := by
        rw [rule_compare_of_fits y z (hf y (by simp)) (hf z (by simp))]
        omega
      simp [vector_sort_insert, hc]

theorem bucket_sorted_set {v : List apol_domain_trans_rule_t} (hs : bucket_sorted v)
    (k : Nat) (hk : k < v.length) (e : apol_domain_trans_rule_t) (he : e.type = v[k].type) :
    bucket_sorted (v.set k e) := by
  unfold bucket_sorted at *
  have : (v.set k e).map (fun r => r.type) = v.map (fun r => r.type) := by
    rw [List.map_set]
    apply List.ext_getElem
    · simp
    · intro n h1 h2
      rw [List.getElem_set]
      split
      · rename_i h; subst h; simp [he]
      · rfl
  rw [this]; exact hs

theorem bucket_fits_set {v : List apol_domain_trans_rule_t} (hf : bucket_fits v)
    (k : Nat) (hk : k < v.length) (e : apol_domain_trans_rule_t) (he : e.type = v[k].type) :
    bucket_fits (v.set k e) := by
  intro x hx
  rcases List.mem_or_eq_of_mem_set hx with h | h
  · exact hf x h
  · rw [h, he]
    exact hf _ (List.getElem_mem hk)

theorem bucket_fits_append_new {v : List apol_domain_trans_rule_t} (hf : bucket_fits v)
    (e : apol_domain_trans_rule_t) (he : e.type < 2147483648) : bucket_fits (v ++ [e]) := by
  intro x hx
  rcases List.mem_append.mp hx with h | h
  · exact hf x h
  · rw [List.mem_singleton.mp h]
    exact he

/-- What an insertion into a strictly ascending vector returns: the sorted
vector with the rule appended to the entry of the type, or the sorted vector
with a new entry. -/
theorem add_rule_to_list_result (policy : apol_policy_t) (v : List apol_domain_trans_rule_t)
    (t : Nat) (dflt : Option Nat) (r : rule_ref) (nt : Bool) (hs : bucket_sorted v)
    (hc : qpol_type_get_isattr policy t = false) :
    (∃ k, ∃ hk : k < v.length, v[k].type = t ∧
        apol_domain_trans_add_rule_to_list policy v t dflt r nt =
          .ok (apol_vector_sort apol_domain_trans_rule_compare
            (v.set k { v[k] with
                rules := v[k].rules ++ [r]
                has_no_trans := if nt then true else v[k].has_no_trans }))) ∨
      ((∀ e ∈ v, e.type ≠ t) ∧
        apol_domain_trans_add_rule_to_list policy v t dflt r nt =
          .ok (apol_vector_sort apol_domain_trans_rule_compare
            (v ++ [new_rule_entry t dflt r nt]))) := by
  unfold apol_domain_trans_add_rule_to_list
  simp only [hc, Bool.false_eq_true, if_false]
  rcases find_rule_for_type_total policy v t hc with ⟨k, hk, hkt, hres⟩ | h
  · left
    refine ⟨k, hk, hkt, ?_⟩
    rw [hres]
    simp only [List.getElem?_eq_getElem hk]
  · right
    refine ⟨find_rule_for_type_null policy v t hs h, ?_⟩
    rw [h]
    rfl

/-- What an insertion into a strictly ascending vector of type values that a C
`int` holds returns: the vector with the rule appended to the entry of the type,
or the sorted vector with a new entry. -/
theorem add_rule_to_list_sorted (policy : apol_policy_t) (v : List apol_domain_trans_rule_t)
    (t : Nat) (dflt : Option Nat) (r : rule_ref) (nt : Bool) (hs : bucket_sorted v)
    (hf : bucket_fits v)
    (hc : qpol_type_get_isattr policy t = false) :
    (∃ k, ∃ hk : k < v.length, v[k].type = t ∧
        apol_domain_trans_add_rule_to_list policy v t dflt r nt =
          .ok (v.set k { v[k] with
                rules := v[k].rules ++ [r]
                has_no_trans := if nt then true else v[k].has_no_trans })) ∨
      ((∀ e ∈ v, e.type ≠ t) ∧
        apol_domain_trans_add_rule_to_list policy v t dflt r nt =
          .ok (apol_vector_sort apol_domain_trans_rule_compare
            (v ++ [new_rule_entry t dflt r nt]))) := by
  rcases add_rule_to_list_result policy v t dflt r nt hs hc with ⟨k, hk, hkt, hres⟩ | h
  · left
    refine ⟨k, hk, hkt, ?_⟩
    rw [hres, apol_vector_sort_of_sorted]
    · exact bucket_sorted_set hs k hk _ rfl
    · exact bucket_fits_set hf k hk _ rfl
  · exact Or.inr h

theorem add_rule_to_list_ok_not_attr (policy : apol_policy_t) (v : List apol_domain_trans_rule_t)
    (t : Nat) (dflt : Option Nat) (r : rule_ref) (nt : Bool)
    (v' : List apol_domain_trans_rule_t)
    (h : apol_domain_trans_add_rule_to_list policy v t dflt r nt = .ok v') :
    qpol_type_get_isattr policy t = false := by
  unfold apol_domain_trans_add_rule_to_list at h
  by_cases ha : qpol_type_get_isattr policy t = true
  · simp [ha] at h
  · simpa using ha

theorem sorted_append_new (v : List apol_domain_trans_rule_t) (e : apol_domain_trans_rule_t)
    (hs : bucket_sorted v) (hne : ∀ x ∈ v, x.type ≠ e.type)
    (hf : bucket_fits v) (he : e.type < 2147483648) :
    bucket_sorted (apol_vector_sort apol_domain_trans_rule_compare (v ++ [e])) := by
  apply apol_vector_sort_sorted
  · rw [List.map_append, List.nodup_append]
    refine ⟨?_, by simp, ?_⟩
    · unfold bucket_sorted at hs
      exact hs.imp (fun h => Nat.ne_of_lt h)
    · intro a ha hb
      simp only [List.map_cons, List.map_nil, List.mem_singleton] at hb
      obtain ⟨x, hx, rfl⟩ := List.mem_map.mp ha
      exact hne x hx hb
  · exact bucket_fits_append_new hf e he

theorem agree_isattr {p q : apol_policy_t} (h : policy_agree p q) : qpol_type_get_isattr p = qpol_type_get_isattr q := by
  funext t; simp only [qpol_type_get_isattr, type_datum_of, h.1]

theorem agree_expand {p q : apol_policy_t} (h : policy_agree p q) : apol_query_expand_type p = apol_query_expand_type q := by
  funext t; simp only [apol_query_expand_type, type_datum_of, h.1]

theorem agree_type_iter {p q : apol_policy_t} (h : policy_agree p q) : qpol_type_get_type_iter p = qpol_type_get_type_iter q := by
  funext t; simp only [qpol_type_get_type_iter, type_datum_of, h.1]

theorem agree_avrule_query {p q : apol_policy_t} (h : policy_agree p q) : apol_avrule_get_by_query p = apol_avrule_get_by_query q := by
  funext c x; simp only [apol_avrule_get_by_query, h.2.1]

theorem agree_terule_query {p q : apol_policy_t} (h : policy_agree p q) : apol_terule_get_by_query p = apol_terule_get_by_query q := by
  funext c; simp only [apol_terule_get_by_query, h.2.2.1]

theorem agree_find_type {p q : apol_policy_t} (h : policy_agree p q) :
    apol_domain_trans_find_rule_for_type p = apol_domain_trans_find_rule_for_type q := by
  funext v t; simp only [apol_domain_trans_find_rule_for_type, agree_isattr h]

theorem agree_find_dflt {p q : apol_policy_t} (h : policy_agree p q) :
    apol_domain_trans_find_rule_for_dflt p = apol_domain_trans_find_rule_for_dflt q := by
  funext v t; simp only [apol_domain_trans_find_rule_for_dflt, agree_isattr h]

theorem agree_add_rule_to_list {p q : apol_policy_t} (h : policy_agree p q) :
    apol_domain_trans_add_rule_to_list p = apol_domain_trans_add_rule_to_list q := by
  funext v t d r n
  simp only [apol_domain_trans_add_rule_to_list, agree_isattr h, agree_find_type h]

theorem agree_add_rule_at {p q : apol_policy_t} (h : policy_agree p q) : add_rule_at p = add_rule_at q := by
  funext t k v ty d r n
  simp only [add_rule_at, agree_add_rule_to_list h]

theorem agree_table_add_rule {p q : apol_policy_t} (h : policy_agree p q) :
    apol_domain_trans_table_add_rule p = apol_domain_trans_table_add_rule q := by
  funext t rt r
  simp only [apol_domain_trans_table_add_rule, agree_add_rule_at h, agree_expand h]

theorem agree_build {p q : apol_policy_t} (h : policy_agree p q) :
    apol_policy_build_domain_trans_table p = apol_policy_build_domain_trans_table q := by
  funext ex
  simp only [apol_policy_build_domain_trans_table, apol_domain_trans_table_new,
    agree_table_add_rule h, agree_avrule_query h, agree_terule_query h, h.1, h.2.2.2]

theorem agree_find_at {p q : apol_policy_t} (h : policy_agree p q) : find_at p = find_at q := by
  funext t k n ty
  simp only [find_at, agree_find_type h]

theorem agree_valid_condition {p q : apol_policy_t} (h : policy_agree p q) :
    valid_condition p.policy_version p.is_modular = valid_condition q.policy_version q.is_modular := by
  funext e
  simp only [valid_condition, h.2.2.2]

theorem agree_forward {p q : apol_policy_t} (h : policy_agree p q) :
    apol_domain_trans_table_get_all_forward_trans p =
      apol_domain_trans_table_get_all_forward_trans q := by
  have h1 : forward_type_trans_step p = forward_type_trans_step q := by
    funext s st i
    simp only [forward_type_trans_step, agree_find_at h, agree_valid_condition h]
  have h2 : forward_entrypoint_step p = forward_entrypoint_step q := by
    funext s re st i
    simp only [forward_entrypoint_step, agree_find_at h, agree_valid_condition h]
  have h3 : forward_proc_trans_step p = forward_proc_trans_step q := by
    funext s st i
    simp only [forward_proc_trans_step, h2]
  funext t tr s
  simp only [apol_domain_trans_table_get_all_forward_trans, forward_type_trans_pass,
    forward_proc_trans_pass, h1, h3, agree_isattr h]

theorem agree_reverse {p q : apol_policy_t} (h : policy_agree p q) :
    apol_domain_trans_table_get_all_reverse_trans p =
      apol_domain_trans_table_get_all_reverse_trans q := by
  have h1 : reverse_exec_step p = reverse_exec_step q := by
    funext e re st i
    simp only [reverse_exec_step, agree_find_at h, agree_valid_condition h]
  have h2 : reverse_entrypoint_step p = reverse_entrypoint_step q := by
    funext s st i
    simp only [reverse_entrypoint_step, h1]
  have h3 : reverse_sweep_member_step p = reverse_sweep_member_step q := by
    funext e a b s st m
    simp only [reverse_sweep_member_step, sweep_exec_lookup, agree_find_at h]
  have h4 : reverse_sweep_step p = reverse_sweep_step q := by
    funext e st i
    simp only [reverse_sweep_step, find_dflt_at, h3, agree_find_at h, agree_find_dflt h,
      agree_isattr h, agree_type_iter h]
  funext t tr s
  simp only [apol_domain_trans_table_get_all_reverse_trans, reverse_entrypoint_pass,
    reverse_sweep_pass, h2, h4, agree_isattr h]

/-! ## The scenarios -/

/-- A property of three values that holds in each of the six orders holds for
every three values that are 1, 2 and 3. -/
theorem values_of_three_cases {a b c : Nat} (h : values_of_three a b c)
    (P : Nat → Nat → Nat → Prop) (h123 : P 1 2 3) (h132 : P 1 3 2) (h213 : P 2 1 3)
    (h231 : P 2 3 1) (h312 : P 3 1 2) (h321 : P 3 2 1) : P a b c := by
  unfold values_of_three at h
  simp only [List.mem_cons, Prod.mk.injEq, List.mem_singleton, List.not_mem_nil,
    or_false] at h
  rcases h with h | h | h | h | h | h <;>
    (obtain ⟨ha, hb, hc⟩ := h; subst ha; subst hb; subst hc; assumption)

/-- A policy whose version test succeeds is indistinguishable from the same
policy at version 15, not modular. -/
theorem scenario_agree_new (i h e : Nat) (tt : Bool) (v : Nat) (m : Bool)
    (hv : needs_type_trans_or_setexec v m = true) :
    policy_agree (scenario_policy i h e tt v m) (scenario_policy i h e tt 15 false) :=
  ⟨rfl, rfl, rfl, by simpa [scenario_policy] using hv⟩

/-- A policy whose version test fails is indistinguishable from the same policy
at version 14, not modular. -/
theorem scenario_agree_old (i h e : Nat) (tt : Bool) (v : Nat) (m : Bool)
    (hv : needs_type_trans_or_setexec v m = false) :
    policy_agree (scenario_policy i h e tt v m) (scenario_policy i h e tt 14 false) :=
  ⟨rfl, rfl, rfl, by simpa [scenario_policy] using hv⟩

theorem forward_on_new_table_agree {p q : apol_policy_t} (h : policy_agree p q) (s : Nat) :
    forward_on_new_table p s = forward_on_new_table q s := by
  simp only [forward_on_new_table, agree_build h, agree_forward h]

theorem reverse_on_new_table_agree {p q : apol_policy_t} (h : policy_agree p q) (s : Nat) :
    reverse_on_new_table p s = reverse_on_new_table q s := by
  simp only [reverse_on_new_table, agree_build h, agree_reverse h]

/-- The scenario policy at any version behaves like the one at version 14 or at
version 15. -/
theorem scenario_version_cases (i h e : Nat) (tt : Bool) (v : Nat) (m : Bool) :
    policy_agree (scenario_policy i h e tt v m) (scenario_policy i h e tt 15 false) ∨
      policy_agree (scenario_policy i h e tt v m) (scenario_policy i h e tt 14 false) := by
  cases hv : needs_type_trans_or_setexec v m
  · exact Or.inr (scenario_agree_old i h e tt v m hv)
  · exact Or.inl (scenario_agree_new i h e tt v m hv)

/-- With or without the type_transition rule, at version 14 and at version 15,
forward analysis from init_t returns the one candidate init_t, httpd_exec_t,
httpd_t, not valid. -/
theorem scenario_forward_at (tt : Bool) (v' : Nat) (hv' : v' = 14 ∨ v' = 15)
    (init_t httpd_t httpd_exec_t : Nat) (hval : values_of_three init_t httpd_t httpd_exec_t) :
    (forward_on_new_table (scenario_policy init_t httpd_t httpd_exec_t tt v' false)
        init_t).map (List.map triple_valid) =
      .ok [(some init_t, some httpd_exec_t, some httpd_t, false)] := by
  cases tt <;> rcases hv' with hv' | hv' <;> subst hv' <;>
    exact values_of_three_cases hval
      (fun i h e => (forward_on_new_table (scenario_policy i h e _ _ false) i).map
        (List.map triple_valid) = .ok [(some i, some e, some h, false)])
      rfl rfl rfl rfl rfl rfl

/-- At any policy version, forward analysis from init_t returns the one
candidate init_t, httpd_exec_t, httpd_t, not valid. -/
theorem scenario_forward_any_version (tt : Bool) (init_t httpd_t httpd_exec_t v : Nat)
    (m : Bool) (hval : values_of_three init_t httpd_t httpd_exec_t) :
    (forward_on_new_table (scenario_policy init_t httpd_t httpd_exec_t tt v m) init_t).map
        (List.map triple_valid) =
      .ok [(some init_t, some httpd_exec_t, some httpd_t, false)] := by
  rcases scenario_version_cases init_t httpd_t httpd_exec_t tt v m with h | h
  · rw [forward_on_new_table_agree h]
    exact scenario_forward_at tt 15 (Or.inr rfl) _ _ _ hval
  · rw [forward_on_new_table_agree h]
    exact scenario_forward_at tt 14 (Or.inl rfl) _ _ _ hval

/-- C2, as the code behaves. For the three types in any order of values and any
policy version, forward analysis from init_t over the table built from the three
rules returns exactly one candidate, with start init_t, entrypoint httpd_exec_t
and end httpd_t, and it is not valid: no rule lets init_t execute
httpd_exec_t. -/
theorem scenario_forward_all_rules (init_t httpd_t httpd_exec_t v : Nat) (m : Bool)
    (hval : values_of_three init_t httpd_t httpd_exec_t) :
    (forward_on_new_table (scenario_policy init_t httpd_t httpd_exec_t true v m) init_t).map
        (List.map triple_valid) =
      .ok [(some init_t, some httpd_exec_t, some httpd_t, false)] :=
  scenario_forward_any_version true init_t httpd_t httpd_exec_t v m hval

theorem scenario_forward_all_rules_witness :
    (forward_on_new_table (scenario_policy 1 2 3 true 20 false) 1).map (List.map triple_valid) =
      .ok [(some 1, some 3, some 2, false)] :=
  scenario_forward_all_rules 1 2 3 20 false (by decide)

/-- C2, counterexample. With init_t = 1, httpd_t = 2, httpd_exec_t = 3 and policy
version 20, forward analysis from init_t does not return a single valid
candidate init_t, httpd_exec_t, httpd_t. -/
theorem scenario_forward_all_rules_not_valid :
    (forward_on_new_table (scenario_policy 1 2 3 true 20 false) 1).map (List.map triple_valid) ≠
      .ok [(some 1, some 3, some 2, true)] := by
  have h : (forward_on_new_table (scenario_policy 1 2 3 true 20 false) 1).map
      (List.map triple_valid) = .ok [(some 1, some 3, some 2, false)] := rfl
  rw [h]
  simp

/-- C3, as the code behaves. Without the type_transition rule, not modular and
with a policy version below 15, forward analysis from init_t returns the
candidate init_t, httpd_exec_t, httpd_t, and it is not valid: no rule lets
init_t execute httpd_exec_t. -/
theorem scenario_forward_old_version (init_t httpd_t httpd_exec_t v : Nat)
    (hval : values_of_three init_t httpd_t httpd_exec_t) (_hv : v < 15) :
    (forward_on_new_table (scenario_policy init_t httpd_t httpd_exec_t false v false)
        init_t).map (List.map triple_valid) =
      .ok [(some init_t, some httpd_exec_t, some httpd_t, false)] :=
  scenario_forward_any_version false init_t httpd_t httpd_exec_t v false hval

theorem scenario_forward_old_version_witness :
    (forward_on_new_table (scenario_policy 1 2 3 false 14 false) 1).map (List.map triple_valid) =
      .ok [(some 1, some 3, some 2, false)] :=
  scenario_forward_old_version 1 2 3 14 (by decide) (by decide)

/-- C3, counterexample. With values 1, 2, 3, version 14 and no type_transition
rule, the candidate init_t, httpd_exec_t, httpd_t is not returned as valid. -/
theorem scenario_forward_old_version_not_valid :
    ¬ ∃ l, forward_on_new_table (scenario_policy 1 2 3 false 14 false) 1 = .ok l ∧
      (some 1, some 3, some 2, true) ∈ l.map triple_valid := by
  rintro ⟨l, hl, hmem⟩
  have h : (forward_on_new_table (scenario_policy 1 2 3 false 14 false) 1).map
      (List.map triple_valid) = .ok [(some 1, some 3, some 2, false)] := rfl
  rw [hl] at h
  simp only [Except.map, Except.ok.injEq] at h
  rw [h] at hmem
  simp at hmem

/-- C4. Without the type_transition rule and without setexec rules, at policy
version 15 or later, forward analysis from init_t returns the candidate init_t,
httpd_exec_t, httpd_t with the valid flag false. -/
theorem scenario_forward_new_version (init_t httpd_t httpd_exec_t v : Nat) (m : Bool)
    (hval : values_of_three init_t httpd_t httpd_exec_t) (_hv : 15 ≤ v) :
    (forward_on_new_table (scenario_policy init_t httpd_t httpd_exec_t false v m) init_t).map
        (List.map triple_valid) =
      .ok [(some init_t, some httpd_exec_t, some httpd_t, false)] :=
  scenario_forward_any_version false init_t httpd_t httpd_exec_t v m hval

theorem scenario_forward_new_version_witness :
    (forward_on_new_table (scenario_policy 1 2 3 false 15 false) 1).map (List.map triple_valid) =
      .ok [(some 1, some 3, some 2, false)] :=
  scenario_forward_new_version 1 2 3 15 false (by decide) (by decide)

/-- C5, counterexample. With values 1, 2, 3 and version 20, no candidate that
reverse analysis from httpd_t returns has the triple init_t, httpd_exec_t,
httpd_t together with the five rule vectors that forward analysis from init_t
attaches to that triple. -/
theorem scenario_reverse_evidence_differs :
    ¬ ∃ fl rl, forward_on_new_table (scenario_policy 1 2 3 true 20 false) 1 = .ok fl ∧
      reverse_on_new_table (scenario_policy 1 2 3 true 20 false) 2 = .ok rl ∧
      ∃ cf ∈ fl, ∃ cr ∈ rl, triple cf = (some 1, some 3, some 2) ∧
        triple cr = (some 1, some 3, some 2) ∧ evidence cr = evidence cf := by
  rintro ⟨fl, rl, hf, hr, cf, hcf, cr, hcr, h1, h2, h3⟩
  have hf0 : (forward_on_new_table (scenario_policy 1 2 3 true 20 false) 1).map
      (List.map fun c => (triple c, evidence c)) =
      .ok [((some 1, some 3, some 2),
        (some [scenario_transition_rule 1 2], some [scenario_file_rule 2 3], none, none,
          some [scenario_type_rule 1 2 3]))] := rfl
  have hr0 : (reverse_on_new_table (scenario_policy 1 2 3 true 20 false) 2).map
      (List.map fun c => (triple c, evidence c)) =
      .ok [((some 1, some 3, some 2),
        (some [scenario_transition_rule 1 2], none, none, none,
          some [scenario_type_rule 1 2 3])),
        ((none, some 3, some 2), (none, some [scenario_file_rule 2 3], none, none, none))] := rfl
  rw [hf] at hf0
  rw [hr] at hr0
  simp only [Except.map, Except.ok.injEq] at hf0 hr0
  have e1 : (triple cf, evidence cf) ∈ fl.map fun c => (triple c, evidence c) :=
    List.mem_map.mpr ⟨cf, hcf, rfl⟩
  have e2 : (triple cr, evidence cr) ∈ rl.map fun c => (triple c, evidence c) :=
    List.mem_map.mpr ⟨cr, hcr, rfl⟩
  rw [hf0] at e1
  rw [hr0] at e2
  rw [h3, h2] at e2
  rw [h1] at e1
  simp only [List.mem_cons, Prod.mk.injEq, List.mem_singleton, List.not_mem_nil, or_false,
    true_and] at e1 e2
  rw [e1] at e2
  simp at e2

/-- The first of two reverse candidates matches the forward candidate but for
the entrypoint rules. -/
theorem reverse_matches_of_eval (p : apol_policy_t) (i h e : Nat)
    (cf cr c2 : apol_domain_trans_t)
    (a1 : forward_on_new_table p i = .ok [cf]) (a2 : reverse_on_new_table p h = .ok [cr, c2])
    (a3 : triple cf = (some i, some e, some h)) (a4 : triple cr = (some i, some e, some h))
    (a5 : cr.proc_trans_rules = cf.proc_trans_rules) (a6 : cr.exec_rules = cf.exec_rules)
    (a7 : cr.setexec_rules = cf.setexec_rules)
    (a8 : cr.type_trans_rules = cf.type_trans_rules) (a9 : cr.ep_rules = none)
    (a10 : cf.ep_rules = some [scenario_file_rule h e]) :
    reverse_matches_forward_but_ep p i h e :=
  ⟨cf, _, cr, a1, a2, List.mem_cons_self _ _, a3, a4, a5, a6, a7, a8, a9, a10⟩

/-- The statement of C5 as amended, at version 14 and at version 15. -/
theorem scenario_reverse_at (v' : Nat) (hv' : v' = 14 ∨ v' = 15)
    (init_t httpd_t httpd_exec_t : Nat) (hval : values_of_three init_t httpd_t httpd_exec_t)
    (hne : init_t ≠ httpd_t + 1) :
    reverse_matches_forward_but_ep (scenario_policy init_t httpd_t httpd_exec_t true v' false)
      init_t httpd_t httpd_exec_t := by
  revert hne
  rcases hv' with hv' | hv' <;> subst hv' <;>
    exact values_of_three_cases hval
      (fun i h e => i ≠ h + 1 →
        reverse_matches_forward_but_ep (scenario_policy i h e true _ false) i h e)
      (fun _ => reverse_matches_of_eval _ 1 2 3 _ _ _ rfl rfl rfl rfl rfl rfl rfl rfl rfl rfl)
      (fun _ => reverse_matches_of_eval _ 1 3 2 _ _ _ rfl rfl rfl rfl rfl rfl rfl rfl rfl rfl)
      (fun hn => absurd rfl hn)
      (fun _ => reverse_matches_of_eval _ 2 3 1 _ _ _ rfl rfl rfl rfl rfl rfl rfl rfl rfl rfl)
      (fun _ => reverse_matches_of_eval _ 3 1 2 _ _ _ rfl rfl rfl rfl rfl rfl rfl rfl rfl rfl)
      (fun hn => absurd rfl hn)

/-- C5, as the code behaves. For the three types in any order of values in which
the value of init_t is not the value of httpd_t plus one, and any policy
version: forward analysis from init_t returns one candidate, reverse analysis
from httpd_t returns a candidate with the same triple init_t, httpd_exec_t,
httpd_t and the same process transition, execute, setexec and type transition
rules, but without entrypoint rules, whereas the forward candidate carries the
entrypoint rule. -/
theorem scenario_reverse_same_triple (init_t httpd_t httpd_exec_t v : Nat) (m : Bool)
    (hval : values_of_three init_t httpd_t httpd_exec_t) (hne : init_t ≠ httpd_t + 1) :
    ∃ cf rl cr,
      forward_on_new_table (scenario_policy init_t httpd_t httpd_exec_t true v m) init_t
        = .ok [cf] ∧
      reverse_on_new_table (scenario_policy init_t httpd_t httpd_exec_t true v m) httpd_t
        = .ok rl ∧
      cr ∈ rl ∧
      triple cf = (some init_t, some httpd_exec_t, some httpd_t) ∧
      triple cr = (some init_t, some httpd_exec_t, some httpd_t) ∧
      cr.proc_trans_rules = cf.proc_trans_rules ∧
      cr.exec_rules = cf.exec_rules ∧
      cr.setexec_rules = cf.setexec_rules ∧
      cr.type_trans_rules = cf.type_trans_rules ∧
      cr.ep_rules = none ∧
      cf.ep_rules = some [scenario_file_rule httpd_t httpd_exec_t] := by
  change reverse_matches_forward_but_ep _ _ _ _
  unfold reverse_matches_forward_but_ep
  rcases scenario_version_cases init_t httpd_t httpd_exec_t true v m with h | h
  · rw [forward_on_new_table_agree h, reverse_on_new_table_agree h]
    exact scenario_reverse_at 15 (Or.inr rfl) _ _ _ hval hne
  · rw [forward_on_new_table_agree h, reverse_on_new_table_agree h]
    exact scenario_reverse_at 14 (Or.inl rfl) _ _ _ hval hne

theorem scenario_reverse_same_triple_witness :
    reverse_matches_forward_but_ep (scenario_policy 1 2 3 true 20 false) 1 2 3 :=
  scenario_reverse_same_triple 1 2 3 20 false (by decide) (by decide)

/-- When the value of init_t is the value of httpd_t plus one, the sweep of the
reverse analysis passes over the node of init_t and only the candidate without
start type is returned. -/
theorem scenario_reverse_misses_start :
    (reverse_on_new_table (scenario_policy 2 1 3 true 20 false) 1).map (List.map triple) =
      .ok [(none, some 3, some 1)] := rfl

/-! ## The valid flag -/

theorem valid_condition_iff (policy : apol_policy_t) (c : apol_domain_trans_t) :
    valid_condition policy.policy_version policy.is_modular c = true ↔
      has_required_rules policy c := by
  unfold valid_condition has_required_rules needs_type_trans_or_setexec
  by_cases h : policy.policy_version ≥ 15 <;> cases hm : policy.is_modular <;>
    simp [h, hm, and_assoc]

theorem flag_ok_set (policy : apol_policy_t) (c : apol_domain_trans_t) :
    flag_ok policy { c with valid := valid_condition policy.policy_version policy.is_modular c } := by
  unfold flag_ok
  rw [← valid_condition_iff]
  simp only [valid_condition]

theorem flag_ok_of_no_ep (policy : apol_policy_t) (c : apol_domain_trans_t)
    (h1 : c.valid = false) (h2 : c.ep_rules = none) : flag_ok policy c := by
  unfold flag_ok has_required_rules
  simp [h1, h2, apol_vector_get_size]

theorem flag_ok_of_no_exec (policy : apol_policy_t) (c : apol_domain_trans_t)
    (h1 : c.valid = false) (h2 : c.exec_rules = none) : flag_ok policy c := by
  unfold flag_ok has_required_rules
  simp [h1, h2, apol_vector_get_size]

theorem foldlM_invariant_aux {σ α : Type} (f : σ → α → Except failure σ) (I : σ → Prop)
    (l : List α) (hstep : ∀ s a s', a ∈ l → I s → f s a = .ok s' → I s') :
    ∀ s s', I s → l.foldlM f s = .ok s' → I s' := by
  induction l with
  | nil =>
    intro s s' hs h
    simp only [List.foldlM, pure, Except.pure, Except.ok.injEq] at h
    exact h ▸ hs
  | cons a l ih =>
    intro s s' hs h
    simp only [List.foldlM, bind, Except.bind] at h
    split at h
    · cases h
    · rename_i s1 h1
      exact ih (fun s a s' ha => hstep s a s' (List.mem_cons_of_mem _ ha)) s1 s'
        (hstep s a s1 (List.mem_cons_self _ _) hs h1) h

/-- A property of the state that every iteration of a loop keeps holds when the
loop ends. -/
theorem foldlM_invariant {σ α : Type} {f : σ → α → Except failure σ} {l : List α} {s s' : σ}
    (h : l.foldlM f s = .ok s') (I : σ → Prop) (hs : I s)
    (hstep : ∀ s a s', a ∈ l → I s → f s a = .ok s' → I s') : I s' :=
  foldlM_invariant_aux f I l hstep s s' hs h

theorem forward_type_trans_step_flags (policy : apol_policy_t) (start : Nat)
    (st st' : trans_state) (i : Nat) (hst : ∀ c ∈ st.2, flag_ok policy c)
    (h : forward_type_trans_step policy start st i = .ok st') :
    ∀ c ∈ st'.2, flag_ok policy c := by
  simp only [forward_type_trans_step, bind, Except.bind, pure, Except.pure] at h
  repeat' split at h
  all_goals cases h
  all_goals
    intro c hc
    rcases List.mem_cons.mp hc with rfl | hc
    · exact flag_ok_set policy _
    · exact hst c hc


theorem forward_entrypoint_step_flags (policy : apol_policy_t) (start : Nat)
    (rule_entry : apol_domain_trans_rule_t)
    (st st' : trans_state) (j : Nat) (hst : ∀ c ∈ st.2, flag_ok policy c)
    (h : forward_entrypoint_step policy start rule_entry st j = .ok st') :
    ∀ c ∈ st'.2, flag_ok policy c := by
  simp only [forward_entrypoint_step, bind, Except.bind, pure, Except.pure] at h
  repeat' split at h
  all_goals cases h
  all_goals
    intro c hc
    first
      | exact hst c hc
      | (rcases List.mem_cons.mp hc with rfl | hc
         · exact flag_ok_set policy _
         · exact hst c hc)

theorem bind_ok {α β : Type} {x : Except failure α} {f : α → Except failure β} {b : β}
    (h : (x >>= f) = .ok b) : ∃ a, x = .ok a ∧ f a = .ok b := by
  cases x with
  | error e => cases h
  | ok a => exact ⟨a, rfl, h⟩

theorem forward_proc_trans_step_flags (policy : apol_policy_t) (start : Nat)
    (st st' : trans_state) (i : Nat) (hst : ∀ c ∈ st.2, flag_ok policy c)
    (h : forward_proc_trans_step policy start st i = .ok st') :
    ∀ c ∈ st'.2, flag_ok policy c := by
  unfold forward_proc_trans_step at h
  obtain ⟨n, -, h⟩ := bind_ok h
  obtain ⟨v, -, h⟩ := bind_ok h
  obtain ⟨rule_entry, -, h⟩ := bind_ok h
  split at h
  · cases h; exact hst
  split at h
  · cases h; exact hst
  obtain ⟨end_n, -, h⟩ := bind_ok h
  obtain ⟨eps, -, h⟩ := bind_ok h
  obtain ⟨st1, hfold, h⟩ := bind_ok h
  have hinv := foldlM_invariant hfold (fun s => ∀ c ∈ s.2, flag_ok policy c) hst
    (fun s a s' _ hs hs' => forward_entrypoint_step_flags policy start _ s s' a hs hs')
  split at h <;> cases h
  · intro c hc
    rcases List.mem_cons.mp hc with rfl | hc
    · exact flag_ok_of_no_ep policy _ rfl rfl
    · exact hinv c hc
  · exact hinv

theorem forward_flags (policy : apol_policy_t) (table : apol_domain_trans_table_t)
    (start : Nat) (st : trans_state)
    (h : apol_domain_trans_table_get_all_forward_trans policy table [] start = .ok st) :
    ∀ c ∈ st.2, flag_ok policy c := by
  unfold apol_domain_trans_table_get_all_forward_trans at h
  split at h
  · cases h
  obtain ⟨st1, h1, h⟩ := bind_ok h
  obtain ⟨st2, h2, h⟩ := bind_ok h
  cases h
  unfold forward_type_trans_pass at h1
  obtain ⟨n, -, h1⟩ := bind_ok h1
  obtain ⟨v, -, h1⟩ := bind_ok h1
  have i1 := foldlM_invariant h1 (fun s => ∀ c ∈ s.2, flag_ok policy c) (by simp)
    (fun s a s' _ hs hs' => forward_type_trans_step_flags policy start s s' a hs hs')
  unfold forward_proc_trans_pass at h2
  obtain ⟨n', -, h2⟩ := bind_ok h2
  obtain ⟨v', -, h2⟩ := bind_ok h2
  have i2 := foldlM_invariant h2 (fun s => ∀ c ∈ s.2, flag_ok policy c) i1
    (fun s a s' _ hs hs' => forward_proc_trans_step_flags policy start s s' a hs hs')
  simpa using i2

theorem reverse_exec_step_flags (policy : apol_policy_t) (end_type : Nat)
    (rule_entry : apol_domain_trans_rule_t)
    (st st' : reverse_state) (j : Nat) (hst : ∀ c ∈ st.2.1, flag_ok policy c)
    (h : reverse_exec_step policy end_type rule_entry st j = .ok st') :
    ∀ c ∈ st'.2.1, flag_ok policy c := by
  simp only [reverse_exec_step, bind, Except.bind, pure, Except.pure] at h
  repeat' split at h
  all_goals cases h
  all_goals
    intro c hc
    first
      | exact hst c hc
      | (rcases List.mem_cons.mp hc with rfl | hc
         · exact flag_ok_set policy _
         · exact hst c hc)

theorem reverse_entrypoint_step_flags (policy : apol_policy_t) (end_type : Nat)
    (st st' : reverse_state) (i : Nat) (hst : ∀ c ∈ st.2.1, flag_ok policy c)
    (h : reverse_entrypoint_step policy end_type st i = .ok st') :
    ∀ c ∈ st'.2.1, flag_ok policy c := by
  unfold reverse_entrypoint_step at h
  obtain ⟨n, -, h⟩ := bind_ok h
  obtain ⟨v, -, h⟩ := bind_ok h
  obtain ⟨rule_entry, -, h⟩ := bind_ok h
  obtain ⟨ep_n, -, h⟩ := bind_ok h
  obtain ⟨execs, -, h⟩ := bind_ok h
  obtain ⟨st1, hfold, h⟩ := bind_ok h
  have hinv := foldlM_invariant hfold (fun s => ∀ c ∈ s.2.1, flag_ok policy c) hst
    (fun s a s' _ hs hs' => reverse_exec_step_flags policy end_type _ s s' a hs hs')
  split at h <;> cases h
  · intro c hc
    rcases List.mem_cons.mp hc with rfl | hc
    · exact flag_ok_of_no_exec policy _ rfl rfl
    · exact hinv c hc
  · exact hinv

theorem reverse_sweep_member_step_flags (policy : apol_policy_t) (end_type : Nat)
    (rule_entry tmp_rule : Option apol_domain_trans_rule_t) (start : Nat)
    (st st' : trans_state) (member : Nat) (hst : ∀ c ∈ st.2, flag_ok policy c)
    (h : reverse_sweep_member_step policy end_type rule_entry tmp_rule start st member
      = .ok st') :
    ∀ c ∈ st'.2, flag_ok policy c := by
  simp only [reverse_sweep_member_step, bind, Except.bind, pure, Except.pure] at h
  repeat' split at h
  all_goals cases h
  all_goals
    intro c hc
    rcases List.mem_cons.mp hc with rfl | hc
    · exact flag_ok_of_no_ep policy _ rfl rfl
    · exact hst c hc


theorem reverse_sweep_step_flags (policy : apol_policy_t) (end_type : Nat)
    (st st' : trans_state) (i : Nat) (hst : ∀ c ∈ st.2, flag_ok policy c)
    (h : reverse_sweep_step policy end_type st i = .ok st') :
    ∀ c ∈ st'.2, flag_ok policy c := by
  unfold reverse_sweep_step at h
  split at h
  · cases h; exact hst
  obtain ⟨r1, -, h⟩ := bind_ok h
  obtain ⟨r2, -, h⟩ := bind_ok h
  dsimp only at h
  split at h
  · cases h; exact hst
  obtain ⟨s0, -, h⟩ := bind_ok h
  exact foldlM_invariant h (fun s => ∀ c ∈ s.2, flag_ok policy c) hst
    (fun s a s' _ hs hs' =>
      reverse_sweep_member_step_flags policy end_type _ _ _ s s' a hs hs')

theorem reverse_flags (policy : apol_policy_t) (table : apol_domain_trans_table_t)
    (end_type : Nat) (st : trans_state)
    (h : apol_domain_trans_table_get_all_reverse_trans policy table [] end_type = .ok st) :
    ∀ c ∈ st.2, flag_ok policy c := by
  unfold apol_domain_trans_table_get_all_reverse_trans at h
  split at h
  · cases h
  obtain ⟨st1, h1, h⟩ := bind_ok h
  obtain ⟨st2, h2, h⟩ := bind_ok h
  cases h
  unfold reverse_entrypoint_pass at h1
  obtain ⟨n, -, h1⟩ := bind_ok h1
  obtain ⟨v, -, h1⟩ := bind_ok h1
  have i1 := foldlM_invariant h1 (fun s => ∀ c ∈ s.2.1, flag_ok policy c) (by simp)
    (fun s a s' _ hs hs' => reverse_entrypoint_step_flags policy end_type s s' a hs hs')
  unfold reverse_sweep_pass at h2
  have i2 := foldlM_invariant h2 (fun s => ∀ c ∈ s.2, flag_ok policy c) i1
    (fun s a s' _ hs hs' => reverse_sweep_step_flags policy end_type s s' a hs hs')
  simpa using i2

/-- C1. Every candidate that forward analysis or reverse analysis returns has
its valid flag set exactly when its execute, entrypoint and process transition
rule vectors are all non-empty and, if the policy version is at least 15 or the
policy is modular, its type transition or its setexec rule vector is
non-empty. -/
theorem valid_flag_iff_required_rules (policy : apol_policy_t)
    (table : apol_domain_trans_table_t) (type : Nat) (st : trans_state)
    (h : apol_domain_trans_table_get_all_forward_trans policy table [] type = .ok st ∨
      apol_domain_trans_table_get_all_reverse_trans policy table [] type = .ok st) :
    ∀ c ∈ st.2,
      (c.valid = true ↔
        apol_vector_get_size c.exec_rules ≠ 0 ∧
          apol_vector_get_size c.ep_rules ≠ 0 ∧
          apol_vector_get_size c.proc_trans_rules ≠ 0 ∧
          ((policy.policy_version ≥ 15 ∨ policy.is_modular = true) →
            (apol_vector_get_size c.type_trans_rules ≠ 0 ∨
              apol_vector_get_size c.setexec_rules ≠ 0))) := by
  rcases h with h | h
  · exact forward_flags policy table type st h
  · exact reverse_flags policy table type st h


theorem valid_flag_iff_required_rules_witness :
    apol_domain_trans_table_get_all_forward_trans (complete_policy 20)
        (table_of (complete_policy 20)) [] 1 =
      .ok (value_or (empty_table, [])
        (apol_domain_trans_table_get_all_forward_trans (complete_policy 20)
          (table_of (complete_policy 20)) [] 1)) ∧
    (value_or (empty_table, [])
        (apol_domain_trans_table_get_all_forward_trans (complete_policy 20)
          (table_of (complete_policy 20)) [] 1)).2.map triple_valid =
      [(some 1, some 3, some 2, true)] ∧
    ∀ c ∈ (value_or (empty_table, [])
        (apol_domain_trans_table_get_all_forward_trans (complete_policy 20)
          (table_of (complete_policy 20)) [] 1)).2,
      (c.valid = true ↔
        apol_vector_get_size c.exec_rules ≠ 0 ∧
          apol_vector_get_size c.ep_rules ≠ 0 ∧
          apol_vector_get_size c.proc_trans_rules ≠ 0 ∧
          (((complete_policy 20).policy_version ≥ 15 ∨
              (complete_policy 20).is_modular = true) →
            (apol_vector_get_size c.type_trans_rules ≠ 0 ∨
              apol_vector_get_size c.setexec_rules ≠ 0))) :=
  ⟨rfl, rfl,
    valid_flag_iff_required_rules (complete_policy 20) (table_of (complete_policy 20)) 1 _
      (Or.inl rfl)⟩

/-! ## Transitions of a type to itself -/

theorem forward_type_trans_step_distinct (policy : apol_policy_t) (start : Nat)
    (st st' : trans_state) (i : Nat) (hst : ∀ c ∈ st.2, forward_distinct c)
    (h : forward_type_trans_step policy start st i = .ok st') :
    ∀ c ∈ st'.2, forward_distinct c := by
  simp only [forward_type_trans_step, bind, Except.bind, pure, Except.pure] at h
  repeat' split at h
  all_goals cases h
  all_goals
    intro c hc
    rcases List.mem_cons.mp hc with rfl | hc
    · intro hn; cases hn
    · exact hst c hc

theorem forward_entrypoint_step_distinct (policy : apol_policy_t) (start : Nat)
    (rule_entry : apol_domain_trans_rule_t) (hne : rule_entry.type ≠ start)
    (st st' : trans_state) (j : Nat) (hst : ∀ c ∈ st.2, forward_distinct c)
    (h : forward_entrypoint_step policy start rule_entry st j = .ok st') :
    ∀ c ∈ st'.2, forward_distinct c := by
  simp only [forward_entrypoint_step, bind, Except.bind, pure, Except.pure] at h
  repeat' split at h
  all_goals cases h
  all_goals
    intro c hc
    first
      | exact hst c hc
      | (rcases List.mem_cons.mp hc with rfl | hc
         · intro _ heq
           exact hne (Option.some.inj heq).symm
         · exact hst c hc)

theorem forward_proc_trans_step_distinct (policy : apol_policy_t) (start : Nat)
    (st st' : trans_state) (i : Nat) (hst : ∀ c ∈ st.2, forward_distinct c)
    (h : forward_proc_trans_step policy start st i = .ok st') :
    ∀ c ∈ st'.2, forward_distinct c := by
  unfold forward_proc_trans_step at h
  obtain ⟨n, -, h⟩ := bind_ok h
  obtain ⟨v, -, h⟩ := bind_ok h
  obtain ⟨rule_entry, -, h⟩ := bind_ok h
  split at h
  · cases h; exact hst
  split at h
  · cases h; exact hst
  rename_i hne
  obtain ⟨end_n, -, h⟩ := bind_ok h
  obtain ⟨eps, -, h⟩ := bind_ok h
  obtain ⟨st1, hfold, h⟩ := bind_ok h
  have hinv := foldlM_invariant hfold (fun s => ∀ c ∈ s.2, forward_distinct c) hst
    (fun s a s' _ hs hs' =>
      forward_entrypoint_step_distinct policy start _ hne s s' a hs hs')
  split at h <;> cases h
  · intro c hc
    rcases List.mem_cons.mp hc with rfl | hc
    · intro _ heq
      exact hne (Option.some.inj heq).symm
    · exact hinv c hc
  · exact hinv

theorem forward_distinct_all (policy : apol_policy_t) (table : apol_domain_trans_table_t)
    (start : Nat) (st : trans_state)
    (h : apol_domain_trans_table_get_all_forward_trans policy table [] start = .ok st) :
    ∀ c ∈ st.2, forward_distinct c := by
  unfold apol_domain_trans_table_get_all_forward_trans at h
  split at h
  · cases h
  obtain ⟨st1, h1, h⟩ := bind_ok h
  obtain ⟨st2, h2, h⟩ := bind_ok h
  cases h
  unfold forward_type_trans_pass at h1
  obtain ⟨n, -, h1⟩ := bind_ok h1
  obtain ⟨v, -, h1⟩ := bind_ok h1
  have i1 := foldlM_invariant h1 (fun s => ∀ c ∈ s.2, forward_distinct c) (by simp)
    (fun s a s' _ hs hs' => forward_type_trans_step_distinct policy start s s' a hs hs')
  unfold forward_proc_trans_pass at h2
  obtain ⟨n', -, h2⟩ := bind_ok h2
  obtain ⟨v', -, h2⟩ := bind_ok h2
  have i2 := foldlM_invariant h2 (fun s => ∀ c ∈ s.2, forward_distinct c) i1
    (fun s a s' _ hs hs' => forward_proc_trans_step_distinct policy start s s' a hs hs')
  simpa using i2

theorem reverse_exec_step_distinct (policy : apol_policy_t) (end_type : Nat)
    (rule_entry : apol_domain_trans_rule_t)
    (st st' : reverse_state) (j : Nat) (hst : ∀ c ∈ st.2.1, reverse_distinct c)
    (h : reverse_exec_step policy end_type rule_entry st j = .ok st') :
    ∀ c ∈ st'.2.1, reverse_distinct c := by
  unfold reverse_exec_step at h
  obtain ⟨ep_n, -, h⟩ := bind_ok h
  obtain ⟨v, -, h⟩ := bind_ok h
  obtain ⟨tmp_rule, -, h⟩ := bind_ok h
  by_cases hne : tmp_rule.type = end_type
  · rw [if_pos hne] at h
    split at h <;> cases h <;> exact hst
  rw [if_neg hne] at h
  by_cases hu : tmp_rule.used = true
  · rw [if_pos hu] at h; cases h; exact hst
  rw [if_neg hu] at h
  simp only [bind, Except.bind, pure, Except.pure] at h
  repeat' split at h
  all_goals cases h
  all_goals
    intro c hc
    rcases List.mem_cons.mp hc with rfl | hc
    · intro _ heq
      exact hne (Option.some.inj heq)
    · exact hst c hc

theorem reverse_entrypoint_step_distinct (policy : apol_policy_t) (end_type : Nat)
    (st st' : reverse_state) (i : Nat) (hst : ∀ c ∈ st.2.1, reverse_distinct c)
    (h : reverse_entrypoint_step policy end_type st i = .ok st') :
    ∀ c ∈ st'.2.1, reverse_distinct c := by
  unfold reverse_entrypoint_step at h
  obtain ⟨n, -, h⟩ := bind_ok h
  obtain ⟨v, -, h⟩ := bind_ok h
  obtain ⟨rule_entry, -, h⟩ := bind_ok h
  obtain ⟨ep_n, -, h⟩ := bind_ok h
  obtain ⟨execs, -, h⟩ := bind_ok h
  obtain ⟨st1, hfold, h⟩ := bind_ok h
  have hinv := foldlM_invariant hfold (fun s => ∀ c ∈ s.2.1, reverse_distinct c) hst
    (fun s a s' _ hs hs' => reverse_exec_step_distinct policy end_type _ s s' a hs hs')
  split at h <;> cases h
  · intro c hc
    rcases List.mem_cons.mp hc with rfl | hc
    · intro _ heq
      cases heq
    · exact hinv c hc
  · exact hinv

theorem reverse_sweep_member_step_distinct (policy : apol_policy_t) (end_type : Nat)
    (rule_entry tmp_rule : Option apol_domain_trans_rule_t) (start : Nat)
    (st st' : trans_state) (member : Nat) (hst : ∀ c ∈ st.2, reverse_distinct c)
    (h : reverse_sweep_member_step policy end_type rule_entry tmp_rule start st member
      = .ok st') :
    ∀ c ∈ st'.2, reverse_distinct c := by
  simp only [reverse_sweep_member_step, bind, Except.bind, pure, Except.pure] at h
  repeat' split at h
  all_goals cases h
  all_goals
    intro c hc
    rcases List.mem_cons.mp hc with rfl | hc
    · intro hn
      exact absurd rfl hn
    · exact hst c hc

theorem reverse_sweep_step_distinct (policy : apol_policy_t) (end_type : Nat)
    (st st' : trans_state) (i : Nat) (hst : ∀ c ∈ st.2, reverse_distinct c)
    (h : reverse_sweep_step policy end_type st i = .ok st') :
    ∀ c ∈ st'.2, reverse_distinct c := by
  unfold reverse_sweep_step at h
  split at h
  · cases h; exact hst
  obtain ⟨r1, -, h⟩ := bind_ok h
  obtain ⟨r2, -, h⟩ := bind_ok h
  dsimp only at h
  split at h
  · cases h; exact hst
  obtain ⟨s0, -, h⟩ := bind_ok h
  exact foldlM_invariant h (fun s => ∀ c ∈ s.2, reverse_distinct c) hst
    (fun s a s' _ hs hs' =>
      reverse_sweep_member_step_distinct policy end_type _ _ _ s s' a hs hs')

theorem reverse_distinct_all (policy : apol_policy_t) (table : apol_domain_trans_table_t)
    (end_type : Nat) (st : trans_state)
    (h : apol_domain_trans_table_get_all_reverse_trans policy table [] end_type = .ok st) :
    ∀ c ∈ st.2, reverse_distinct c := by
  unfold apol_domain_trans_table_get_all_reverse_trans at h
  split at h
  · cases h
  obtain ⟨st1, h1, h⟩ := bind_ok h
  obtain ⟨st2, h2, h⟩ := bind_ok h
  cases h
  unfold reverse_entrypoint_pass at h1
  obtain ⟨n, -, h1⟩ := bind_ok h1
  obtain ⟨v, -, h1⟩ := bind_ok h1
  have i1 := foldlM_invariant h1 (fun s => ∀ c ∈ s.2.1, reverse_distinct c) (by simp)
    (fun s a s' _ hs hs' => reverse_entrypoint_step_distinct policy end_type s s' a hs hs')
  unfold reverse_sweep_pass at h2
  have i2 := foldlM_invariant h2 (fun s => ∀ c ∈ s.2, reverse_distinct c) i1
    (fun s a s' _ hs hs' => reverse_sweep_step_distinct policy end_type s s' a hs hs')
  simpa using i2

/-- C7, as the code behaves. For every table and every type: a candidate that
forward analysis returns without type transition rules (one of the process
transition pass) has a start type different from its end type, and a candidate
that reverse analysis returns with entrypoint rules (one of the entrypoint walk)
has a start type different from its end type. -/
theorem no_self_transition_outside_type_trans (policy : apol_policy_t)
    (table : apol_domain_trans_table_t) (type : Nat) (st : trans_state) :
    (apol_domain_trans_table_get_all_forward_trans policy table [] type = .ok st →
      ∀ c ∈ st.2, c.type_trans_rules = none → c.start_type ≠ c.end_type) ∧
    (apol_domain_trans_table_get_all_reverse_trans policy table [] type = .ok st →
      ∀ c ∈ st.2, c.ep_rules ≠ none → c.start_type ≠ c.end_type) :=
  ⟨forward_distinct_all policy table type st, reverse_distinct_all policy table type st⟩

theorem no_self_transition_outside_type_trans_witness :
    (∀ c ∈ (value_or (empty_table, [])
        (apol_domain_trans_table_get_all_forward_trans (scenario_policy 1 2 3 false 20 false)
          (table_of (scenario_policy 1 2 3 false 20 false)) [] 1)).2,
      c.type_trans_rules = none → c.start_type ≠ c.end_type) ∧
    (∀ c ∈ (value_or (empty_table, [])
        (apol_domain_trans_table_get_all_reverse_trans (complete_policy 20)
          (table_of (complete_policy 20)) [] 2)).2,
      c.ep_rules ≠ none → c.start_type ≠ c.end_type) :=
  ⟨(no_self_transition_outside_type_trans (scenario_policy 1 2 3 false 20 false)
      (table_of (scenario_policy 1 2 3 false 20 false)) 1 _).1 rfl,
   (no_self_transition_outside_type_trans (complete_policy 20)
      (table_of (complete_policy 20)) 2 _).2 rfl⟩

/-- C7, counterexample. In the policy with `allow a_t a_t : process transition;`
and `type_transition a_t a_exec_t : process a_t;`, forward analysis from a_t
returns a candidate whose start type equals its end type and whose process
transition rules are not empty. -/
theorem forward_returns_self_transition :
    ∃ l c, forward_on_new_table self_policy 1 = .ok l ∧ c ∈ l ∧
      c.start_type = c.end_type ∧ apol_vector_get_size c.proc_trans_rules ≠ 0 :=
  ⟨_, _, rfl, List.mem_cons_self _ _, rfl, by decide⟩

/-- With `allow a_t a_t : process transition;` alone, the sweep of the reverse
analysis from a_t visits the node of a_t itself and returns a candidate from a_t
to a_t with that rule. -/
theorem reverse_sweep_returns_self_transition :
    (reverse_on_new_table { self_policy with terules := [] } 1).map
        (List.map fun c => (triple c, apol_vector_get_size c.proc_trans_rules)) =
      .ok [((some 1, none, some 1), 1)] := rfl

/-! ## Invariants of the table -/

theorem list_update_length {α : Type} (f : α → α) (l : List α) (n : Nat) :
    (list_update f l n).length = l.length := by
  induction l generalizing n with
  | nil => rfl
  | cons x xs ih =>
    cases n with
    | zero => rfl
    | succ n => simp [list_update, ih]

theorem list_update_getElem? {α : Type} (f : α → α) (l : List α) (n m : Nat) :
    (list_update f l n)[m]? = if m = n then l[m]?.map f else l[m]? := by
  induction l generalizing n m with
  | nil => simp [list_update]
  | cons x xs ih =>
    cases n with
    | zero =>
      cases m with
      | zero => simp [list_update]
      | succ m => simp [list_update]
    | succ n =>
      cases m with
      | zero => simp [list_update]
      | succ m => simp [list_update, ih]

theorem list_update_map {α β : Type} (f : α → α) (g : α → β) (hfg : ∀ a, g (f a) = g a)
    (l : List α) (n : Nat) : (list_update f l n).map g = l.map g := by
  induction l generalizing n with
  | nil => rfl
  | cons x xs ih =>
    cases n with
    | zero => simp [list_update, hfg]
    | succ n => simp [list_update, ih]

/-- Reading a rule vector after one was stored. -/
theorem get_rules_put_rules (t : apol_domain_trans_table_t) (k k' : bucket_id) (n n' : Nat)
    (v : List apol_domain_trans_rule_t) :
    get_rules (put_rules t k n v) k' n' =
      if k' = k ∧ n' = n then (get_rules t k n).map fun _ => v else get_rules t k' n' := by
  by_cases hn : n' = n
  · subst hn
    cases k <;> cases k' <;>
      simp [get_rules, put_rules, list_update_getElem?] <;>
      cases h : t.dom_list[n']? <;> cases h2 : t.exec_list[n']? <;> simp [h, h2]
  · cases k <;> cases k' <;> simp [get_rules, put_rules, list_update_getElem?, hn]

theorem put_rules_size (t : apol_domain_trans_table_t) (k : bucket_id) (n : Nat)
    (v : List apol_domain_trans_rule_t) :
    (put_rules t k n v).size = t.size ∧
      (put_rules t k n v).dom_list.length = t.dom_list.length ∧
      (put_rules t k n v).exec_list.length = t.exec_list.length := by
  cases k <;> simp [put_rules, list_update_length]

theorem set_map_type (v : List apol_domain_trans_rule_t) (k : Nat) (hk : k < v.length)
    (e : apol_domain_trans_rule_t) (he : e.type = v[k].type) :
    (v.set k e).map (fun r => r.type) = v.map (fun r => r.type) := by
  rw [List.map_set]
  apply List.ext_getElem
  · simp
  · intro n h1 h2
    rw [List.getElem_set]
    split
    · rename_i h; subst h; simp [he]
    · rfl

theorem exists_type_iff_mem_map (v : List apol_domain_trans_rule_t) (x : Nat) :
    (∃ e ∈ v, e.type = x) ↔ x ∈ v.map (fun r => r.type) := by
  simp [List.mem_map]

/-- What a successful insertion does to a well-formed rule vector. -/
theorem add_rule_to_list_inv (policy : apol_policy_t) (v v' : List apol_domain_trans_rule_t)
    (t : Nat) (dflt : Option Nat) (r : rule_ref) (nt : Bool)
    (hs : bucket_sorted v) (hv : ∀ e ∈ v, entry_ok policy e)
    (ht : type_in_range policy.types.length t)
    (hr : type_in_range policy.types.length r.source)
    (hok : apol_domain_trans_add_rule_to_list policy v t dflt r nt = .ok v') :
    bucket_sorted v' ∧ (∀ e ∈ v', entry_ok policy e) ∧
      (∀ x, (∃ e ∈ v', e.type = x) ↔ ((∃ e ∈ v, e.type = x) ∨ x = t)) ∧
      ((∀ e ∈ v, e.used = false) → ∀ e ∈ v', e.used = false) := by
  have hc := add_rule_to_list_ok_not_attr policy v t dflt r nt v' hok
  have hf : bucket_fits v := by
    intro e he
    have h1 := (hv e he).1.2
    have h2 := policy.types_fit
    omega
  have htf : t < 2147483648 := by
    have h1 := ht.2
    have h2 := policy.types_fit
    omega
  rcases add_rule_to_list_sorted policy v t dflt r nt hs hf hc with
    ⟨k, hk, hkt, hres⟩ | ⟨hne, hres⟩
  · rw [hres] at hok
    cases hok
    refine ⟨bucket_sorted_set hs k hk _ rfl, ?_, ?_, ?_⟩
    · intro e he
      rcases List.mem_or_eq_of_mem_set he with h | h
      · exact hv e h
      · subst h
        have hk' := hv _ (List.getElem_mem hk)
        refine ⟨hk'.1, hk'.2.1, by simp, ?_⟩
        intro r' hr'
        rcases List.mem_append.mp hr' with h | h
        · exact hk'.2.2.2 r' h
        · rw [List.mem_singleton.mp h]; exact hr
    · intro x
      rw [exists_type_iff_mem_map, exists_type_iff_mem_map]
      have hm := set_map_type v k hk
        { v[k] with
          rules := v[k].rules ++ [r]
          has_no_trans := if nt then true else v[k].has_no_trans } rfl
      rw [hm]
      constructor
      · intro h; exact Or.inl h
      · rintro (h | h)
        · exact h
        · subst h
          exact List.mem_map.mpr ⟨v[k], List.getElem_mem hk, hkt⟩
    · intro hu e he
      rcases List.mem_or_eq_of_mem_set he with h | h
      · exact hu e h
      · subst h
        exact hu v[k] (List.getElem_mem hk)
  · rw [hres] at hok
    cases hok
    have hp := apol_vector_sort_perm (v ++ [new_rule_entry t dflt r nt])
    refine ⟨sorted_append_new v _ hs hne hf htf, ?_, ?_, ?_⟩
    · intro e he
      have := hp.mem_iff.mp he
      rcases List.mem_append.mp this with h | h
      · exact hv e h
      · rw [List.mem_singleton.mp h]
        exact ⟨ht, hc, by simp [new_rule_entry], by
          intro r' hr'
          simp only [new_rule_entry, List.mem_singleton] at hr'
          rw [hr']; exact hr⟩
    · intro x
      constructor
      · rintro ⟨e, he, hx⟩
        have := hp.mem_iff.mp he
        rcases List.mem_append.mp this with h | h
        · exact Or.inl ⟨e, h, hx⟩
        · rw [List.mem_singleton.mp h] at hx
          exact Or.inr hx.symm
      · rintro (⟨e, he, hx⟩ | h)
        · exact ⟨e, hp.mem_iff.mpr (List.mem_append_left _ he), hx⟩
        · exact ⟨_, hp.mem_iff.mpr (List.mem_append_right _ (List.mem_singleton.mpr rfl)),
            h.symm⟩
    · intro hu e he
      have := hp.mem_iff.mp he
      rcases List.mem_append.mp this with h | h
      · exact hu e h
      · rw [List.mem_singleton.mp h]; rfl

theorem node_index_ok {val n : Nat} (h : node_index val = .ok n) : 1 ≤ val ∧ n = val - 1 := by
  unfold node_index at h
  split at h
  · cases h
  · cases h; exact ⟨by omega, rfl⟩

theorem rules_at_ok {t : apol_domain_trans_table_t} {k : bucket_id} {n : Nat}
    {v : List apol_domain_trans_rule_t} (h : rules_at t k n = .ok v) :
    get_rules t k n = some v := by
  unfold rules_at at h
  split at h
  · cases h; assumption
  · cases h

/-- A successful insertion at a node: the vector read, the vector stored. -/
theorem add_rule_at_ok {policy : apol_policy_t} {t t' : apol_domain_trans_table_t}
    {k : bucket_id} {val type : Nat} {dflt : Option Nat} {rule : rule_ref} {nt : Bool}
    (h : add_rule_at policy t k val type dflt rule nt = .ok t') :
    ∃ v v', 1 ≤ val ∧ get_rules t k (val - 1) = some v ∧
      apol_domain_trans_add_rule_to_list policy v type dflt rule nt = .ok v' ∧
      t' = put_rules t k (val - 1) v' := by
  unfold add_rule_at at h
  obtain ⟨n, hn, h⟩ := bind_ok h
  obtain ⟨v, hv, h⟩ := bind_ok h
  obtain ⟨v', hv', h⟩ := bind_ok h
  cases h
  obtain ⟨h1, rfl⟩ := node_index_ok hn
  exact ⟨v, v', h1, rules_at_ok hv, hv', rfl⟩

theorem has_type_put (t : apol_domain_trans_table_t) (k k' : bucket_id) (n n' : Nat)
    (v v' : List apol_domain_trans_rule_t) (hv : get_rules t k n = some v) (x : Nat) :
    has_type (get_rules (put_rules t k n v') k' n') x ↔
      if k' = k ∧ n' = n then (∃ e ∈ v', e.type = x) else has_type (get_rules t k' n') x := by
  rw [get_rules_put_rules]
  split
  · simp [has_type, hv]
  · rfl

/-- An insertion keeps the basic invariant of the table. -/
theorem add_rule_at_base {policy : apol_policy_t} {t t' : apol_domain_trans_table_t}
    {k : bucket_id} {val type : Nat} {dflt : Option Nat} {rule : rule_ref} {nt : Bool}
    (hb : table_base policy t)
    (ht : type_in_range policy.types.length type)
    (hr : type_in_range policy.types.length rule.source)
    (h : add_rule_at policy t k val type dflt rule nt = .ok t') :
    table_base policy t' ∧
      (∀ k' n' x, has_type (get_rules t' k' n') x ↔
        (has_type (get_rules t k' n') x ∨ (k' = k ∧ n' = val - 1 ∧ x = type))) ∧
      (table_unmarked t → table_unmarked t') := by
  obtain ⟨v, v', h1, hv, hadd, rfl⟩ := add_rule_at_ok h
  obtain ⟨hsz, hd, he, hbk⟩ := hb
  obtain ⟨hs, hent⟩ := hbk k (val - 1) v hv
  obtain ⟨hs', hent', htypes, hunused⟩ :=
    add_rule_to_list_inv policy v v' type dflt rule nt hs hent ht hr hadd
  have hps := put_rules_size t k (val - 1) v'
  refine ⟨⟨by rw [hps.1]; exact hsz, by rw [hps.2.1, hps.1]; exact hd,
    by rw [hps.2.2, hps.1]; exact he, ?_⟩, ?_, ?_⟩
  rotate_left 2
  · intro hu k' n' v'' hget
    rw [get_rules_put_rules] at hget
    split at hget
    · rw [hv] at hget
      simp only [Option.map_some', Option.some.injEq] at hget
      subst hget
      exact hunused (hu k (val - 1) v hv)
    · exact hu k' n' v'' hget
  · intro k' n' v'' hget
    rw [get_rules_put_rules] at hget
    split at hget
    · rw [hv] at hget
      simp only [Option.map_some', Option.some.injEq] at hget
      subst hget
      exact ⟨hs', hent'⟩
    · exact hbk k' n' v'' hget
  · intro k' n' x
    rw [has_type_put t k k' (val - 1) n' v v' hv x]
    split
    · rename_i hc
      obtain ⟨rfl, rfl⟩ := hc
      rw [htypes x]
      constructor
      · rintro (h | h)
        · exact Or.inl ⟨v, hv, h⟩
        · exact Or.inr ⟨rfl, rfl, h⟩
      · rintro (⟨l, hl, h⟩ | ⟨_, _, h⟩)
        · rw [hv] at hl; cases hl; exact Or.inl h
        · exact Or.inr h
    · rename_i hc
      constructor
      · intro h; exact Or.inl h
      · rintro (h | ⟨h1, h2, _⟩)
        · exact h
        · exact absurd ⟨h1, h2⟩ hc

/-- An insertion into a vector other than the entrypoint vectors keeps the
entrypoint vectors of both sides in step. -/
theorem add_rule_at_dual {policy : apol_policy_t} {t t' : apol_domain_trans_table_t}
    {k : bucket_id} {val type : Nat} {dflt : Option Nat} {rule : rule_ref} {nt : Bool}
    (hb : table_base policy t) (hdual : table_dual t)
    (ht : type_in_range policy.types.length type)
    (hr : type_in_range policy.types.length rule.source)
    (hk1 : k ≠ .dom_ep) (hk2 : k ≠ .exec_ep)
    (h : add_rule_at policy t k val type dflt rule nt = .ok t') :
    table_dual t' := by
  have hf := (add_rule_at_base hb ht hr h).2.1
  intro s x
  rw [hf, hf]
  have := hdual s x
  constructor
  · rintro (h | ⟨h, _⟩)
    · exact Or.inl (this.mp h)
    · exact absurd h.symm hk1
  · rintro (h | ⟨h, _⟩)
    · exact Or.inl (this.mpr h)
    · exact absurd h.symm hk2

/-- The two insertions made for an entrypoint rule keep the entrypoint vectors
of both sides in step. -/
theorem add_entrypoint_dual {policy : apol_policy_t} {t t1 t2 : apol_domain_trans_table_t}
    {src tgt : Nat} {rule : rule_ref}
    (hb : table_base policy t) (hdual : table_dual t)
    (hs : type_in_range policy.types.length src)
    (ht : type_in_range policy.types.length tgt)
    (hr : type_in_range policy.types.length rule.source)
    (h1 : add_rule_at policy t .dom_ep src tgt none rule false = .ok t1)
    (h2 : add_rule_at policy t1 .exec_ep tgt src none rule false = .ok t2) :
    table_base policy t2 ∧ table_dual t2 := by
  obtain ⟨hb1, hf1, -⟩ := add_rule_at_base hb ht hr h1
  obtain ⟨hb2, hf2, -⟩ := add_rule_at_base hb1 hs hr h2
  refine ⟨hb2, ?_⟩
  intro s x
  rw [hf2, hf1, hf2, hf1]
  have := hdual s x
  have hs1 := hs.1
  have ht1 := ht.1
  constructor
  · rintro ((h | ⟨_, h3, h4⟩) | ⟨h, _⟩)
    · exact Or.inl (Or.inl (this.mp h))
    · exact Or.inr ⟨rfl, by omega, by omega⟩
    · cases h
  · rintro ((h | ⟨h, _⟩) | ⟨_, h3, h4⟩)
    · exact Or.inl (Or.inl (this.mpr h))
    · cases h
    · exact Or.inl (Or.inr ⟨rfl, by omega, by omega⟩)

theorem type_datum_of_some {policy : apol_policy_t} {t : Nat}
    (h : type_in_range policy.types.length t) :
    ∃ d, type_datum_of policy t = some d ∧ d ∈ policy.types := by
  unfold type_datum_of
  have h1 := h.1
  have h2 := h.2
  have hlt : t - 1 < policy.types.length := by omega
  refine ⟨policy.types[t - 1], ?_, List.getElem_mem hlt⟩
  rw [if_neg (by omega), List.getElem?_eq_getElem hlt]

/-- The expansion of a type of a well-formed policy consists of types of the
policy. -/
theorem expand_in_range {policy : apol_policy_t} (hw : policy_wf policy) {t : Nat}
    (h : type_in_range policy.types.length t) :
    ∀ m ∈ apol_query_expand_type policy t, type_in_range policy.types.length m := by
  obtain ⟨d, hd, hmem⟩ := type_datum_of_some h
  unfold apol_query_expand_type
  rw [hd]
  intro m hm
  by_cases ha : d.isattr = true
  · simp only [ha, if_true] at hm
    exact (hw.2.2 d hmem ha m hm).1
  · simp only [ha] at hm
    simp only [Bool.false_eq_true, if_false, List.mem_singleton] at hm
    rw [hm]; exact h

/-- An insertion into a vector other than the entrypoint vectors keeps the
invariant of the build. -/
theorem add_rule_at_built {policy : apol_policy_t} {t t' : apol_domain_trans_table_t}
    {k : bucket_id} {val type : Nat} {dflt : Option Nat} {rule : rule_ref} {nt : Bool}
    (hb : table_built policy t)
    (ht : type_in_range policy.types.length type)
    (hr : type_in_range policy.types.length rule.source)
    (hk1 : k ≠ .dom_ep) (hk2 : k ≠ .exec_ep)
    (h : add_rule_at policy t k val type dflt rule nt = .ok t') :
    table_built policy t' :=
  ⟨⟨(add_rule_at_base hb.1.1 ht hr h).1, add_rule_at_dual hb.1.1 hb.1.2 ht hr hk1 hk2 h⟩,
    (add_rule_at_base hb.1.1 ht hr h).2.2 hb.2⟩

/-- The two insertions made for an entrypoint rule keep the invariant of the
build. -/
theorem add_entrypoint_built {policy : apol_policy_t} {t t1 t2 : apol_domain_trans_table_t}
    {src tgt : Nat} {rule : rule_ref}
    (hb : table_built policy t)
    (hs : type_in_range policy.types.length src)
    (ht : type_in_range policy.types.length tgt)
    (hr : type_in_range policy.types.length rule.source)
    (h1 : add_rule_at policy t .dom_ep src tgt none rule false = .ok t1)
    (h2 : add_rule_at policy t1 .exec_ep tgt src none rule false = .ok t2) :
    table_built policy t2 := by
  have a1 := add_rule_at_base hb.1.1 ht hr h1
  have a2 := add_rule_at_base a1.1 hs hr h2
  exact ⟨add_entrypoint_dual hb.1.1 hb.1.2 hs ht hr h1 h2, a2.2.2 (a1.2.2 hb.2)⟩

/-- A double loop of insertions into one kind of vector other than the
entrypoint vectors keeps the invariant. -/
theorem add_rule_loops_inv {policy : apol_policy_t} (outer inner : List Nat)
    (f : apol_domain_trans_table_t → Nat → Nat → Except failure apol_domain_trans_table_t)
    (hf : ∀ t t' a b, a ∈ outer → b ∈ inner → table_built policy t → f t a b = .ok t' →
      table_built policy t')
    {t t' : apol_domain_trans_table_t} (hinv : table_built policy t)
    (h : outer.foldlM (fun t a => inner.foldlM (fun t b => f t a b) t) t = .ok t') :
    table_built policy t' :=
  foldlM_invariant h (table_built policy) hinv
    (fun _ a _ ha hs hs' =>
      foldlM_invariant hs' (table_built policy) hs
        (fun s b s' hb hi hi' => hf s s' a b ha hb hi hi'))

/-- Inserting one raw rule keeps the invariant. -/
theorem table_add_rule_inv {policy : apol_policy_t} (hw : policy_wf policy)
    {t t' : apol_domain_trans_table_t} (rule_type : Nat) (rule : rule_ref)
    (hs : type_in_range policy.types.length rule.source)
    (ht : type_in_range policy.types.length rule.target)
    (hinv : table_built policy t)
    (h : apol_domain_trans_table_add_rule policy t rule_type rule = .ok t') :
    table_built policy t' := by
  have hsrc := expand_in_range hw hs
  have htgt := expand_in_range hw ht
  unfold apol_domain_trans_table_add_rule at h
  dsimp only at h
  obtain ⟨t1, h1, h⟩ := bind_ok h
  obtain ⟨t2, h2, h⟩ := bind_ok h
  obtain ⟨t3, h3, h⟩ := bind_ok h
  obtain ⟨t4, h4, h⟩ := bind_ok h
  have i1 : table_built policy t1 := by
    split at h1
    · exact add_rule_loops_inv _ _ _
        (fun s s' a b _ hb hi hi' =>
          add_rule_at_built hi (htgt b hb) hs (by decide) (by decide) hi') hinv h1
    · cases h1; exact hinv
  have i2 : table_built policy t2 := by
    split at h2
    · exact add_rule_loops_inv _ _ _
        (fun s s' a b _ hb hi hi' =>
          add_rule_at_built hi (hsrc b hb) hs (by decide) (by decide) hi') i1 h2
    · cases h2; exact i1
  have i3 : table_built policy t3 := by
    split at h3
    · refine add_rule_loops_inv _ _ _ ?_ i2 h3
      intro s s' a b ha hb hi hi'
      obtain ⟨s1, hs1, hi'⟩ := bind_ok hi'
      exact add_entrypoint_built hi (hsrc b hb) (htgt a ha) hs hs1 hi'
    · cases h3; exact i2
  have i4 : table_built policy t4 := by
    split at h4
    · exact add_rule_loops_inv _ _ _
        (fun s s' a b ha _ hi hi' =>
          add_rule_at_built hi (htgt a ha) hs (by decide) (by decide) hi') i3 h4
    · cases h4; exact i3
  split at h
  · refine add_rule_loops_inv _ _ _ ?_ i4 h
    intro s s' a b ha _ hi hi'
    split at hi'
    · cases hi'; exact hi
    · exact add_rule_at_built hi (htgt a ha) hs (by decide) (by decide) hi'
  · cases h; exact i4

theorem filter_length_sum {α : Type} (p : α → Bool) (l : List α) :
    (l.filter fun d => !p d).length + (l.filter p).length = l.length := by
  induction l with
  | nil => rfl
  | cons x xs ih =>
    cases h : p x <;> simp [List.filter, h] <;> omega

theorem table_new_size (policy : apol_policy_t) :
    (apol_domain_trans_table_new policy).size = policy.types.length := by
  unfold apol_domain_trans_table_new
  exact filter_length_sum (fun d => d.isattr) policy.types

theorem get_rules_new (policy : apol_policy_t) (k : bucket_id) (n : Nat)
    (v : List apol_domain_trans_rule_t)
    (h : get_rules (apol_domain_trans_table_new policy) k n = some v) : v = [] := by
  unfold apol_domain_trans_table_new at h
  cases k <;>
    simp only [get_rules, List.getElem?_replicate, Option.map_eq_some'] at h <;>
    obtain ⟨a, ha, rfl⟩ := h <;>
    split at ha <;> cases ha <;> rfl

/-- The empty table satisfies the invariant of the build. -/
theorem table_new_built (policy : apol_policy_t) :
    table_built policy (apol_domain_trans_table_new policy) := by
  refine ⟨⟨⟨table_new_size policy, ?_, ?_, ?_⟩, ?_⟩, ?_⟩
  · simp [apol_domain_trans_table_new]
  · simp [apol_domain_trans_table_new]
  · intro k n v h
    rw [get_rules_new policy k n v h]
    exact ⟨by simp [bucket_sorted], by simp⟩
  · intro s x
    constructor
    · rintro ⟨l, hl, e, he, _⟩
      rw [get_rules_new policy _ _ l hl] at he
      cases he
    · rintro ⟨l, hl, e, he, _⟩
      rw [get_rules_new policy _ _ l hl] at he
      cases he
  · intro k n v h e he
    rw [get_rules_new policy k n v h] at he
    cases he

/-- The table built from a well-formed policy satisfies the invariant of the
build. -/
theorem build_table_built {policy : apol_policy_t} (hw : policy_wf policy)
    {t : apol_domain_trans_table_t}
    (h : apol_policy_build_domain_trans_table policy none = .ok t) :
    table_built policy t := by
  unfold apol_policy_build_domain_trans_table at h
  dsimp only at h
  obtain ⟨t1, h1, h⟩ := bind_ok h
  obtain ⟨t2, h2, h⟩ := bind_ok h
  obtain ⟨t3, h3, h⟩ := bind_ok h
  have hav : ∀ c q, ∀ r ∈ apol_avrule_get_by_query policy c q,
      type_in_range policy.types.length r.source ∧
        type_in_range policy.types.length r.target := by
    intro c q r hr
    unfold apol_avrule_get_by_query at hr
    exact hw.1 r (List.mem_filter.mp hr).1
  have hte : ∀ c, ∀ r ∈ apol_terule_get_by_query policy c,
      type_in_range policy.types.length r.source ∧
        type_in_range policy.types.length r.target := by
    intro c r hr
    unfold apol_terule_get_by_query at hr
    have := hw.2.1 r (List.mem_filter.mp hr).1
    exact ⟨this.1, this.2.1⟩
  have i1 : table_built policy t1 :=
    foldlM_invariant h1 (table_built policy) (table_new_built policy)
      (fun s a s' ha hs hs' =>
        table_add_rule_inv hw _ (.avrule a) (hav _ _ a ha).1 (hav _ _ a ha).2 hs hs')
  have i2 : table_built policy t2 := by
    split at h2
    · exact foldlM_invariant h2 (table_built policy) i1
        (fun s a s' ha hs hs' =>
          table_add_rule_inv hw _ (.avrule a) (hav _ _ a ha).1 (hav _ _ a ha).2 hs hs')
    · cases h2; exact i1
  have i3 : table_built policy t3 :=
    foldlM_invariant h3 (table_built policy) i2
      (fun s a s' ha hs hs' => by
        split at hs'
        · exact table_add_rule_inv hw _ (.avrule a) (hav _ _ a ha).1 (hav _ _ a ha).2 hs hs'
        · cases hs'; exact hs)
  exact foldlM_invariant h (table_built policy) i3
    (fun s a s' ha hs hs' =>
      table_add_rule_inv hw _ (.terule a) (hte _ a ha).1 (hte _ a ha).2 hs hs')

/-! ## Marks and the shape of the table -/

theorem same_shape_refl (t : apol_domain_trans_table_t) : same_shape t t :=
  ⟨rfl, fun _ _ => rfl⟩

theorem get_rules_set_used (t : apol_domain_trans_table_t) (k k' : bucket_id) (n n' i : Nat) :
    get_rules (set_used t k n i) k' n' =
      if k' = k ∧ n' = n then
        (get_rules t k n).map fun v => list_update (fun r => { r with used := true }) v i
      else get_rules t k' n' := by
  unfold set_used
  cases h : get_rules t k n with
  | none =>
    simp only [Option.map_none']
    split
    · rename_i hc; rw [hc.1, hc.2, h]
    · rfl
  | some v =>
    simp only [get_rules_put_rules, h, Option.map_some']

theorem set_used_size (t : apol_domain_trans_table_t) (k : bucket_id) (n i : Nat) :
    (set_used t k n i).size = t.size := by
  unfold set_used
  split
  · exact (put_rules_size _ _ _ _).1
  · rfl

theorem same_shape_set_used {t0 t : apol_domain_trans_table_t} (h : same_shape t0 t)
    (k : bucket_id) (n i : Nat) : same_shape t0 (set_used t k n i) := by
  refine ⟨by rw [set_used_size]; exact h.1, ?_⟩
  intro k' n'
  rw [get_rules_set_used, ← h.2 k' n']
  split
  · rename_i hc
    obtain ⟨rfl, rfl⟩ := hc
    cases get_rules t k' n' with
    | none => rfl
    | some v =>
      simp only [Option.map_some', Option.some.injEq]
      exact list_update_map (fun r => { r with used := true }) entry_view (fun _ => rfl) v i
  · rfl

theorem used_at_set_used (t : apol_domain_trans_table_t) (k k' : bucket_id) (n n' i i' : Nat)
    (hne : ¬ (k' = k ∧ n' = n ∧ i' = i)) :
    used_at (set_used t k n i) k' n' i' = used_at t k' n' i' := by
  unfold used_at
  rw [get_rules_set_used]
  by_cases hc : k' = k ∧ n' = n
  · rw [if_pos hc]
    obtain ⟨rfl, rfl⟩ := hc
    cases get_rules t k' n' with
    | none => rfl
    | some v =>
      have hi : i' ≠ i := fun h => hne ⟨rfl, rfl, h⟩
      simp only [Option.map_some', list_update_getElem?, hi, if_false]
  · rw [if_neg hc]

theorem used_at_set_used_mono (t : apol_domain_trans_table_t) (k k' : bucket_id)
    (n n' i i' : Nat) (h : used_at t k' n' i' = true) :
    used_at (set_used t k n i) k' n' i' = true := by
  by_cases hc : k' = k ∧ n' = n ∧ i' = i
  · obtain ⟨rfl, rfl, rfl⟩ := hc
    unfold used_at at h ⊢
    rw [get_rules_set_used, if_pos ⟨rfl, rfl⟩]
    cases hg : get_rules t k' n' with
    | none => rw [hg] at h; cases h
    | some v =>
      rw [hg] at h
      simp only [Option.map_some', list_update_getElem?, if_true]
      cases hv : v[i']? with
      | none => simp only [hv] at h; cases h
      | some e => rfl
  · rw [used_at_set_used t k k' n n' i i' hc]; exact h

theorem rules_at_of_get {t : apol_domain_trans_table_t} {k : bucket_id} {n : Nat}
    {v : List apol_domain_trans_rule_t} (h : get_rules t k n = some v) :
    rules_at t k n = .ok v := by
  unfold rules_at; rw [h]

theorem get_rules_some_of_lt {policy : apol_policy_t} {t0 : apol_domain_trans_table_t}
    (hinv : table_inv policy t0) (k : bucket_id) {n : Nat} (hn : n < t0.size) :
    ∃ v, get_rules t0 k n = some v := by
  obtain ⟨⟨_, hd, he, _⟩, _⟩ := hinv
  have h1 : n < t0.dom_list.length := by omega
  have h2 : n < t0.exec_list.length := by omega
  cases k <;> simp [get_rules, List.getElem?_eq_getElem h1, List.getElem?_eq_getElem h2]

theorem view_type (e : apol_domain_trans_rule_t) : (entry_view e).1 = e.type := rfl

theorem map_type_of_view {v v0 : List apol_domain_trans_rule_t}
    (h : v.map entry_view = v0.map entry_view) :
    v.map (fun r => r.type) = v0.map (fun r => r.type) := by
  have := congrArg (List.map Prod.fst) h
  simpa [List.map_map, Function.comp_def, entry_view] using this

theorem mem_of_view {v v0 : List apol_domain_trans_rule_t}
    (h : v.map entry_view = v0.map entry_view) {e : apol_domain_trans_rule_t} (he : e ∈ v) :
    ∃ e0 ∈ v0, entry_view e0 = entry_view e := by
  have : entry_view e ∈ v.map entry_view := List.mem_map.mpr ⟨e, he, rfl⟩
  rw [h] at this
  obtain ⟨e0, h0, h1⟩ := List.mem_map.mp this
  exact ⟨e0, h0, h1⟩

theorem entry_ok_of_view {policy : apol_policy_t} {e e0 : apol_domain_trans_rule_t}
    (h : entry_view e0 = entry_view e) (h0 : entry_ok policy e0) : entry_ok policy e := by
  simp only [entry_view, Prod.mk.injEq] at h
  obtain ⟨h1, _, h3, _⟩ := h
  unfold entry_ok at *
  rw [← h1, ← h3]; exact h0

/-- A table of the same shape as one that satisfies the invariant has, at every
node, vectors that are strictly ascending with well-formed entries, the same
types included. -/
theorem bucket_of_shape {policy : apol_policy_t} {t0 t : apol_domain_trans_table_t}
    (hinv : table_inv policy t0) (hsh : same_shape t0 t) (k : bucket_id) {n : Nat}
    (hn : n < t0.size) :
    ∃ v, get_rules t k n = some v ∧ bucket_sorted v ∧ (∀ e ∈ v, entry_ok policy e) := by
  obtain ⟨v0, hv0⟩ := get_rules_some_of_lt hinv k hn
  have h := hsh.2 k n
  rw [hv0] at h
  cases hv : get_rules t k n with
  | none => rw [hv] at h; cases h
  | some v =>
    rw [hv] at h
    simp only [Option.map_some', Option.some.injEq] at h
    obtain ⟨hs0, he0⟩ := hinv.1.2.2.2 k n v0 hv0
    refine ⟨v, rfl, ?_, ?_⟩
    · unfold bucket_sorted at *
      rw [map_type_of_view h]; exact hs0
    · intro e he
      obtain ⟨e0, h0, h1⟩ := mem_of_view h he
      exact entry_ok_of_view h1 (he0 e0 h0)

theorem has_type_of_shape {t0 t : apol_domain_trans_table_t} (hsh : same_shape t0 t)
    (k : bucket_id) (n x : Nat) :
    has_type (get_rules t k n) x ↔ has_type (get_rules t0 k n) x := by
  have h := hsh.2 k n
  unfold has_type
  cases hv : get_rules t k n with
  | none =>
    rw [hv] at h
    cases hv0 : get_rules t0 k n with
    | none => simp
    | some v0 => rw [hv0] at h; cases h
  | some v =>
    rw [hv] at h
    cases hv0 : get_rules t0 k n with
    | none => rw [hv0] at h; cases h
    | some v0 =>
      rw [hv0] at h
      simp only [Option.map_some', Option.some.injEq] at h
      have hm := map_type_of_view h
      simp only [Option.some.injEq, exists_eq_left']
      rw [exists_type_iff_mem_map, exists_type_iff_mem_map, hm]

theorem same_shape_trans {t0 t1 t2 : apol_domain_trans_table_t} (h1 : same_shape t0 t1)
    (h2 : same_shape t1 t2) : same_shape t0 t2 :=
  ⟨h2.1.trans h1.1, fun k n => (h2.2 k n).trans (h1.2 k n)⟩

/-- The outcome of a lookup in a strictly ascending vector of the table: the
entry of the type, if the type is not an attribute and has an entry, NULL
otherwise. -/
theorem find_at_spec (policy : apol_policy_t) {t : apol_domain_trans_table_t} {k : bucket_id}
    {n : Nat} {v : List apol_domain_trans_rule_t} (hv : get_rules t k n = some v)
    (hs : bucket_sorted v) (ty : Nat) :
    (∃ i, ∃ hi : i < v.length, v[i].type = ty ∧ qpol_type_get_isattr policy ty = false ∧
        find_at policy t k n ty = .ok (some (i, v[i]))) ∨
      (find_at policy t k n ty = .ok none ∧
        (qpol_type_get_isattr policy ty = true ∨ ∀ e ∈ v, e.type ≠ ty)) := by
  unfold find_at
  rw [rules_at_of_get hv]
  simp only [bind, Except.bind]
  cases ha : qpol_type_get_isattr policy ty
  · rcases find_rule_for_type_total policy v ty ha with ⟨i, hi, hty, hres⟩ | hres
    · left
      refine ⟨i, hi, hty, rfl, ?_⟩
      rw [hres]
      simp [deref_rule, List.getElem?_eq_getElem hi]
    · right
      refine ⟨by rw [hres]; rfl, Or.inr (find_rule_for_type_null policy v ty hs hres)⟩
  · right
    refine ⟨?_, Or.inl rfl⟩
    unfold apol_domain_trans_find_rule_for_type
    simp [ha, deref_rule]

/-! ## What a valid forward candidate says of the table -/

theorem same_shape_mark_found {t0 t : apol_domain_trans_table_t} (h : same_shape t0 t)
    (k : bucket_id) (n : Nat) (r : Option (Nat × apol_domain_trans_rule_t)) :
    same_shape t0 (mark_found t k n r) := by
  unfold mark_found
  split
  · exact same_shape_set_used h _ _ _
  · exact h

theorem element_at_ok {α : Type} {v : List α} {i : Nat} {x : α} (h : element_at v i = .ok x) :
    v[i]? = some x := by
  unfold element_at at h
  split at h
  · cases h; assumption
  · cases h

/-- A lookup that returned an entry read it from the vector, and the entry has
the type looked up. -/
theorem find_at_some {policy : apol_policy_t} {t : apol_domain_trans_table_t} {k : bucket_id}
    {n ty i : Nat} {e : apol_domain_trans_rule_t}
    (h : find_at policy t k n ty = .ok (some (i, e))) :
    ∃ v, get_rules t k n = some v ∧ v[i]? = some e ∧ e.type = ty := by
  unfold find_at at h
  obtain ⟨v, hv, h⟩ := bind_ok h
  refine ⟨v, rules_at_ok hv, ?_⟩
  cases ha : qpol_type_get_isattr policy ty
  · rcases find_rule_for_type_total policy v ty ha with ⟨j, hj, hty, hres⟩ | hres
    · rw [hres] at h
      simp only [deref_rule, List.getElem?_eq_getElem hj] at h
      cases h
      exact ⟨List.getElem?_eq_getElem hj, hty⟩
    · rw [hres] at h
      cases h
  · unfold apol_domain_trans_find_rule_for_type at h
    simp [ha, deref_rule] at h

theorem found_rules_nonempty {r : Option (Nat × apol_domain_trans_rule_t)}
    (h : apol_vector_get_size (found_rules r) ≠ 0) : ∃ i e, r = some (i, e) := by
  cases r with
  | none => exact absurd rfl h
  | some x => exact ⟨x.1, x.2, rfl⟩

/-- A lookup whose result was attached as a non-empty rule vector shows that the
vector of the table has an entry of the type looked up. -/
theorem find_at_has_type {policy : apol_policy_t} {t0 t : apol_domain_trans_table_t}
    (hsh : same_shape t0 t) {k : bucket_id} {n ty : Nat}
    {r : Option (Nat × apol_domain_trans_rule_t)} (h : find_at policy t k n ty = .ok r)
    (hne : apol_vector_get_size (found_rules r) ≠ 0) : has_type (get_rules t0 k n) ty := by
  obtain ⟨i, e, rfl⟩ := found_rules_nonempty hne
  obtain ⟨v, hv, hi, hty⟩ := find_at_some h
  rw [← has_type_of_shape hsh]
  exact ⟨v, hv, e, List.getElem?_mem hi, hty⟩

theorem type_trans_entry_of_shape {t0 t : apol_domain_trans_table_t} (hsh : same_shape t0 t)
    {a p b : Nat} (h : type_trans_entry t a p b) : type_trans_entry t0 a p b := by
  obtain ⟨v, hv, e, he, h1, h2⟩ := h
  have hs := hsh.2 .type_trans (a - 1)
  rw [hv] at hs
  cases hv0 : get_rules t0 .type_trans (a - 1) with
  | none => rw [hv0] at hs; cases hs
  | some v0 =>
    rw [hv0] at hs
    simp only [Option.map_some', Option.some.injEq] at hs
    obtain ⟨e0, h0, hview⟩ := mem_of_view hs he
    simp only [entry_view, Prod.mk.injEq] at hview
    exact ⟨v0, hv0, e0, h0, hview.1.trans h1, hview.2.1.trans h2⟩

theorem has_type_in_range {policy : apol_policy_t} {t0 : apol_domain_trans_table_t}
    (hinv : table_inv policy t0) {k : bucket_id} {n x : Nat}
    (h : has_type (get_rules t0 k n) x) : type_in_range policy.types.length x := by
  obtain ⟨v, hv, e, he, rfl⟩ := h
  exact ((hinv.1.2.2.2 k n v hv).2 e he).1

theorem forward_type_trans_step_sound (policy : apol_policy_t) (t0 : apol_domain_trans_table_t)
    (hinv : table_inv policy t0)
    (start : Nat) (st st' : trans_state) (i : Nat) (hsh : same_shape t0 st.1)
    (hst : ∀ c ∈ st.2, candidate_sound policy t0 c)
    (h : forward_type_trans_step policy start st i = .ok st') :
    same_shape t0 st'.1 ∧ ∀ c ∈ st'.2, candidate_sound policy t0 c := by
  unfold forward_type_trans_step at h
  obtain ⟨n, hn, h⟩ := bind_ok h
  obtain ⟨v, hv, h⟩ := bind_ok h
  obtain ⟨rule_entry, hre, h⟩ := bind_ok h
  obtain ⟨ep_n, hep, h⟩ := bind_ok h
  obtain ⟨r1, hr1, h⟩ := bind_ok h
  obtain ⟨r2, hr2, h⟩ := bind_ok h
  obtain ⟨r3, hr3, h⟩ := bind_ok h
  obtain ⟨r4, hr4, h⟩ := bind_ok h
  cases h
  obtain ⟨hn1, rfl⟩ := node_index_ok hn
  obtain ⟨hp1, rfl⟩ := node_index_ok hep
  have s1 := same_shape_set_used hsh .type_trans (start - 1) i
  have s2 := same_shape_mark_found s1 .proc_trans (start - 1) r1
  have s3 := same_shape_mark_found s2 .exec (rule_entry.type - 1) r2
  have s4 := same_shape_mark_found s3 .exec_ep (rule_entry.type - 1) r3
  refine ⟨s4, ?_⟩
  intro c hc
  rcases List.mem_cons.mp hc with rfl | hc
  · intro hvalid
    have hreq := (valid_condition_iff policy _).mp hvalid
    obtain ⟨h_exec, h_ep, h_pt, h_tt⟩ := hreq
    cases hd : rule_entry.dflt with
    | none =>
      rw [hd] at hr1
      have := (has_type_in_range hinv (find_at_has_type s1 hr1 h_pt)).1
      simp [type_value] at this
    | some b =>
      rw [hd] at hr1 hr3
      refine ⟨start, rule_entry.type, b, ?_, hn1, hp1, ?_⟩
      · simp [triple, hd]
      · refine ⟨find_at_has_type s1 hr1 h_pt, find_at_has_type s2 hr2 h_exec,
          find_at_has_type s3 hr3 h_ep, ?_⟩
        intro _
        left
        apply type_trans_entry_of_shape hsh
        exact ⟨v, rules_at_ok hv, rule_entry, List.getElem?_mem (element_at_ok hre), rfl, hd⟩
  · exact hst c hc


theorem forward_entrypoint_step_sound (policy : apol_policy_t)
    (t0 : apol_domain_trans_table_t) (start : Nat) (rule_entry : apol_domain_trans_rule_t)
    (hpt : has_type (get_rules t0 .proc_trans (start - 1)) rule_entry.type)
    (st st' : trans_state) (j : Nat) (hsh : same_shape t0 st.1)
    (hst : ∀ c ∈ st.2, candidate_sound policy t0 c)
    (h : forward_entrypoint_step policy start rule_entry st j = .ok st') :
    same_shape t0 st'.1 ∧ ∀ c ∈ st'.2, candidate_sound policy t0 c := by
  unfold forward_entrypoint_step at h
  obtain ⟨n, hn, h⟩ := bind_ok h
  obtain ⟨end_n, hen, h⟩ := bind_ok h
  obtain ⟨v, hv, h⟩ := bind_ok h
  obtain ⟨tmp_rule, htmp, h⟩ := bind_ok h
  obtain ⟨ep_n, hep, h⟩ := bind_ok h
  obtain ⟨r, hr, h⟩ := bind_ok h
  obtain ⟨hn1, rfl⟩ := node_index_ok hn
  obtain ⟨he1, rfl⟩ := node_index_ok hen
  obtain ⟨hp1, rfl⟩ := node_index_ok hep
  have s1 := same_shape_set_used hsh .dom_ep (rule_entry.type - 1) j
  cases r with
  | none => cases h
  | some x =>
    obtain ⟨k, tmp_rule2⟩ := x
    dsimp only at h
    split at h
    · cases h
      exact ⟨s1, hst⟩
    · obtain ⟨r1, hr1, h⟩ := bind_ok h
      obtain ⟨r2, hr2, h⟩ := bind_ok h
      cases h
      have s2 := same_shape_set_used s1 .exec_ep (tmp_rule.type - 1) k
      refine ⟨s2, ?_⟩
      intro c hc
      rcases List.mem_cons.mp hc with rfl | hc
      · intro hvalid
        have hreq := (valid_condition_iff policy _).mp hvalid
        obtain ⟨h_exec, -, -, h_tt⟩ := hreq
        refine ⟨start, tmp_rule.type, rule_entry.type, rfl, hn1, hp1, hpt,
          find_at_has_type s2 hr1 h_exec, ?_, ?_⟩
        · obtain ⟨v2, hv2, hi, hty⟩ := find_at_some hr
          rw [← has_type_of_shape s1]
          exact ⟨v2, hv2, tmp_rule2, List.getElem?_mem hi, hty⟩
        · intro hneeds
          right
          have hor := h_tt (by
            unfold needs_type_trans_or_setexec at hneeds
            simpa using hneeds)
          rcases hor with h1 | h1
          · exact absurd rfl h1
          · exact find_at_has_type s2 hr2 h1
      · exact hst c hc

theorem forward_proc_trans_step_sound (policy : apol_policy_t)
    (t0 : apol_domain_trans_table_t) (start : Nat)
    (st st' : trans_state) (i : Nat) (hsh : same_shape t0 st.1)
    (hst : ∀ c ∈ st.2, candidate_sound policy t0 c)
    (h : forward_proc_trans_step policy start st i = .ok st') :
    same_shape t0 st'.1 ∧ ∀ c ∈ st'.2, candidate_sound policy t0 c := by
  unfold forward_proc_trans_step at h
  obtain ⟨n, hn, h⟩ := bind_ok h
  obtain ⟨v, hv, h⟩ := bind_ok h
  obtain ⟨rule_entry, hre, h⟩ := bind_ok h
  obtain ⟨hn1, rfl⟩ := node_index_ok hn
  split at h
  · cases h; exact ⟨hsh, hst⟩
  split at h
  · cases h; exact ⟨hsh, hst⟩
  obtain ⟨end_n, -, h⟩ := bind_ok h
  obtain ⟨eps, -, h⟩ := bind_ok h
  obtain ⟨st1, hfold, h⟩ := bind_ok h
  have hpt : has_type (get_rules t0 .proc_trans (start - 1)) rule_entry.type := by
    rw [← has_type_of_shape hsh]
    exact ⟨v, rules_at_ok hv, rule_entry, List.getElem?_mem (element_at_ok hre), rfl⟩
  have hinv := foldlM_invariant hfold
    (fun s => same_shape t0 s.1 ∧ ∀ c ∈ s.2, candidate_sound policy t0 c)
    ⟨same_shape_set_used hsh _ _ _, hst⟩
    (fun s a s' _ hs hs' =>
      forward_entrypoint_step_sound policy t0 start rule_entry hpt s s' a hs.1 hs.2 hs')
  split at h <;> cases h
  · refine ⟨hinv.1, ?_⟩
    intro c hc
    rcases List.mem_cons.mp hc with rfl | hc
    · intro hvalid
      cases hvalid
    · exact hinv.2 c hc
  · exact hinv

/-- Every valid candidate of a forward analysis over a table that satisfies the
invariant is justified by entries of the table. -/
theorem forward_sound (policy : apol_policy_t) (table : apol_domain_trans_table_t)
    (hinv : table_inv policy table) (start : Nat) (st : trans_state)
    (h : apol_domain_trans_table_get_all_forward_trans policy table [] start = .ok st) :
    same_shape table st.1 ∧ ∀ c ∈ st.2, candidate_sound policy table c := by
  unfold apol_domain_trans_table_get_all_forward_trans at h
  split at h
  · cases h
  obtain ⟨st1, h1, h⟩ := bind_ok h
  obtain ⟨st2, h2, h⟩ := bind_ok h
  cases h
  unfold forward_type_trans_pass at h1
  obtain ⟨n, -, h1⟩ := bind_ok h1
  obtain ⟨v, -, h1⟩ := bind_ok h1
  have i1 := foldlM_invariant h1
    (fun s => same_shape table s.1 ∧ ∀ c ∈ s.2, candidate_sound policy table c)
    ⟨same_shape_refl table, by simp⟩
    (fun s a s' _ hs hs' =>
      forward_type_trans_step_sound policy table hinv start s s' a hs.1 hs.2 hs')
  unfold forward_proc_trans_pass at h2
  obtain ⟨n', -, h2⟩ := bind_ok h2
  obtain ⟨v', -, h2⟩ := bind_ok h2
  have i2 := foldlM_invariant h2
    (fun s => same_shape table s.1 ∧ ∀ c ∈ s.2, candidate_sound policy table c) i1
    (fun s a s' _ hs hs' =>
      forward_proc_trans_step_sound policy table start s s' a hs.1 hs.2 hs')
  exact ⟨i2.1, by simpa using i2.2⟩

/-! ## Candidates that the reverse analysis must return -/

theorem foldlM_total {σ α : Type} {f : σ → α → Except failure σ} (l : List α) (I : σ → Prop)
    (hstep : ∀ s a, a ∈ l → I s → ∃ s', f s a = .ok s' ∧ I s') :
    ∀ s, I s → ∃ s', l.foldlM f s = .ok s' ∧ I s' := by
  induction l with
  | nil => intro s hs; exact ⟨s, rfl, hs⟩
  | cons a l ih =>
    intro s hs
    obtain ⟨s1, h1, hs1⟩ := hstep s a (List.mem_cons_self _ _) hs
    obtain ⟨s2, h2, hs2⟩ :=
      ih (fun s b hb => hstep s b (List.mem_cons_of_mem _ hb)) s1 hs1
    refine ⟨s2, ?_, hs2⟩
    simp only [List.foldlM, bind, Except.bind, h1]
    exact h2

/-- A loop in which one iteration establishes a property that the others keep
ends with the property. -/
theorem foldlM_emit {σ α : Type} {f : σ → α → Except failure σ} (l : List α) (x : α)
    (hx : x ∈ l) (hnd : l.Nodup) (Pre Post : σ → Prop)
    (hother : ∀ s a, a ∈ l → a ≠ x → Pre s → ∃ s', f s a = .ok s' ∧ Pre s')
    (hat : ∀ s, Pre s → ∃ s', f s x = .ok s' ∧ Post s')
    (hafter : ∀ s a, a ∈ l → a ≠ x → Post s → ∃ s', f s a = .ok s' ∧ Post s') :
    ∀ s, Pre s → ∃ s', l.foldlM f s = .ok s' ∧ Post s' := by
  induction l with
  | nil => cases hx
  | cons a l ih =>
    intro s hs
    rw [List.nodup_cons] at hnd
    by_cases hax : a = x
    · subst hax
      obtain ⟨s1, h1, hs1⟩ := hat s hs
      obtain ⟨s2, h2, hs2⟩ := foldlM_total l Post
        (fun s b hb hp => hafter s b (List.mem_cons_of_mem _ hb)
          (fun h => hnd.1 (h ▸ hb)) hp) s1 hs1
      refine ⟨s2, ?_, hs2⟩
      simp only [List.foldlM, bind, Except.bind, h1]
      exact h2
    · have hxl : x ∈ l := by
        rcases List.mem_cons.mp hx with h | h
        · exact absurd h.symm hax
        · exact h
      obtain ⟨s1, h1, hs1⟩ := hother s a (List.mem_cons_self _ _) hax hs
      obtain ⟨s2, h2, hs2⟩ := ih hxl hnd.2
        (fun s b hb => hother s b (List.mem_cons_of_mem _ hb))
        (fun s b hb => hafter s b (List.mem_cons_of_mem _ hb)) s1 hs1
      refine ⟨s2, ?_, hs2⟩
      simp only [List.foldlM, bind, Except.bind, h1]
      exact h2

/-- In a table of the same shape, the vector at a node where the reference table
has one: it can be read, it has the same entries up to the marks, it is strictly
ascending and its entries are well-formed. -/
theorem rules_at_shape {policy : apol_policy_t} {t0 t : apol_domain_trans_table_t}
    (hinv : table_inv policy t0) (hsh : same_shape t0 t) {k : bucket_id} {n : Nat}
    {v0 : List apol_domain_trans_rule_t} (hv0 : get_rules t0 k n = some v0) :
    ∃ v, rules_at t k n = .ok v ∧ get_rules t k n = some v ∧
      v.map entry_view = v0.map entry_view ∧ bucket_sorted v ∧
      (∀ e ∈ v, entry_ok policy e) := by
  have h := hsh.2 k n
  rw [hv0] at h
  cases hv : get_rules t k n with
  | none => rw [hv] at h; cases h
  | some v =>
    rw [hv] at h
    simp only [Option.map_some', Option.some.injEq] at h
    obtain ⟨hs0, he0⟩ := hinv.1.2.2.2 k n v0 hv0
    refine ⟨v, rules_at_of_get hv, rfl, h, ?_, ?_⟩
    · unfold bucket_sorted at *
      rw [map_type_of_view h]; exact hs0
    · intro e he
      obtain ⟨e0, h0, h1⟩ := mem_of_view h he
      exact entry_ok_of_view h1 (he0 e0 h0)

theorem sorted_mem_unique {v : List apol_domain_trans_rule_t} (hs : bucket_sorted v)
    {e e' : apol_domain_trans_rule_t} (he : e ∈ v) (he' : e' ∈ v) (h : e.type = e'.type) :
    e = e' := by
  obtain ⟨i, hi, rfl⟩ := List.getElem_of_mem he
  obtain ⟨j, hj, rfl⟩ := List.getElem_of_mem he'
  have := bucket_sorted_index_unique hs hi hj h
  subst this; rfl

/-- A lookup in a table of the same shape never faults; what it finds is a
well-formed entry of the type looked up. -/
theorem find_at_total {policy : apol_policy_t} {t0 t : apol_domain_trans_table_t}
    (hinv : table_inv policy t0) (hsh : same_shape t0 t) (k : bucket_id) {n : Nat}
    (hn : n < t0.size) (ty : Nat) :
    ∃ r, find_at policy t k n ty = .ok r := by
  obtain ⟨v0, hv0⟩ := get_rules_some_of_lt hinv k hn
  obtain ⟨v, -, hv, -, hs, -⟩ := rules_at_shape hinv hsh hv0
  rcases find_at_spec policy hv hs ty with ⟨i, hi, -, -, h⟩ | ⟨h, -⟩
  · exact ⟨_, h⟩
  · exact ⟨_, h⟩

/-- A lookup of a type that has an entry in the reference table finds an entry
with at least one raw rule. -/
theorem find_at_found {policy : apol_policy_t} {t0 t : apol_domain_trans_table_t}
    (hinv : table_inv policy t0) (hsh : same_shape t0 t) {k : bucket_id} {n ty : Nat}
    (h : has_type (get_rules t0 k n) ty) :
    ∃ i e v, find_at policy t k n ty = .ok (some (i, e)) ∧ get_rules t k n = some v ∧
      e ∈ v ∧ e.type = ty ∧ e.rules ≠ [] := by
  obtain ⟨v0, hv0, e0, he0, hty0⟩ := h
  obtain ⟨v, -, hv, hview, hs, hok⟩ := rules_at_shape hinv hsh hv0
  have hmem : ty ∈ v.map (fun r => r.type) := by
    rw [map_type_of_view hview]
    exact List.mem_map.mpr ⟨e0, he0, hty0⟩
  obtain ⟨e1, he1, hty1⟩ := List.mem_map.mp hmem
  have hc : qpol_type_get_isattr policy ty = false := by
    rw [← hty1]; exact (hok e1 he1).2.1
  rcases find_at_spec policy hv hs ty with ⟨i, hi, hty, -, hf⟩ | ⟨-, hor⟩
  · exact ⟨i, v[i], v, hf, hv, List.getElem_mem hi, hty, (hok _ (List.getElem_mem hi)).2.2.1⟩
  · rcases hor with hor | hor
    · rw [hc] at hor; cases hor
    · exact absurd hty1 (hor e1 he1)

theorem node_index_pos {val : Nat} (h : 1 ≤ val) : node_index val = .ok (val - 1) := by
  unfold node_index
  rw [if_neg (by omega)]

theorem element_at_lt {α : Type} {v : List α} {i : Nat} (h : i < v.length) :
    element_at v i = .ok v[i] := by
  unfold element_at
  rw [List.getElem?_eq_getElem h]

theorem used_at_mark_found_ne (t : apol_domain_trans_table_t) (k k' : bucket_id) (n n' i' : Nat)
    (r : Option (Nat × apol_domain_trans_rule_t)) (hne : k' ≠ k) :
    used_at (mark_found t k n r) k' n' i' = used_at t k' n' i' := by
  unfold mark_found
  split
  · exact used_at_set_used _ _ _ _ _ _ _ (fun h => hne h.1)
  · rfl

theorem used_at_eq {t : apol_domain_trans_table_t} {k : bucket_id} {n i : Nat}
    {v : List apol_domain_trans_rule_t} (hv : get_rules t k n = some v) (hi : i < v.length) :
    used_at t k n i = v[i].used := by
  unfold used_at
  rw [hv]
  simp only [List.getElem?_eq_getElem hi]

theorem view_getElem {v v0 : List apol_domain_trans_rule_t}
    (h : v.map entry_view = v0.map entry_view) {i : Nat} (hi : i < v.length)
    (hi0 : i < v0.length) : entry_view v[i] = entry_view v0[i] := by
  have h1 : (v.map entry_view)[i]? = (v0.map entry_view)[i]? := by rw [h]
  simpa [List.getElem?_map, List.getElem?_eq_getElem hi, List.getElem?_eq_getElem hi0] using h1

theorem view_length {v v0 : List apol_domain_trans_rule_t}
    (h : v.map entry_view = v0.map entry_view) : v.length = v0.length := by
  have := congrArg List.length h
  simpa using this

theorem size_pos_of_ne_nil {l : List rule_ref} (h : l ≠ []) :
    apol_vector_get_size (some l) ≠ 0 := by
  cases l with
  | nil => exact absurd rfl h
  | cons a l => simp [apol_vector_get_size]

/-- One iteration of the loop over the execute entries of an entrypoint in the
reverse analysis, over a table of the shape of one that satisfies the invariant:
it ends without fault, keeps the shape and the candidates, marks no other
execute entry, and returns the transition of an unmarked entry of a start type
other than the end type, valid when the table holds what it needs. -/
theorem reverse_exec_step_spec (policy : apol_policy_t) (t0 : apol_domain_trans_table_t)
    (hinv : table_inv policy t0) (B : Nat) (rule_entry : apol_domain_trans_rule_t)
    (hP : type_in_range policy.types.length rule_entry.type)
    (st : reverse_state) (hsh : same_shape t0 st.1)
    (ve0 : List apol_domain_trans_rule_t)
    (hve0 : get_rules t0 .exec (rule_entry.type - 1) = some ve0)
    (j : Nat) (hj : j < ve0.length) :
    ∃ st', reverse_exec_step policy B rule_entry st j = .ok st' ∧ same_shape t0 st'.1 ∧
      (∀ c ∈ st.2.1, c ∈ st'.2.1) ∧
      (∀ n0 i0, ¬ (n0 = rule_entry.type - 1 ∧ i0 = j) →
        used_at st'.1 .exec n0 i0 = used_at st.1 .exec n0 i0) ∧
      (∀ A, ve0[j].type = A → A ≠ B →
        used_at st.1 .exec (rule_entry.type - 1) j = false →
        rule_entry.rules ≠ [] → transition_in_table policy t0 A rule_entry.type B →
        ∃ c ∈ st'.2.1, triple c = (some A, some rule_entry.type, some B) ∧ c.valid = true) := by
  obtain ⟨v, hrules, hget, hview, hsorted, hok⟩ := rules_at_shape hinv hsh hve0
  have hlen := view_length hview
  have hjv : j < v.length := by omega
  have hvj := view_getElem hview hjv hj
  have htype : v[j].type = ve0[j].type := congrArg Prod.fst hvj
  have hsz : t0.size = policy.types.length := hinv.1.1
  unfold reverse_exec_step
  simp only [node_index_pos hP.1, bind, Except.bind, hrules, element_at_lt hjv]
  by_cases hB : v[j].type = B
  · rw [if_pos hB]
    have hemit : ∀ A, ve0[j].type = A → A ≠ B → False := by
      intro A h1 h2
      exact h2 (h1 ▸ htype ▸ hB)
    split
    · exact ⟨_, rfl, hsh, fun c hc => hc, fun _ _ _ => rfl,
        fun A h1 h2 _ _ _ => (hemit A h1 h2).elim⟩
    · exact ⟨_, rfl, hsh, fun c hc => hc, fun _ _ _ => rfl,
        fun A h1 h2 _ _ _ => (hemit A h1 h2).elim⟩
  rw [if_neg hB]
  by_cases hu : v[j].used = true
  · rw [if_pos hu]
    refine ⟨_, rfl, hsh, fun c hc => hc, fun _ _ _ => rfl, ?_⟩
    intro A _ _ h3
    rw [used_at_eq hget hjv, hu] at h3
    cases h3
  rw [if_neg hu]
  have hstart := (hok v[j] (List.getElem_mem hjv)).1
  simp only [node_index_pos hstart.1]
  have hn : v[j].type - 1 < t0.size := by
    have := hstart.2
    have := hstart.1
    omega
  have s1 := same_shape_set_used hsh .exec (rule_entry.type - 1) j
  obtain ⟨r1, hr1⟩ := find_at_total hinv s1 .proc_trans hn B
  have s2 := same_shape_mark_found s1 .proc_trans (v[j].type - 1) r1
  obtain ⟨r2, hr2⟩ := find_at_total hinv s2 .type_trans hn rule_entry.type
  have s3 := same_shape_mark_found s2 .type_trans (v[j].type - 1)
    (keep_default B r2)
  obtain ⟨r3, hr3⟩ := find_at_total hinv s3 .setexec hn v[j].type
  simp only [hr1, hr2, hr3, pure, Except.pure]
  refine ⟨_, rfl, s3, fun c hc => List.mem_cons_of_mem _ hc, ?_, ?_⟩
  · intro n0 i0 hne
    rw [used_at_mark_found_ne _ _ _ _ _ _ _ (by decide),
      used_at_mark_found_ne _ _ _ _ _ _ _ (by decide)]
    exact used_at_set_used _ _ _ _ _ _ _ (fun h => hne ⟨h.2.1, h.2.2⟩)
  · intro A hA hAB _ hrules_ne htrans
    have hA' : v[j].type = A := htype.trans hA
    obtain ⟨hpt, -, -, htt⟩ := htrans
    refine ⟨_, List.mem_cons_self _ _, ?_, ?_⟩
    · simp [triple, hA']
    · rw [valid_condition_iff]
      refine ⟨size_pos_of_ne_nil (hok v[j] (List.getElem_mem hjv)).2.2.1,
        size_pos_of_ne_nil hrules_ne, ?_, ?_⟩
      · rw [← hA'] at hpt
        obtain ⟨i, e, _, hf, _, _, _, hne⟩ := find_at_found hinv s1 hpt
        rw [hr1] at hf
        cases hf
        exact size_pos_of_ne_nil hne
      · intro hneeds
        have hneeds' : needs_type_trans_or_setexec policy.policy_version policy.is_modular
            = true := by
          unfold needs_type_trans_or_setexec
          simpa using hneeds
        rcases htt hneeds' with h | h
        · left
          rw [← hA'] at h
          obtain ⟨vt0, hvt0, e0, he0, hty0, hd0⟩ := h
          obtain ⟨i, e, vt, hf, hvt, hev, hety, hne⟩ :=
            find_at_found hinv s2 ⟨vt0, hvt0, e0, he0, hty0⟩
          rw [hr2] at hf
          cases hf
          obtain ⟨vt', -, hvt', hview', hsorted', -⟩ := rules_at_shape hinv s2 hvt0
          rw [hvt] at hvt'
          cases hvt'
          have hmem : entry_view e0 ∈ vt.map entry_view := by
            rw [hview']; exact List.mem_map.mpr ⟨e0, he0, rfl⟩
          obtain ⟨e1, he1, hv1⟩ := List.mem_map.mp hmem
          simp only [entry_view, Prod.mk.injEq] at hv1
          have : e = e1 := sorted_mem_unique hsorted' hev he1 (by rw [hety, hv1.1, hty0])
          subst this
          have hd : e.dflt = some B := hv1.2.1.trans hd0
          simp only [keep_default, hd, type_value, if_true, found_rules]
          exact size_pos_of_ne_nil hne
        · right
          rw [← hA'] at h
          obtain ⟨i, e, _, hf, _, _, _, hne⟩ := find_at_found hinv s3 h
          rw [hr3] at hf
          cases hf
          exact size_pos_of_ne_nil hne

/-- The loop over the execute entries of one entrypoint in the reverse
analysis. -/
theorem reverse_exec_loop_spec (policy : apol_policy_t) (t0 : apol_domain_trans_table_t)
    (hinv : table_inv policy t0) (B : Nat) (rule_entry : apol_domain_trans_rule_t)
    (hP : type_in_range policy.types.length rule_entry.type)
    (hrne : rule_entry.rules ≠ [])
    (ve0 : List apol_domain_trans_rule_t)
    (hve0 : get_rules t0 .exec (rule_entry.type - 1) = some ve0)
    (st : reverse_state) (hsh : same_shape t0 st.1) :
    ∃ st', (List.range ve0.length).foldlM (reverse_exec_step policy B rule_entry) st = .ok st' ∧
      same_shape t0 st'.1 ∧ (∀ c ∈ st.2.1, c ∈ st'.2.1) ∧
      (∀ n0 i0, n0 ≠ rule_entry.type - 1 →
        used_at st'.1 .exec n0 i0 = used_at st.1 .exec n0 i0) ∧
      (∀ A jA, ∀ hjA : jA < ve0.length, ve0[jA].type = A → A ≠ B →
        used_at st.1 .exec (rule_entry.type - 1) jA = false →
        transition_in_table policy t0 A rule_entry.type B →
        ∃ c ∈ st'.2.1, triple c = (some A, some rule_entry.type, some B) ∧ c.valid = true) := by
  let I : reverse_state → Prop := fun s =>
    same_shape t0 s.1 ∧ (∀ c ∈ st.2.1, c ∈ s.2.1) ∧
      (∀ n0 i0, n0 ≠ rule_entry.type - 1 →
        used_at s.1 .exec n0 i0 = used_at st.1 .exec n0 i0)
  have hI0 : I st := ⟨hsh, fun c hc => hc, fun _ _ _ => rfl⟩
  have hstepI : ∀ s a, a ∈ List.range ve0.length → I s →
      ∃ s', reverse_exec_step policy B rule_entry s a = .ok s' ∧ I s' := by
    intro s a ha hs
    obtain ⟨s', h1, h2, h3, h4, -⟩ := reverse_exec_step_spec policy t0 hinv B rule_entry hP s
      hs.1 ve0 hve0 a (List.mem_range.mp ha)
    refine ⟨s', h1, h2, fun c hc => h3 c (hs.2.1 c hc), ?_⟩
    intro n0 i0 hn
    rw [h4 n0 i0 (fun h => hn h.1)]
    exact hs.2.2 n0 i0 hn
  obtain ⟨st', hfold, hI⟩ := foldlM_total (List.range ve0.length) I hstepI st hI0
  refine ⟨st', hfold, hI.1, hI.2.1, hI.2.2, ?_⟩
  intro A jA hjA hA hAB hunused htrans
  let good : apol_domain_trans_t → Prop := fun c =>
    triple c = (some A, some rule_entry.type, some B) ∧ c.valid = true
  obtain ⟨st'', hfold', hpost⟩ := foldlM_emit (List.range ve0.length) jA
    (List.mem_range.mpr hjA) (List.nodup_range _)
    (fun s => same_shape t0 s.1 ∧ used_at s.1 .exec (rule_entry.type - 1) jA = false)
    (fun s => same_shape t0 s.1 ∧ ∃ c ∈ s.2.1, good c)
    (by
      intro s a ha hne hs
      obtain ⟨s', h1, h2, -, h4, -⟩ := reverse_exec_step_spec policy t0 hinv B rule_entry hP s
        hs.1 ve0 hve0 a (List.mem_range.mp ha)
      refine ⟨s', h1, h2, ?_⟩
      rw [h4 _ _ (fun h => hne h.2.symm)]
      exact hs.2)
    (by
      intro s hs
      obtain ⟨s', h1, h2, -, -, h5⟩ := reverse_exec_step_spec policy t0 hinv B rule_entry hP s
        hs.1 ve0 hve0 jA hjA
      exact ⟨s', h1, h2, h5 A hA hAB hs.2 hrne htrans⟩)
    (by
      intro s a ha _ hs
      obtain ⟨s', h1, h2, h3, -, -⟩ := reverse_exec_step_spec policy t0 hinv B rule_entry hP s
        hs.1 ve0 hve0 a (List.mem_range.mp ha)
      obtain ⟨c, hc, hg⟩ := hs.2
      exact ⟨s', h1, h2, c, h3 c hc, hg⟩)
    st ⟨hsh, hunused⟩
  rw [hfold] at hfold'
  cases hfold'
  exact hpost.2

/-- One iteration of the loop over the entrypoints of the end type in the
reverse analysis. -/
theorem reverse_entrypoint_step_spec (policy : apol_policy_t)
    (t0 : apol_domain_trans_table_t) (hinv : table_inv policy t0) (B : Nat)
    (hB : type_in_range policy.types.length B)
    (vd0 : List apol_domain_trans_rule_t) (hvd0 : get_rules t0 .dom_ep (B - 1) = some vd0)
    (i : Nat) (hi : i < vd0.length)
    (st : reverse_state) (hsh : same_shape t0 st.1) :
    ∃ st', reverse_entrypoint_step policy B st i = .ok st' ∧ same_shape t0 st'.1 ∧
      (∀ c ∈ st.2.1, c ∈ st'.2.1) ∧
      (∀ n0 i0, n0 ≠ vd0[i].type - 1 →
        used_at st'.1 .exec n0 i0 = used_at st.1 .exec n0 i0) ∧
      (∀ A jA ve0, get_rules t0 .exec (vd0[i].type - 1) = some ve0 →
        ∀ hjA : jA < ve0.length, ve0[jA].type = A → A ≠ B →
        used_at st.1 .exec (vd0[i].type - 1) jA = false →
        transition_in_table policy t0 A vd0[i].type B →
        ∃ c ∈ st'.2.1, triple c = (some A, some vd0[i].type, some B) ∧ c.valid = true) := by
  obtain ⟨v, hrules, hget, hview, hsorted, hok⟩ := rules_at_shape hinv hsh hvd0
  have hlen := view_length hview
  have hiv : i < v.length := by omega
  have hvi := view_getElem hview hiv hi
  have htype : v[i].type = vd0[i].type := congrArg Prod.fst hvi
  have hentry := hok v[i] (List.getElem_mem hiv)
  have hP : type_in_range policy.types.length v[i].type := hentry.1
  have hsz : t0.size = policy.types.length := hinv.1.1
  have hn : v[i].type - 1 < t0.size := by
    have := hP.1
    have := hP.2
    omega
  obtain ⟨ve0, hve0⟩ := get_rules_some_of_lt hinv .exec hn
  have s1 := same_shape_set_used hsh .dom_ep (B - 1) i
  obtain ⟨execs, hexecs, -, hview_e, -, -⟩ := rules_at_shape hinv s1 hve0
  have hlen_e := view_length hview_e
  obtain ⟨st1, hfold, h2, h3, h4, h5⟩ := reverse_exec_loop_spec policy t0 hinv B v[i] hP
    hentry.2.2.1 ve0 hve0 (set_used st.1 .dom_ep (B - 1) i, st.2.1, st.2.2) s1
  have hmark : ∀ n0 i0, used_at (set_used st.1 .dom_ep (B - 1) i) .exec n0 i0
      = used_at st.1 .exec n0 i0 :=
    fun n0 i0 => used_at_set_used _ _ _ _ _ _ _ (fun h => by cases h.1)
  unfold reverse_entrypoint_step
  simp only [node_index_pos hB.1, bind, Except.bind, hrules, element_at_lt hiv,
    node_index_pos hP.1, hexecs, hlen_e, hfold]
  have hemit : ∀ A jA ve0', get_rules t0 .exec (vd0[i].type - 1) = some ve0' →
      ∀ hjA : jA < ve0'.length, ve0'[jA].type = A → A ≠ B →
      used_at st.1 .exec (vd0[i].type - 1) jA = false →
      transition_in_table policy t0 A vd0[i].type B →
      ∃ c ∈ st1.2.1, triple c = (some A, some vd0[i].type, some B) ∧ c.valid = true := by
    intro A jA ve0' hve0' hjA hA hAB hunused htrans
    rw [← htype] at hve0' hunused htrans
    rw [hve0] at hve0'
    cases hve0'
    have := h5 A jA hjA hA hAB (by rw [hmark]; exact hunused) htrans
    rw [htype] at this
    exact this
  split
  · refine ⟨_, rfl, h2, fun c hc => List.mem_cons_of_mem _ (h3 c hc), ?_, ?_⟩
    · intro n0 i0 hne
      rw [← htype] at hne
      rw [h4 n0 i0 hne, hmark]
    · intro A jA ve0' hve0' hjA hA hAB hunused htrans
      obtain ⟨c, hc, hg⟩ := hemit A jA ve0' hve0' hjA hA hAB hunused htrans
      exact ⟨c, List.mem_cons_of_mem _ hc, hg⟩
  · refine ⟨_, rfl, h2, h3, ?_, hemit⟩
    intro n0 i0 hne
    rw [← htype] at hne
    rw [h4 n0 i0 hne, hmark]

theorem exists_index_of_has_type {t : apol_domain_trans_table_t} {k : bucket_id} {n x : Nat}
    (h : has_type (get_rules t k n) x) :
    ∃ v, get_rules t k n = some v ∧ ∃ i, ∃ hi : i < v.length, v[i].type = x := by
  obtain ⟨v, hv, e, he, hx⟩ := h
  obtain ⟨i, hi, rfl⟩ := List.getElem_of_mem he
  exact ⟨v, hv, i, hi, hx⟩

/-- The entrypoint walk of the reverse analysis over a table without marks on
execute entries returns, as a valid candidate, every transition into the end
type from another type for which the table holds what it needs. -/
theorem reverse_entrypoint_pass_spec (policy : apol_policy_t)
    (t0 : apol_domain_trans_table_t) (hinv : table_inv policy t0) (A P B : Nat)
    (hB : type_in_range policy.types.length B) (hP1 : 1 ≤ P) (hAB : A ≠ B)
    (htrans : transition_in_table policy t0 A P B)
    (hun : ∀ n i, used_at t0 .exec n i = false) :
    ∃ st', reverse_entrypoint_pass policy B (t0, [], false) = .ok st' ∧ same_shape t0 st'.1 ∧
      ∃ c ∈ st'.2.1, triple c = (some A, some P, some B) ∧ c.valid = true := by
  have hdual : has_type (get_rules t0 .dom_ep (B - 1)) P := by
    have h := (hinv.2 (B - 1) (P - 1)).mpr
    have e1 : P - 1 + 1 = P := by omega
    have e2 : B - 1 + 1 = B := by have := hB.1; omega
    rw [e1, e2] at h
    exact h htrans.2.2.1
  obtain ⟨vd0, hvd0, iP, hiP, htyP⟩ := exists_index_of_has_type hdual
  obtain ⟨ve0, hve0, jA, hjA, htyA⟩ := exists_index_of_has_type htrans.2.1
  obtain ⟨hsorted, hok⟩ := hinv.1.2.2.2 .dom_ep (B - 1) vd0 hvd0
  unfold reverse_entrypoint_pass
  simp only [node_index_pos hB.1, bind, Except.bind, rules_at_of_get hvd0]
  have hne_node : ∀ i, ∀ hi : i < vd0.length, i ≠ iP → P - 1 ≠ vd0[i].type - 1 := by
    intro i hi hne heq
    have h1 := (hok vd0[i] (List.getElem_mem hi)).1.1
    have h2 : vd0[i].type = vd0[iP].type := by rw [htyP]; omega
    exact hne (bucket_sorted_index_unique hsorted hi hiP h2)
  exact foldlM_emit (List.range vd0.length) iP (List.mem_range.mpr hiP) (List.nodup_range _)
    (fun s => same_shape t0 s.1 ∧ used_at s.1 .exec (P - 1) jA = false)
    (fun s => same_shape t0 s.1 ∧
      ∃ c ∈ s.2.1, triple c = (some A, some P, some B) ∧ c.valid = true)
    (by
      intro s a ha hne hs
      have hlt := List.mem_range.mp ha
      obtain ⟨s', h1, h2, -, h4, -⟩ :=
        reverse_entrypoint_step_spec policy t0 hinv B hB vd0 hvd0 a hlt s hs.1
      refine ⟨s', h1, h2, ?_⟩
      rw [h4 _ _ (hne_node a hlt hne)]
      exact hs.2)
    (by
      intro s hs
      obtain ⟨s', h1, h2, -, -, h5⟩ :=
        reverse_entrypoint_step_spec policy t0 hinv B hB vd0 hvd0 iP hiP s hs.1
      rw [htyP] at h5
      exact ⟨s', h1, h2, h5 A jA ve0 hve0 hjA htyA hAB hs.2 htrans⟩)
    (by
      intro s a ha _ hs
      obtain ⟨s', h1, h2, h3, -, -⟩ :=
        reverse_entrypoint_step_spec policy t0 hinv B hB vd0 hvd0 a (List.mem_range.mp ha) s
          hs.1
      obtain ⟨c, hc, hg⟩ := hs.2
      exact ⟨s', h1, h2, c, h3 c hc, hg⟩)
    (t0, [], false) ⟨same_shape_refl t0, hun _ _⟩

theorem find_rule_for_dflt_loop_spec (d : Nat) (l : List apol_domain_trans_rule_t) :
    ∀ i0, (∃ k, k < l.length ∧ find_rule_for_dflt_loop d l i0 = .rule (i0 + k)) ∨
      find_rule_for_dflt_loop d l i0 = .null := by
  induction l with
  | nil => intro i0; right; rfl
  | cons x xs ih =>
    intro i0
    unfold find_rule_for_dflt_loop
    split
    · left; exact ⟨0, by simp, rfl⟩
    · rcases ih (i0 + 1) with ⟨k, hk, h⟩ | h
      · left
        refine ⟨k + 1, by simp [hk], ?_⟩
        rw [h]
        congr 1
        omega
      · right; exact h

/-- A lookup by default type never faults; what it finds is an entry of the
vector. -/
theorem find_dflt_at_total {policy : apol_policy_t} {t : apol_domain_trans_table_t}
    {k : bucket_id} {n : Nat} {v : List apol_domain_trans_rule_t}
    (hv : get_rules t k n = some v) (d : Nat) :
    ∃ r, find_dflt_at policy t k n d = .ok r ∧ ∀ i e, r = some (i, e) → e ∈ v := by
  unfold find_dflt_at
  simp only [rules_at_of_get hv, bind, Except.bind]
  unfold apol_domain_trans_find_rule_for_dflt
  split
  · exact ⟨none, rfl, fun _ _ h => by cases h⟩
  · rcases find_rule_for_dflt_loop_spec d v 0 with ⟨j, hj, h⟩ | h
    · rw [h]
      simp only [Nat.zero_add, deref_rule, List.getElem?_eq_getElem hj]
      exact ⟨_, rfl, fun i e h => by cases h; exact List.getElem_mem hj⟩
    · rw [h]
      exact ⟨none, rfl, fun _ _ h => by cases h⟩

/-- What a lookup finds is an entry of the vector. -/
theorem find_at_mem {policy : apol_policy_t} {t : apol_domain_trans_table_t} {k : bucket_id}
    {n ty : Nat} {v : List apol_domain_trans_rule_t} (hv : get_rules t k n = some v)
    {r : Option (Nat × apol_domain_trans_rule_t)} (h : find_at policy t k n ty = .ok r) :
    ∀ i e, r = some (i, e) → e ∈ v := by
  intro i e hr
  subst hr
  obtain ⟨v', hv', hi, -⟩ := find_at_some h
  rw [hv] at hv'
  cases hv'
  exact List.getElem?_mem hi

theorem drop_used_mem {r : Option (Nat × apol_domain_trans_rule_t)}
    {x : Nat × apol_domain_trans_rule_t} (h : drop_used r = some x) : r = some x := by
  unfold drop_used at h
  split at h
  · split at h
    · cases h
    · exact h
  · cases h

/-- One iteration of the loop over the resolved source types of the sweep. -/
theorem reverse_sweep_member_step_total (policy : apol_policy_t)
    (t0 : apol_domain_trans_table_t) (hinv : table_inv policy t0) (B : Nat)
    (rule_entry tmp_rule : Option apol_domain_trans_rule_t)
    (htmp : ∀ r, tmp_rule = some r → type_in_range policy.types.length r.type)
    (start member : Nat) (hm : type_in_range policy.types.length member)
    (st : trans_state) (hsh : same_shape t0 st.1) :
    ∃ st', reverse_sweep_member_step policy B rule_entry tmp_rule start st member = .ok st' ∧
      same_shape t0 st'.1 ∧ ∀ c ∈ st.2, c ∈ st'.2 := by
  have hsz : t0.size = policy.types.length := hinv.1.1
  have hmn : member - 1 < t0.size := by
    have := hm.1
    have := hm.2
    omega
  unfold reverse_sweep_member_step
  cases tmp_rule with
  | none =>
    obtain ⟨y, hy⟩ := find_at_total hinv hsh .setexec hmn member
    simp only [sweep_exec_lookup, bind, Except.bind, pure, Except.pure, node_index_pos hm.1, hy]
    exact ⟨_, rfl, hsh, fun c hc => List.mem_cons_of_mem _ hc⟩
  | some r =>
    have hr := htmp r rfl
    have hrn : r.type - 1 < t0.size := by
      have := hr.1
      have := hr.2
      omega
    obtain ⟨x, hx⟩ := find_at_total hinv hsh .exec hrn start
    have s1 := same_shape_mark_found hsh .exec (r.type - 1) x
    obtain ⟨y, hy⟩ := find_at_total hinv s1 .setexec hmn member
    simp only [sweep_exec_lookup, bind, Except.bind, pure, Except.pure, node_index_pos hr.1,
      node_index_pos hm.1, hx, hy]
    exact ⟨_, rfl, s1, fun c hc => List.mem_cons_of_mem _ hc⟩

theorem isattr_members {policy : apol_policy_t} (hw : policy_wf policy) {t : Nat}
    (h : qpol_type_get_isattr policy t = true) :
    ∀ m ∈ qpol_type_get_type_iter policy t, type_in_range policy.types.length m := by
  unfold qpol_type_get_isattr at h
  unfold qpol_type_get_type_iter
  cases hd : type_datum_of policy t with
  | none => rw [hd] at h; cases h
  | some d =>
    rw [hd] at h
    simp only at h
    have hmem : d ∈ policy.types := by
      unfold type_datum_of at hd
      split at hd
      · cases hd
      · exact List.getElem?_mem hd
    intro m hm
    exact (hw.2.2 d hmem h m hm).1

/-- One iteration of the sweep of the reverse analysis over a table of the shape
of one built from a well-formed policy ends without fault and keeps the shape
and the candidates. -/
theorem reverse_sweep_step_total (policy : apol_policy_t) (hw : policy_wf policy)
    (t0 : apol_domain_trans_table_t) (hinv : table_inv policy t0) (B : Nat)
    (i : Nat) (hi : i < t0.size) (st : trans_state) (hsh : same_shape t0 st.1) :
    ∃ st', reverse_sweep_step policy B st i = .ok st' ∧ same_shape t0 st'.1 ∧
      ∀ c ∈ st.2, c ∈ st'.2 := by
  unfold reverse_sweep_step
  by_cases hiB : i = B
  · simp only [hiB, if_true, pure, Except.pure]
    exact ⟨_, rfl, hsh, fun c hc => hc⟩
  simp only [hiB, if_false]
  obtain ⟨vp0, hvp0⟩ := get_rules_some_of_lt hinv .proc_trans hi
  obtain ⟨vt0, hvt0⟩ := get_rules_some_of_lt hinv .type_trans hi
  obtain ⟨vp, -, hvp, -, -, hokp⟩ := rules_at_shape hinv hsh hvp0
  obtain ⟨vt, -, hvt, -, -, hokt⟩ := rules_at_shape hinv hsh hvt0
  obtain ⟨r1, hr1⟩ := find_at_total hinv hsh .proc_trans hi B
  have hm1 := find_at_mem hvp hr1
  obtain ⟨r2, hr2, hm2⟩ := @find_dflt_at_total policy _ _ _ _ hvt B
  simp only [bind, Except.bind, hr1, hr2]
  by_cases hnone : ((drop_used r1).isNone && (drop_used r2).isNone) = true
  · simp only [hnone, if_true, pure, Except.pure]
    exact ⟨_, rfl, hsh, fun c hc => hc⟩
  simp only [hnone]
  simp only [Bool.false_eq_true, if_false]
  have s1 := same_shape_mark_found hsh .type_trans i (drop_used r2)
  have s2 := same_shape_mark_found s1 .proc_trans i (drop_used r1)
  have hsrc : ∃ start, sweep_source (drop_used r1) (drop_used r2) = .ok start ∧
      type_in_range policy.types.length start := by
    have hfirst : ∀ e, entry_ok policy e → ∃ start, first_rule_source e.rules = .ok start ∧
        type_in_range policy.types.length start := by
      intro e he
      obtain ⟨-, -, hne, hsrc⟩ := he
      cases hrules : e.rules with
      | nil => exact absurd hrules hne
      | cons a l =>
        refine ⟨a.source, rfl, hsrc a ?_⟩
        rw [hrules]; exact List.mem_cons_self _ _
    unfold sweep_source
    cases h1 : drop_used r1 with
    | some x =>
      obtain ⟨k, e⟩ := x
      exact hfirst e (hokp e (hm1 k e (drop_used_mem h1)))
    | none =>
      cases h2 : drop_used r2 with
      | some x =>
        obtain ⟨k, e⟩ := x
        exact hfirst e (hokt e (hm2 k e (drop_used_mem h2)))
      | none =>
        rw [h1, h2] at hnone
        exact absurd rfl hnone
  obtain ⟨start, hstart, hrange⟩ := hsrc
  simp only [hstart]
  have hmembers : ∀ m ∈ (if qpol_type_get_isattr policy start = true then
      qpol_type_get_type_iter policy start else [start]),
      type_in_range policy.types.length m := by
    intro m hm
    by_cases ha : qpol_type_get_isattr policy start = true
    · rw [if_pos ha] at hm
      exact isattr_members hw ha m hm
    · rw [if_neg ha] at hm
      rw [List.mem_singleton.mp hm]; exact hrange
  have htmp : ∀ r, Option.map (fun x => x.2) (drop_used r2) = some r →
      type_in_range policy.types.length r.type := by
    intro r hr
    cases h2 : drop_used r2 with
    | none => rw [h2] at hr; cases hr
    | some x =>
      rw [h2] at hr
      cases hr
      exact (hokt x.2 (hm2 x.1 x.2 (drop_used_mem h2))).1
  obtain ⟨st', hfold, hI⟩ := foldlM_total _
    (fun s : trans_state => same_shape t0 s.1 ∧ ∀ c ∈ st.2, c ∈ s.2)
    (fun s a ha hs => by
      obtain ⟨s', h1, h2, h3⟩ := reverse_sweep_member_step_total policy t0 hinv B
        (Option.map (fun x => x.2) (drop_used r1)) (Option.map (fun x => x.2) (drop_used r2))
        htmp start a (hmembers a ha) s hs.1
      exact ⟨s', h1, h2, fun c hc => h3 c (hs.2 c hc)⟩)
    (mark_found (mark_found st.1 .type_trans i (drop_used r2)) .proc_trans i (drop_used r1),
      st.2)
    ⟨s2, fun c hc => hc⟩
  exact ⟨st', hfold, hI.1, hI.2⟩

/-! ## Forward and reverse analysis of one transition -/

theorem used_at_unmarked {t : apol_domain_trans_table_t} (h : table_unmarked t)
    (k : bucket_id) (n i : Nat) : used_at t k n i = false := by
  unfold used_at
  cases hv : get_rules t k n with
  | none => rfl
  | some v =>
    cases hi : v[i]? with
    | none => simp only [hi]
    | some e =>
      simp only [hi]
      exact h k n v hv e (List.getElem?_mem hi)

theorem has_type_concrete {policy : apol_policy_t} {t0 : apol_domain_trans_table_t}
    (hinv : table_inv policy t0) {k : bucket_id} {n x : Nat}
    (h : has_type (get_rules t0 k n) x) : qpol_type_get_isattr policy x = false := by
  obtain ⟨v, hv, e, he, rfl⟩ := h
  exact ((hinv.1.2.2.2 k n v hv).2 e he).2.1

theorem get_rules_reset (t : apol_domain_trans_table_t) (k : bucket_id) (n : Nat) :
    get_rules (apol_policy_reset_domain_trans_table t) k n =
      if k = .setexec then get_rules t k n
      else (get_rules t k n).map fun v => v.map fun r => { r with used := false } := by
  cases k <;>
    simp [get_rules, apol_policy_reset_domain_trans_table, List.getElem?_map, Option.map_map,
      Function.comp_def]

theorem same_shape_reset {t0 t : apol_domain_trans_table_t} (h : same_shape t0 t) :
    same_shape t0 (apol_policy_reset_domain_trans_table t) := by
  refine ⟨h.1, fun k n => ?_⟩
  rw [get_rules_reset, ← h.2 k n]
  split
  · rfl
  · cases get_rules t k n with
    | none => rfl
    | some v =>
      simp only [Option.map_some', List.map_map, Option.some.injEq]
      rfl

theorem used_at_reset (t : apol_domain_trans_table_t) (k : bucket_id) (hk : k ≠ .setexec)
    (n i : Nat) : used_at (apol_policy_reset_domain_trans_table t) k n i = false := by
  unfold used_at
  rw [get_rules_reset, if_neg hk]
  cases get_rules t k n with
  | none => rfl
  | some v =>
    simp only [Option.map_some', List.getElem?_map]
    cases v[i]? with
    | none => rfl
    | some e => rfl


theorem get_rules_dom_none (t : apol_domain_trans_table_t) (n : Nat) :
    get_rules t .proc_trans n = none ↔ t.dom_list.length ≤ n := by
  simp [get_rules, List.getElem?_eq_none_iff]

theorem get_rules_exec_none (t : apol_domain_trans_table_t) (n : Nat) :
    get_rules t .exec n = none ↔ t.exec_list.length ≤ n := by
  simp [get_rules, List.getElem?_eq_none_iff]

theorem shape_none_iff {t0 t : apol_domain_trans_table_t} (h : same_shape t0 t)
    (k : bucket_id) (n : Nat) : get_rules t k n = none ↔ get_rules t0 k n = none := by
  have := h.2 k n
  cases h1 : get_rules t k n <;> cases h2 : get_rules t0 k n <;> rw [h1, h2] at this <;>
    simp at this ⊢

/-- The invariant of the table does not depend on the used marks. -/
theorem table_inv_of_shape {policy : apol_policy_t} {t0 t : apol_domain_trans_table_t}
    (hinv : table_inv policy t0) (h : same_shape t0 t) : table_inv policy t := by
  obtain ⟨⟨hsz, hdl, hel, hvec⟩, hdual⟩ := hinv
  have hd : t.dom_list.length = t0.dom_list.length := by
    apply Nat.le_antisymm
    · exact (get_rules_dom_none t _).mp
        ((shape_none_iff h _ _).mpr ((get_rules_dom_none t0 _).mpr (Nat.le_refl _)))
    · exact (get_rules_dom_none t0 _).mp
        ((shape_none_iff h _ _).mp ((get_rules_dom_none t _).mpr (Nat.le_refl _)))
  have he : t.exec_list.length = t0.exec_list.length := by
    apply Nat.le_antisymm
    · exact (get_rules_exec_none t _).mp
        ((shape_none_iff h _ _).mpr ((get_rules_exec_none t0 _).mpr (Nat.le_refl _)))
    · exact (get_rules_exec_none t0 _).mp
        ((shape_none_iff h _ _).mp ((get_rules_exec_none t _).mpr (Nat.le_refl _)))
  refine ⟨⟨h.1.trans hsz, by rw [hd, hdl, h.1], by rw [he, hel, h.1], ?_⟩, ?_⟩
  · intro k n v hv
    have hs := h.2 k n
    rw [hv] at hs
    cases hv0 : get_rules t0 k n with
    | none =>
      rw [hv0] at hs
      cases hs
    | some v0 =>
      rw [hv0] at hs
      simp only [Option.map_some', Option.some.injEq] at hs
      obtain ⟨hsorted, hok⟩ := hvec k n v0 hv0
      refine ⟨?_, ?_⟩
      · unfold bucket_sorted at hsorted ⊢
        rw [map_type_of_view hs]
        exact hsorted
      · intro e hemem
        obtain ⟨e0, he0, hview⟩ := mem_of_view hs hemem
        exact entry_ok_of_view hview (hok e0 he0)
  · intro s x
    rw [has_type_of_shape h, has_type_of_shape h]
    exact hdual s x

theorem transition_in_table_of_shape {policy : apol_policy_t}
    {t0 t : apol_domain_trans_table_t} (h : same_shape t0 t) {a p b : Nat}
    (htr : transition_in_table policy t0 a p b) : transition_in_table policy t a p b := by
  obtain ⟨h1, h2, h3, h4⟩ := htr
  refine ⟨(has_type_of_shape h _ _ _).mpr h1, (has_type_of_shape h _ _ _).mpr h2,
    (has_type_of_shape h _ _ _).mpr h3, fun hn => ?_⟩
  rcases h4 hn with h5 | h5
  · left
    obtain ⟨v0, hv0, e0, he0, hty, hd⟩ := h5
    have hs := h.2 .type_trans (a - 1)
    rw [hv0] at hs
    cases hv : get_rules t .type_trans (a - 1) with
    | none =>
      rw [hv] at hs
      cases hs
    | some v =>
      rw [hv] at hs
      simp only [Option.map_some', Option.some.injEq] at hs
      obtain ⟨e, he, hview⟩ := mem_of_view hs.symm he0
      simp only [entry_view, Prod.mk.injEq] at hview
      exact ⟨v, hv, e, he, hview.1.trans hty, hview.2.1.trans hd⟩
  · exact Or.inr ((has_type_of_shape h _ _ _).mpr h5)

/-- The sweep of the reverse analysis over a table of the shape of one built
from a well-formed policy ends without fault and keeps the candidates. -/
theorem reverse_sweep_pass_total (policy : apol_policy_t) (hw : policy_wf policy)
    (t0 : apol_domain_trans_table_t) (hinv : table_inv policy t0) (B : Nat)
    (st : trans_state) (hsh : same_shape t0 st.1) :
    ∃ st', reverse_sweep_pass policy B st = .ok st' ∧ same_shape t0 st'.1 ∧
      ∀ c ∈ st.2, c ∈ st'.2 := by
  unfold reverse_sweep_pass
  obtain ⟨st', hfold, hI⟩ := foldlM_total (List.range st.1.size)
    (fun s : trans_state => same_shape t0 s.1 ∧ ∀ c ∈ st.2, c ∈ s.2)
    (fun s a ha hs => by
      have hlt : a < t0.size := by
        have := List.mem_range.mp ha
        rw [hsh.1] at this
        exact this
      obtain ⟨s', h1, h2, h3⟩ := reverse_sweep_step_total policy hw t0 hinv B a hlt s hs.1
      exact ⟨s', h1, h2, fun c hc => h3 c (hs.2 c hc)⟩)
    st ⟨hsh, fun c hc => hc⟩
  exact ⟨st', hfold, hI.1, hI.2⟩

/-- Reverse analysis over a table that satisfies the invariant and has no marks
on its execute entries returns, as a valid candidate, every transition into the
end type from another type for which the table holds what it needs. -/
theorem reverse_complete (policy : apol_policy_t) (hw : policy_wf policy)
    (t0 : apol_domain_trans_table_t) (hinv : table_inv policy t0)
    (hun : ∀ n i, used_at t0 .exec n i = false) (A P B : Nat) (hP1 : 1 ≤ P) (hAB : A ≠ B)
    (htrans : transition_in_table policy t0 A P B) :
    ∃ st c, apol_domain_trans_table_get_all_reverse_trans policy t0 [] B = .ok st ∧
      c ∈ st.2 ∧ triple c = (some A, some P, some B) ∧ c.valid = true := by
  have hB := has_type_in_range hinv htrans.1
  have hBc := has_type_concrete hinv htrans.1
  obtain ⟨st1, h1, hsh1, c, hc, hgood⟩ := reverse_entrypoint_pass_spec policy t0 hinv A P B hB
    hP1 hAB htrans hun
  obtain ⟨st2, h2, -, hmono⟩ := reverse_sweep_pass_total policy hw t0 hinv B
    (st1.1, st1.2.1) hsh1
  unfold apol_domain_trans_table_get_all_reverse_trans
  simp only [hBc, Bool.false_eq_true, if_false, bind, Except.bind, h1, h2, pure, Except.pure]
  exact ⟨_, c, rfl, by simpa using hmono c hc, hgood⟩

/-- C6, as the code behaves. For every table built from a well-formed policy and
all types A, P and B with A different from B: if forward analysis from A over
the table as built, which has no marks, returns a valid candidate with start A,
entrypoint P and end B, then reverse analysis from B over the table that the
forward analysis left, with its marks cleared, returns a valid candidate with
start A, entrypoint P and end B. -/
theorem forward_valid_found_by_reverse (policy : apol_policy_t) (hw : policy_wf policy)
    (table : apol_domain_trans_table_t)
    (hb : apol_policy_build_domain_trans_table policy none = .ok table) (A P B : Nat)
    (hAB : A ≠ B) (stf : trans_state)
    (hf : apol_domain_trans_table_get_all_forward_trans policy table [] A = .ok stf)
    (c : apol_domain_trans_t) (hc : c ∈ stf.2)
    (htr : triple c = (some A, some P, some B)) (hv : c.valid = true) :
    ∃ str c', apol_domain_trans_table_get_all_reverse_trans policy
        (apol_policy_reset_domain_trans_table stf.1) [] B = .ok str ∧
      c' ∈ str.2 ∧ triple c' = (some A, some P, some B) ∧ c'.valid = true := by
  obtain ⟨hinv, -⟩ := build_table_built hw hb
  obtain ⟨hsh, hsound⟩ := forward_sound policy table hinv A stf hf
  obtain ⟨a, p, b, htr', -, hp1, htrans⟩ := hsound c hc hv
  rw [htr] at htr'
  simp only [Prod.mk.injEq, Option.some.injEq] at htr'
  obtain ⟨rfl, rfl, rfl⟩ := htr'
  have hsh' := same_shape_reset hsh
  exact reverse_complete policy hw _ (table_inv_of_shape hinv hsh')
    (fun n i => used_at_reset _ .exec (by decide) n i) A P B hp1 hAB
    (transition_in_table_of_shape hsh' htrans)

theorem forward_valid_found_by_reverse_witness :
    apol_policy_build_domain_trans_table (complete_policy 20) none =
        .ok (table_of (complete_policy 20)) ∧
      ((apol_domain_trans_table_get_all_forward_trans (complete_policy 20)
          (table_of (complete_policy 20)) [] 1).map fun s => s.2.map triple_valid) =
        .ok [(some 1, some 3, some 2, true)] ∧
      ∃ str c, apol_domain_trans_table_get_all_reverse_trans (complete_policy 20)
          (apol_policy_reset_domain_trans_table
            (value_or (empty_table, [])
              (apol_domain_trans_table_get_all_forward_trans (complete_policy 20)
                (table_of (complete_policy 20)) [] 1)).1) [] 2 = .ok str ∧
        c ∈ str.2 ∧ triple c = (some 1, some 3, some 2) ∧ c.valid = true :=
  ⟨rfl, rfl,
    forward_valid_found_by_reverse (complete_policy 20) (by decide)
      (table_of (complete_policy 20)) rfl 1 3 2 (by decide)
      (value_or (empty_table, [])
        (apol_domain_trans_table_get_all_forward_trans (complete_policy 20)
          (table_of (complete_policy 20)) [] 1)) rfl _
      (List.mem_cons_self _ _) rfl rfl⟩

/-- C6, counterexample. In the policy where a_t may transition to itself through
a_exec_t, forward analysis from a_t over the table as built returns the valid
candidate a_t, a_exec_t, a_t, and reverse analysis from a_t over the table that
the forward analysis left, with its marks cleared, returns no valid candidate
with that triple. -/
theorem forward_valid_missed_by_reverse :
    apol_policy_build_domain_trans_table self_exec_policy none =
        .ok (table_of self_exec_policy) ∧
      ∃ stf c, apol_domain_trans_table_get_all_forward_trans self_exec_policy
          (table_of self_exec_policy) [] 1 = .ok stf ∧
        c ∈ stf.2 ∧ triple c = (some 1, some 2, some 1) ∧ c.valid = true ∧
        ¬ ∃ str c', apol_domain_trans_table_get_all_reverse_trans self_exec_policy
            (apol_policy_reset_domain_trans_table stf.1) [] 1 = .ok str ∧
          c' ∈ str.2 ∧ triple c' = (some 1, some 2, some 1) ∧ c'.valid = true := by
  refine ⟨rfl, value_or (empty_table, [])
    (apol_domain_trans_table_get_all_forward_trans self_exec_policy
      (table_of self_exec_policy) [] 1), _, rfl, List.mem_cons_self _ _, rfl, rfl, ?_⟩
  rintro ⟨str, c, hstr, hc, -, hv⟩
  have h : (apol_domain_trans_table_get_all_reverse_trans self_exec_policy
      (apol_policy_reset_domain_trans_table
        (value_or (empty_table, [])
          (apol_domain_trans_table_get_all_forward_trans self_exec_policy
            (table_of self_exec_policy) [] 1)).1) [] 1).map
        (fun s => s.2.map triple_valid) =
      .ok [(some 1, some 2, some 1, false), (none, some 2, some 1, false)] := rfl
  rw [hstr] at h
  simp only [Except.map, Except.ok.injEq] at h
  have hm : triple_valid c ∈ str.2.map triple_valid := List.mem_map_of_mem _ hc
  rw [h] at hm
  simp only [triple_valid, hv, List.mem_cons, Prod.mk.injEq, Bool.true_eq_false, and_false,
    List.mem_singleton, or_self, List.not_mem_nil] at hm

/-! ## Completeness of the forward analysis -/

theorem unused_type_set_used {t0 t : apol_domain_trans_table_t} (hsh : same_shape t0 t)
    {k k' : bucket_id} {n n' i' x : Nat} {v : List apol_domain_trans_rule_t}
    {e : apol_domain_trans_rule_t} (hv : get_rules t k' n' = some v) (he : v[i']? = some e)
    (hne : k' = k → n' = n → e.type ≠ x) (h : unused_type t0 t k n x) :
    unused_type t0 (set_used t k' n' i') k n x := by
  intro v0 hv0 i hi hty
  rw [used_at_set_used]
  · exact h v0 hv0 i hi hty
  · rintro ⟨rfl, rfl, rfl⟩
    have hs := hsh.2 k n
    rw [hv, hv0] at hs
    simp only [Option.map_some', Option.some.injEq] at hs
    have hiv : i < v.length := by rw [view_length hs]; exact hi
    have hview := view_getElem hs hiv hi
    have hty' : v[i].type = v0[i].type := congrArg Prod.fst hview
    rw [List.getElem?_eq_getElem hiv] at he
    cases he
    exact hne rfl rfl (hty'.trans hty)

theorem unused_type_mark_found {policy : apol_policy_t} {t0 t : apol_domain_trans_table_t}
    (hsh : same_shape t0 t) {k k' : bucket_id} {n n' ty x : Nat}
    {r : Option (Nat × apol_domain_trans_rule_t)} (hr : find_at policy t k' n' ty = .ok r)
    (hne : k' = k → n' = n → ty ≠ x) (h : unused_type t0 t k n x) :
    unused_type t0 (mark_found t k' n' r) k n x := by
  cases r with
  | none => exact h
  | some p =>
    obtain ⟨i, e⟩ := p
    obtain ⟨v, hv, he, hty⟩ := find_at_some hr
    exact unused_type_set_used hsh hv he (fun h1 h2 => hty ▸ hne h1 h2) h


/-- One iteration of the loop over the type transition entries of the start
type: it ends without fault, keeps the candidates, leaves unmarked the process
transition and entrypoint entries of types other than its default type, and
returns a valid candidate when the table holds the other rules. -/
theorem forward_type_trans_step_spec (policy : apol_policy_t)
    (t0 : apol_domain_trans_table_t) (hinv : table_inv policy t0) (S : Nat)
    (hS : type_in_range policy.types.length S)
    (vt0 : List apol_domain_trans_rule_t)
    (hvt0 : get_rules t0 .type_trans (S - 1) = some vt0) (i : Nat) (hi : i < vt0.length)
    (st : trans_state) (hsh : same_shape t0 st.1) :
    ∃ st', forward_type_trans_step policy S st i = .ok st' ∧ same_shape t0 st'.1 ∧
      (∀ c ∈ st.2, c ∈ st'.2) ∧
      (∀ k n x, type_value vt0[i].dflt ≠ x → (k = .proc_trans ∨ k = .exec_ep) →
        unused_type t0 st.1 k n x → unused_type t0 st'.1 k n x) ∧
      (∀ P B, vt0[i].type = P → vt0[i].dflt = some B →
        has_type (get_rules t0 .proc_trans (S - 1)) B →
        has_type (get_rules t0 .exec (P - 1)) S →
        has_type (get_rules t0 .exec_ep (P - 1)) B →
        ∃ c ∈ st'.2, triple c = (some S, some P, some B) ∧ c.valid = true) := by
  obtain ⟨v, hrules, hget, hview, hsorted, hok⟩ := rules_at_shape hinv hsh hvt0
  have hlen := view_length hview
  have hiv : i < v.length := by omega
  have hvi := view_getElem hview hiv hi
  have htype : v[i].type = vt0[i].type := congrArg Prod.fst hvi
  have hdflt : v[i].dflt = vt0[i].dflt := congrArg (fun p => p.2.1) hvi
  have hentry := hok v[i] (List.getElem_mem hiv)
  have hP : type_in_range policy.types.length v[i].type := hentry.1
  have hsz : t0.size = policy.types.length := hinv.1.1
  have hnP : v[i].type - 1 < t0.size := by
    have := hP.1
    have := hP.2
    omega
  have hnS : S - 1 < t0.size := by
    have := hS.1
    have := hS.2
    omega
  have s0 := same_shape_set_used hsh .type_trans (S - 1) i
  obtain ⟨r1, hr1⟩ := find_at_total hinv s0 .proc_trans hnS (type_value v[i].dflt)
  have s1 := same_shape_mark_found s0 .proc_trans (S - 1) r1
  obtain ⟨r2, hr2⟩ := find_at_total hinv s1 .exec hnP S
  have s2 := same_shape_mark_found s1 .exec (v[i].type - 1) r2
  obtain ⟨r3, hr3⟩ := find_at_total hinv s2 .exec_ep hnP (type_value v[i].dflt)
  have s3 := same_shape_mark_found s2 .exec_ep (v[i].type - 1) r3
  obtain ⟨r4, hr4⟩ := find_at_total hinv s3 .setexec hnS S
  unfold forward_type_trans_step
  simp only [node_index_pos hS.1, bind, Except.bind, hrules, element_at_lt hiv,
    node_index_pos hP.1, hr1, hr2, hr3, hr4, pure, Except.pure]
  refine ⟨_, rfl, s3, fun c hc => List.mem_cons_of_mem _ hc, ?_, ?_⟩
  · intro k n x hx hk hun
    rw [← hdflt] at hx
    refine unused_type_mark_found s2 hr3 (fun _ _ => hx) ?_
    refine unused_type_mark_found s1 hr2
      (fun h => by subst h; rcases hk with h | h <;> cases h) ?_
    refine unused_type_mark_found s0 hr1 (fun _ _ => hx) ?_
    exact unused_type_set_used hsh hget (List.getElem?_eq_getElem hiv)
      (fun h => by subst h; rcases hk with h | h <;> cases h) hun
  · intro P B hPeq hB hpt hex hep
    have hP' : v[i].type = P := htype.trans hPeq
    have hB' : v[i].dflt = some B := hdflt.trans hB
    have hval : type_value v[i].dflt = B := by rw [hB']; rfl
    refine ⟨_, List.mem_cons_self _ _, ?_, ?_⟩
    · simp [triple, hP', hB']
    · rw [valid_condition_iff]
      rw [← hP'] at hex hep
      refine ⟨?_, ?_, ?_, ?_⟩
      · obtain ⟨j, e, _, hf, _, _, _, hne⟩ := find_at_found hinv s1 hex
        rw [hr2] at hf
        cases hf
        exact size_pos_of_ne_nil hne
      · rw [← hval] at hep
        obtain ⟨j, e, _, hf, _, _, _, hne⟩ := find_at_found hinv s2 hep
        rw [hr3] at hf
        cases hf
        exact size_pos_of_ne_nil hne
      · rw [← hval] at hpt
        obtain ⟨j, e, _, hf, _, _, _, hne⟩ := find_at_found hinv s0 hpt
        rw [hr1] at hf
        cases hf
        exact size_pos_of_ne_nil hne
      · intro _
        exact Or.inl (size_pos_of_ne_nil hentry.2.2.1)


/-- One iteration of the loop over the entrypoints of the end type in the
forward analysis. -/
theorem forward_entrypoint_step_spec (policy : apol_policy_t)
    (t0 : apol_domain_trans_table_t) (hinv : table_inv policy t0) (S : Nat)
    (hS : type_in_range policy.types.length S) (rule_entry : apol_domain_trans_rule_t)
    (hB : type_in_range policy.types.length rule_entry.type)
    (vd0 : List apol_domain_trans_rule_t)
    (hvd0 : get_rules t0 .dom_ep (rule_entry.type - 1) = some vd0) (j : Nat)
    (hj : j < vd0.length) (st : trans_state) (hsh : same_shape t0 st.1) :
    ∃ st', forward_entrypoint_step policy S rule_entry st j = .ok st' ∧
      same_shape t0 st'.1 ∧ (∀ c ∈ st.2, c ∈ st'.2) ∧
      (∀ k n x, (k = .proc_trans ∨ k = .exec_ep) →
        ¬ (k = .exec_ep ∧ n = vd0[j].type - 1 ∧ x = rule_entry.type) →
        unused_type t0 st.1 k n x → unused_type t0 st'.1 k n x) ∧
      (∀ P, vd0[j].type = P → unused_type t0 st.1 .exec_ep (P - 1) rule_entry.type →
        rule_entry.rules ≠ [] → has_type (get_rules t0 .exec (P - 1)) S →
        (needs_type_trans_or_setexec policy.policy_version policy.is_modular = true →
          has_type (get_rules t0 .setexec (S - 1)) S) →
        ∃ c ∈ st'.2, triple c = (some S, some P, some rule_entry.type) ∧ c.valid = true) := by
  obtain ⟨v, hrules, hget, hview, hsorted, hok⟩ := rules_at_shape hinv hsh hvd0
  have hlen := view_length hview
  have hjv : j < v.length := by omega
  have hvj := view_getElem hview hjv hj
  have htype : v[j].type = vd0[j].type := congrArg Prod.fst hvj
  have hentry := hok v[j] (List.getElem_mem hjv)
  have hP : type_in_range policy.types.length v[j].type := hentry.1
  have hsz : t0.size = policy.types.length := hinv.1.1
  have hnP : v[j].type - 1 < t0.size := by
    have := hP.1
    have := hP.2
    omega
  have hnS : S - 1 < t0.size := by
    have := hS.1
    have := hS.2
    omega
  have hdual : has_type (get_rules t0 .exec_ep (v[j].type - 1)) rule_entry.type := by
    have h1 : has_type (get_rules t0 .dom_ep (rule_entry.type - 1)) (v[j].type - 1 + 1) := by
      refine ⟨vd0, hvd0, vd0[j], List.getElem_mem hj, ?_⟩
      have := hP.1
      omega
    have h2 := (hinv.2 (rule_entry.type - 1) (v[j].type - 1)).mp h1
    have h3 : rule_entry.type - 1 + 1 = rule_entry.type := by
      have := hB.1
      omega
    rw [h3] at h2
    exact h2
  have s0 := same_shape_set_used hsh .dom_ep (rule_entry.type - 1) j
  obtain ⟨k, e, vv, hf, hvv, hev, hety, hene⟩ := find_at_found hinv s0 hdual
  obtain ⟨vv', hvv', hek, -⟩ := find_at_some hf
  rw [hvv] at hvv'
  cases hvv'
  have hmark0 : ∀ k0 n0 x0, (k0 = .proc_trans ∨ k0 = .exec_ep) →
      unused_type t0 st.1 k0 n0 x0 →
      unused_type t0 (set_used st.1 .dom_ep (rule_entry.type - 1) j) k0 n0 x0 :=
    fun k0 n0 x0 hk hun => unused_type_set_used hsh hget (List.getElem?_eq_getElem hjv)
      (fun h => by subst h; rcases hk with h | h <;> cases h) hun
  unfold forward_entrypoint_step
  simp only [node_index_pos hS.1, bind, Except.bind, node_index_pos hB.1, hrules,
    element_at_lt hjv, node_index_pos hP.1, hf]
  by_cases hu : e.used = true
  · rw [if_pos hu]
    refine ⟨_, rfl, s0, fun c hc => hc, fun k0 n0 x0 hk _ hun => hmark0 k0 n0 x0 hk hun, ?_⟩
    intro P hPeq hun
    exfalso
    have hP' : v[j].type = P := htype.trans hPeq
    rw [← hP'] at hun
    obtain ⟨ve0, hve0⟩ := get_rules_some_of_lt hinv .exec_ep hnP
    have hs := s0.2 .exec_ep (v[j].type - 1)
    rw [hvv, hve0] at hs
    simp only [Option.map_some', Option.some.injEq] at hs
    have hkv : k < vv.length := by
      rcases Nat.lt_or_ge k vv.length with h | h
      · exact h
      · rw [List.getElem?_eq_none h] at hek
        cases hek
    have hk0 : k < ve0.length := by rw [← view_length hs]; exact hkv
    have hvk := view_getElem hs hkv hk0
    rw [List.getElem?_eq_getElem hkv] at hek
    cases hek
    have hty0 : ve0[k].type = rule_entry.type :=
      (congrArg Prod.fst hvk).symm.trans hety
    have h1 := hmark0 .exec_ep (v[j].type - 1) rule_entry.type (Or.inr rfl) hun ve0 hve0 k
      hk0 hty0
    rw [used_at_eq hvv hkv, hu] at h1
    cases h1
  · rw [if_neg hu]
    have s1 := same_shape_set_used s0 .exec_ep (v[j].type - 1) k
    obtain ⟨r1, hr1⟩ := find_at_total hinv s1 .exec hnP S
    obtain ⟨r2, hr2⟩ := find_at_total hinv s1 .setexec hnS S
    simp only [hr1, hr2, pure, Except.pure]
    refine ⟨_, rfl, s1, fun c hc => List.mem_cons_of_mem _ hc, ?_, ?_⟩
    · intro k0 n0 x0 hk hne hun
      refine unused_type_set_used s0 hvv hek ?_ (hmark0 k0 n0 x0 hk hun)
      intro h1 h2 h3
      rw [htype] at h2
      exact hne ⟨h1.symm, h2.symm, (hety.symm.trans h3).symm⟩
    · intro P hPeq _ hrne hex hset
      have hP' : v[j].type = P := htype.trans hPeq
      refine ⟨_, List.mem_cons_self _ _, ?_, ?_⟩
      · simp [triple, hP']
      · rw [valid_condition_iff]
        rw [← hP'] at hex
        refine ⟨?_, size_pos_of_ne_nil hentry.2.2.1, size_pos_of_ne_nil hrne, ?_⟩
        · obtain ⟨j', e', _, hf', _, _, _, hne'⟩ := find_at_found hinv s1 hex
          rw [hr1] at hf'
          cases hf'
          exact size_pos_of_ne_nil hne'
        · intro hneeds
          have hneeds' : needs_type_trans_or_setexec policy.policy_version policy.is_modular
              = true := by
            unfold needs_type_trans_or_setexec
            simpa using hneeds
          right
          obtain ⟨j', e', _, hf', _, _, _, hne'⟩ := find_at_found hinv s1 (hset hneeds')
          rw [hr2] at hf'
          cases hf'
          exact size_pos_of_ne_nil hne'


/-- The loop over the entrypoints of the end type in the forward analysis. -/
theorem forward_entrypoint_loop_spec (policy : apol_policy_t)
    (t0 : apol_domain_trans_table_t) (hinv : table_inv policy t0) (S : Nat)
    (hS : type_in_range policy.types.length S) (rule_entry : apol_domain_trans_rule_t)
    (hB : type_in_range policy.types.length rule_entry.type)
    (vd0 : List apol_domain_trans_rule_t)
    (hvd0 : get_rules t0 .dom_ep (rule_entry.type - 1) = some vd0)
    (st : trans_state) (hsh : same_shape t0 st.1) :
    ∃ st', (List.range vd0.length).foldlM (forward_entrypoint_step policy S rule_entry) st
        = .ok st' ∧
      same_shape t0 st'.1 ∧ (∀ c ∈ st.2, c ∈ st'.2) ∧
      (∀ k n x, (k = .proc_trans ∨ k = .exec_ep) → x ≠ rule_entry.type →
        unused_type t0 st.1 k n x → unused_type t0 st'.1 k n x) ∧
      (∀ P, has_type (get_rules t0 .dom_ep (rule_entry.type - 1)) P →
        unused_type t0 st.1 .exec_ep (P - 1) rule_entry.type →
        rule_entry.rules ≠ [] → has_type (get_rules t0 .exec (P - 1)) S →
        (needs_type_trans_or_setexec policy.policy_version policy.is_modular = true →
          has_type (get_rules t0 .setexec (S - 1)) S) →
        ∃ c ∈ st'.2, triple c = (some S, some P, some rule_entry.type) ∧ c.valid = true) := by
  let I : trans_state → Prop := fun s =>
    same_shape t0 s.1 ∧ (∀ c ∈ st.2, c ∈ s.2) ∧
      (∀ k n x, (k = .proc_trans ∨ k = .exec_ep) → x ≠ rule_entry.type →
        unused_type t0 st.1 k n x → unused_type t0 s.1 k n x)
  have hI0 : I st := ⟨hsh, fun c hc => hc, fun _ _ _ _ _ h => h⟩
  have hstepI : ∀ s a, a ∈ List.range vd0.length → I s →
      ∃ s', forward_entrypoint_step policy S rule_entry s a = .ok s' ∧ I s' := by
    intro s a ha hs
    obtain ⟨s', h1, h2, h3, h4, -⟩ := forward_entrypoint_step_spec policy t0 hinv S hS
      rule_entry hB vd0 hvd0 a (List.mem_range.mp ha) s hs.1
    refine ⟨s', h1, h2, fun c hc => h3 c (hs.2.1 c hc), ?_⟩
    intro k n x hk hx hun
    exact h4 k n x hk (fun h => hx h.2.2) (hs.2.2 k n x hk hx hun)
  obtain ⟨st', hfold, hI⟩ := foldlM_total (List.range vd0.length) I hstepI st hI0
  refine ⟨st', hfold, hI.1, hI.2.1, hI.2.2, ?_⟩
  intro P hdom hunused hrne hex hset
  obtain ⟨vd0', hvd0', jP, hjP, hPeq⟩ := exists_index_of_has_type hdom
  rw [hvd0] at hvd0'
  cases hvd0'
  have hsorted := (hinv.1.2.2.2 .dom_ep _ vd0 hvd0).1
  have hoks := (hinv.1.2.2.2 .dom_ep _ vd0 hvd0).2
  let good : apol_domain_trans_t → Prop := fun c =>
    triple c = (some S, some P, some rule_entry.type) ∧ c.valid = true
  obtain ⟨st'', hfold', hpost⟩ := foldlM_emit (List.range vd0.length) jP
    (List.mem_range.mpr hjP) (List.nodup_range _)
    (fun s => same_shape t0 s.1 ∧ unused_type t0 s.1 .exec_ep (P - 1) rule_entry.type)
    (fun s => same_shape t0 s.1 ∧ ∃ c ∈ s.2, good c)
    (by
      intro s a ha hne hs
      have hal := List.mem_range.mp ha
      obtain ⟨s', h1, h2, -, h4, -⟩ := forward_entrypoint_step_spec policy t0 hinv S hS
        rule_entry hB vd0 hvd0 a hal s hs.1
      refine ⟨s', h1, h2, h4 _ _ _ (Or.inr rfl) ?_ hs.2⟩
      rintro ⟨-, hn, -⟩
      have hne' : vd0[a].type ≠ vd0[jP].type :=
        fun h => hne (bucket_sorted_index_unique hsorted hal hjP h)
      have h1a := (hoks vd0[a] (List.getElem_mem hal)).1.1
      have h1p := (hoks vd0[jP] (List.getElem_mem hjP)).1.1
      rw [← hPeq] at hn
      omega)
    (by
      intro s hs
      obtain ⟨s', h1, h2, -, -, h5⟩ := forward_entrypoint_step_spec policy t0 hinv S hS
        rule_entry hB vd0 hvd0 jP hjP s hs.1
      exact ⟨s', h1, h2, h5 P hPeq hs.2 hrne hex hset⟩)
    (by
      intro s a ha _ hs
      obtain ⟨s', h1, h2, h3, -, -⟩ := forward_entrypoint_step_spec policy t0 hinv S hS
        rule_entry hB vd0 hvd0 a (List.mem_range.mp ha) s hs.1
      obtain ⟨c, hc, hg⟩ := hs.2
      exact ⟨s', h1, h2, c, h3 c hc, hg⟩)
    st ⟨hsh, hunused⟩
  rw [hfold] at hfold'
  cases hfold'
  exact hpost.2

/-- One iteration of the loop over the process transition entries of the start
type. -/
theorem forward_proc_trans_step_spec (policy : apol_policy_t)
    (t0 : apol_domain_trans_table_t) (hinv : table_inv policy t0) (S : Nat)
    (hS : type_in_range policy.types.length S)
    (vp0 : List apol_domain_trans_rule_t)
    (hvp0 : get_rules t0 .proc_trans (S - 1) = some vp0) (i : Nat) (hi : i < vp0.length)
    (st : trans_state) (hsh : same_shape t0 st.1) :
    ∃ st', forward_proc_trans_step policy S st i = .ok st' ∧ same_shape t0 st'.1 ∧
      (∀ c ∈ st.2, c ∈ st'.2) ∧
      (∀ k n x, (k = .proc_trans ∨ k = .exec_ep) → vp0[i].type ≠ x →
        unused_type t0 st.1 k n x → unused_type t0 st'.1 k n x) ∧
      (∀ P B, vp0[i].type = B → B ≠ S → 1 ≤ P →
        unused_type t0 st.1 .proc_trans (S - 1) B →
        unused_type t0 st.1 .exec_ep (P - 1) B →
        has_type (get_rules t0 .exec (P - 1)) S →
        has_type (get_rules t0 .exec_ep (P - 1)) B →
        (needs_type_trans_or_setexec policy.policy_version policy.is_modular = true →
          has_type (get_rules t0 .setexec (S - 1)) S) →
        ∃ c ∈ st'.2, triple c = (some S, some P, some B) ∧ c.valid = true) := by
  obtain ⟨v, hrules, hget, hview, hsorted, hok⟩ := rules_at_shape hinv hsh hvp0
  have hlen := view_length hview
  have hiv : i < v.length := by omega
  have hvi := view_getElem hview hiv hi
  have htype : v[i].type = vp0[i].type := congrArg Prod.fst hvi
  have hentry := hok v[i] (List.getElem_mem hiv)
  have hB : type_in_range policy.types.length v[i].type := hentry.1
  have hsz : t0.size = policy.types.length := hinv.1.1
  have hnB : v[i].type - 1 < t0.size := by
    have := hB.1
    have := hB.2
    omega
  unfold forward_proc_trans_step
  simp only [node_index_pos hS.1, bind, Except.bind, hrules, element_at_lt hiv]
  by_cases hu : v[i].used = true
  · rw [if_pos hu]
    refine ⟨_, rfl, hsh, fun c hc => hc, fun _ _ _ _ _ h => h, ?_⟩
    intro P B hBeq _ _ hun
    exfalso
    have := hun vp0 hvp0 i hi hBeq
    rw [used_at_eq hget hiv, hu] at this
    cases this
  rw [if_neg hu]
  by_cases hs : v[i].type = S
  · rw [if_pos hs]
    refine ⟨_, rfl, hsh, fun c hc => hc, fun _ _ _ _ _ h => h, ?_⟩
    intro P B hBeq hne
    exact (hne (hBeq.symm.trans (htype.symm.trans hs))).elim
  rw [if_neg hs]
  have s0 := same_shape_set_used hsh .proc_trans (S - 1) i
  obtain ⟨vd0, hvd0⟩ := get_rules_some_of_lt hinv .dom_ep hnB
  obtain ⟨eps, heps, -, hview_d, -, -⟩ := rules_at_shape hinv s0 hvd0
  have hlen_d := view_length hview_d
  obtain ⟨st1, hfold, h2, h3, h4, h5⟩ := forward_entrypoint_loop_spec policy t0 hinv S hS
    v[i] hB vd0 hvd0 (set_used st.1 .proc_trans (S - 1) i, st.2) s0
  have hmark0 : ∀ k0 n0 x0, vp0[i].type ≠ x0 → unused_type t0 st.1 k0 n0 x0 →
      unused_type t0 (set_used st.1 .proc_trans (S - 1) i) k0 n0 x0 :=
    fun k0 n0 x0 hx hun => unused_type_set_used hsh hget (List.getElem?_eq_getElem hiv)
      (fun _ _ => htype ▸ hx) hun
  simp only [node_index_pos hB.1, heps, hlen_d, hfold, pure, Except.pure]
  have hmarks : ∀ k n x, (k = .proc_trans ∨ k = .exec_ep) → vp0[i].type ≠ x →
      unused_type t0 st.1 k n x → unused_type t0 st1.1 k n x := by
    intro k n x hk hx hun
    exact h4 k n x hk (fun h => hx (htype.symm.trans h.symm)) (hmark0 k n x hx hun)
  have hemit : ∀ P B, vp0[i].type = B → B ≠ S → 1 ≤ P →
      unused_type t0 st.1 .proc_trans (S - 1) B →
      unused_type t0 st.1 .exec_ep (P - 1) B →
      has_type (get_rules t0 .exec (P - 1)) S →
      has_type (get_rules t0 .exec_ep (P - 1)) B →
      (needs_type_trans_or_setexec policy.policy_version policy.is_modular = true →
        has_type (get_rules t0 .setexec (S - 1)) S) →
      ∃ c ∈ st1.2, triple c = (some S, some P, some B) ∧ c.valid = true := by
    intro P B hBeq _ hP1 _ hunep hex hep hset
    have hB' : v[i].type = B := htype.trans hBeq
    have hdom : has_type (get_rules t0 .dom_ep (v[i].type - 1)) P := by
      have h1 : has_type (get_rules t0 .exec_ep (P - 1)) (v[i].type - 1 + 1) := by
        have : v[i].type - 1 + 1 = B := by
          have := hB.1
          omega
        rw [this]
        exact hep
      have h2 := (hinv.2 (v[i].type - 1) (P - 1)).mpr h1
      have h3 : P - 1 + 1 = P := by omega
      rw [h3] at h2
      exact h2
    have hun' : unused_type t0 (set_used st.1 .proc_trans (S - 1) i) .exec_ep (P - 1)
        v[i].type := by
      rw [hB']
      exact unused_type_set_used hsh hget (List.getElem?_eq_getElem hiv)
        (fun h => by cases h) hunep
    have := h5 P hdom hun' hentry.2.2.1 hex hset
    rw [hB'] at this
    exact this
  split
  · refine ⟨_, rfl, h2, fun c hc => List.mem_cons_of_mem _ (h3 c hc), hmarks, ?_⟩
    intro P B a1 a2 a3 a4 a5 a6 a7 a8
    obtain ⟨c, hc, hg⟩ := hemit P B a1 a2 a3 a4 a5 a6 a7 a8
    exact ⟨c, List.mem_cons_of_mem _ hc, hg⟩
  · exact ⟨_, rfl, h2, h3, hmarks, hemit⟩


/-- The loop over the type transition entries of the start type, run on the
table as given. -/
theorem forward_type_trans_pass_spec (policy : apol_policy_t)
    (t0 : apol_domain_trans_table_t) (hinv : table_inv policy t0) (S : Nat)
    (hS : type_in_range policy.types.length S) :
    ∃ st1, forward_type_trans_pass policy S (t0, []) = .ok st1 ∧ same_shape t0 st1.1 ∧
      (∀ x, (∀ v0, get_rules t0 .type_trans (S - 1) = some v0 →
          ∀ e ∈ v0, type_value e.dflt ≠ x) →
        ∀ k n, (k = .proc_trans ∨ k = .exec_ep) → unused_type t0 t0 k n x →
          unused_type t0 st1.1 k n x) ∧
      (∀ P B, type_trans_entry t0 S P B →
        has_type (get_rules t0 .proc_trans (S - 1)) B →
        has_type (get_rules t0 .exec (P - 1)) S →
        has_type (get_rules t0 .exec_ep (P - 1)) B →
        ∃ c ∈ st1.2, triple c = (some S, some P, some B) ∧ c.valid = true) := by
  have hsz : t0.size = policy.types.length := hinv.1.1
  have hnS : S - 1 < t0.size := by
    have := hS.1
    have := hS.2
    omega
  obtain ⟨vt0, hvt0⟩ := get_rules_some_of_lt hinv .type_trans hnS
  have hstep := forward_type_trans_step_spec policy t0 hinv S hS vt0 hvt0
  obtain ⟨st1, hfold, hsh1⟩ := foldlM_total (List.range vt0.length)
    (fun s : trans_state => same_shape t0 s.1)
    (fun s a ha hs => by
      obtain ⟨s', h1, h2, -⟩ := hstep a (List.mem_range.mp ha) s hs
      exact ⟨s', h1, h2⟩)
    (t0, []) (same_shape_refl t0)
  unfold forward_type_trans_pass
  simp only [node_index_pos hS.1, bind, Except.bind, rules_at_of_get hvt0, hfold]
  refine ⟨st1, rfl, hsh1, ?_, ?_⟩
  · intro x hx k n hk hun
    obtain ⟨st', hfold', hI⟩ := foldlM_total (List.range vt0.length)
      (fun s : trans_state => same_shape t0 s.1 ∧ unused_type t0 s.1 k n x)
      (fun s a ha hs => by
        have hal := List.mem_range.mp ha
        obtain ⟨s', h1, h2, -, h4, -⟩ := hstep a hal s hs.1
        exact ⟨s', h1, h2, h4 k n x (hx vt0 hvt0 _ (List.getElem_mem hal)) hk hs.2⟩)
      (t0, []) ⟨same_shape_refl t0, hun⟩
    rw [hfold] at hfold'
    cases hfold'
    exact hI.2
  · intro P B htt hpt hex hep
    obtain ⟨v, hv, e, he, hety, hed⟩ := htt
    rw [hvt0] at hv
    cases hv
    obtain ⟨i, hi, hie⟩ := List.getElem_of_mem he
    subst hie
    obtain ⟨st', hfold', hpost⟩ := foldlM_emit (List.range vt0.length) i
      (List.mem_range.mpr hi) (List.nodup_range _)
      (fun s : trans_state => same_shape t0 s.1)
      (fun s : trans_state => same_shape t0 s.1 ∧
        ∃ c ∈ s.2, triple c = (some S, some P, some B) ∧ c.valid = true)
      (fun s a ha _ hs => by
        obtain ⟨s', h1, h2, -⟩ := hstep a (List.mem_range.mp ha) s hs
        exact ⟨s', h1, h2⟩)
      (fun s hs => by
        obtain ⟨s', h1, h2, -, -, h5⟩ := hstep i hi s hs
        exact ⟨s', h1, h2, h5 P B hety hed hpt hex hep⟩)
      (fun s a ha _ hs => by
        obtain ⟨s', h1, h2, h3, -⟩ := hstep a (List.mem_range.mp ha) s hs.1
        obtain ⟨c, hc, hg⟩ := hs.2
        exact ⟨s', h1, h2, c, h3 c hc, hg⟩)
      (t0, []) (same_shape_refl t0)
    rw [hfold] at hfold'
    cases hfold'
    exact hpost.2

/-- The loop over the process transition entries of the start type. -/
theorem forward_proc_trans_pass_spec (policy : apol_policy_t)
    (t0 : apol_domain_trans_table_t) (hinv : table_inv policy t0) (S : Nat)
    (hS : type_in_range policy.types.length S) (st : trans_state)
    (hsh : same_shape t0 st.1) :
    ∃ st2, forward_proc_trans_pass policy S st = .ok st2 ∧ same_shape t0 st2.1 ∧
      (∀ c ∈ st.2, c ∈ st2.2) ∧
      (∀ P B, B ≠ S → 1 ≤ P → has_type (get_rules t0 .proc_trans (S - 1)) B →
        unused_type t0 st.1 .proc_trans (S - 1) B →
        unused_type t0 st.1 .exec_ep (P - 1) B →
        has_type (get_rules t0 .exec (P - 1)) S →
        has_type (get_rules t0 .exec_ep (P - 1)) B →
        (needs_type_trans_or_setexec policy.policy_version policy.is_modular = true →
          has_type (get_rules t0 .setexec (S - 1)) S) →
        ∃ c ∈ st2.2, triple c = (some S, some P, some B) ∧ c.valid = true) := by
  have hsz : t0.size = policy.types.length := hinv.1.1
  have hnS : S - 1 < t0.size := by
    have := hS.1
    have := hS.2
    omega
  obtain ⟨vp0, hvp0⟩ := get_rules_some_of_lt hinv .proc_trans hnS
  obtain ⟨v, hrules, -, hview, -, -⟩ := rules_at_shape hinv hsh hvp0
  have hlen := view_length hview
  have hstep := forward_proc_trans_step_spec policy t0 hinv S hS vp0 hvp0
  obtain ⟨st2, hfold, hsh2, hmono⟩ := foldlM_total (List.range vp0.length)
    (fun s : trans_state => same_shape t0 s.1 ∧ ∀ c ∈ st.2, c ∈ s.2)
    (fun s a ha hs => by
      obtain ⟨s', h1, h2, h3, -⟩ := hstep a (List.mem_range.mp ha) s hs.1
      exact ⟨s', h1, h2, fun c hc => h3 c (hs.2 c hc)⟩)
    st ⟨hsh, fun c hc => hc⟩
  unfold forward_proc_trans_pass
  simp only [node_index_pos hS.1, bind, Except.bind, hrules, hlen, hfold]
  refine ⟨st2, rfl, hsh2, hmono, ?_⟩
  intro P B hne hP1 hpt hunp hune hex hep hset
  obtain ⟨vp0', hvp0', i, hi, hiB⟩ := exists_index_of_has_type hpt
  rw [hvp0] at hvp0'
  cases hvp0'
  have hsorted := (hinv.1.2.2.2 .proc_trans _ vp0 hvp0).1
  obtain ⟨st', hfold', hpost⟩ := foldlM_emit (List.range vp0.length) i
    (List.mem_range.mpr hi) (List.nodup_range _)
    (fun s : trans_state => same_shape t0 s.1 ∧ unused_type t0 s.1 .proc_trans (S - 1) B ∧
      unused_type t0 s.1 .exec_ep (P - 1) B)
    (fun s : trans_state => same_shape t0 s.1 ∧
      ∃ c ∈ s.2, triple c = (some S, some P, some B) ∧ c.valid = true)
    (fun s a ha hai hs => by
      have hal := List.mem_range.mp ha
      obtain ⟨s', h1, h2, -, h4, -⟩ := hstep a hal s hs.1
      have hx : vp0[a].type ≠ B := by
        rw [← hiB]
        exact fun h => hai (bucket_sorted_index_unique hsorted hal hi h)
      exact ⟨s', h1, h2, h4 _ _ _ (Or.inl rfl) hx hs.2.1, h4 _ _ _ (Or.inr rfl) hx hs.2.2⟩)
    (fun s hs => by
      obtain ⟨s', h1, h2, -, -, h5⟩ := hstep i hi s hs.1
      exact ⟨s', h1, h2, h5 P B hiB hne hP1 hs.2.1 hs.2.2 hex hep hset⟩)
    (fun s a ha _ hs => by
      obtain ⟨s', h1, h2, h3, -⟩ := hstep a (List.mem_range.mp ha) s hs.1
      obtain ⟨c, hc, hg⟩ := hs.2
      exact ⟨s', h1, h2, c, h3 c hc, hg⟩)
    st ⟨hsh, hunp, hune⟩
  rw [hfold] at hfold'
  cases hfold'
  exact hpost.2

theorem unused_type_unmarked {t0 : apol_domain_trans_table_t} (hun : table_unmarked t0)
    (k : bucket_id) (n x : Nat) : unused_type t0 t0 k n x :=
  fun _ _ i _ _ => used_at_unmarked hun k n i

/-- Forward analysis over a table that satisfies the invariant and has no marks
returns, as a valid candidate, a transition to another type for which the table
holds what it needs, when the type transition entries of the start type agree
with it. -/
theorem forward_complete (policy : apol_policy_t) (t0 : apol_domain_trans_table_t)
    (hinv : table_inv policy t0) (hun : table_unmarked t0) (S EP END : Nat)
    (hEP : 1 ≤ EP) (hne : END ≠ S) (htrans : transition_in_table policy t0 S EP END)
    (hag : type_trans_agrees t0 S EP END) :
    ∃ st c, apol_domain_trans_table_get_all_forward_trans policy t0 [] S = .ok st ∧
      c ∈ st.2 ∧ triple c = (some S, some EP, some END) ∧ c.valid = true := by
  obtain ⟨hpt, hex, hep, hset⟩ := htrans
  have hS := has_type_in_range hinv hex
  have hSc := has_type_concrete hinv hex
  have hEND := has_type_in_range hinv hpt
  obtain ⟨st1, h1, hsh1, hmarks, hemit1⟩ := forward_type_trans_pass_spec policy t0 hinv S hS
  obtain ⟨st2, h2, -, hmono, hemit2⟩ := forward_proc_trans_pass_spec policy t0 hinv S hS
    st1 hsh1
  unfold apol_domain_trans_table_get_all_forward_trans
  simp only [hSc, Bool.false_eq_true, if_false, bind, Except.bind, h1, h2, pure, Except.pure]
  rcases hag with htt | hnone
  · obtain ⟨c, hc, hg⟩ := hemit1 EP END htt hpt hex hep
    exact ⟨_, c, rfl, by simpa using hmono c hc, hg⟩
  · have hx : ∀ v0, get_rules t0 .type_trans (S - 1) = some v0 →
        ∀ e ∈ v0, type_value e.dflt ≠ END := by
      intro v0 hv0 e he hval
      apply hnone
      refine ⟨e.type, v0, hv0, e, he, rfl, ?_⟩
      cases hd : e.dflt with
      | none =>
        rw [hd] at hval
        have := hEND.1
        simp only [type_value] at hval
        omega
      | some d =>
        rw [hd] at hval
        simp only [type_value] at hval
        rw [hval]
    have hset' : needs_type_trans_or_setexec policy.policy_version policy.is_modular = true →
        has_type (get_rules t0 .setexec (S - 1)) S := by
      intro hneeds
      rcases hset hneeds with h | h
      · exact (hnone ⟨EP, h⟩).elim
      · exact h
    obtain ⟨c, hc, hg⟩ := hemit2 EP END hne hEP hpt
      (hmarks END hx _ _ (Or.inl rfl) (unused_type_unmarked hun _ _ _))
      (hmarks END hx _ _ (Or.inr rfl) (unused_type_unmarked hun _ _ _)) hex hep hset'
    exact ⟨_, c, rfl, by simpa using hc, hg⟩

/-- C8, as the code behaves. For every table built from a well-formed policy,
every start type S, every type END other than S and every entrypoint EP: if the
table holds a process transition entry from S to END, an execute entry for S
and an entrypoint entry for END in the exec node of EP and, when the version is
15 or later or the policy is modular, a type transition entry of S for EP with
default END or a setexec entry of S, and if the type transition entries of S
with default END, when there are any, include one for EP, then forward analysis
from S over the table as built returns a valid candidate with start S,
entrypoint EP and end END. -/
theorem forward_finds_transition (policy : apol_policy_t) (hw : policy_wf policy)
    (table : apol_domain_trans_table_t)
    (hb : apol_policy_build_domain_trans_table policy none = .ok table) (S EP END : Nat)
    (hEP : 1 ≤ EP) (hne : END ≠ S) (htrans : transition_in_table policy table S EP END)
    (hag : type_trans_agrees table S EP END) :
    ∃ st c, apol_domain_trans_table_get_all_forward_trans policy table [] S = .ok st ∧
      c ∈ st.2 ∧ triple c = (some S, some EP, some END) ∧ c.valid = true := by
  obtain ⟨hinv, hun⟩ := build_table_built hw hb
  exact forward_complete policy table hinv hun S EP END hEP hne htrans hag

theorem forward_finds_transition_witness :
    apol_policy_build_domain_trans_table (complete_policy 20) none =
        .ok (table_of (complete_policy 20)) ∧
      transition_in_table (complete_policy 20) (table_of (complete_policy 20)) 1 3 2 ∧
      ∃ st c, apol_domain_trans_table_get_all_forward_trans (complete_policy 20)
          (table_of (complete_policy 20)) [] 1 = .ok st ∧
        c ∈ st.2 ∧ triple c = (some 1, some 3, some 2) ∧ c.valid = true :=
  have htt : type_trans_entry (table_of (complete_policy 20)) 1 3 2 :=
    ⟨_, rfl, _, List.mem_cons_self _ _, rfl, rfl⟩
  have htrans : transition_in_table (complete_policy 20) (table_of (complete_policy 20))
      1 3 2 :=
    ⟨⟨_, rfl, _, List.mem_cons_self _ _, rfl⟩, ⟨_, rfl, _, List.mem_cons_self _ _, rfl⟩,
      ⟨_, rfl, _, List.mem_cons_self _ _, rfl⟩, fun _ => Or.inl htt⟩
  ⟨rfl, htrans,
    forward_finds_transition (complete_policy 20) (by decide)
      (table_of (complete_policy 20)) rfl 1 3 2 (by decide) (by decide) htrans
      (Or.inl htt)⟩

/-- C8, counterexample. In the policy whose type_transition rule names other_t
as the entrypoint of the transition from s_t to end_t, at version 14, the table
holds the process transition entry from s_t to end_t, the execute entry for s_t
and the entrypoint entry for end_t in the exec node of ep_t, and forward
analysis from s_t over the table as built returns no valid candidate with end
type end_t. -/
theorem forward_misses_transition :
    apol_policy_build_domain_trans_table other_entrypoint_policy none =
        .ok (table_of other_entrypoint_policy) ∧
      transition_in_table other_entrypoint_policy (table_of other_entrypoint_policy) 1 3 2 ∧
      ¬ ∃ st c, apol_domain_trans_table_get_all_forward_trans other_entrypoint_policy
          (table_of other_entrypoint_policy) [] 1 = .ok st ∧
        c ∈ st.2 ∧ c.end_type = some 2 ∧ c.valid = true := by
  refine ⟨rfl, ⟨⟨_, rfl, _, List.mem_cons_self _ _, rfl⟩,
    ⟨_, rfl, _, List.mem_cons_self _ _, rfl⟩, ⟨_, rfl, _, List.mem_cons_self _ _, rfl⟩,
    fun h => by cases h⟩, ?_⟩
  rintro ⟨st, c, hst, hc, -, hv⟩
  have h : (apol_domain_trans_table_get_all_forward_trans other_entrypoint_policy
      (table_of other_entrypoint_policy) [] 1).map (fun s => s.2.map triple_valid) =
      .ok [(some 1, some 4, some 2, false)] := rfl
  rw [hst] at h
  simp only [Except.map, Except.ok.injEq] at h
  have hm : triple_valid c ∈ st.2.map triple_valid := List.mem_map_of_mem _ hc
  rw [h] at hm
  simp only [triple_valid, hv, List.mem_singleton, Prod.mk.injEq, Bool.true_eq_false,
    and_false] at hm

/-! ## The filters -/

theorem filter_valid_loop_eq (valid : Bool) (rest kept : List apol_domain_trans_t) :
    filter_valid_loop valid kept rest = kept ++ rest.filter fun c => c.valid == valid := by
  induction rest generalizing kept with
  | nil => simp [filter_valid_loop]
  | cons cur next ih =>
    unfold filter_valid_loop
    by_cases h : (cur.valid == valid) = true
    · rw [if_pos h, ih]
      simp [List.filter_cons, h]
    · rw [if_neg h, ih]
      simp [List.filter_cons, h]

/-- C13. The validity filter leaves exactly the candidates whose valid flag
equals the argument, in their order, and applying it a second time with the same
argument changes nothing. -/
theorem filter_valid_eq_filter (L : List apol_domain_trans_t) (v : Bool) :
    apol_domain_trans_filter_valid L v = .ok (L.filter fun c => c.valid == v) ∧
      (apol_domain_trans_filter_valid L v >>= fun l => apol_domain_trans_filter_valid l v) =
        apol_domain_trans_filter_valid L v := by
  have h : ∀ l, apol_domain_trans_filter_valid l v = .ok (l.filter fun c => c.valid == v) := by
    intro l
    unfold apol_domain_trans_filter_valid
    rw [filter_valid_loop_eq]
    rfl
  refine ⟨h L, ?_⟩
  rw [h L]
  show apol_domain_trans_filter_valid _ v = _
  rw [h, List.filter_filter]
  simp

theorem filter_result_types_loop_ok (cmp : Option Nat → Option String → Int)
    (dta : apol_domain_trans_analysis_t) (rest kept : List apol_domain_trans_t)
    (h : ∀ c ∈ rest, 0 ≤ cmp (if dta.direction = APOL_DOMAIN_TRANS_DIRECTION_REVERSE
      then c.start_type else c.end_type) dta.result) :
    filter_result_types_loop cmp dta kept rest =
      .ok (kept ++ rest.filter fun c =>
        decide (0 < cmp (if dta.direction = APOL_DOMAIN_TRANS_DIRECTION_REVERSE
          then c.start_type else c.end_type) dta.result)) := by
  induction rest generalizing kept with
  | nil => simp [filter_result_types_loop]
  | cons cur next ih =>
    have hcur := h cur (List.mem_cons_self _ _)
    have hnext := fun c hc => h c (List.mem_cons_of_mem _ hc)
    unfold filter_result_types_loop
    dsimp only
    rw [if_neg (by omega)]
    by_cases hp : cmp (if dta.direction = APOL_DOMAIN_TRANS_DIRECTION_REVERSE
        then cur.start_type else cur.end_type) dta.result > 0
    · rw [if_pos hp, ih _ hnext]
      simp [List.filter_cons, hp]
    · rw [if_neg hp, ih _ hnext]
      simp [List.filter_cons, hp]

theorem filter_result_types_loop_error (cmp : Option Nat → Option String → Int)
    (dta : apol_domain_trans_analysis_t) (rest kept : List apol_domain_trans_t)
    (h : ∃ c ∈ rest, cmp (if dta.direction = APOL_DOMAIN_TRANS_DIRECTION_REVERSE
      then c.start_type else c.end_type) dta.result < 0) :
    filter_result_types_loop cmp dta kept rest = .error .upstream := by
  induction rest generalizing kept with
  | nil =>
    obtain ⟨c, hc, _⟩ := h
    cases hc
  | cons cur next ih =>
    unfold filter_result_types_loop
    dsimp only
    by_cases hn : cmp (if dta.direction = APOL_DOMAIN_TRANS_DIRECTION_REVERSE
        then cur.start_type else cur.end_type) dta.result < 0
    · rw [if_pos hn]
    · rw [if_neg hn]
      have hrest : ∃ c ∈ next, cmp (if dta.direction = APOL_DOMAIN_TRANS_DIRECTION_REVERSE
          then c.start_type else c.end_type) dta.result < 0 := by
        obtain ⟨c, hc, hlt⟩ := h
        rcases List.mem_cons.mp hc with rfl | hc
        · exact absurd hlt hn
        · exact ⟨c, hc, hlt⟩
      by_cases hp : cmp (if dta.direction = APOL_DOMAIN_TRANS_DIRECTION_REVERSE
          then cur.start_type else cur.end_type) dta.result > 0
      · rw [if_pos hp]
        exact ih _ hrest
      · rw [if_neg hp]
        exact ih _ hrest


theorem reported_type_eq {d : Nat}
    (hd : d = APOL_DOMAIN_TRANS_DIRECTION_FORWARD ∨ d = APOL_DOMAIN_TRANS_DIRECTION_REVERSE)
    (c : apol_domain_trans_t) :
    (if d = APOL_DOMAIN_TRANS_DIRECTION_REVERSE then c.start_type else c.end_type) =
      reported_type d c := by
  unfold reported_type
  rcases hd with rfl | rfl
  · rfl
  · rfl

/-- C14. For a request whose direction is forward or reverse: when the match
function fails on no candidate, the result-type filter leaves exactly the
candidates whose reported type it matches, in their order; and the filter
returns an error if and only if the match function fails on some candidate. -/
theorem filter_result_types_spec (m : Option Nat → Option String → Int)
    (dta : apol_domain_trans_analysis_t) (L : List apol_domain_trans_t)
    (hd : dta.direction = APOL_DOMAIN_TRANS_DIRECTION_FORWARD ∨
      dta.direction = APOL_DOMAIN_TRANS_DIRECTION_REVERSE) :
    ((∀ c ∈ L, 0 ≤ m (reported_type dta.direction c) dta.result) →
        apol_domain_trans_filter_result_types m dta L =
          .ok (L.filter fun c => decide (0 < m (reported_type dta.direction c) dta.result))) ∧
      ((∃ e, apol_domain_trans_filter_result_types m dta L = .error e) ↔
        ∃ c ∈ L, m (reported_type dta.direction c) dta.result < 0) := by
  have hrep := reported_type_eq hd
  unfold apol_domain_trans_filter_result_types
  have hok : (∀ c ∈ L, 0 ≤ m (reported_type dta.direction c) dta.result) →
      filter_result_types_loop m dta [] L =
        .ok (L.filter fun c => decide (0 < m (reported_type dta.direction c) dta.result)) := by
    intro h
    rw [filter_result_types_loop_ok m dta L [] (fun c hc => by rw [hrep]; exact h c hc)]
    simp only [hrep, List.nil_append]
  refine ⟨hok, ?_, ?_⟩
  · rintro ⟨e, he⟩
    by_contra hno
    have hall : ∀ c ∈ L, 0 ≤ m (reported_type dta.direction c) dta.result := by
      intro c hc
      by_contra hlt
      exact hno ⟨c, hc, by omega⟩
    rw [hok hall] at he
    cases he
  · rintro ⟨c, hc, hlt⟩
    exact ⟨_, filter_result_types_loop_error m dta L [] ⟨c, hc, by rw [hrep]; exact hlt⟩⟩

theorem filter_result_types_spec_witness :
    apol_domain_trans_filter_result_types example_match example_request example_candidates =
      .ok (example_candidates.filter fun c =>
        decide (0 < example_match (reported_type example_request.direction c)
          example_request.result)) :=
  (filter_result_types_spec example_match example_request example_candidates
    (Or.inl rfl)).1 (by decide)

/-- C15. For a request whose direction is forward or reverse and a match
function that never fails, the validity filter for valid candidates followed by
the result-type filter gives the same list as the result-type filter followed by
the validity filter: the candidates that are valid and whose reported type is
matched, in their order. -/
theorem filters_commute (m : Option Nat → Option String → Int)
    (dta : apol_domain_trans_analysis_t) (L : List apol_domain_trans_t)
    (hd : dta.direction = APOL_DOMAIN_TRANS_DIRECTION_FORWARD ∨
      dta.direction = APOL_DOMAIN_TRANS_DIRECTION_REVERSE)
    (hm : ∀ ty pat, 0 ≤ m ty pat) :
    (apol_domain_trans_filter_valid L true >>=
        apol_domain_trans_filter_result_types m dta) =
      .ok (L.filter fun c =>
        c.valid && decide (0 < m (reported_type dta.direction c) dta.result)) ∧
    (apol_domain_trans_filter_result_types m dta L >>= fun l =>
        apol_domain_trans_filter_valid l true) =
      .ok (L.filter fun c =>
        c.valid && decide (0 < m (reported_type dta.direction c) dta.result)) := by
  have hrep := reported_type_eq hd
  have hv : ∀ l, apol_domain_trans_filter_valid l true = .ok (l.filter fun c => c.valid) := by
    intro l
    unfold apol_domain_trans_filter_valid
    rw [filter_valid_loop_eq]
    simp
  have hr : ∀ l, apol_domain_trans_filter_result_types m dta l =
      .ok (l.filter fun c => decide (0 < m (reported_type dta.direction c) dta.result)) := by
    intro l
    unfold apol_domain_trans_filter_result_types
    rw [filter_result_types_loop_ok m dta l [] (fun c _ => hm _ _)]
    simp only [hrep, List.nil_append]
  constructor
  · rw [hv]
    show apol_domain_trans_filter_result_types m dta _ = _
    rw [hr, List.filter_filter]
    congr 2
    funext c
    exact Bool.and_comm _ _
  · rw [hr]
    show apol_domain_trans_filter_valid _ true = _
    rw [hv, List.filter_filter]

theorem filters_commute_witness :
    (apol_domain_trans_filter_valid example_candidates true >>=
        apol_domain_trans_filter_result_types example_match example_request) =
      .ok (example_candidates.filter fun c =>
        c.valid && decide (0 < example_match (reported_type example_request.direction c)
          example_request.result)) ∧
    (apol_domain_trans_filter_result_types example_match example_request
        example_candidates >>= fun l => apol_domain_trans_filter_valid l true) =
      .ok (example_candidates.filter fun c =>
        c.valid && decide (0 < example_match (reported_type example_request.direction c)
          example_request.result)) :=
  filters_commute example_match example_request example_candidates (Or.inl rfl)
    (fun ty _ => by unfold example_match; split <;> decide)

theorem foldl_append_flatMap {α β : Type} (f : α → List β) (l : List α) (init : List β) :
    l.foldl (fun acc x => acc ++ f x) init = init ++ l.flatMap f := by
  induction l generalizing init with
  | nil => simp
  | cons x xs ih => simp [List.foldl_cons, ih, List.flatMap_cons, List.append_assoc]

theorem access_rules_of_eq
    (q : Option Nat → Nat → String → List String → List qpol_avrule_t)
    (T : List Nat) (P : List apol_obj_perm_t) (c : apol_domain_trans_t) :
    access_rules_of q T P c = c.access_rules ++ access_evidence q T P c := by
  unfold access_rules_of access_evidence
  have h : ∀ (acc : List qpol_avrule_t) (t : Nat),
      P.foldl (fun acc op => acc ++ q c.end_type t op.obj_name op.perms) acc =
        acc ++ P.flatMap fun p => q c.end_type t p.obj_name p.perms :=
    fun acc t => foldl_append_flatMap _ P acc
  simp only [h]
  exact foldl_append_flatMap _ T _

theorem filter_access_loop_eq
    (q : Option Nat → Nat → String → List String → List qpol_avrule_t)
    (T : List Nat) (P : List apol_obj_perm_t) (rest kept : List apol_domain_trans_t) :
    filter_access_loop q T P kept rest =
      kept ++ (rest.map fun c =>
        { c with access_rules := c.access_rules ++ access_evidence q T P c }).filter
          fun c => decide (c.access_rules ≠ []) := by
  induction rest generalizing kept with
  | nil => simp [filter_access_loop]
  | cons cur next ih =>
    unfold filter_access_loop
    dsimp only
    rw [access_rules_of_eq]
    by_cases h : cur.access_rules ++ access_evidence q T P cur = []
    · rw [if_neg (by simp [h]), ih]
      simp [List.filter_cons, h]
    · rw [if_pos (by simpa using h), ih]
      simp [List.filter_cons, h]

theorem access_evidence_ne_nil
    (q : Option Nat → Nat → String → List String → List qpol_avrule_t)
    (T : List Nat) (P : List apol_obj_perm_t) (c : apol_domain_trans_t) :
    access_evidence q T P c ≠ [] ↔
      ∃ t ∈ T, ∃ p ∈ P, q c.end_type t p.obj_name p.perms ≠ [] := by
  unfold access_evidence
  simp [List.flatMap_eq_nil_iff]


theorem filter_map_eq_map_filter {α β : Type} (f g : α → β) (p : β → Bool) (r : α → Bool)
    (L : List α) (h : ∀ a ∈ L, p (f a) = r a ∧ f a = g a) :
    (L.map f).filter p = (L.filter r).map g := by
  induction L with
  | nil => rfl
  | cons a rest ih =>
    have ha := h a (List.mem_cons_self _ _)
    have ih' := ih (fun b hb => h b (List.mem_cons_of_mem _ hb))
    rw [List.map_cons, List.filter_cons, List.filter_cons, ha.1, ih']
    cases r a
    · rfl
    · simp [ha.2]

theorem filter_access_fresh
    (q : Option Nat → Nat → String → List String → List qpol_avrule_t)
    (T : List Nat) (P : List apol_obj_perm_t) (L : List apol_domain_trans_t)
    (hfresh : ∀ c ∈ L, c.access_rules = []) :
    ((L.map fun c =>
        { c with access_rules := c.access_rules ++ access_evidence q T P c }).filter
          fun c => decide (c.access_rules ≠ [])) =
      (L.filter fun c =>
        decide (∃ t ∈ T, ∃ p ∈ P, q c.end_type t p.obj_name p.perms ≠ [])).map
          fun c => { c with access_rules := access_evidence q T P c } := by
  apply filter_map_eq_map_filter
  intro c hc
  have hc' := hfresh c hc
  refine ⟨?_, by rw [hc', List.nil_append]⟩
  show decide (c.access_rules ++ access_evidence q T P c ≠ []) = _
  rw [hc', List.nil_append]
  exact decide_eq_decide.mpr (access_evidence_ne_nil q T P c)

/-- C16. For candidates that enter with an empty access vector, as
`apol_domain_trans_new` creates them: the access filter keeps, in their order,
exactly the candidates for which the allow-rule query finds a rule for at least
one access type and one class and permission set; each kept candidate holds the
rules found over all pairs, in the order of the pairs; and when no candidate
matches the filter returns the empty list without error. -/
theorem filter_access_spec
    (q : Option Nat → Nat → String → List String → List qpol_avrule_t)
    (L : List apol_domain_trans_t) (T : List Nat) (P : List apol_obj_perm_t)
    (hfresh : ∀ c ∈ L, c.access_rules = []) :
    apol_domain_trans_filter_access q L T (some P) =
        .ok ((L.filter fun c =>
          decide (∃ t ∈ T, ∃ p ∈ P, q c.end_type t p.obj_name p.perms ≠ [])).map
            fun c => { c with access_rules := access_evidence q T P c }) ∧
      ((∀ c ∈ L, ∀ t ∈ T, ∀ p ∈ P, q c.end_type t p.obj_name p.perms = []) →
        apol_domain_trans_filter_access q L T (some P) = .ok []) := by
  have hmain : apol_domain_trans_filter_access q L T (some P) =
      .ok ((L.filter fun c =>
        decide (∃ t ∈ T, ∃ p ∈ P, q c.end_type t p.obj_name p.perms ≠ [])).map
          fun c => { c with access_rules := access_evidence q T P c }) := by
    unfold apol_domain_trans_filter_access
    cases L with
    | nil => rfl
    | cons c rest =>
      simp only [List.isEmpty_cons, Bool.false_eq_true, if_false]
      rw [filter_access_loop_eq, List.nil_append, filter_access_fresh q T P _ hfresh]
  refine ⟨hmain, fun hno => ?_⟩
  rw [hmain]
  have : (L.filter fun c =>
      decide (∃ t ∈ T, ∃ p ∈ P, q c.end_type t p.obj_name p.perms ≠ [])) = [] := by
    rw [List.filter_eq_nil_iff]
    intro c hc
    simp only [decide_eq_true_eq]
    rintro ⟨t, ht, p, hp, hne⟩
    exact hne (hno c hc t ht p hp)
  rw [this]
  rfl

theorem filter_access_spec_witness :
    apol_domain_trans_filter_access example_query example_candidates example_access_types
        (some example_obj_perms) =
      .ok ((example_candidates.filter fun c =>
        decide (∃ t ∈ example_access_types, ∃ p ∈ example_obj_perms,
          example_query c.end_type t p.obj_name p.perms ≠ [])).map
            fun c => { c with
              access_rules :=
                access_evidence example_query example_access_types example_obj_perms c }) :=
  (filter_access_spec example_query example_candidates example_access_types example_obj_perms
    (by decide)).1

/-! ## Verification of one transition -/

/-- C17, at a failing input. In the policy with a setexec rule for s_t, an
execute rule and an entrypoint rule but no process transition rule, at version
20, the process transition vector of s_t has no entry for end_t, and
`apol_domain_trans_table_verify_trans` for s_t, ep_t and end_t returns 0: the
process transition bit is not set. -/
theorem verify_trans_setexec_clears_mask :
    apol_policy_build_domain_trans_table setexec_only_policy none =
        .ok (table_of setexec_only_policy) ∧
      ¬ has_type (get_rules (table_of setexec_only_policy) .proc_trans (1 - 1)) 3 ∧
      apol_domain_trans_table_verify_trans setexec_only_policy none (some 1) (some 2)
          (some 3) = (some (table_of setexec_only_policy), .ok 0) := by
  refine ⟨rfl, ?_, rfl⟩
  rintro ⟨l, hl, e, he, -⟩
  have h0 : get_rules (table_of setexec_only_policy) .proc_trans (1 - 1) = some [] := rfl
  rw [h0] at hl
  cases hl
  cases he

/-- C18. When one of the three types is null, the verification returns with the
table the policy holds left as it is, built or not, and its value is the mask of
the structurally required categories, which depends only on which types are
null and on whether the version is 15 or later or the policy modular. -/
theorem verify_trans_null (policy : apol_policy_t)
    (existing : Option apol_domain_trans_table_t) (start_dom ep_type end_dom : Option Nat)
    (h : start_dom = none ∨ ep_type = none ∨ end_dom = none) :
    apol_domain_trans_table_verify_trans policy existing start_dom ep_type end_dom =
      (existing, .ok (null_case_mask
        (decide (policy.policy_version ≥ 15) || policy.is_modular)
        start_dom.isNone ep_type.isNone end_dom.isNone)) := by
  unfold apol_domain_trans_table_verify_trans verify_trans_of_null needs_type_trans_or_setexec
  generalize (decide (policy.policy_version ≥ 15) || policy.is_modular) = b
  cases start_dom <;> cases ep_type <;> cases end_dom <;> cases b
  all_goals first
    | (exfalso; rcases h with h | h | h <;> cases h; done)
    | (simp only [Option.isNone_none, Option.isNone_some, Bool.false_eq_true, if_true,
        if_false, Prod.mk.injEq, Except.ok.injEq, true_and]; decide)


theorem verify_trans_null_witness :
    apol_domain_trans_table_verify_trans (complete_policy 20) none none (some 3) (some 2) =
      (none, .ok (null_case_mask true true false false)) :=
  verify_trans_null (complete_policy 20) none none (some 3) (some 2) (Or.inl rfl)

/-! ## Insertion of one raw rule -/

theorem foldlM_nested_invariant {σ α β : Type} (outer : List α) (inner : List β)
    (f : σ → α → β → Except failure σ) (J : σ → Prop)
    (hf : ∀ s s' a b, a ∈ outer → b ∈ inner → J s → f s a b = .ok s' → J s')
    {s s' : σ} (hJ : J s)
    (h : outer.foldlM (fun s a => inner.foldlM (fun s b => f s a b) s) s = .ok s') : J s' :=
  foldlM_invariant h J hJ
    (fun _ a _ ha hs hs' =>
      foldlM_invariant hs' J hs (fun s b s' hb hi hi' => hf s s' a b ha hb hi hi'))

/-- After a fold, every element of the list has left its mark, when the mark of
an element is made by its step and kept by the others. -/
theorem foldlM_establish {σ α : Type} {f : σ → α → Except failure σ} (P : α → σ → Prop)
    (hpres : ∀ a s b s', P a s → f s b = .ok s' → P a s')
    (hest : ∀ s a s', f s a = .ok s' → P a s') :
    ∀ (l : List α) (s s' : σ), l.foldlM f s = .ok s' → ∀ a ∈ l, P a s' := by
  intro l
  induction l with
  | nil => intro s s' _ a ha; cases ha
  | cons x xs ih =>
    intro s s' h a ha
    simp only [List.foldlM, bind, Except.bind] at h
    split at h
    · cases h
    · rename_i s1 hs1
      rcases List.mem_cons.mp ha with rfl | hmem
      · exact foldlM_invariant h (P a) (hest s a s1 hs1) (fun u b u' _ hu hu' => hpres a u b u' hu hu')
      · exact ih s1 s' h a hmem

/-- What a successful insertion returns, up to the order of the entries: the
vector with the rule appended to an entry of the type, or the vector with a new
entry. -/
theorem add_rule_to_list_cases (policy : apol_policy_t) (v v' : List apol_domain_trans_rule_t)
    (t : Nat) (dflt : Option Nat) (r : rule_ref) (nt : Bool)
    (h : apol_domain_trans_add_rule_to_list policy v t dflt r nt = .ok v') :
    (∃ k, ∃ hk : k < v.length, v[k].type = t ∧
        v'.Perm (v.set k { v[k] with
          rules := v[k].rules ++ [r]
          has_no_trans := if nt then true else v[k].has_no_trans })) ∨
      v'.Perm (v ++ [new_rule_entry t dflt r nt]) := by
  have hc := add_rule_to_list_ok_not_attr policy v t dflt r nt v' h
  unfold apol_domain_trans_add_rule_to_list at h
  simp only [hc, Bool.false_eq_true, if_false] at h
  rcases find_rule_for_type_total policy v t hc with ⟨k, hk, hkt, hres⟩ | hres
  · rw [hres] at h
    simp only [List.getElem?_eq_getElem hk] at h
    cases h
    exact Or.inl ⟨k, hk, hkt, apol_vector_sort_perm _⟩
  · rw [hres] at h
    cases h
    exact Or.inr (apol_vector_sort_perm _)

theorem mem_set_of_mem_ne {α : Type} {l : List α} {k : Nat} (hk : k < l.length) {a b : α}
    (ha : a ∈ l) (hne : a ≠ l[k]) : a ∈ l.set k b := by
  obtain ⟨j, hj, rfl⟩ := List.getElem_of_mem ha
  have hjk : k ≠ j := by
    intro h
    subst h
    exact hne rfl
  have hj' : j < (l.set k b).length := by simpa using hj
  have : (l.set k b)[j] = l[j] := by
    rw [List.getElem_set]
    simp [hjk]
  rw [← this]
  exact List.getElem_mem hj'

/-- A successful insertion leaves an entry of the type that holds the rule, and
keeps every rule of every entry. -/
theorem add_rule_to_list_contains (policy : apol_policy_t)
    (v v' : List apol_domain_trans_rule_t) (t : Nat) (dflt : Option Nat) (r : rule_ref)
    (nt : Bool) (h : apol_domain_trans_add_rule_to_list policy v t dflt r nt = .ok v') :
    (∃ e ∈ v', e.type = t ∧ r ∈ e.rules) ∧
      ∀ x r', (∃ e ∈ v, e.type = x ∧ r' ∈ e.rules) → ∃ e ∈ v', e.type = x ∧ r' ∈ e.rules := by
  rcases add_rule_to_list_cases policy v v' t dflt r nt h with ⟨k, hk, hkt, hp⟩ | hp
  · refine ⟨⟨_, hp.mem_iff.mpr (List.mem_set _ _ hk _), hkt, by simp⟩, ?_⟩
    rintro x r' ⟨e, he, hx, hr⟩
    by_cases hek : e = v[k]
    · subst hek
      exact ⟨_, hp.mem_iff.mpr (List.mem_set _ _ hk _), hx, by simp [hr]⟩
    · exact ⟨e, hp.mem_iff.mpr (mem_set_of_mem_ne hk he hek), hx, hr⟩
  · refine ⟨⟨_, hp.mem_iff.mpr (List.mem_append_right _ (List.mem_singleton.mpr rfl)), rfl,
      by simp [new_rule_entry]⟩, ?_⟩
    rintro x r' ⟨e, he, hx, hr⟩
    exact ⟨e, hp.mem_iff.mpr (List.mem_append_left _ he), hx, hr⟩


/-- A successful insertion at a node: the entry of the type holds the rule, no
rule is lost anywhere, and the other vectors are as before. -/
theorem add_rule_at_has_rule {policy : apol_policy_t} {t t' : apol_domain_trans_table_t}
    {k : bucket_id} {val type : Nat} {dflt : Option Nat} {rule : rule_ref} {nt : Bool}
    (h : add_rule_at policy t k val type dflt rule nt = .ok t') :
    has_rule t' k (val - 1) type rule ∧
      (∀ k' n' x r', has_rule t k' n' x r' → has_rule t' k' n' x r') ∧
      (∀ k' n', ¬ (k' = k ∧ n' = val - 1) → get_rules t' k' n' = get_rules t k' n') := by
  obtain ⟨v, v', -, hv, hadd, rfl⟩ := add_rule_at_ok h
  obtain ⟨hnew, hkeep⟩ := add_rule_to_list_contains policy v v' type dflt rule nt hadd
  refine ⟨⟨v', ?_, hnew⟩, ?_, ?_⟩
  · rw [get_rules_put_rules, if_pos ⟨rfl, rfl⟩, hv]
    rfl
  · rintro k' n' x r' ⟨l, hl, hex⟩
    by_cases hc : k' = k ∧ n' = val - 1
    · obtain ⟨rfl, rfl⟩ := hc
      rw [hv] at hl
      cases hl
      refine ⟨v', ?_, hkeep x r' hex⟩
      rw [get_rules_put_rules, if_pos ⟨rfl, rfl⟩, hv]
      rfl
    · refine ⟨l, ?_, hex⟩
      rw [get_rules_put_rules, if_neg hc]
      exact hl
  · intro k' n' hc
    rw [get_rules_put_rules, if_neg hc]

/-- The insertion of one raw rule, split after the loop for process transition
rules: what the later loops preserve carries over from there to the end. -/
theorem table_add_rule_phases {policy : apol_policy_t} {t t' : apol_domain_trans_table_t}
    {rule_type : Nat} {rule : rule_ref}
    (h : apol_domain_trans_table_add_rule policy t rule_type rule = .ok t') :
    ∃ t1,
      (if rule_type &&& APOL_DOMAIN_TRANS_RULE_PROC_TRANS ≠ 0 then
        (apol_query_expand_type policy rule.source).foldlM (fun t src =>
          (apol_query_expand_type policy rule.target).foldlM (fun t tgt =>
            add_rule_at policy t .proc_trans src tgt none rule false) t) t
      else pure t) = .ok t1 ∧
      ∀ J : apol_domain_trans_table_t → Prop,
        (∀ s s' k val type dflt nt, k ≠ .proc_trans → k ≠ .dom_ep → k ≠ .exec_ep →
          (k = .setexec → val = type) → J s →
          add_rule_at policy s k val type dflt rule nt = .ok s' → J s') →
        (∀ s s1 s2 src tgt, J s →
          add_rule_at policy s .dom_ep src tgt none rule false = .ok s1 →
          add_rule_at policy s1 .exec_ep tgt src none rule false = .ok s2 → J s2) →
        J t1 → J t' := by
  unfold apol_domain_trans_table_add_rule at h
  dsimp only at h
  obtain ⟨t1, h1, h⟩ := bind_ok h
  obtain ⟨t2, h2, h⟩ := bind_ok h
  obtain ⟨t3, h3, h⟩ := bind_ok h
  obtain ⟨t4, h4, h⟩ := bind_ok h
  refine ⟨t1, h1, ?_⟩
  intro J hother hep i1
  have i2 : J t2 := by
    split at h2
    · exact foldlM_nested_invariant _ _ _ J
        (fun s s' a b _ _ hi hi' =>
          hother s s' .exec _ _ _ _ (by decide) (by decide) (by decide) (fun hc => nomatch hc)
            hi hi') i1 h2
    · cases h2; exact i1
  have i3 : J t3 := by
    split at h3
    · refine foldlM_nested_invariant _ _ _ J ?_ i2 h3
      intro s s' a b _ _ hi hi'
      obtain ⟨s1, hs1, hi'⟩ := bind_ok hi'
      exact hep s s1 s' b a hi hs1 hi'
    · cases h3; exact i2
  have i4 : J t4 := by
    split at h4
    · exact foldlM_nested_invariant _ _ _ J
        (fun s s' a b _ _ hi hi' =>
          hother s s' .type_trans _ _ _ _ (by decide) (by decide) (by decide)
            (fun hc => nomatch hc) hi hi') i3 h4
    · cases h4; exact i3
  split at h
  · refine foldlM_nested_invariant _ _ _ J ?_ i4 h
    intro s s' a b _ _ hi hi'
    split at hi'
    · cases hi'; exact hi
    · next hne =>
      exact hother s s' _ _ _ _ _ (by decide) (by decide) (by decide)
        (fun _ => not_not.mp hne) hi hi'
  · cases h; exact i4

/-- The insertion of one raw rule keeps what each single insertion keeps, when
the pair of insertions made for an entrypoint rule keeps it too. -/
theorem table_add_rule_preserves {policy : apol_policy_t} {rule_type : Nat} {rule : rule_ref}
    (J : apol_domain_trans_table_t → Prop)
    (hother : ∀ s s' k val type dflt nt, k ≠ .dom_ep → k ≠ .exec_ep →
      (k = .proc_trans → val ∈ apol_query_expand_type policy rule.source) →
      (k = .setexec → val = type) → J s →
      add_rule_at policy s k val type dflt rule nt = .ok s' → J s')
    (hep : ∀ s s1 s2 src tgt, J s →
      add_rule_at policy s .dom_ep src tgt none rule false = .ok s1 →
      add_rule_at policy s1 .exec_ep tgt src none rule false = .ok s2 → J s2)
    {t t' : apol_domain_trans_table_t} (hJ : J t)
    (h : apol_domain_trans_table_add_rule policy t rule_type rule = .ok t') : J t' := by
  obtain ⟨t1, h1, hrest⟩ := table_add_rule_phases h
  refine hrest J (fun s s' k val type dflt nt hk hk1 hk2 hse hs hs' =>
    hother s s' k val type dflt nt hk1 hk2 (fun hc => absurd hc hk) hse hs hs') hep ?_
  split at h1
  · exact foldlM_nested_invariant _ _ _ J
      (fun s s' a b ha _ hi hi' =>
        hother s s' .proc_trans _ _ _ _ (by decide) (by decide) (fun _ => ha)
          (fun hc => nomatch hc) hi hi') hJ h1
  · cases h1; exact hJ

/-- C20. After `apol_domain_trans_table_add_rule` succeeds for a raw rule whose
categories include process transition: for every type `s` of the expansion of
the source and every type `x` of the expansion of the target, the process
transition vector of the domain node of `s` has an entry of type `x` that holds
the rule; and the process transition vector of every node that is not the node
of a type of the expansion of the source is as before. -/
theorem add_rule_proc_trans_expansion (policy : apol_policy_t)
    (t t' : apol_domain_trans_table_t) (rule_type : Nat) (rule : rule_ref)
    (hbit : rule_type &&& APOL_DOMAIN_TRANS_RULE_PROC_TRANS ≠ 0)
    (h : apol_domain_trans_table_add_rule policy t rule_type rule = .ok t') :
    (∀ s ∈ apol_query_expand_type policy rule.source,
      ∀ x ∈ apol_query_expand_type policy rule.target,
        has_rule t' .proc_trans (s - 1) x rule) ∧
      (∀ n, (∀ s ∈ apol_query_expand_type policy rule.source, n ≠ s - 1) →
        get_rules t' .proc_trans n = get_rules t .proc_trans n) := by
  constructor
  · obtain ⟨t1, h1, hrest⟩ := table_add_rule_phases h
    rw [if_pos hbit] at h1
    refine hrest (fun tbl => ∀ s ∈ apol_query_expand_type policy rule.source,
        ∀ x ∈ apol_query_expand_type policy rule.target, has_rule tbl .proc_trans (s - 1) x rule)
      (fun s s' k val type dflt nt _ _ _ _ hs hs' a ha x hx =>
        (add_rule_at_has_rule hs').2.1 _ _ _ _ (hs a ha x hx))
      (fun s s1 s2 src tgt hs hs1 hs2 a ha x hx =>
        (add_rule_at_has_rule hs2).2.1 _ _ _ _
          ((add_rule_at_has_rule hs1).2.1 _ _ _ _ (hs a ha x hx))) ?_
    intro s hs
    refine foldlM_establish
      (fun (src : Nat) (tbl : apol_domain_trans_table_t) =>
        ∀ x ∈ apol_query_expand_type policy rule.target, has_rule tbl .proc_trans (src - 1) x rule)
      ?_ ?_ _ t t1 h1 s hs
    · intro a u b u' hu hu' x hx
      exact foldlM_invariant hu' (fun tbl => has_rule tbl .proc_trans (a - 1) x rule) (hu x hx)
        (fun w c w' _ hw hw' => (add_rule_at_has_rule hw').2.1 _ _ _ _ hw)
    · intro u a u' hu'
      exact foldlM_establish
        (fun (tgt : Nat) (tbl : apol_domain_trans_table_t) =>
          has_rule tbl .proc_trans (a - 1) tgt rule)
        (fun c w b w' hw hw' => (add_rule_at_has_rule hw').2.1 _ _ _ _ hw)
        (fun w c w' hw' => (add_rule_at_has_rule hw').1) _ u u' hu'
  · refine table_add_rule_preserves
      (fun tbl => ∀ n, (∀ s ∈ apol_query_expand_type policy rule.source, n ≠ s - 1) →
        get_rules tbl .proc_trans n = get_rules t .proc_trans n) ?_ ?_ (fun _ _ => rfl) h
    · intro s s' k val type dflt nt _ _ hk _ hs hs' n hn
      rw [(add_rule_at_has_rule hs').2.2 .proc_trans n ?_]
      · exact hs n hn
      · rintro ⟨rfl, rfl⟩
        exact hn val (hk rfl) rfl
    · intro s s1 s2 src tgt hs hs1 hs2 n hn
      rw [(add_rule_at_has_rule hs2).2.2 .proc_trans n (fun hc => by cases hc.1),
        (add_rule_at_has_rule hs1).2.2 .proc_trans n (fun hc => by cases hc.1)]
      exact hs n hn

theorem add_rule_proc_trans_expansion_witness :
    (∀ s ∈ apol_query_expand_type attr_policy 3, ∀ x ∈ apol_query_expand_type attr_policy 2,
      has_rule
        (value_or empty_table
          (apol_domain_trans_table_add_rule attr_policy (apol_domain_trans_table_new attr_policy)
            APOL_DOMAIN_TRANS_RULE_PROC_TRANS (.avrule ⟨3, 2, .process, [.transition]⟩)))
        .proc_trans (s - 1) x (.avrule ⟨3, 2, .process, [.transition]⟩)) ∧
      (∀ n, (∀ s ∈ apol_query_expand_type attr_policy 3, n ≠ s - 1) →
        get_rules
            (value_or empty_table
              (apol_domain_trans_table_add_rule attr_policy
                (apol_domain_trans_table_new attr_policy) APOL_DOMAIN_TRANS_RULE_PROC_TRANS
                (.avrule ⟨3, 2, .process, [.transition]⟩)))
            .proc_trans n =
          get_rules (apol_domain_trans_table_new attr_policy) .proc_trans n) :=
  add_rule_proc_trans_expansion attr_policy (apol_domain_trans_table_new attr_policy) _
    APOL_DOMAIN_TRANS_RULE_PROC_TRANS (.avrule ⟨3, 2, .process, [.transition]⟩) (by decide) rfl

/-! ## Entrypoint rules on both sides of the table -/

/-- What a successful insertion into a strictly ascending vector does to the
entries: the entry of the type gets the rule appended, or is created with the
rule alone; the other entries are as before. -/
theorem add_rule_to_list_entries (policy : apol_policy_t)
    (v v' : List apol_domain_trans_rule_t) (t : Nat) (dflt : Option Nat) (r : rule_ref)
    (nt : Bool) (hs : bucket_sorted v) (hf : bucket_fits v) (ht : t < 2147483648)
    (h : apol_domain_trans_add_rule_to_list policy v t dflt r nt = .ok v') :
    bucket_sorted v' ∧
      ∀ x R, (∃ e ∈ v', e.type = x ∧ e.rules = R) ↔
        ((x ≠ t ∧ ∃ e ∈ v, e.type = x ∧ e.rules = R) ∨
          (x = t ∧ ((∃ e ∈ v, e.type = t ∧ R = e.rules ++ [r]) ∨
            ((∀ e ∈ v, e.type ≠ t) ∧ R = [r])))) := by
  have hc := add_rule_to_list_ok_not_attr policy v t dflt r nt v' h
  rcases add_rule_to_list_sorted policy v t dflt r nt hs hf hc with
    ⟨k, hk, hkt, hres⟩ | ⟨hne, hres⟩
  · rw [hres] at h
    cases h
    have hs' := bucket_sorted_set hs k hk
      { v[k] with
        rules := v[k].rules ++ [r]
        has_no_trans := if nt then true else v[k].has_no_trans } rfl
    have hnew := List.mem_set v k hk
      { v[k] with
        rules := v[k].rules ++ [r]
        has_no_trans := if nt then true else v[k].has_no_trans }
    refine ⟨hs', ?_⟩
    intro x R
    constructor
    · rintro ⟨e, he, hx, hR⟩
      by_cases hxt : x = t
      · right
        refine ⟨hxt, Or.inl ⟨v[k], List.getElem_mem hk, hkt, ?_⟩⟩
        have := sorted_mem_unique hs' he hnew (by rw [hx, hxt]; exact hkt.symm)
        rw [← hR, this]
      · left
        refine ⟨hxt, e, ?_, hx, hR⟩
        rcases List.mem_or_eq_of_mem_set he with h | h
        · exact h
        · exfalso
          rw [h] at hx
          exact hxt (hx.symm.trans hkt)
    · rintro (⟨hxt, e, he, hx, hR⟩ | ⟨hxt, hcase⟩)
      · refine ⟨e, mem_set_of_mem_ne hk he ?_, hx, hR⟩
        intro heq
        rw [heq] at hx
        exact hxt (hx.symm.trans hkt)
      · rcases hcase with ⟨e, he, hx, hR⟩ | ⟨hno, _⟩
        · have := sorted_mem_unique hs he (List.getElem_mem hk) (by rw [hx, hkt])
          subst this
          exact ⟨_, hnew, hxt ▸ hkt, hR.symm⟩
        · exact absurd hkt (hno _ (List.getElem_mem hk))
  · rw [hres] at h
    cases h
    have hp := apol_vector_sort_perm (v ++ [new_rule_entry t dflt r nt])
    refine ⟨sorted_append_new v _ hs hne hf ht, ?_⟩
    intro x R
    constructor
    · rintro ⟨e, he, hx, hR⟩
      rcases List.mem_append.mp (hp.mem_iff.mp he) with h | h
      · exact Or.inl ⟨fun hxt => hne e h (hx.trans hxt), e, h, hx, hR⟩
      · rw [List.mem_singleton.mp h] at hx hR
        exact Or.inr ⟨hx.symm, Or.inr ⟨hne, hR.symm⟩⟩
    · rintro (⟨_, e, he, hx, hR⟩ | ⟨hxt, hcase⟩)
      · exact ⟨e, hp.mem_iff.mpr (List.mem_append_left _ he), hx, hR⟩
      · rcases hcase with ⟨e, he, hx, _⟩ | ⟨_, hR⟩
        · exact absurd hx (hne e he)
        · exact ⟨_, hp.mem_iff.mpr (List.mem_append_right _ (List.mem_singleton.mpr rfl)),
            hxt.symm, hR.symm⟩


theorem has_entry_put (t : apol_domain_trans_table_t) (k k' : bucket_id) (n n' : Nat)
    (v v' : List apol_domain_trans_rule_t) (hv : get_rules t k n = some v) (x : Nat)
    (R : List rule_ref) :
    has_entry (get_rules (put_rules t k n v') k' n') x R ↔
      if k' = k ∧ n' = n then (∃ e ∈ v', e.type = x ∧ e.rules = R)
      else has_entry (get_rules t k' n') x R := by
  rw [get_rules_put_rules]
  split
  · simp [has_entry, hv]
  · rfl

theorem put_rules_lengths (t : apol_domain_trans_table_t) (k : bucket_id) (n : Nat)
    (v : List apol_domain_trans_rule_t) :
    (put_rules t k n v).dom_list.length = t.dom_list.length ∧
      (put_rules t k n v).exec_list.length = t.exec_list.length := by
  cases k <;> simp [put_rules, list_update_length]

/-- A node that has rule vectors is within the arrays. -/
theorem get_rules_index_lt {t : apol_domain_trans_table_t} {k : bucket_id} {n N : Nat}
    {v : List apol_domain_trans_rule_t} (hd : t.dom_list.length = N)
    (he : t.exec_list.length = N) (h : get_rules t k n = some v) : n < N := by
  by_contra hn
  have h1 : t.dom_list[n]? = none := List.getElem?_eq_none (by omega)
  have h2 : t.exec_list[n]? = none := List.getElem?_eq_none (by omega)
  cases k <;> simp [get_rules, h1, h2] at h

/-- The types of the entries after an insertion are those of before and the
type inserted. -/
theorem add_rule_to_list_types (policy : apol_policy_t)
    (v v' : List apol_domain_trans_rule_t) (t : Nat) (dflt : Option Nat) (r : rule_ref)
    (nt : Bool) (h : apol_domain_trans_add_rule_to_list policy v t dflt r nt = .ok v') :
    ∀ e ∈ v', (∃ e0 ∈ v, e0.type = e.type) ∨ e.type = t := by
  intro e he
  rcases add_rule_to_list_cases policy v v' t dflt r nt h with ⟨k, hk, hkt, hp⟩ | hp
  · rcases List.mem_or_eq_of_mem_set (hp.mem_iff.mp he) with hm | hm
    · exact Or.inl ⟨e, hm, rfl⟩
    · rw [hm]
      exact Or.inr hkt
  · rcases List.mem_append.mp (hp.mem_iff.mp he) with hm | hm
    · exact Or.inl ⟨e, hm, rfl⟩
    · rw [List.mem_singleton.mp hm]
      exact Or.inr rfl

/-- An insertion keeps the arrays and keeps the entrypoint and setexec vectors
strictly ascending with types of the policy, when the type it inserts into such
a vector is a type of the policy. -/
theorem add_rule_at_indexed {policy : apol_policy_t} {t t' : apol_domain_trans_table_t}
    {k : bucket_id} {val type : Nat} {dflt : Option Nat} {rule : rule_ref} {nt : Bool}
    (hJ : table_indexed policy t)
    (hty : k = bucket_id.dom_ep ∨ k = bucket_id.exec_ep ∨ k = bucket_id.setexec →
      type ≤ policy.types.length)
    (h : add_rule_at policy t k val type dflt rule nt = .ok t') :
    table_indexed policy t' := by
  obtain ⟨v, v', -, hv, hadd, rfl⟩ := add_rule_at_ok h
  obtain ⟨hd, he, hb⟩ := hJ
  refine ⟨(put_rules_lengths t k _ v').1.trans hd, (put_rules_lengths t k _ v').2.trans he, ?_⟩
  intro k' hk' n' l hl
  rw [get_rules_put_rules] at hl
  split at hl
  · next hc =>
    obtain ⟨hkk, hnn⟩ := hc
    subst hkk
    subst hnn
    rw [hv] at hl
    simp only [Option.map_some', Option.some.injEq] at hl
    subst hl
    obtain ⟨hs, hle⟩ := hb k' hk' _ v hv
    have hfit : bucket_fits v := by
      intro e hmem
      have h1 := hle e hmem
      have h2 := policy.types_fit
      omega
    have htl := hty hk'
    have htf : type < 2147483648 := by
      have h2 := policy.types_fit
      omega
    refine ⟨(add_rule_to_list_entries policy v _ type dflt rule nt hs hfit htf hadd).1, ?_⟩
    intro e hmem
    rcases add_rule_to_list_types policy v _ type dflt rule nt hadd e hmem with
      ⟨e0, he0, h0⟩ | h0
    · rw [← h0]
      exact hle e0 he0
    · rw [h0]
      exact htl
  · exact hb k' hk' n' l hl

/-- The two insertions made for an entrypoint rule keep the entrypoint vectors
of both sides in step, raw rules included. -/
theorem add_entrypoint_dual_rules {policy : apol_policy_t}
    {t t1 t2 : apol_domain_trans_table_t} {src tgt : Nat} {rule : rule_ref}
    (hs : table_indexed policy t) (hd : table_dual_rules t)
    (h1 : add_rule_at policy t .dom_ep src tgt none rule false = .ok t1)
    (h2 : add_rule_at policy t1 .exec_ep tgt src none rule false = .ok t2) :
    table_dual_rules t2 := by
  obtain ⟨v0, v1, hsrc, hv0, hadd1, rfl⟩ := add_rule_at_ok h1
  obtain ⟨w0, w1, htgt, hw0, hadd2, rfl⟩ := add_rule_at_ok h2
  have hw0' : get_rules t .exec_ep (tgt - 1) = some w0 := by
    rw [get_rules_put_rules, if_neg (fun hc => by cases hc.1)] at hw0
    exact hw0
  have hfit := policy.types_fit
  have hsrcN := get_rules_index_lt hs.1 hs.2.1 hv0
  have htgtN := get_rules_index_lt hs.1 hs.2.1 hw0'
  have hv0s := hs.2.2 .dom_ep (Or.inl rfl) _ v0 hv0
  have hw0s := hs.2.2 .exec_ep (Or.inr (Or.inl rfl)) _ w0 hw0'
  have e1 := (add_rule_to_list_entries policy v0 v1 tgt none rule false
    hv0s.1 (fun e he => by have := hv0s.2 e he; omega) (by omega) hadd1).2
  have e2 := (add_rule_to_list_entries policy w0 w1 src none rule false
    hw0s.1 (fun e he => by have := hw0s.2 e he; omega) (by omega) hadd2).2
  have hold : ∀ R0, (∃ e ∈ v0, e.type = tgt ∧ e.rules = R0) ↔
      (∃ e ∈ w0, e.type = src ∧ e.rules = R0) := by
    intro R0
    have := hd (src - 1) (tgt - 1) R0
    rw [show tgt - 1 + 1 = tgt by omega, show src - 1 + 1 = src by omega] at this
    simp only [has_entry, hv0, hw0', Option.some.injEq, exists_eq_left'] at this
    exact this
  have hL : ∀ s y R, has_entry (get_rules (put_rules (put_rules t .dom_ep (src - 1) v1)
      .exec_ep (tgt - 1) w1) .dom_ep s) y R ↔
      if s = src - 1 then (∃ e ∈ v1, e.type = y ∧ e.rules = R)
      else has_entry (get_rules t .dom_ep s) y R := by
    intro s y R
    rw [has_entry_put _ _ _ _ _ w0 w1 hw0, if_neg (fun hc => by cases hc.1),
      has_entry_put _ _ _ _ _ v0 v1 hv0]
    simp only [true_and]
  have hR : ∀ x y R, has_entry (get_rules (put_rules (put_rules t .dom_ep (src - 1) v1)
      .exec_ep (tgt - 1) w1) .exec_ep x) y R ↔
      if x = tgt - 1 then (∃ e ∈ w1, e.type = y ∧ e.rules = R)
      else has_entry (get_rules t .exec_ep x) y R := by
    intro x y R
    rw [has_entry_put _ _ _ _ _ w0 w1 hw0]
    simp only [true_and]
    split
    · rfl
    · rw [has_entry_put _ _ _ _ _ v0 v1 hv0, if_neg (fun hc => by cases hc.1)]
  intro s x R
  rw [hL, hR]
  by_cases hsn : s = src - 1
  · by_cases hxn : x = tgt - 1
    · rw [if_pos hsn, if_pos hxn, e1, e2]
      have hx1 : x + 1 = tgt := by omega
      have hs1' : s + 1 = src := by omega
      simp only [hx1, hs1', ne_eq, not_true_eq_false, false_and, false_or, true_and]
      constructor
      · rintro (⟨e, he, hty, hR⟩ | ⟨hno, hR⟩)
        · obtain ⟨e', he', hty', hR'⟩ := (hold e.rules).mp ⟨e, he, hty, rfl⟩
          exact Or.inl ⟨e', he', hty', by rw [hR, hR']⟩
        · refine Or.inr ⟨?_, hR⟩
          intro e he hty
          obtain ⟨e', he', hty', -⟩ := (hold e.rules).mpr ⟨e, he, hty, rfl⟩
          exact hno e' he' hty'
      · rintro (⟨e, he, hty, hR⟩ | ⟨hno, hR⟩)
        · obtain ⟨e', he', hty', hR'⟩ := (hold e.rules).mpr ⟨e, he, hty, rfl⟩
          exact Or.inl ⟨e', he', hty', by rw [hR, hR']⟩
        · refine Or.inr ⟨?_, hR⟩
          intro e he hty
          obtain ⟨e', he', hty', -⟩ := (hold e.rules).mp ⟨e, he, hty, rfl⟩
          exact hno e' he' hty'
    · rw [if_pos hsn, if_neg hxn, e1]
      have hx1 : x + 1 ≠ tgt := by omega
      simp only [hx1, ne_eq, not_false_eq_true, true_and, false_and, or_false]
      rw [← hd s x R, hsn]
      simp only [has_entry, hv0, Option.some.injEq, exists_eq_left']
  · by_cases hxn : x = tgt - 1
    · rw [if_neg hsn, if_pos hxn, e2]
      have hs1' : s + 1 ≠ src := by omega
      simp only [hs1', ne_eq, not_false_eq_true, true_and, false_and, or_false]
      rw [hd s x R, hxn]
      simp only [has_entry, hw0', Option.some.injEq, exists_eq_left']
    · rw [if_neg hsn, if_neg hxn]
      exact hd s x R


/-- The build keeps what the empty table satisfies, each single insertion keeps
and the pair of insertions made for an entrypoint rule keeps. -/
theorem build_preserves {policy : apol_policy_t} (J : apol_domain_trans_table_t → Prop)
    (hnew : J (apol_domain_trans_table_new policy))
    (hother : ∀ rule s s' k val type dflt nt, k ≠ .dom_ep → k ≠ .exec_ep →
      (k = .setexec → val = type) → J s →
      add_rule_at policy s k val type dflt rule nt = .ok s' → J s')
    (hep : ∀ rule s s1 s2 src tgt, J s →
      add_rule_at policy s .dom_ep src tgt none rule false = .ok s1 →
      add_rule_at policy s1 .exec_ep tgt src none rule false = .ok s2 → J s2)
    {t : apol_domain_trans_table_t}
    (h : apol_policy_build_domain_trans_table policy none = .ok t) : J t := by
  have hadd : ∀ rule_type rule s s', J s →
      apol_domain_trans_table_add_rule policy s rule_type rule = .ok s' → J s' :=
    fun rule_type rule s s' hs hs' =>
      table_add_rule_preserves J
        (fun u u' k val type dflt nt hk1 hk2 _ hse hu hu' =>
          hother rule u u' k val type dflt nt hk1 hk2 hse hu hu')
        (hep rule) hs hs'
  unfold apol_policy_build_domain_trans_table at h
  dsimp only at h
  obtain ⟨t1, h1, h⟩ := bind_ok h
  obtain ⟨t2, h2, h⟩ := bind_ok h
  obtain ⟨t3, h3, h⟩ := bind_ok h
  have i1 : J t1 :=
    foldlM_invariant h1 J hnew (fun s a s' _ hs hs' => hadd _ _ s s' hs hs')
  have i2 : J t2 := by
    split at h2
    · exact foldlM_invariant h2 J i1 (fun s a s' _ hs hs' => hadd _ _ s s' hs hs')
    · cases h2; exact i1
  have i3 : J t3 :=
    foldlM_invariant h3 J i2
      (fun s a s' _ hs hs' => by
        split at hs'
        · exact hadd _ _ s s' hs hs'
        · cases hs'; exact hs)
  exact foldlM_invariant h J i3 (fun s a s' _ hs hs' => hadd _ _ s s' hs hs')

/-- An insertion pair for an entrypoint rule inserts types of the policy: each
is the node of the other insertion. -/
theorem add_entrypoint_indexed {policy : apol_policy_t}
    {t t1 t2 : apol_domain_trans_table_t} {src tgt : Nat} {rule : rule_ref}
    (hs : table_indexed policy t)
    (h1 : add_rule_at policy t .dom_ep src tgt none rule false = .ok t1)
    (h2 : add_rule_at policy t1 .exec_ep tgt src none rule false = .ok t2) :
    table_indexed policy t2 := by
  obtain ⟨v0, v1, hsrc, hv0, -, ht1⟩ := add_rule_at_ok h1
  obtain ⟨w0, w1, htgt, hw0, -, -⟩ := add_rule_at_ok h2
  have hsrcN := get_rules_index_lt hs.1 hs.2.1 hv0
  have hw0' : get_rules t .exec_ep (tgt - 1) = some w0 := by
    rw [ht1, get_rules_put_rules, if_neg (fun hc => by cases hc.1)] at hw0
    exact hw0
  have htgtN := get_rules_index_lt hs.1 hs.2.1 hw0'
  have hs1 := add_rule_at_indexed hs (fun _ => by omega) h1
  exact add_rule_at_indexed hs1 (fun _ => by omega) h2

/-- Every table the build returns has strictly ascending entrypoint and setexec
vectors that hold types of the policy, and entrypoint vectors that are in step
on both sides, raw rules included. -/
theorem build_dual_rules {policy : apol_policy_t} {t : apol_domain_trans_table_t}
    (h : apol_policy_build_domain_trans_table policy none = .ok t) :
    table_indexed policy t ∧ table_dual_rules t := by
  refine build_preserves (fun t => table_indexed policy t ∧ table_dual_rules t) ?_ ?_ ?_ h
  · constructor
    · refine ⟨?_, ?_, ?_⟩
      · have := table_new_size policy
        simp only [apol_domain_trans_table_new, List.length_replicate] at this ⊢
        exact this
      · have := table_new_size policy
        simp only [apol_domain_trans_table_new, List.length_replicate] at this ⊢
        exact this
      · intro k _ n v hv
        rw [get_rules_new policy k n v hv]
        exact ⟨by simp [bucket_sorted], by simp⟩
    · intro s x R
      constructor
      · rintro ⟨l, hl, e, he, _⟩
        rw [get_rules_new policy _ _ l hl] at he
        cases he
      · rintro ⟨l, hl, e, he, _⟩
        rw [get_rules_new policy _ _ l hl] at he
        cases he
  · intro rule s s' k val type dflt nt hk1 hk2 hse hs hs'
    refine ⟨add_rule_at_indexed hs.1 ?_ hs', ?_⟩
    · intro hk
      rcases hk with hk | hk | hk
      · exact absurd hk hk1
      · exact absurd hk hk2
      · obtain ⟨w, w', hval, hw, -, -⟩ := add_rule_at_ok hs'
        have := get_rules_index_lt hs.1.1 hs.1.2.1 hw
        have := hse hk
        omega
    · have hfr := (add_rule_at_has_rule hs').2.2
      intro a x R
      rw [hfr .dom_ep a (fun hc => hk1 hc.1.symm), hfr .exec_ep x (fun hc => hk2 hc.1.symm)]
      exact hs.2 a x R
  · intro rule s s1 s2 src tgt hs hs1 hs2
    exact ⟨add_entrypoint_indexed hs.1 hs1 hs2,
      add_entrypoint_dual_rules hs.1 hs.2 hs1 hs2⟩

/-- C19. In every table the build returns, for all types `s` and `t`: the domain
node of `s` has an entrypoint entry for `t` if and only if the exec node of `t`
has an entrypoint entry for `s`, and the two entries hold the same raw rules. -/
theorem entrypoint_indexed_both_sides (policy : apol_policy_t)
    (table : apol_domain_trans_table_t)
    (h : apol_policy_build_domain_trans_table policy none = .ok table) (s t : Nat)
    (hs : 1 ≤ s) (ht : 1 ≤ t) :
    (has_type (get_rules table .dom_ep (s - 1)) t ↔
        has_type (get_rules table .exec_ep (t - 1)) s) ∧
      ∀ vd ve, get_rules table .dom_ep (s - 1) = some vd →
        get_rules table .exec_ep (t - 1) = some ve →
        ∀ e1 ∈ vd, ∀ e2 ∈ ve, e1.type = t → e2.type = s → e1.rules = e2.rules := by
  obtain ⟨hsorted, hdual⟩ := build_dual_rules h
  have hd : ∀ R, has_entry (get_rules table .dom_ep (s - 1)) t R ↔
      has_entry (get_rules table .exec_ep (t - 1)) s R := by
    intro R
    have := hdual (s - 1) (t - 1) R
    rw [show t - 1 + 1 = t by omega, show s - 1 + 1 = s by omega] at this
    exact this
  refine ⟨⟨?_, ?_⟩, ?_⟩
  · rintro ⟨l, hl, e, he, hty⟩
    obtain ⟨l', hl', e', he', hty', -⟩ := (hd e.rules).mp ⟨l, hl, e, he, hty, rfl⟩
    exact ⟨l', hl', e', he', hty'⟩
  · rintro ⟨l, hl, e, he, hty⟩
    obtain ⟨l', hl', e', he', hty', -⟩ := (hd e.rules).mpr ⟨l, hl, e, he, hty, rfl⟩
    exact ⟨l', hl', e', he', hty'⟩
  · intro vd ve hvd hve e1 he1 e2 he2 h1 h2
    obtain ⟨l', hl', e', he', hty', hR⟩ := (hd e1.rules).mp ⟨vd, hvd, e1, he1, h1, rfl⟩
    rw [hve] at hl'
    cases hl'
    have := sorted_mem_unique (hsorted.2.2 .exec_ep (Or.inr (Or.inl rfl)) _ ve hve).1 he' he2
      (hty'.trans h2.symm)
    rw [← this, hR]

theorem entrypoint_indexed_both_sides_witness :
    (has_type (get_rules (table_of (complete_policy 20)) .dom_ep (2 - 1)) 3 ↔
        has_type (get_rules (table_of (complete_policy 20)) .exec_ep (3 - 1)) 2) ∧
      ∀ vd ve, get_rules (table_of (complete_policy 20)) .dom_ep (2 - 1) = some vd →
        get_rules (table_of (complete_policy 20)) .exec_ep (3 - 1) = some ve →
        ∀ e1 ∈ vd, ∀ e2 ∈ ve, e1.type = 3 → e2.type = 2 → e1.rules = e2.rules :=
  entrypoint_indexed_both_sides (complete_policy 20) (table_of (complete_policy 20)) rfl 2 3
    (by decide) (by decide)

/-! ## Repeated analysis after a reset -/

theorem list_update_map_at {α β : Type} (f : α → α) (g : α → β) (l : List α) (n : Nat)
    (h : ∀ a, l[n]? = some a → g (f a) = g a) : (list_update f l n).map g = l.map g := by
  induction l generalizing n with
  | nil => rfl
  | cons x xs ih =>
    cases n with
    | zero =>
      simp only [list_update, List.map_cons]
      rw [h x (by simp)]
    | succ n =>
      simp only [list_update, List.map_cons]
      rw [ih n (fun a ha => h a (by simpa using ha))]

theorem clear_list_update (v : List apol_domain_trans_rule_t) (i : Nat) :
    (list_update (fun r => { r with used := true }) v i).map (fun r => { r with used := false }) =
      v.map fun r => { r with used := false } :=
  list_update_map (fun r => { r with used := true }) (fun r => { r with used := false })
    (fun _ => rfl) v i

/-- Marking an entry of a vector other than a setexec vector is undone by the
reset. -/
theorem reset_set_used (t : apol_domain_trans_table_t) (k : bucket_id) (hk : k ≠ .setexec)
    (n i : Nat) :
    apol_policy_reset_domain_trans_table (set_used t k n i) =
      apol_policy_reset_domain_trans_table t := by
  unfold set_used
  cases hv : get_rules t k n with
  | none => rfl
  | some v =>
    cases k
    case setexec => exact absurd rfl hk
    all_goals
      simp only [get_rules, Option.map_eq_some'] at hv
      obtain ⟨d, hd, rfl⟩ := hv
      simp only [put_rules, apol_policy_reset_domain_trans_table]
      congr 1
      apply list_update_map_at
      intro a ha
      rw [hd] at ha
      cases ha
      simp only [clear_list_update]

theorem reset_mark_found (t : apol_domain_trans_table_t) (k : bucket_id) (hk : k ≠ .setexec)
    (n : Nat) (r : Option (Nat × apol_domain_trans_rule_t)) :
    apol_policy_reset_domain_trans_table (mark_found t k n r) =
      apol_policy_reset_domain_trans_table t := by
  cases r with
  | none => rfl
  | some p => exact reset_set_used t k hk n p.1


theorem forward_type_trans_step_reset (policy : apol_policy_t) (start : Nat)
    (st st' : trans_state) (i : Nat)
    (h : forward_type_trans_step policy start st i = .ok st') :
    apol_policy_reset_domain_trans_table st'.1 = apol_policy_reset_domain_trans_table st.1 := by
  simp only [forward_type_trans_step, bind, Except.bind, pure, Except.pure] at h
  repeat' split at h
  all_goals cases h
  all_goals
    simp only [reset_mark_found _ .exec_ep (by decide), reset_mark_found _ .exec (by decide),
      reset_mark_found _ .proc_trans (by decide), reset_set_used _ .type_trans (by decide)]

theorem forward_entrypoint_step_reset (policy : apol_policy_t) (start : Nat)
    (rule_entry : apol_domain_trans_rule_t) (st st' : trans_state) (j : Nat)
    (h : forward_entrypoint_step policy start rule_entry st j = .ok st') :
    apol_policy_reset_domain_trans_table st'.1 = apol_policy_reset_domain_trans_table st.1 := by
  simp only [forward_entrypoint_step, bind, Except.bind, pure, Except.pure] at h
  repeat' split at h
  all_goals cases h
  all_goals
    simp only [reset_set_used _ .exec_ep (by decide), reset_set_used _ .dom_ep (by decide)]

theorem forward_proc_trans_step_reset (policy : apol_policy_t) (start : Nat)
    (st st' : trans_state) (i : Nat)
    (h : forward_proc_trans_step policy start st i = .ok st') :
    apol_policy_reset_domain_trans_table st'.1 = apol_policy_reset_domain_trans_table st.1 := by
  unfold forward_proc_trans_step at h
  obtain ⟨n, -, h⟩ := bind_ok h
  obtain ⟨v, -, h⟩ := bind_ok h
  obtain ⟨rule_entry, -, h⟩ := bind_ok h
  split at h
  · cases h; rfl
  split at h
  · cases h; rfl
  obtain ⟨end_n, -, h⟩ := bind_ok h
  obtain ⟨eps, -, h⟩ := bind_ok h
  obtain ⟨st1, hfold, h⟩ := bind_ok h
  have hinv := foldlM_invariant hfold
    (fun s : trans_state => apol_policy_reset_domain_trans_table s.1 =
      apol_policy_reset_domain_trans_table st.1)
    (reset_set_used _ .proc_trans (by decide) _ _)
    (fun s a s' _ hs hs' =>
      (forward_entrypoint_step_reset policy start _ s s' a hs').trans hs)
  split at h <;> cases h <;> exact hinv

/-- The forward analysis changes nothing in the table but used marks that the
reset clears. -/
theorem forward_reset (policy : apol_policy_t) (table : apol_domain_trans_table_t)
    (trans : List apol_domain_trans_t) (start : Nat) (st : trans_state)
    (h : apol_domain_trans_table_get_all_forward_trans policy table trans start = .ok st) :
    apol_policy_reset_domain_trans_table st.1 = apol_policy_reset_domain_trans_table table := by
  unfold apol_domain_trans_table_get_all_forward_trans at h
  split at h
  · cases h
  obtain ⟨st1, h1, h⟩ := bind_ok h
  obtain ⟨st2, h2, h⟩ := bind_ok h
  cases h
  unfold forward_type_trans_pass at h1
  obtain ⟨n, -, h1⟩ := bind_ok h1
  obtain ⟨v, -, h1⟩ := bind_ok h1
  have i1 := foldlM_invariant h1
    (fun s : trans_state => apol_policy_reset_domain_trans_table s.1 =
      apol_policy_reset_domain_trans_table table) rfl
    (fun s a s' _ hs hs' => (forward_type_trans_step_reset policy start s s' a hs').trans hs)
  unfold forward_proc_trans_pass at h2
  obtain ⟨n', -, h2⟩ := bind_ok h2
  obtain ⟨v', -, h2⟩ := bind_ok h2
  exact foldlM_invariant h2
    (fun s : trans_state => apol_policy_reset_domain_trans_table s.1 =
      apol_policy_reset_domain_trans_table table) i1
    (fun s a s' _ hs hs' => (forward_proc_trans_step_reset policy start s s' a hs').trans hs)

theorem reverse_exec_step_reset (policy : apol_policy_t) (end_type : Nat)
    (rule_entry : apol_domain_trans_rule_t) (st st' : reverse_state) (j : Nat)
    (h : reverse_exec_step policy end_type rule_entry st j = .ok st') :
    apol_policy_reset_domain_trans_table st'.1 = apol_policy_reset_domain_trans_table st.1 := by
  simp only [reverse_exec_step, bind, Except.bind, pure, Except.pure] at h
  repeat' split at h
  all_goals cases h
  all_goals
    simp only [reset_mark_found _ .type_trans (by decide),
      reset_mark_found _ .proc_trans (by decide), reset_set_used _ .exec (by decide)]

theorem reverse_entrypoint_step_reset (policy : apol_policy_t) (end_type : Nat)
    (st st' : reverse_state) (i : Nat)
    (h : reverse_entrypoint_step policy end_type st i = .ok st') :
    apol_policy_reset_domain_trans_table st'.1 = apol_policy_reset_domain_trans_table st.1 := by
  unfold reverse_entrypoint_step at h
  obtain ⟨n, -, h⟩ := bind_ok h
  obtain ⟨v, -, h⟩ := bind_ok h
  obtain ⟨rule_entry, -, h⟩ := bind_ok h
  obtain ⟨ep_n, -, h⟩ := bind_ok h
  obtain ⟨execs, -, h⟩ := bind_ok h
  obtain ⟨st1, hfold, h⟩ := bind_ok h
  have hinv := foldlM_invariant hfold
    (fun s : reverse_state => apol_policy_reset_domain_trans_table s.1 =
      apol_policy_reset_domain_trans_table st.1)
    (reset_set_used _ .dom_ep (by decide) _ _)
    (fun s a s' _ hs hs' => (reverse_exec_step_reset policy end_type _ s s' a hs').trans hs)
  split at h <;> cases h <;> exact hinv

theorem reverse_sweep_member_step_reset (policy : apol_policy_t) (end_type : Nat)
    (rule_entry tmp_rule : Option apol_domain_trans_rule_t) (start : Nat)
    (st st' : trans_state) (member : Nat)
    (h : reverse_sweep_member_step policy end_type rule_entry tmp_rule start st member
      = .ok st') :
    apol_policy_reset_domain_trans_table st'.1 = apol_policy_reset_domain_trans_table st.1 := by
  simp only [reverse_sweep_member_step, bind, Except.bind, pure, Except.pure] at h
  repeat' split at h
  all_goals cases h
  all_goals first
    | rfl
    | exact reset_mark_found _ .exec (by decide) _ _

theorem reverse_sweep_step_reset (policy : apol_policy_t) (end_type : Nat)
    (st st' : trans_state) (i : Nat)
    (h : reverse_sweep_step policy end_type st i = .ok st') :
    apol_policy_reset_domain_trans_table st'.1 = apol_policy_reset_domain_trans_table st.1 := by
  unfold reverse_sweep_step at h
  split at h
  · cases h; rfl
  obtain ⟨r1, -, h⟩ := bind_ok h
  obtain ⟨r2, -, h⟩ := bind_ok h
  dsimp only at h
  split at h
  · cases h; rfl
  obtain ⟨s0, -, h⟩ := bind_ok h
  exact foldlM_invariant h
    (fun s : trans_state => apol_policy_reset_domain_trans_table s.1 =
      apol_policy_reset_domain_trans_table st.1)
    ((reset_mark_found _ .proc_trans (by decide) _ _).trans
      (reset_mark_found _ .type_trans (by decide) _ _))
    (fun s a s' _ hs hs' =>
      (reverse_sweep_member_step_reset policy end_type _ _ _ s s' a hs').trans hs)

/-- The reverse analysis changes nothing in the table but used marks that the
reset clears. -/
theorem reverse_reset (policy : apol_policy_t) (table : apol_domain_trans_table_t)
    (trans : List apol_domain_trans_t) (end_type : Nat) (st : trans_state)
    (h : apol_domain_trans_table_get_all_reverse_trans policy table trans end_type = .ok st) :
    apol_policy_reset_domain_trans_table st.1 = apol_policy_reset_domain_trans_table table := by
  unfold apol_domain_trans_table_get_all_reverse_trans at h
  split at h
  · cases h
  obtain ⟨st1, h1, h⟩ := bind_ok h
  obtain ⟨st2, h2, h⟩ := bind_ok h
  cases h
  unfold reverse_entrypoint_pass at h1
  obtain ⟨n, -, h1⟩ := bind_ok h1
  obtain ⟨v, -, h1⟩ := bind_ok h1
  have i1 := foldlM_invariant h1
    (fun s : reverse_state => apol_policy_reset_domain_trans_table s.1 =
      apol_policy_reset_domain_trans_table table) rfl
    (fun s a s' _ hs hs' => (reverse_entrypoint_step_reset policy end_type s s' a hs').trans hs)
  unfold reverse_sweep_pass at h2
  exact foldlM_invariant h2
    (fun s : trans_state => apol_policy_reset_domain_trans_table s.1 =
      apol_policy_reset_domain_trans_table table) i1
    (fun s a s' _ hs hs' => (reverse_sweep_step_reset policy end_type s s' a hs').trans hs)


theorem add_rule_at_unmarked {policy : apol_policy_t} {t t' : apol_domain_trans_table_t}
    {k : bucket_id} {val type : Nat} {dflt : Option Nat} {rule : rule_ref} {nt : Bool}
    (hu : table_unmarked t) (h : add_rule_at policy t k val type dflt rule nt = .ok t') :
    table_unmarked t' := by
  obtain ⟨v, v', -, hv, hadd, rfl⟩ := add_rule_at_ok h
  intro k' n' l hl e he
  rw [get_rules_put_rules] at hl
  split at hl
  · rw [hv] at hl
    simp only [Option.map_some', Option.some.injEq] at hl
    subst hl
    rcases add_rule_to_list_cases policy v _ type dflt rule nt hadd with ⟨i, hi, -, hp⟩ | hp
    · rcases List.mem_or_eq_of_mem_set (hp.mem_iff.mp he) with hm | hm
      · exact hu k _ v hv e hm
      · rw [hm]
        exact hu k _ v hv v[i] (List.getElem_mem hi)
    · rcases List.mem_append.mp (hp.mem_iff.mp he) with hm | hm
      · exact hu k _ v hv e hm
      · rw [List.mem_singleton.mp hm]
        rfl
  · exact hu k' n' l hl e he

/-- Every table the build returns is without used marks. -/
theorem build_unmarked {policy : apol_policy_t} {t : apol_domain_trans_table_t}
    (h : apol_policy_build_domain_trans_table policy none = .ok t) : table_unmarked t := by
  refine build_preserves table_unmarked ?_ ?_ ?_ h
  · intro k n v hv e he
    rw [get_rules_new policy k n v hv] at he
    cases he
  · intro rule s s' k val type dflt nt _ _ _ hs hs'
    exact add_rule_at_unmarked hs hs'
  · intro rule s s1 s2 src tgt hs hs1 hs2
    exact add_rule_at_unmarked (add_rule_at_unmarked hs hs1) hs2

theorem clear_unmarked (v : List apol_domain_trans_rule_t) (h : ∀ e ∈ v, e.used = false) :
    (v.map fun r => { r with used := false }) = v := by
  induction v with
  | nil => rfl
  | cons x xs ih =>
    have hx := h x (List.mem_cons_self _ _)
    rw [List.map_cons, ih (fun e he => h e (List.mem_cons_of_mem _ he))]
    congr 1
    cases x
    simp only at hx
    subst hx
    rfl

theorem map_eq_self {α : Type} (f : α → α) (l : List α) (h : ∀ a ∈ l, f a = a) :
    l.map f = l := by
  induction l with
  | nil => rfl
  | cons x xs ih =>
    rw [List.map_cons, h x (List.mem_cons_self _ _),
      ih (fun a ha => h a (List.mem_cons_of_mem _ ha))]

/-- The reset changes nothing in a table without used marks. -/
theorem reset_unmarked {t : apol_domain_trans_table_t} (hu : table_unmarked t) :
    apol_policy_reset_domain_trans_table t = t := by
  unfold apol_policy_reset_domain_trans_table
  cases t with
  | mk size dom_list exec_list =>
    simp only
    congr 1
    · apply map_eq_self
      intro d hmem
      obtain ⟨n, hn, rfl⟩ := List.getElem_of_mem hmem
      have hget : dom_list[n]? = some dom_list[n] := List.getElem?_eq_getElem hn
      have h1 := clear_unmarked dom_list[n].proc_trans_rules
        (hu .proc_trans n _ (by simp [get_rules, hget]))
      have h2 := clear_unmarked dom_list[n].type_trans_rules
        (hu .type_trans n _ (by simp [get_rules, hget]))
      have h3 := clear_unmarked dom_list[n].ep_rules
        (hu .dom_ep n _ (by simp [get_rules, hget]))
      rw [h1, h2, h3]
    · apply map_eq_self
      intro d hmem
      obtain ⟨n, hn, rfl⟩ := List.getElem_of_mem hmem
      have hget : exec_list[n]? = some exec_list[n] := List.getElem?_eq_getElem hn
      have h1 := clear_unmarked exec_list[n].ep_rules
        (hu .exec_ep n _ (by simp [get_rules, hget]))
      have h2 := clear_unmarked exec_list[n].exec_rules
        (hu .exec n _ (by simp [get_rules, hget]))
      rw [h1, h2]


/-- With the table already built, the analysis of a request runs as on a policy
without table. -/
theorem analysis_do_of_built (policy : apol_policy_t) (t0 : apol_domain_trans_table_t)
    (hb : apol_policy_build_domain_trans_table policy none = .ok t0)
    (by_name : String → Option Nat) (cmp : Option Nat → Option String → Int)
    (q : Option Nat → Nat → String → List String → List qpol_avrule_t)
    (dta : apol_domain_trans_analysis_t) :
    apol_domain_trans_analysis_do policy (some t0) by_name cmp q dta =
      apol_domain_trans_analysis_do policy none by_name cmp q dta := by
  unfold apol_domain_trans_analysis_do
  rw [hb]
  rfl

/-- After the analysis of a request on a policy without table, the reset gives
the table as built. -/
theorem analysis_do_reset (policy : apol_policy_t) (t0 : apol_domain_trans_table_t)
    (hb : apol_policy_build_domain_trans_table policy none = .ok t0)
    (by_name : String → Option Nat) (cmp : Option Nat → Option String → Int)
    (q : Option Nat → Nat → String → List String → List qpol_avrule_t)
    (dta : apol_domain_trans_analysis_t) :
    (apol_domain_trans_analysis_do policy none by_name cmp q dta).1.map
        apol_policy_reset_domain_trans_table = some t0 := by
  have hr0 := reset_unmarked (build_unmarked hb)
  unfold apol_domain_trans_analysis_do
  rw [hb]
  dsimp only
  split
  · simp only [Option.map_some', hr0]
  split
  · simp only [Option.map_some', hr0]
  split
  · simp only [Option.map_some', hr0]
  · rename_i st hst
    simp only [Option.map_some', Option.some.injEq]
    rw [← hr0]
    split at hst
    · exact reverse_reset policy t0 [] _ st hst
    · exact forward_reset policy t0 [] _ st hst

/-- C11. For every policy and request: running the analysis on the policy
without table, which builds it, then the reset, then the same request again
returns the same value with the same results in the second run as in the first;
so the multisets of start, entrypoint, end and valid flag of the results are the
same. -/
theorem analysis_repeatable (policy : apol_policy_t) (by_name : String → Option Nat)
    (cmp : Option Nat → Option String → Int)
    (q : Option Nat → Nat → String → List String → List qpol_avrule_t)
    (dta : apol_domain_trans_analysis_t) :
    (apol_domain_trans_analysis_do policy
        ((apol_domain_trans_analysis_do policy none by_name cmp q dta).1.map
          apol_policy_reset_domain_trans_table) by_name cmp q dta).2 =
      (apol_domain_trans_analysis_do policy none by_name cmp q dta).2 ∧
    ((apol_domain_trans_analysis_do policy
        ((apol_domain_trans_analysis_do policy none by_name cmp q dta).1.map
          apol_policy_reset_domain_trans_table) by_name cmp q dta).2.map
        fun l => Multiset.ofList (l.map result_tuple)) =
      (apol_domain_trans_analysis_do policy none by_name cmp q dta).2.map
        fun l => Multiset.ofList (l.map result_tuple) := by
  have hrun : apol_domain_trans_analysis_do policy
      ((apol_domain_trans_analysis_do policy none by_name cmp q dta).1.map
        apol_policy_reset_domain_trans_table) by_name cmp q dta =
      apol_domain_trans_analysis_do policy none by_name cmp q dta := by
    cases hb : apol_policy_build_domain_trans_table policy none with
    | error e =>
      have h1 : (apol_domain_trans_analysis_do policy none by_name cmp q dta).1 = none := by
        unfold apol_domain_trans_analysis_do
        rw [hb]
      rw [h1]
      rfl
    | ok t0 =>
      rw [analysis_do_reset policy t0 hb, analysis_do_of_built policy t0 hb]
  rw [hrun]
  exact ⟨rfl, rfl⟩

/-! ## Rejected requests -/

theorem land_not_ne_zero {x mask : Nat}
    (h : ∃ i, x.testBit i = true ∧ mask.testBit i = false) : land_not x mask ≠ 0 := by
  obtain ⟨i, h1, h2⟩ := h
  intro h0
  have := congrArg (fun n => Nat.testBit n i) h0
  simp [land_not, Nat.testBit_xor, Nat.testBit_and, h1, h2] at this

theorem options_invalid_of_rejected {by_name : String → Option Nat}
    {dta : apol_domain_trans_analysis_t} (h : request_rejected by_name dta)
    (hv : options_invalid dta = false) :
    dta.start_type.bind by_name = none := by
  unfold options_invalid at hv
  simp only [Bool.or_eq_false_iff, Bool.and_eq_false_iff, decide_eq_false_iff_not,
    Option.isNone_eq_false_iff] at hv
  obtain ⟨⟨⟨⟨⟨h1, h2⟩, h3⟩, h4⟩, h5⟩, h6⟩ := hv
  rcases h with h | h | h | h | h | h | ⟨name, hn, hnone⟩
  · exact absurd h h1
  · exact absurd (land_not_ne_zero h) h2
  · rcases h3 with h3 | h3
    · exact absurd h.1 h3
    · exact absurd h.2 h3
  · rcases h4 with h4 | h4
    · exact absurd h.1 h4
    · exact absurd h.2 h4
  · rcases h5 with (h5 | h5) | h5
    · exact absurd h.1 h5
    · exact absurd h.2.1 h5
    · exact absurd h.2.2 h5
  · rw [h] at h6
    cases h6
  · rw [hn]
    exact hnone

/-- C12. For every policy, with or without table, and every request that is
rejected: `apol_domain_trans_analysis_do` returns an error, without results, and
the table the policy holds afterwards is the table it held before, marks
included, or, when it held none, the table as built. -/
theorem analysis_do_rejects (policy : apol_policy_t)
    (existing : Option apol_domain_trans_table_t) (by_name : String → Option Nat)
    (cmp : Option Nat → Option String → Int)
    (q : Option Nat → Nat → String → List String → List qpol_avrule_t)
    (dta : apol_domain_trans_analysis_t) (h : request_rejected by_name dta) :
    (∃ e, (apol_domain_trans_analysis_do policy existing by_name cmp q dta).2 = .error e) ∧
      (∀ t, existing = some t →
        (apol_domain_trans_analysis_do policy existing by_name cmp q dta).1 = some t) ∧
      (existing = none →
        (apol_domain_trans_analysis_do policy existing by_name cmp q dta).1 =
          (apol_policy_build_domain_trans_table policy none).toOption) := by
  have hmain : (∃ e, (apol_domain_trans_analysis_do policy existing by_name cmp q dta).2 =
        .error e) ∧
      (apol_domain_trans_analysis_do policy existing by_name cmp q dta).1 =
        (apol_policy_build_domain_trans_table policy existing).toOption := by
    unfold apol_domain_trans_analysis_do
    cases hb : apol_policy_build_domain_trans_table policy existing with
    | error e => exact ⟨⟨e, rfl⟩, rfl⟩
    | ok table =>
      dsimp only
      cases hv : options_invalid dta with
      | true => exact ⟨⟨_, rfl⟩, rfl⟩
      | false =>
        simp only [Bool.false_eq_true, if_false]
        rw [options_invalid_of_rejected h hv]
        exact ⟨⟨_, rfl⟩, rfl⟩
  refine ⟨hmain.1, ?_, ?_⟩
  · intro t ht
    rw [hmain.2, ht]
    rfl
  · intro hnone
    rw [hmain.2, hnone]

theorem analysis_do_rejects_witness :
    (∃ e, (apol_domain_trans_analysis_do (complete_policy 20) none example_names
        example_match example_query { example_request with direction := 0 }).2 = .error e) ∧
      (∀ t, (none : Option apol_domain_trans_table_t) = some t →
        (apol_domain_trans_analysis_do (complete_policy 20) none example_names
          example_match example_query { example_request with direction := 0 }).1 = some t) ∧
      ((none : Option apol_domain_trans_table_t) = none →
        (apol_domain_trans_analysis_do (complete_policy 20) none example_names
          example_match example_query { example_request with direction := 0 }).1 =
          (apol_policy_build_domain_trans_table (complete_policy 20) none).toOption) :=
  analysis_do_rejects (complete_policy 20) none example_names example_match example_query
    { example_request with direction := 0 } (Or.inl rfl)


/-! ## Setexec vectors -/

/-- A loop whose every step returns its state unchanged returns the state it
starts with. -/
theorem foldlM_pure_of_forall {α β : Type} (f : β → α → Except failure β) (l : List α) (b : β)
    (h : ∀ s, ∀ a ∈ l, f s a = .ok s) : l.foldlM f b = .ok b := by
  induction l with
  | nil => rfl
  | cons x xs ih =>
    rw [List.foldlM_cons, h b x (List.mem_cons_self _ _)]
    exact ih (fun s a ha => h s a (List.mem_cons_of_mem _ ha))

/-- A raw rule inserted for the setexec category alone, with no type common to
the expansions of its source and target, leaves the table as it is. -/
theorem setexec_rule_apart (policy : apol_policy_t) (t : apol_domain_trans_table_t)
    (rule : rule_ref)
    (hd : ∀ s ∈ apol_query_expand_type policy rule.source,
      ∀ x ∈ apol_query_expand_type policy rule.target, s ≠ x) :
    apol_domain_trans_table_add_rule policy t APOL_DOMAIN_TRANS_RULE_SETEXEC rule = .ok t := by
  unfold apol_domain_trans_table_add_rule
  have h1 : ¬ (APOL_DOMAIN_TRANS_RULE_SETEXEC &&& APOL_DOMAIN_TRANS_RULE_PROC_TRANS ≠ 0) := by decide
  have h2 : ¬ (APOL_DOMAIN_TRANS_RULE_SETEXEC &&& APOL_DOMAIN_TRANS_RULE_EXEC ≠ 0) := by decide
  have h3 : ¬ (APOL_DOMAIN_TRANS_RULE_SETEXEC &&& APOL_DOMAIN_TRANS_RULE_ENTRYPOINT ≠ 0) := by decide
  have h4 : ¬ (APOL_DOMAIN_TRANS_RULE_SETEXEC &&& APOL_DOMAIN_TRANS_RULE_TYPE_TRANS ≠ 0) := by decide
  have h5 : APOL_DOMAIN_TRANS_RULE_SETEXEC &&& APOL_DOMAIN_TRANS_RULE_SETEXEC ≠ 0 := by decide
  simp only [if_neg h1, if_neg h2, if_neg h3, if_neg h4, if_pos h5, bind, Except.bind, pure,
    Except.pure]
  refine foldlM_pure_of_forall _ _ _ ?_
  intro s tgt htgt
  refine foldlM_pure_of_forall _ _ _ ?_
  intro s' src hsrc
  rw [if_pos (hd src hsrc tgt htgt)]

/-- In every table the build returns, the entries of the setexec vector of a
domain node have the type of the node. -/
theorem build_setexec_own {policy : apol_policy_t} {t : apol_domain_trans_table_t}
    (h : apol_policy_build_domain_trans_table policy none = .ok t) :
    ∀ n v, get_rules t .setexec n = some v → ∀ e ∈ v, e.type = n + 1 := by
  refine build_preserves
    (fun t => ∀ n v, get_rules t .setexec n = some v → ∀ e ∈ v, e.type = n + 1) ?_ ?_ ?_ h
  · intro n v hv e he
    rw [get_rules_new policy _ n v hv] at he
    cases he
  · intro rule s s' k val type dflt nt hk1 hk2 hse hs hs' n v hv e he
    obtain ⟨w, w', hval, hw, hadd, rfl⟩ := add_rule_at_ok hs'
    rw [get_rules_put_rules] at hv
    split at hv
    · next hc =>
      obtain ⟨hk, hn⟩ := hc
      subst hk
      subst hn
      rw [hw] at hv
      simp only [Option.map_some', Option.some.injEq] at hv
      subst hv
      have hvt := hse rfl
      rcases add_rule_to_list_cases policy w _ type dflt rule nt hadd with ⟨i, hi, -, hp⟩ | hp
      · rcases List.mem_or_eq_of_mem_set (hp.mem_iff.mp he) with hm | hm
        · exact hs _ w hw e hm
        · rw [hm]
          exact hs _ w hw w[i] (List.getElem_mem hi)
      · rcases List.mem_append.mp (hp.mem_iff.mp he) with hm | hm
        · exact hs _ w hw e hm
        · rw [List.mem_singleton.mp hm]
          show type = val - 1 + 1
          omega
    · exact hs n v hv e he
  · intro rule s s1 s2 src tgt hs hs1 hs2 n v hv
    rw [(add_rule_at_has_rule hs2).2.2 .setexec n (fun hc => by cases hc.1),
      (add_rule_at_has_rule hs1).2.2 .setexec n (fun hc => by cases hc.1)] at hv
    exact hs n v hv


/-- C21. In every table `apol_policy_build_domain_trans_table` returns, every
entry of the setexec vector of the domain node with index `n`, the node of the
type with value `n + 1`, has that type as its type, so the vector holds at most
one entry; and a raw rule inserted for the setexec category with no type common
to the expansions of its source and target leaves the table unchanged. -/
theorem setexec_bucket_own_type (policy : apol_policy_t) (table : apol_domain_trans_table_t)
    (h : apol_policy_build_domain_trans_table policy none = .ok table) :
    (∀ n v, get_rules table .setexec n = some v →
        (∀ e ∈ v, e.type = n + 1) ∧ v.length ≤ 1) ∧
      ∀ t rule,
        (∀ s ∈ apol_query_expand_type policy rule.source,
          ∀ x ∈ apol_query_expand_type policy rule.target, s ≠ x) →
        apol_domain_trans_table_add_rule policy t APOL_DOMAIN_TRANS_RULE_SETEXEC rule =
          .ok t := by
  refine ⟨?_, fun t rule hd => setexec_rule_apart policy t rule hd⟩
  intro n v hv
  have hown := build_setexec_own h n v hv
  refine ⟨hown, ?_⟩
  by_contra hlen
  have h0 : 0 < v.length := by omega
  have h1 : 1 < v.length := by omega
  have hlt := bucket_sorted_lt
    ((build_dual_rules h).1.2.2 .setexec (Or.inr (Or.inr rfl)) n v hv).1 h0 h1 (by decide)
  rw [hown _ (List.getElem_mem h0), hown _ (List.getElem_mem h1)] at hlt
  exact absurd hlt (lt_irrefl _)

theorem setexec_bucket_own_type_witness :
    ((∀ e ∈ (get_rules (table_of setexec_pair_policy) .setexec 0).getD [], e.type = 0 + 1) ∧
        ((get_rules (table_of setexec_pair_policy) .setexec 0).getD []).length ≤ 1) ∧
      apol_domain_trans_table_add_rule setexec_pair_policy (table_of setexec_pair_policy)
          APOL_DOMAIN_TRANS_RULE_SETEXEC (.avrule ⟨1, 2, .process, [.setexec]⟩) =
        .ok (table_of setexec_pair_policy) :=
  ⟨(setexec_bucket_own_type setexec_pair_policy (table_of setexec_pair_policy) rfl).1 0 _ rfl,
    (setexec_bucket_own_type setexec_pair_policy (table_of setexec_pair_policy) rfl).2
      (table_of setexec_pair_policy) (.avrule ⟨1, 2, .process, [.setexec]⟩) (by decide)⟩

/-! ## Default type of a type transition entry -/

/-- C22, counterexample. The strictly ascending vector that holds an entry for
type 2 with default type 3 receives the rule `type_transition 1 2 : process 4`
with type 2 and default type 4: the insertion succeeds, and the entry for type 2
of the result holds both rules and still has default type 3, so no entry for
type 2 has default type 4. The table built from the policy with the two rules
`type_transition 1 2 : process 3` and `type_transition 1 2 : process 4` holds
that same vector for type 1. -/
theorem default_not_replaced :
    bucket_sorted default_bucket ∧
      apol_domain_trans_add_rule_to_list two_defaults_policy default_bucket 2 (some 4)
          (default_rule 4) false = .ok merged_bucket ∧
      (¬ ∃ e ∈ merged_bucket, e.type = 2 ∧ e.dflt = some 4) ∧
      get_rules (table_of two_defaults_policy) .type_trans 0 = some merged_bucket :=
  ⟨by decide, rfl, by decide, rfl⟩

/-- C22, amended. After `apol_domain_trans_add_rule_to_list` succeeds on a
strictly ascending vector with type `t`, default type `d` and rule `r`, the
result has an entry for `t` that holds `r`; when the vector had no entry for `t`,
the entry for `t` of the result has default type `d`; when the vector had an
entry for `t`, the entry for `t` of the result has the default type that entry
had, whatever `d` is. -/
theorem add_rule_to_list_default (policy : apol_policy_t)
    (v v' : List apol_domain_trans_rule_t) (t d : Nat) (r : rule_ref) (nt : Bool)
    (hs : bucket_sorted v)
    (h : apol_domain_trans_add_rule_to_list policy v t (some d) r nt = .ok v') :
    (∃ e ∈ v', e.type = t ∧ r ∈ e.rules) ∧
      ((∀ e0 ∈ v, e0.type ≠ t) → ∀ e ∈ v', e.type = t → e.dflt = some d) ∧
      (∀ e0 ∈ v, e0.type = t → ∀ e ∈ v', e.type = t → e.dflt = e0.dflt) := by
  have hc := add_rule_to_list_ok_not_attr policy v t (some d) r nt v' h
  rcases add_rule_to_list_result policy v t (some d) r nt hs hc with
    ⟨k, hk, hkt, hadd⟩ | ⟨hno, hadd⟩
  · rw [hadd] at h
    cases h
    have hp := apol_vector_sort_perm (v.set k { v[k] with
      rules := v[k].rules ++ [r]
      has_no_trans := if nt then true else v[k].has_no_trans })
    refine ⟨⟨_, hp.mem_iff.mpr (List.mem_set _ _ hk _), hkt, by simp⟩, ?_, ?_⟩
    · intro hno
      exact absurd hkt (hno _ (List.getElem_mem hk))
    · intro e0 he0 het e he hte
      have h0 : e0 = v[k] := sorted_mem_unique hs he0 (List.getElem_mem hk) (het.trans hkt.symm)
      rcases List.mem_or_eq_of_mem_set (hp.mem_iff.mp he) with hm | hm
      · rw [sorted_mem_unique hs hm he0 (hte.trans het.symm)]
      · rw [hm, h0]
  · rw [hadd] at h
    cases h
    have hp := apol_vector_sort_perm (v ++ [new_rule_entry t (some d) r nt])
    refine ⟨⟨new_rule_entry t (some d) r nt, hp.mem_iff.mpr (by simp), rfl, by simp [new_rule_entry]⟩, ?_, ?_⟩
    · intro _ e he hte
      rcases List.mem_append.mp (hp.mem_iff.mp he) with hm | hm
      · exact absurd hte (hno e hm)
      · rw [List.mem_singleton.mp hm]
        rfl
    · intro e0 he0 het
      exact absurd het (hno e0 he0)

theorem add_rule_to_list_default_witness :
    (∃ e ∈ merged_bucket, e.type = 2 ∧ default_rule 4 ∈ e.rules) ∧
      ((∀ e0 ∈ default_bucket, e0.type ≠ 2) →
        ∀ e ∈ merged_bucket, e.type = 2 → e.dflt = some 4) ∧
      (∀ e0 ∈ default_bucket, e0.type = 2 →
        ∀ e ∈ merged_bucket, e.type = 2 → e.dflt = e0.dflt) :=
  add_rule_to_list_default two_defaults_policy default_bucket merged_bucket 2 4
    (default_rule 4) false (by decide) rfl

/-! ## Reset of the used marks -/

/-- One analysis call leaves a table that the reset maps to what it maps the
table of before the call to. -/
theorem table_after_call_reset (policy : apol_policy_t) (t t' : apol_domain_trans_table_t)
    (c : analysis_call) (h : table_after_call policy t c = .ok t') :
    apol_policy_reset_domain_trans_table t' = apol_policy_reset_domain_trans_table t := by
  cases c with
  | forward l start =>
    obtain ⟨st, hst, h⟩ := bind_ok h
    cases h
    exact forward_reset policy t l start st hst
  | reverse l end_type =>
    obtain ⟨st, hst, h⟩ := bind_ok h
    cases h
    exact reverse_reset policy t l end_type st hst

/-- C23. For every table reached from a table the build returns by a sequence
of forward and reverse analyses, each run on the table the one before left:
after `apol_policy_reset_domain_trans_table` no entry of any of the six rule
vectors of any node is marked used, the setexec vectors included, and the table
is the one of before the reset up to the marks: same size, and in every vector
the same entries in the same order with the same type, default type, raw rules
and no-transition flag. -/
theorem reset_clears_all_marks (policy : apol_policy_t) (t0 t : apol_domain_trans_table_t)
    (calls : List analysis_call)
    (hb : apol_policy_build_domain_trans_table policy none = .ok t0)
    (hc : table_after_calls policy t0 calls = .ok t) :
    table_unmarked (apol_policy_reset_domain_trans_table t) ∧
      same_shape t (apol_policy_reset_domain_trans_table t) := by
  have h0 : apol_policy_reset_domain_trans_table t = t0 :=
    foldlM_invariant hc (fun s => apol_policy_reset_domain_trans_table s = t0)
      (reset_unmarked (build_unmarked hb))
      (fun s a s' _ hs hs' => (table_after_call_reset policy s s' a hs').trans hs)
  refine ⟨?_, same_shape_reset (same_shape_refl t)⟩
  rw [h0]
  exact build_unmarked hb

theorem reset_clears_all_marks_witness :
    table_unmarked (apol_policy_reset_domain_trans_table
        (value_or empty_table (table_after_calls (complete_policy 20)
          (table_of (complete_policy 20)) [.forward [] 1, .reverse [] 2]))) ∧
      same_shape
        (value_or empty_table (table_after_calls (complete_policy 20)
          (table_of (complete_policy 20)) [.forward [] 1, .reverse [] 2]))
        (apol_policy_reset_domain_trans_table
          (value_or empty_table (table_after_calls (complete_policy 20)
            (table_of (complete_policy 20)) [.forward [] 1, .reverse [] 2]))) :=
  reset_clears_all_marks (complete_policy 20) (table_of (complete_policy 20)) _
    [.forward [] 1, .reverse [] 2] rfl rfl

/-! ## The pipeline of a request -/

/-- The results made of a candidate list carry the fields of the candidates, one
by one in order. -/
theorem results_carry_candidates (l : List apol_domain_trans_t) :
    List.Forall₂ result_carries (l.map result_of_trans) l := by
  induction l with
  | nil => exact List.Forall₂.nil
  | cons c cs ih =>
    exact List.Forall₂.cons ⟨rfl, rfl, rfl, rfl, rfl, rfl, rfl, rfl, rfl, rfl⟩ ih

/-- The loop that resolves the access types, from any vector without repeats:
when it succeeds every name resolved, the types were appended in the order of
the names, and the vector has no repeats. -/
theorem resolve_access_types_loop (by_name : String → Option Nat) (names : List String) :
    ∀ acc type_v : List Nat, acc.Nodup →
      names.foldlM
        (fun type_v name =>
          match by_name name with
          | none => Except.error failure.upstream
          | some tmp_type =>
            if tmp_type ∈ type_v then Except.error failure.upstream
            else Except.ok (type_v ++ [tmp_type]))
        acc = Except.ok type_v →
      ∃ rest, type_v = acc ++ rest ∧ names.map by_name = rest.map some ∧ type_v.Nodup := by
  induction names with
  | nil =>
    intro acc type_v hacc h
    cases h
    exact ⟨[], by simp, rfl, hacc⟩
  | cons name names ih =>
    intro acc type_v hacc h
    rw [List.foldlM_cons] at h
    obtain ⟨acc1, h1, h2⟩ := bind_ok h
    cases hn : by_name name with
    | none =>
      rw [hn] at h1
      cases h1
    | some tmp_type =>
      rw [hn] at h1
      dsimp only at h1
      by_cases hm : tmp_type ∈ acc
      · rw [if_pos hm] at h1
        cases h1
      · rw [if_neg hm] at h1
        cases h1
        have hacc1 : (acc ++ [tmp_type]).Nodup := by
          rw [List.nodup_append]
          refine ⟨hacc, List.nodup_singleton _, ?_⟩
          intro a ha hb
          rw [List.mem_singleton.mp hb] at ha
          exact hm ha
        obtain ⟨rest, hrest, hmap, hnd⟩ := ih _ _ hacc1 h2
        refine ⟨tmp_type :: rest, ?_, ?_, hnd⟩
        · rw [hrest]
          simp
        · simp [hmap, hn]

/-- A successful resolution of the access types: every name resolves, the
result holds the types of the names in their order, and no type twice. -/
theorem resolve_access_types_ok (by_name : String → Option Nat) (names : List String)
    (type_v : List Nat) (h : resolve_access_types by_name names = .ok type_v) :
    names.map by_name = type_v.map some ∧ type_v.Nodup := by
  obtain ⟨rest, hrest, hmap, hnd⟩ :=
    resolve_access_types_loop by_name names [] type_v List.nodup_nil h
  rw [List.nil_append] at hrest
  rw [hrest]
  exact ⟨hmap, hrest ▸ hnd⟩

/-- Two names of one type among the access types fail the resolution. -/
theorem resolve_access_types_repeated :
    resolve_access_types access_names ["var_t", "var_alias_t"] = .error .upstream ∧
      (apol_domain_trans_analysis_do (complete_policy 20) none access_names example_match
        example_query { access_request with access_types := some ["var_t", "var_alias_t"] }).2 =
        .error .upstream :=
  ⟨rfl, rfl⟩

/-- C24. When `apol_domain_trans_analysis_do` returns success with `results`:
the table was built or found, the start type name resolved, and the analysis of
the requested direction returned a candidate list; that list went through the
validity filter unless the mode is both, then through the result type filter
when a pattern is set, then through the access filter, with the resolved access
types, when access types are set, each step on the list the step before left;
`results` has one result per candidate of the final list, in the order of that
list, each with the start, entrypoint and end type, the valid flag and the rule
collections of its candidate; and when access types are set, every access type
name resolved, the access filter ran with the types of the names in their
order, and no two names gave the same type. -/
theorem analysis_do_pipeline (policy : apol_policy_t)
    (existing : Option apol_domain_trans_table_t)
    (by_name : String → Option Nat) (cmp : Option Nat → Option String → Int)
    (q : Option Nat → Nat → String → List String → List qpol_avrule_t)
    (dta : apol_domain_trans_analysis_t) (tbl : Option apol_domain_trans_table_t)
    (results : List apol_domain_trans_result_t)
    (h : apol_domain_trans_analysis_do policy existing by_name cmp q dta = (tbl, .ok results)) :
    ∃ table start_type st l1 l2 l3,
      apol_policy_build_domain_trans_table policy existing = .ok table ∧
      dta.start_type.bind by_name = some start_type ∧
      (if dta.direction = APOL_DOMAIN_TRANS_DIRECTION_REVERSE then
          apol_domain_trans_table_get_all_reverse_trans policy table [] start_type
        else apol_domain_trans_table_get_all_forward_trans policy table [] start_type) =
        .ok st ∧
      tbl = some st.1 ∧
      (if dta.valid = APOL_DOMAIN_TRANS_SEARCH_BOTH then .ok st.2
        else apol_domain_trans_filter_valid st.2
          (decide (dta.valid &&& APOL_DOMAIN_TRANS_SEARCH_VALID ≠ 0))) = .ok l1 ∧
      (if dta.result = none then .ok l1
        else apol_domain_trans_filter_result_types cmp dta l1) = .ok l2 ∧
      (if apol_vector_get_size dta.access_types = 0 then .ok l2
        else (resolve_access_types by_name (dta.access_types.getD [])).bind fun type_v =>
          apol_domain_trans_filter_access q l2 type_v dta.access_class_perms) = .ok l3 ∧
      results.length = l3.length ∧ List.Forall₂ result_carries results l3 ∧
      (apol_vector_get_size dta.access_types ≠ 0 →
        ∃ type_v, resolve_access_types by_name (dta.access_types.getD []) = .ok type_v ∧
          (dta.access_types.getD []).map by_name = type_v.map some ∧ type_v.Nodup ∧
          apol_domain_trans_filter_access q l2 type_v dta.access_class_perms = .ok l3) := by
  unfold apol_domain_trans_analysis_do at h
  split at h
  · cases h
  next table hb =>
  split at h
  · cases h
  split at h
  · cases h
  next start_type hs =>
  split at h
  · cases h
  next st hst =>
  simp only [Prod.mk.injEq] at h
  obtain ⟨htbl, hres⟩ := h
  unfold filter_and_collect at hres
  obtain ⟨l1, h1, hres⟩ := bind_ok hres
  obtain ⟨l2, h2, hres⟩ := bind_ok hres
  obtain ⟨l3, h3, hres⟩ := bind_ok hres
  cases hres
  refine ⟨table, start_type, st, l1, l2, l3, hb, hs, hst, htbl.symm, ?_, ?_, ?_,
    List.length_map _ _, results_carry_candidates l3, ?_⟩
  · by_cases hv : dta.valid = APOL_DOMAIN_TRANS_SEARCH_BOTH
    · rw [if_pos hv]
      rw [if_neg (not_not.mpr hv)] at h1
      exact h1
    · rw [if_neg hv]
      rw [if_pos hv] at h1
      exact h1
  · cases hr : dta.result with
    | none =>
      rw [hr] at h2
      exact h2
    | some p =>
      rw [hr] at h2
      exact h2
  · by_cases ha : apol_vector_get_size dta.access_types = 0
    · rw [if_pos ha]
      rw [if_neg (not_not.mpr ha)] at h3
      exact h3
    · rw [if_neg ha]
      rw [if_pos ha] at h3
      exact h3
  · intro ha
    rw [if_pos ha] at h3
    obtain ⟨type_v, hres, hfa⟩ := bind_ok h3
    obtain ⟨hmap, hnd⟩ := resolve_access_types_ok by_name _ type_v hres
    exact ⟨type_v, hres, hmap, hnd, hfa⟩

theorem analysis_do_pipeline_witness :
    (value_or [] access_run.2).map (fun r => (r.end_type, r.access_rules.length)) =
        [(some 2, 1)] ∧
      ∃ table start_type st l1 l2 l3,
        apol_policy_build_domain_trans_table (complete_policy 20) none = .ok table ∧
        access_request.start_type.bind access_names = some start_type ∧
        (if access_request.direction = APOL_DOMAIN_TRANS_DIRECTION_REVERSE then
            apol_domain_trans_table_get_all_reverse_trans (complete_policy 20) table []
              start_type
          else apol_domain_trans_table_get_all_forward_trans (complete_policy 20) table []
            start_type) = .ok st ∧
        access_run.1 = some st.1 ∧
        (if access_request.valid = APOL_DOMAIN_TRANS_SEARCH_BOTH then .ok st.2
          else apol_domain_trans_filter_valid st.2
            (decide (access_request.valid &&& APOL_DOMAIN_TRANS_SEARCH_VALID ≠ 0))) = .ok l1 ∧
        (if access_request.result = none then .ok l1
          else apol_domain_trans_filter_result_types example_match access_request l1) =
          .ok l2 ∧
        (if apol_vector_get_size access_request.access_types = 0 then .ok l2
          else (resolve_access_types access_names
              (access_request.access_types.getD [])).bind fun type_v =>
            apol_domain_trans_filter_access example_query l2 type_v
              access_request.access_class_perms) = .ok l3 ∧
        (value_or [] access_run.2).length = l3.length ∧
        List.Forall₂ result_carries (value_or [] access_run.2) l3 ∧
        (apol_vector_get_size access_request.access_types ≠ 0 →
          ∃ type_v, resolve_access_types access_names
              (access_request.access_types.getD []) = .ok type_v ∧
            (access_request.access_types.getD []).map access_names = type_v.map some ∧
            type_v.Nodup ∧
            apol_domain_trans_filter_access example_query l2 type_v
              access_request.access_class_perms = .ok l3) :=
  ⟨rfl, analysis_do_pipeline (complete_policy 20) none access_names example_match
    example_query access_request access_run.1 (value_or [] access_run.2) rfl⟩

/-! ## Build on a policy that holds a table -/

/-- C25. `apol_policy_build_domain_trans_table` on a policy that already holds a
table returns success with that very table, unchanged in its vectors, entries,
raw rules and used marks; so every lookup, every forward analysis and every
reverse analysis after the second call gives what it gives on the table of
before the call. -/
theorem build_keeps_existing_table (policy : apol_policy_t)
    (table : apol_domain_trans_table_t) :
    apol_policy_build_domain_trans_table policy (some table) = .ok table ∧
      (∀ k n type,
        (apol_policy_build_domain_trans_table policy (some table)).bind
            (fun t => find_at policy t k n type) = find_at policy table k n type) ∧
      (∀ l start,
        (apol_policy_build_domain_trans_table policy (some table)).bind
            (fun t => apol_domain_trans_table_get_all_forward_trans policy t l start) =
          apol_domain_trans_table_get_all_forward_trans policy table l start) ∧
      (∀ l end_type,
        (apol_policy_build_domain_trans_table policy (some table)).bind
            (fun t => apol_domain_trans_table_get_all_reverse_trans policy t l end_type) =
          apol_domain_trans_table_get_all_reverse_trans policy table l end_type) :=
  ⟨rfl, fun _ _ _ => rfl, fun _ _ => rfl, fun _ _ => rfl⟩

/-! ## Errors of the lookup by type -/

/-- C26. `apol_domain_trans_find_rule_for_type` yields the invalid-argument
error for an attribute, whatever the rule vector holds; for a type that is not
an attribute it yields an entry of that type or plain not-found, never an error:
not-found for an empty vector and for a vector without an entry of the type. -/
theorem find_rule_for_type_errors (policy : apol_policy_t)
    (v : List apol_domain_trans_rule_t) (t : Nat) :
    (qpol_type_get_isattr policy t = true →
        apol_domain_trans_find_rule_for_type policy v t = .einval) ∧
      (qpol_type_get_isattr policy t = false →
        ((∃ k, ∃ hk : k < v.length, v[k].type = t ∧
            apol_domain_trans_find_rule_for_type policy v t = .rule k) ∨
          apol_domain_trans_find_rule_for_type policy v t = .null) ∧
        (v = [] → apol_domain_trans_find_rule_for_type policy v t = .null) ∧
        ((∀ e ∈ v, e.type ≠ t) →
          apol_domain_trans_find_rule_for_type policy v t = .null)) := by
  constructor
  · intro hc
    unfold apol_domain_trans_find_rule_for_type
    simp only [hc, if_true]
  · intro hc
    have ht := find_rule_for_type_total policy v t hc
    refine ⟨ht, ?_, ?_⟩
    · intro hv
      subst hv
      unfold apol_domain_trans_find_rule_for_type
      simp only [hc, List.length_nil, if_true, Bool.false_eq_true, if_false]
    · intro hno
      rcases ht with ⟨k, hk, hkt, _⟩ | hn
      · exact absurd hkt (hno _ (List.getElem_mem hk))
      · exact hn

theorem find_rule_for_type_errors_witness :
    apol_domain_trans_find_rule_for_type attr_policy [] 3 = .einval ∧
      apol_domain_trans_find_rule_for_type attr_policy default_bucket 3 = .einval ∧
      apol_domain_trans_find_rule_for_type attr_policy [] 1 = .null ∧
      apol_domain_trans_find_rule_for_type attr_policy default_bucket 1 = .null :=
  ⟨(find_rule_for_type_errors attr_policy [] 3).1 (by decide),
    (find_rule_for_type_errors attr_policy default_bucket 3).1 (by decide),
    ((find_rule_for_type_errors attr_policy [] 1).2 (by decide)).2.1 rfl,
    ((find_rule_for_type_errors attr_policy default_bucket 1).2 (by decide)).2.2 (by decide)⟩

/-! ## The entrypoint walk and the sweep of the reverse analysis on examples -/

/-- C27. Reverse analysis from e_t in the policy where e_t has the entrypoints
ep1_t, executed by e_t alone, and ep2_t, executed by s_t alone: the entrypoint
vector of e_t holds ep1_t and ep2_t in that order, the execute vector of ep1_t
holds e_t only and that of ep2_t holds s_t only; the result holds the candidate
without start type for ep1_t, the candidate from s_t through ep2_t, and also a
candidate without start type for ep2_t, whose only execute entry is not from
e_t: the `dead` flag set at ep1_t is still set when ep2_t is judged. -/
theorem reverse_dead_flag_carries_over :
    (get_rules (table_of dead_policy) .dom_ep 0).map (List.map fun e => e.type) =
        some [2, 3] ∧
      (get_rules (table_of dead_policy) .exec 1).map (List.map fun e => e.type) =
        some [1] ∧
      (get_rules (table_of dead_policy) .exec 2).map (List.map fun e => e.type) =
        some [4] ∧
      (reverse_on_new_table dead_policy 1).map (List.map triple) =
        .ok [(none, some 3, some 1), (some 4, some 3, some 1), (none, some 2, some 1)] ∧
      ∃ c ∈ value_or [] (reverse_on_new_table dead_policy 1), reverse_degenerate c 3 1 :=
  ⟨rfl, rfl, rfl, rfl, by decide⟩

/-- C28. The sweep of the reverse analysis compares the array index of a node
with the value of the end type. From a_t (value 1) in the policy where b_t (value
2) may transition to a_t: the node of b_t, at index 1, holds an unused process
transition entry for a_t, the step for that node returns the state unchanged,
and the analysis returns no candidate. From a_t in the policy where a_t may
transition to itself: the step for the node of a_t itself, at index 0, emits the
candidate from a_t to a_t, which the analysis returns. -/
theorem sweep_skips_successor_node :
    has_type (get_rules (table_of successor_policy) .proc_trans 1) 1 ∧
      used_at (table_of successor_policy) .proc_trans 1 0 = false ∧
      reverse_sweep_step successor_policy 1 (table_of successor_policy, []) 1 =
        .ok (table_of successor_policy, []) ∧
      reverse_on_new_table successor_policy 1 = .ok [] ∧
      (reverse_sweep_step own_node_policy 1 (table_of own_node_policy, []) 0).map
          (fun st => st.2.map triple) = .ok [(some 1, none, some 1)] ∧
      (reverse_on_new_table own_node_policy 1).map (List.map triple) =
        .ok [(some 1, none, some 1)] :=
  ⟨⟨_, rfl, _, List.mem_cons_self _ _, rfl⟩, rfl, rfl, rfl, rfl, rfl⟩

/-- C29. Reverse analysis from e_t over the table as built from the policy
whose rule `allow dom e_t : process transition` has the attribute dom, with
members a_t and b_t, as its source: the sweep emits a candidate for every member
of dom at the node of a_t and again at the node of b_t, so the result holds the
triples (a_t, none, e_t) and (b_t, none, e_t) twice each. -/
theorem reverse_repeats_attribute_members :
    (reverse_on_new_table attr_source_policy 4).map (List.map triple) =
        .ok [(some 2, none, some 4), (some 1, none, some 4), (some 2, none, some 4),
          (some 1, none, some 4)] ∧
      ¬ ((value_or [] (reverse_on_new_table attr_source_policy 4)).map triple).Nodup :=
  ⟨rfl, by decide⟩

/-! ## The forward candidate without entrypoint -/

/-- A candidate with another end type does not count among those that end at
`x`. -/
theorem filter_ends_cons_ne {x : Nat} {c : apol_domain_trans_t} (l : List apol_domain_trans_t)
    (h : c.end_type ≠ some x) : (c :: l).filter (ends_at x) = l.filter (ends_at x) := by
  have : ends_at x c = false := by
    unfold ends_at
    exact decide_eq_false h
  simp [List.filter_cons, this]

/-- One iteration over a type transition entry whose default type is not `x`
adds no candidate that ends at `x`. -/
theorem forward_type_trans_step_ends (policy : apol_policy_t) (S : Nat) (st st' : trans_state)
    (i x : Nat) (v : List apol_domain_trans_rule_t) (e : apol_domain_trans_rule_t)
    (hv : get_rules st.1 .type_trans (S - 1) = some v) (he : v[i]? = some e)
    (hx : e.dflt ≠ some x)
    (h : forward_type_trans_step policy S st i = .ok st') :
    st'.2.filter (ends_at x) = st.2.filter (ends_at x) := by
  unfold forward_type_trans_step at h
  obtain ⟨n, hn, h⟩ := bind_ok h
  obtain ⟨v', hv', h⟩ := bind_ok h
  obtain ⟨rule_entry, hre, h⟩ := bind_ok h
  obtain ⟨ep_n, -, h⟩ := bind_ok h
  obtain ⟨r1, -, h⟩ := bind_ok h
  obtain ⟨r2, -, h⟩ := bind_ok h
  obtain ⟨r3, -, h⟩ := bind_ok h
  obtain ⟨r4, -, h⟩ := bind_ok h
  cases h
  obtain ⟨-, rfl⟩ := node_index_ok hn
  have hv'' := rules_at_ok hv'
  rw [hv] at hv''
  cases hv''
  have he' := element_at_ok hre
  rw [he] at he'
  cases he'
  exact filter_ends_cons_ne _ hx

/-- One iteration over an entrypoint of a type other than `x` adds no candidate
that ends at `x`. -/
theorem forward_entrypoint_step_ends (policy : apol_policy_t) (S : Nat)
    (rule_entry : apol_domain_trans_rule_t) (st st' : trans_state) (j x : Nat)
    (hx : rule_entry.type ≠ x)
    (h : forward_entrypoint_step policy S rule_entry st j = .ok st') :
    st'.2.filter (ends_at x) = st.2.filter (ends_at x) := by
  unfold forward_entrypoint_step at h
  obtain ⟨n, hn, h⟩ := bind_ok h
  obtain ⟨end_n, hen, h⟩ := bind_ok h
  obtain ⟨v, hv, h⟩ := bind_ok h
  obtain ⟨tmp_rule, htmp, h⟩ := bind_ok h
  obtain ⟨ep_n, hep, h⟩ := bind_ok h
  obtain ⟨r, hr, h⟩ := bind_ok h
  cases r with
  | none => cases h
  | some p =>
    obtain ⟨k, tmp_rule2⟩ := p
    dsimp only at h
    split at h
    · cases h
      rfl
    · obtain ⟨r1, hr1, h⟩ := bind_ok h
      obtain ⟨r2, hr2, h⟩ := bind_ok h
      cases h
      exact filter_ends_cons_ne _ (fun hc => hx (Option.some.inj hc))

/-- One iteration over a process transition entry of a type other than `x` adds
no candidate that ends at `x`. -/
theorem forward_proc_trans_step_ends (policy : apol_policy_t) (S : Nat) (st st' : trans_state)
    (i x : Nat) (v : List apol_domain_trans_rule_t) (e : apol_domain_trans_rule_t)
    (hv : get_rules st.1 .proc_trans (S - 1) = some v) (he : v[i]? = some e)
    (hx : e.type ≠ x)
    (h : forward_proc_trans_step policy S st i = .ok st') :
    st'.2.filter (ends_at x) = st.2.filter (ends_at x) := by
  unfold forward_proc_trans_step at h
  obtain ⟨n, hn, h⟩ := bind_ok h
  obtain ⟨v', hv', h⟩ := bind_ok h
  obtain ⟨rule_entry, hre, h⟩ := bind_ok h
  obtain ⟨-, rfl⟩ := node_index_ok hn
  have hv'' := rules_at_ok hv'
  rw [hv] at hv''
  cases hv''
  have he' := element_at_ok hre
  rw [he] at he'
  cases he'
  split at h
  · cases h; rfl
  split at h
  · cases h; rfl
  obtain ⟨end_n, -, h⟩ := bind_ok h
  obtain ⟨eps, -, h⟩ := bind_ok h
  obtain ⟨st1, hfold, h⟩ := bind_ok h
  have hinv := foldlM_invariant hfold
    (fun s => s.2.filter (ends_at x) = st.2.filter (ends_at x)) rfl
    (fun s a s' _ hs hs' =>
      (forward_entrypoint_step_ends policy S e s s' a x hx hs').trans hs)
  split at h <;> cases h
  · exact (filter_ends_cons_ne _ (fun hc => hx (Option.some.inj hc))).trans hinv
  · exact hinv


/-- One iteration over an unmarked process transition entry for a type other
than the start type whose entrypoint vector is empty marks the entry and emits
the candidate without entrypoint. -/
theorem forward_proc_trans_step_degenerate (policy : apol_policy_t)
    (t0 : apol_domain_trans_table_t) (hinv : table_inv policy t0) (S END : Nat)
    (hS : type_in_range policy.types.length S)
    (vp0 : List apol_domain_trans_rule_t)
    (hvp0 : get_rules t0 .proc_trans (S - 1) = some vp0) (i : Nat) (hi : i < vp0.length)
    (hty : vp0[i].type = END) (hne : END ≠ S)
    (hep0 : get_rules t0 .dom_ep (END - 1) = some [])
    (st : trans_state) (hsh : same_shape t0 st.1)
    (hun : unused_type t0 st.1 .proc_trans (S - 1) END) :
    forward_proc_trans_step policy S st i =
      .ok (set_used st.1 .proc_trans (S - 1) i,
        forward_degenerate S END vp0[i].rules :: st.2) := by
  obtain ⟨v, hrules, hget, hview, hsorted, hok⟩ := rules_at_shape hinv hsh hvp0
  have hlen := view_length hview
  have hiv : i < v.length := by omega
  have hvi := view_getElem hview hiv hi
  have htype : v[i].type = END := (congrArg Prod.fst hvi).trans hty
  have hrl : v[i].rules = vp0[i].rules := congrArg (fun p => p.2.2.1) hvi
  have hused : v[i].used = false := by
    rw [← used_at_eq hget hiv]
    exact hun vp0 hvp0 i hi hty
  have hEND : 1 ≤ END := by
    have := (hok v[i] (List.getElem_mem hiv)).1.1
    omega
  have s1 := same_shape_set_used hsh .proc_trans (S - 1) i
  obtain ⟨eps, heps, -, hepsv, -, -⟩ := rules_at_shape hinv s1 hep0
  have hnil : eps = [] := by
    have := view_length hepsv
    exact List.eq_nil_of_length_eq_zero this
  subst hnil
  unfold forward_proc_trans_step
  simp only [node_index_pos hS.1, bind, Except.bind, hrules, element_at_lt hiv, hused,
    Bool.false_eq_true, if_false, htype, hne, node_index_pos hEND, heps, List.length_nil,
    List.range_zero, List.foldlM, pure, Except.pure, if_true, hrl]
  rfl

/-- The loop over the type transition entries of the start type emits no
candidate that ends at a type no entry has as its default type. -/
theorem forward_type_trans_pass_ends (policy : apol_policy_t)
    (t0 : apol_domain_trans_table_t) (hinv : table_inv policy t0) (S x : Nat)
    (hS : type_in_range policy.types.length S)
    (hno : ¬ has_default t0 (S - 1) x) (st1 : trans_state)
    (h : forward_type_trans_pass policy S (t0, []) = .ok st1) :
    st1.2.filter (ends_at x) = [] := by
  have hsz : t0.size = policy.types.length := hinv.1.1
  have hnS : S - 1 < t0.size := by
    have := hS.1
    have := hS.2
    omega
  obtain ⟨vt0, hvt0⟩ := get_rules_some_of_lt hinv .type_trans hnS
  unfold forward_type_trans_pass at h
  simp only [node_index_pos hS.1, bind, Except.bind, rules_at_of_get hvt0] at h
  have hI := foldlM_invariant h
    (fun s : trans_state => same_shape t0 s.1 ∧ s.2.filter (ends_at x) = [])
    ⟨same_shape_refl t0, rfl⟩
    (fun s a s' ha hs hs' => by
      have hal := List.mem_range.mp ha
      obtain ⟨s'', h1, h2, -⟩ :=
        forward_type_trans_step_spec policy t0 hinv S hS vt0 hvt0 a hal s hs.1
      rw [hs'] at h1
      cases h1
      refine ⟨h2, ?_⟩
      obtain ⟨v, -, hget, hview, -, -⟩ := rules_at_shape hinv hs.1 hvt0
      have hav : a < v.length := by rw [view_length hview]; exact hal
      have hvi := view_getElem hview hav hal
      have hd : v[a].dflt = vt0[a].dflt := congrArg (fun p => p.2.1) hvi
      rw [forward_type_trans_step_ends policy S s s' a x v v[a] hget
        (List.getElem?_eq_getElem hav) ?_ hs']
      · exact hs.2
      · rw [hd]
        intro hc
        exact hno ⟨vt0, hvt0, vt0[a], List.getElem_mem hal, hc⟩)
  exact hI.2


/-- A candidate that ends at `x` counts among those that end at `x`. -/
theorem filter_ends_cons_eq {x : Nat} {c : apol_domain_trans_t} (l : List apol_domain_trans_t)
    (h : c.end_type = some x) : (c :: l).filter (ends_at x) = c :: l.filter (ends_at x) := by
  have : ends_at x c = true := by
    unfold ends_at
    exact decide_eq_true h
  simp [List.filter_cons, this]

/-- The loop over the process transition entries emits, for an unmarked entry
for a type without entrypoint, the candidate without entrypoint and no other
candidate that ends at that type. -/
theorem forward_proc_trans_pass_degenerate (policy : apol_policy_t)
    (t0 : apol_domain_trans_table_t) (hinv : table_inv policy t0) (S END : Nat)
    (hS : type_in_range policy.types.length S)
    (vp0 : List apol_domain_trans_rule_t)
    (hvp0 : get_rules t0 .proc_trans (S - 1) = some vp0) (i : Nat) (hi : i < vp0.length)
    (hty : vp0[i].type = END) (hne : END ≠ S)
    (hep0 : get_rules t0 .dom_ep (END - 1) = some [])
    (st : trans_state) (hsh : same_shape t0 st.1)
    (hun : unused_type t0 st.1 .proc_trans (S - 1) END)
    (hnil : st.2.filter (ends_at END) = []) :
    ∃ st2, forward_proc_trans_pass policy S st = .ok st2 ∧
      st2.2.filter (ends_at END) = [forward_degenerate S END vp0[i].rules] := by
  obtain ⟨v, hrules, -, hview, -, -⟩ := rules_at_shape hinv hsh hvp0
  have hlen := view_length hview
  have hsorted := (hinv.1.2.2.2 .proc_trans _ vp0 hvp0).1
  have hstep := forward_proc_trans_step_spec policy t0 hinv S hS vp0 hvp0
  have hkeep : ∀ (s s' : trans_state) (a : Nat), a < vp0.length → a ≠ i →
      same_shape t0 s.1 → forward_proc_trans_step policy S s a = .ok s' →
      s'.2.filter (ends_at END) = s.2.filter (ends_at END) := by
    intro s s' a hal hai hs hs'
    obtain ⟨w, -, hget, hwview, -, -⟩ := rules_at_shape hinv hs hvp0
    have haw : a < w.length := by rw [view_length hwview]; exact hal
    have hwa : w[a].type = vp0[a].type := congrArg Prod.fst (view_getElem hwview haw hal)
    refine forward_proc_trans_step_ends policy S s s' a END w w[a] hget
      (List.getElem?_eq_getElem haw) ?_ hs'
    rw [hwa, ← hty]
    exact fun h => hai (bucket_sorted_index_unique hsorted hal hi h)
  obtain ⟨st2, hfold, hpost⟩ := foldlM_emit (List.range vp0.length) i
    (List.mem_range.mpr hi) (List.nodup_range _)
    (fun s : trans_state => same_shape t0 s.1 ∧ unused_type t0 s.1 .proc_trans (S - 1) END ∧
      s.2.filter (ends_at END) = [])
    (fun s : trans_state => same_shape t0 s.1 ∧
      s.2.filter (ends_at END) = [forward_degenerate S END vp0[i].rules])
    (fun s a ha hai hs => by
      have hal := List.mem_range.mp ha
      obtain ⟨s', h1, h2, -, h4, -⟩ := hstep a hal s hs.1
      have hx : vp0[a].type ≠ END := by
        rw [← hty]
        exact fun h => hai (bucket_sorted_index_unique hsorted hal hi h)
      exact ⟨s', h1, h2, h4 _ _ _ (Or.inl rfl) hx hs.2.1,
        (hkeep s s' a hal hai hs.1 h1).trans hs.2.2⟩)
    (fun s hs => by
      refine ⟨_, forward_proc_trans_step_degenerate policy t0 hinv S END hS vp0 hvp0 i hi
        hty hne hep0 s hs.1 hs.2.1, same_shape_set_used hs.1 _ _ _, ?_⟩
      rw [filter_ends_cons_eq _ rfl, hs.2.2])
    (fun s a ha hai hs => by
      have hal := List.mem_range.mp ha
      obtain ⟨s', h1, h2, -⟩ := hstep a hal s hs.1
      exact ⟨s', h1, h2, (hkeep s s' a hal hai hs.1 h1).trans hs.2⟩)
    st ⟨hsh, hun, hnil⟩
  unfold forward_proc_trans_pass
  simp only [node_index_pos hS.1, bind, Except.bind, hrules, hlen]
  exact ⟨st2, hfold, hpost.2⟩

/-- Forward analysis over a table that satisfies the invariant and has no marks
emits exactly one candidate for the end type of a process transition entry that
no type transition entry leads to and that has no entrypoint. -/
theorem forward_degenerate_spec (policy : apol_policy_t) (t0 : apol_domain_trans_table_t)
    (hinv : table_inv policy t0) (hun : table_unmarked t0) (S END : Nat)
    (hS : type_in_range policy.types.length S) (hSc : qpol_type_get_isattr policy S = false)
    (hne : END ≠ S) (vp0 : List apol_domain_trans_rule_t) (e : apol_domain_trans_rule_t)
    (hvp0 : get_rules t0 .proc_trans (S - 1) = some vp0) (he : e ∈ vp0) (het : e.type = END)
    (hno : ¬ has_default t0 (S - 1) END)
    (hep0 : get_rules t0 .dom_ep (END - 1) = some [])
    (l : List apol_domain_trans_t) :
    ∃ st new, apol_domain_trans_table_get_all_forward_trans policy t0 l S = .ok st ∧
      st.2 = new ++ l ∧
      new.filter (ends_at END) = [forward_degenerate S END e.rules] := by
  obtain ⟨i, hi, hie⟩ := List.getElem_of_mem he
  subst hie
  have hEND : 1 ≤ END := by
    have := ((hinv.1.2.2.2 .proc_trans _ vp0 hvp0).2 _ he).1.1
    omega
  obtain ⟨st1, h1, hsh1, hmarks, -⟩ := forward_type_trans_pass_spec policy t0 hinv S hS
  have hnil := forward_type_trans_pass_ends policy t0 hinv S END hS hno st1 h1
  have hx : ∀ v0, get_rules t0 .type_trans (S - 1) = some v0 →
      ∀ e ∈ v0, type_value e.dflt ≠ END := by
    intro v0 hv0 e' he' hval
    apply hno
    refine ⟨v0, hv0, e', he', ?_⟩
    cases hd : e'.dflt with
    | none =>
      rw [hd] at hval
      simp only [type_value] at hval
      omega
    | some d =>
      rw [hd] at hval
      simp only [type_value] at hval
      rw [hval]
  obtain ⟨st2, h2, hf⟩ := forward_proc_trans_pass_degenerate policy t0 hinv S END hS vp0 hvp0
    i hi het hne hep0 st1 hsh1
    (hmarks END hx _ _ (Or.inl rfl) (unused_type_unmarked hun _ _ _)) hnil
  unfold apol_domain_trans_table_get_all_forward_trans
  simp only [hSc, Bool.false_eq_true, if_false, bind, Except.bind, h1, h2, pure, Except.pure]
  exact ⟨_, st2.2, rfl, rfl, hf⟩

/-- C30. For every table built from a well-formed policy, every start type S
that is a type of the policy and not an attribute, and every process transition
entry of S for a type END other than S: if no type transition entry of S has
default type END and the entrypoint vector of END is empty, then forward
analysis from S over the table as built succeeds, and among the candidates it
links in front of the given list exactly one has end type END: the candidate
with start S, no entrypoint, end END, the raw rules of the process transition
entry, no other rules, and a valid flag that is false. -/
theorem forward_degenerate_candidate (policy : apol_policy_t) (hw : policy_wf policy)
    (table : apol_domain_trans_table_t)
    (hb : apol_policy_build_domain_trans_table policy none = .ok table) (S END : Nat)
    (hS : type_in_range policy.types.length S) (hSc : qpol_type_get_isattr policy S = false)
    (hne : END ≠ S) (vp : List apol_domain_trans_rule_t) (e : apol_domain_trans_rule_t)
    (hvp : get_rules table .proc_trans (S - 1) = some vp) (he : e ∈ vp) (het : e.type = END)
    (hno : ¬ has_default table (S - 1) END)
    (hep : get_rules table .dom_ep (END - 1) = some [])
    (l : List apol_domain_trans_t) :
    ∃ st new, apol_domain_trans_table_get_all_forward_trans policy table l S = .ok st ∧
      st.2 = new ++ l ∧
      new.filter (ends_at END) = [forward_degenerate S END e.rules] := by
  obtain ⟨hinv, hun⟩ := build_table_built hw hb
  exact forward_degenerate_spec policy table hinv hun S END hS hSc hne vp e hvp he het hno hep l

theorem forward_degenerate_candidate_witness :
    ∃ st new, apol_domain_trans_table_get_all_forward_trans no_entrypoint_policy
        (table_of no_entrypoint_policy) [] 1 = .ok st ∧
      st.2 = new ++ [] ∧
      new.filter (ends_at 2) = [forward_degenerate 1 2 no_entrypoint_entry.rules] :=
  forward_degenerate_candidate no_entrypoint_policy (by decide)
    (table_of no_entrypoint_policy) rfl 1 2 (by decide) (by decide) (by decide)
    [no_entrypoint_entry] no_entrypoint_entry rfl (List.mem_cons_self _ _) rfl
    (fun h => by
      obtain ⟨v, hv, e, he, -⟩ := h
      have h0 : get_rules (table_of no_entrypoint_policy) .type_trans (1 - 1) = some [] := rfl
      rw [h0] at hv
      cases hv
      cases he)
    rfl []

/-! ## Termination and bounds of the binary search -/

/-- The loop of the binary search is its body, pass after pass. -/
theorem find_rule_for_type_loop_body (v : List apol_domain_trans_rule_t) (t : Nat)
    (fuel : Nat) (left right i : Int) :
    find_rule_for_type_loop v t (fuel + 1) left right i =
      match find_rule_for_type_body v t left right i with
      | .found k => .rule k
      | .stop => .null
      | .next l r j => find_rule_for_type_loop v t fuel l r j
      | .outside => .fault := by
  unfold find_rule_for_type_body
  rw [find_rule_for_type_loop]
  split
  · rfl
  · split
    · rfl
    · split
      · rfl
      · split
        · split <;> rfl
        · split <;> rfl

/-- One pass of the binary search from a state within the vector reads within
the vector, and when the loop goes round again the new state lies within the
vector with a smaller `right - left`. -/
theorem find_rule_for_type_body_spec (v : List apol_domain_trans_rule_t) (t : Nat)
    (left right i : Int) (h0 : 0 ≤ left) (h1 : left ≤ i) (h2 : i ≤ right)
    (h3 : right < v.length) :
    find_rule_for_type_body v t left right i ≠ .outside ∧
      (∀ k, find_rule_for_type_body v t left right i = .found k →
        (k : Int) = i ∧ k < v.length) ∧
      ∀ l r j, find_rule_for_type_body v t left right i = .next l r j →
        0 ≤ l ∧ l ≤ j ∧ j ≤ r ∧ r < v.length ∧ r - l < right - left := by
  have hi : i.toNat < v.length := by omega
  have hnn : ¬ i < 0 := by omega
  unfold find_rule_for_type_body
  simp only [hnn, if_false, List.getElem?_eq_getElem hi]
  have hr : 0 ≤ right - i := by omega
  have hl : 0 ≤ i - left := by omega
  have cr := ceil_half_bounds (right - i) hr
  have cl := ceil_half_bounds (i - left) hl
  by_cases heq : v[i.toNat].type = t
  · simp only [heq, if_true]
    refine ⟨by simp, ?_, by simp⟩
    intro k hk
    cases hk
    exact ⟨by omega, hi⟩
  · simp only [heq, if_false]
    by_cases hlt : v[i.toNat].type < t
    · simp only [hlt, if_true]
      by_cases hc : right ≥ i + 1
      · simp only [hc, if_true]
        refine ⟨by simp, by simp, ?_⟩
        intro l r j hn
        cases hn
        have := cr.2.2 (by omega)
        omega
      · simp only [hc, if_false]
        exact ⟨by simp, by simp, by simp⟩
    · simp only [hlt, if_false]
      by_cases hc : i - 1 ≥ left
      · simp only [hc, if_true]
        refine ⟨by simp, by simp, ?_⟩
        intro l r j hn
        cases hn
        have := cl.2.2 (by omega)
        omega
      · simp only [hc, if_false]
        exact ⟨by simp, by simp, by simp⟩


/-- C34. For every vector that is not empty, ascending or not, and every type
that is not an attribute: the binary search of
`apol_domain_trans_find_rule_for_type` starts with `0 ≤ left ≤ i ≤ right < size`;
every pass through the loop body from such a state reads the element at `i`
within the vector, returns an index within the vector when it returns one, and
when the loop goes round again the new state is again such a state with a
strictly smaller `right - left`; the loop is these passes, started with as many
allowed passes as the vector has elements; and the function returns an index
within the vector or NULL, so it neither runs out of passes nor reads outside
the vector. -/
theorem find_rule_for_type_terminates (policy : apol_policy_t)
    (v : List apol_domain_trans_rule_t) (t : Nat) (hne : v ≠ [])
    (hc : qpol_type_get_isattr policy t = false) :
    search_state_ok v 0 ((v.length : Int) - 1) ((v.length : Int).tdiv 2) ∧
      (∀ left right i, search_state_ok v left right i →
        find_rule_for_type_body v t left right i ≠ .outside ∧
        (∀ k, find_rule_for_type_body v t left right i = .found k → k < v.length) ∧
        ∀ l r j, find_rule_for_type_body v t left right i = .next l r j →
          search_state_ok v l r j ∧ r - l < right - left) ∧
      (∀ fuel left right i,
        find_rule_for_type_loop v t (fuel + 1) left right i =
          match find_rule_for_type_body v t left right i with
          | .found k => .rule k
          | .stop => .null
          | .next l r j => find_rule_for_type_loop v t fuel l r j
          | .outside => .fault) ∧
      apol_domain_trans_find_rule_for_type policy v t =
        find_rule_for_type_loop v t v.length 0 ((v.length : Int) - 1)
          ((v.length : Int).tdiv 2) ∧
      ((∃ k, k < v.length ∧ apol_domain_trans_find_rule_for_type policy v t = .rule k) ∨
        apol_domain_trans_find_rule_for_type policy v t = .null) := by
  have hpos : 0 < v.length := List.length_pos.mpr hne
  have hd : (v.length : Int).tdiv 2 = (v.length : Int) / 2 :=
    Int.tdiv_eq_ediv (by omega) (by norm_num)
  refine ⟨?_, ?_, find_rule_for_type_loop_body v t, ?_, ?_⟩
  · unfold search_state_ok
    rw [hd]
    omega
  · intro left right i hs
    obtain ⟨h0, h1, h2, h3⟩ := hs
    obtain ⟨a, b, c⟩ := find_rule_for_type_body_spec v t left right i h0 h1 h2 h3
    refine ⟨a, fun k hk => (b k hk).2, ?_⟩
    intro l r j hn
    obtain ⟨c0, c1, c2, c3, c4⟩ := c l r j hn
    exact ⟨⟨c0, c1, c2, c3⟩, c4⟩
  · unfold apol_domain_trans_find_rule_for_type
    simp only [hc, Bool.false_eq_true, if_false]
    rw [if_neg (by omega)]
  · rcases find_rule_for_type_total policy v t hc with ⟨k, hk, -, h⟩ | h
    · exact Or.inl ⟨k, hk, h⟩
    · exact Or.inr h

theorem find_rule_for_type_terminates_witness :
    search_state_ok unsorted_bucket 0 ((unsorted_bucket.length : Int) - 1)
        ((unsorted_bucket.length : Int).tdiv 2) ∧
      ((∃ k, k < unsorted_bucket.length ∧
          apol_domain_trans_find_rule_for_type c9_policy unsorted_bucket 3 = .rule k) ∨
        apol_domain_trans_find_rule_for_type c9_policy unsorted_bucket 3 = .null) :=
  ⟨(find_rule_for_type_terminates c9_policy unsorted_bucket 3 (by decide) (by decide)).1,
    (find_rule_for_type_terminates c9_policy unsorted_bucket 3 (by decide)
      (by decide)).2.2.2.2⟩

/-! ## The lookup by default type -/

/-- The linear search returns the first index whose entry has the default type,
NULL when no entry has it. -/
theorem find_rule_for_dflt_loop_first (d : Nat) (l : List apol_domain_trans_rule_t) :
    ∀ i0, (∃ k, ∃ hk : k < l.length, l[k].dflt = some d ∧
          (∀ j (hj : j < k), l[j].dflt ≠ some d) ∧
          find_rule_for_dflt_loop d l i0 = .rule (i0 + k)) ∨
      ((∀ e ∈ l, e.dflt ≠ some d) ∧ find_rule_for_dflt_loop d l i0 = .null) := by
  induction l with
  | nil => intro i0; right; exact ⟨by simp, rfl⟩
  | cons x xs ih =>
    intro i0
    unfold find_rule_for_dflt_loop
    by_cases hx : x.dflt = some d
    · left
      refine ⟨0, by simp, hx, fun j hj => absurd hj (Nat.not_lt_zero j), ?_⟩
      rw [if_pos hx]
      rfl
    · rw [if_neg hx]
      rcases ih (i0 + 1) with ⟨k, hk, hkd, hfirst, h⟩ | ⟨hall, h⟩
      · left
        refine ⟨k + 1, by simp [hk], by simpa using hkd, ?_, ?_⟩
        · intro j hj
          cases j with
          | zero => simpa using hx
          | succ j =>
            have := hfirst j (by omega)
            simpa using this
        · rw [h]
          congr 1
          omega
      · right
        refine ⟨?_, h⟩
        intro e he
        rcases List.mem_cons.mp he with rfl | he
        · exact hx
        · exact hall e he

/-- C32. For every rule vector, ascending or not, and every type `d` that is not
an attribute: `apol_domain_trans_find_rule_for_dflt` returns the first index, in
the order of the vector, whose entry has default type `d`, or NULL when no entry
has default type `d`; it returns NULL exactly when no entry has default type `d`;
and it never returns an entry without default type. -/
theorem find_rule_for_dflt_first (policy : apol_policy_t)
    (v : List apol_domain_trans_rule_t) (d : Nat)
    (hc : qpol_type_get_isattr policy d = false) :
    ((∃ k, ∃ hk : k < v.length, v[k].dflt = some d ∧
          (∀ j (hj : j < k), v[j].dflt ≠ some d) ∧
          apol_domain_trans_find_rule_for_dflt policy v d = .rule k) ∨
        ((∀ e ∈ v, e.dflt ≠ some d) ∧
          apol_domain_trans_find_rule_for_dflt policy v d = .null)) ∧
      (apol_domain_trans_find_rule_for_dflt policy v d = .null ↔
        ∀ e ∈ v, e.dflt ≠ some d) ∧
      (∀ k (hk : k < v.length), v[k].dflt = none →
        apol_domain_trans_find_rule_for_dflt policy v d ≠ .rule k) := by
  have hspec := find_rule_for_dflt_loop_first d v 0
  have heq : apol_domain_trans_find_rule_for_dflt policy v d = find_rule_for_dflt_loop d v 0 := by
    unfold apol_domain_trans_find_rule_for_dflt
    simp only [hc, Bool.false_eq_true, if_false]
  rw [heq]
  simp only [Nat.zero_add] at hspec
  refine ⟨hspec, ?_, ?_⟩
  · constructor
    · intro hnull
      rcases hspec with ⟨k, hk, -, -, h⟩ | ⟨hall, -⟩
      · rw [h] at hnull
        cases hnull
      · exact hall
    · intro hall
      rcases hspec with ⟨k, hk, hkd, -, -⟩ | ⟨-, h⟩
      · exact absurd hkd (hall _ (List.getElem_mem hk))
      · exact h
  · intro k hk hnone hres
    rcases hspec with ⟨k', hk', hkd, -, h⟩ | ⟨-, h⟩
    · rw [h] at hres
      cases hres
      rw [hnone] at hkd
      cases hkd
    · rw [h] at hres
      cases hres

theorem find_rule_for_dflt_first_witness :
    (apol_domain_trans_find_rule_for_dflt two_defaults_policy merged_bucket 3 = .null ↔
        ∀ e ∈ merged_bucket, e.dflt ≠ some 3) ∧
      ∀ k (hk : k < unsorted_bucket.length), unsorted_bucket[k].dflt = none →
        apol_domain_trans_find_rule_for_dflt two_defaults_policy unsorted_bucket 3 ≠ .rule k :=
  ⟨(find_rule_for_dflt_first two_defaults_policy merged_bucket 3 (by decide)).2.1,
    (find_rule_for_dflt_first two_defaults_policy unsorted_bucket 3 (by decide)).2.2⟩

/-! ## What the analyses change in the table -/

/-- Two tables that the reset maps to the same table differ in used marks only,
and not in those of the setexec vectors. -/
theorem same_shape_of_reset_eq {a b : apol_domain_trans_table_t}
    (h : apol_policy_reset_domain_trans_table a = apol_policy_reset_domain_trans_table b) :
    same_shape b a ∧ ∀ n, get_rules a .setexec n = get_rules b .setexec n := by
  have ha := same_shape_reset (same_shape_refl a)
  have hb := same_shape_reset (same_shape_refl b)
  rw [h] at ha
  constructor
  · refine ⟨ha.1.symm.trans hb.1, ?_⟩
    intro k n
    rw [← ha.2 k n, ← hb.2 k n]
  · intro n
    have h1 := get_rules_reset a .setexec n
    have h2 := get_rules_reset b .setexec n
    rw [if_pos rfl] at h1 h2
    rw [← h1, ← h2, h]

/-- C37. After a forward analysis and after a reverse analysis that succeed, the
table has the size it had and every rule vector of every node holds the same
entries in the same order with the same type, default type, raw rules and
no-transition flag as before, so used marks are all that changed; and every
setexec vector is as before, used marks included. -/
theorem analysis_changes_marks_only (policy : apol_policy_t)
    (table : apol_domain_trans_table_t) :
    (∀ l start st,
        apol_domain_trans_table_get_all_forward_trans policy table l start = .ok st →
        same_shape table st.1 ∧
          ∀ n, get_rules st.1 .setexec n = get_rules table .setexec n) ∧
      ∀ l end_type st,
        apol_domain_trans_table_get_all_reverse_trans policy table l end_type = .ok st →
        same_shape table st.1 ∧
          ∀ n, get_rules st.1 .setexec n = get_rules table .setexec n :=
  ⟨fun l start st h => same_shape_of_reset_eq (forward_reset policy table l start st h),
    fun l end_type st h => same_shape_of_reset_eq (reverse_reset policy table l end_type st h)⟩

theorem analysis_changes_marks_only_witness :
    (same_shape (table_of (complete_policy 20))
        (value_or (empty_table, []) (apol_domain_trans_table_get_all_forward_trans
          (complete_policy 20) (table_of (complete_policy 20)) [] 1)).1 ∧
      ∀ n, get_rules (value_or (empty_table, []) (apol_domain_trans_table_get_all_forward_trans
          (complete_policy 20) (table_of (complete_policy 20)) [] 1)).1 .setexec n =
        get_rules (table_of (complete_policy 20)) .setexec n) ∧
    (same_shape (table_of (complete_policy 20))
        (value_or (empty_table, []) (apol_domain_trans_table_get_all_reverse_trans
          (complete_policy 20) (table_of (complete_policy 20)) [] 2)).1 ∧
      ∀ n, get_rules (value_or (empty_table, []) (apol_domain_trans_table_get_all_reverse_trans
          (complete_policy 20) (table_of (complete_policy 20)) [] 2)).1 .setexec n =
        get_rules (table_of (complete_policy 20)) .setexec n) :=
  ⟨(analysis_changes_marks_only (complete_policy 20) (table_of (complete_policy 20))).1
      [] 1 _ rfl,
    (analysis_changes_marks_only (complete_policy 20) (table_of (complete_policy 20))).2
      [] 2 _ rfl⟩

/-! ## Validity mode 0 -/

/-- The result type filter reads the direction and the pattern of the request
and nothing else. -/
theorem filter_result_types_loop_congr (cmp : Option Nat → Option String → Int)
    (d1 d2 : apol_domain_trans_analysis_t) (hd : d1.direction = d2.direction)
    (hr : d1.result = d2.result) (rest kept : List apol_domain_trans_t) :
    filter_result_types_loop cmp d1 kept rest = filter_result_types_loop cmp d2 kept rest := by
  induction rest generalizing kept with
  | nil => rfl
  | cons cur next ih =>
    unfold filter_result_types_loop
    simp only [hd, hr, ih]

/-- What the result type filter returns was in the list it received. -/
theorem filter_result_types_loop_mem (cmp : Option Nat → Option String → Int)
    (dta : apol_domain_trans_analysis_t) (rest kept out : List apol_domain_trans_t)
    (h : filter_result_types_loop cmp dta kept rest = .ok out) :
    ∀ c ∈ out, c ∈ kept ∨ c ∈ rest := by
  induction rest generalizing kept with
  | nil =>
    unfold filter_result_types_loop at h
    cases h
    exact fun c hc => Or.inl hc
  | cons cur next ih =>
    unfold filter_result_types_loop at h
    dsimp only at h
    generalize cmp (if dta.direction = APOL_DOMAIN_TRANS_DIRECTION_REVERSE
      then cur.start_type else cur.end_type) dta.result = cv at h
    by_cases hneg : cv < 0
    · rw [if_pos hneg] at h
      cases h
    · rw [if_neg hneg] at h
      by_cases hpos : cv > 0
      · rw [if_pos hpos] at h
        intro c hc
        rcases ih _ h c hc with h1 | h1
        · rcases List.mem_append.mp h1 with h2 | h2
          · exact Or.inl h2
          · exact Or.inr (by rw [List.mem_singleton.mp h2]; exact List.mem_cons_self _ _)
        · exact Or.inr (List.mem_cons_of_mem _ h1)
      · rw [if_neg hpos] at h
        intro c hc
        rcases ih _ h c hc with h1 | h1
        · exact Or.inl h1
        · exact Or.inr (List.mem_cons_of_mem _ h1)

/-- When the validity mode is not both, every result has the valid flag the
validity filter was called with. -/
theorem filter_and_collect_valid_mode
    (by_name : String → Option Nat) (cmp : Option Nat → Option String → Int)
    (q : Option Nat → Nat → String → List String → List qpol_avrule_t)
    (dta : apol_domain_trans_analysis_t) (hne : dta.valid ≠ APOL_DOMAIN_TRANS_SEARCH_BOTH)
    (l : List apol_domain_trans_t) (results : List apol_domain_trans_result_t)
    (h : filter_and_collect by_name cmp q dta l = .ok results) :
    ∀ r ∈ results, r.valid = decide (dta.valid &&& APOL_DOMAIN_TRANS_SEARCH_VALID ≠ 0) := by
  unfold filter_and_collect at h
  obtain ⟨l1, h1, h⟩ := bind_ok h
  obtain ⟨l2, h2, h⟩ := bind_ok h
  obtain ⟨l3, h3, h⟩ := bind_ok h
  cases h
  rw [if_pos hne] at h1
  unfold apol_domain_trans_filter_valid at h1
  rw [filter_valid_loop_eq] at h1
  cases h1
  have p1 : ∀ c ∈ ([] ++ l.filter fun c =>
      c.valid == decide (dta.valid &&& APOL_DOMAIN_TRANS_SEARCH_VALID ≠ 0)),
      c.valid = decide (dta.valid &&& APOL_DOMAIN_TRANS_SEARCH_VALID ≠ 0) := by
    intro c hc
    rw [List.nil_append] at hc
    have := (List.mem_filter.mp hc).2
    exact eq_of_beq this
  have p2 : ∀ c ∈ l2, c.valid = decide (dta.valid &&& APOL_DOMAIN_TRANS_SEARCH_VALID ≠ 0) := by
    intro c hc
    split at h2
    · unfold apol_domain_trans_filter_result_types at h2
      rcases filter_result_types_loop_mem cmp dta _ [] l2 h2 c hc with h' | h'
      · cases h'
      · exact p1 c h'
    · cases h2
      exact p1 c hc
  have p3 : ∀ c ∈ l3, c.valid = decide (dta.valid &&& APOL_DOMAIN_TRANS_SEARCH_VALID ≠ 0) := by
    intro c hc
    split at h3
    · obtain ⟨type_v, -, h3⟩ := bind_ok h3
      unfold apol_domain_trans_filter_access at h3
      split at h3
      · cases h3
      · split at h3
        · cases h3
          cases hc
        · cases h3
          rw [filter_access_loop_eq, List.nil_append] at hc
          obtain ⟨c0, hc0, rfl⟩ := List.mem_map.mp (List.mem_filter.mp hc).1
          exact p2 c0 hc0
    · cases h3
      exact p2 c hc
  intro r hr
  obtain ⟨c, hc, rfl⟩ := List.mem_map.mp hr
  exact p3 c hc

/-- The filters treat validity mode 0 as they treat mode invalid. -/
theorem filter_and_collect_mode_zero
    (by_name : String → Option Nat) (cmp : Option Nat → Option String → Int)
    (q : Option Nat → Nat → String → List String → List qpol_avrule_t)
    (dta : apol_domain_trans_analysis_t) (l : List apol_domain_trans_t) :
    filter_and_collect by_name cmp q { dta with valid := 0 } l =
      filter_and_collect by_name cmp q
        { dta with valid := APOL_DOMAIN_TRANS_SEARCH_INVALID } l := by
  unfold filter_and_collect
  have h0 : (0 : Nat) ≠ APOL_DOMAIN_TRANS_SEARCH_BOTH := by decide
  have h2 : APOL_DOMAIN_TRANS_SEARCH_INVALID ≠ APOL_DOMAIN_TRANS_SEARCH_BOTH := by decide
  have hb : decide ((0 : Nat) &&& APOL_DOMAIN_TRANS_SEARCH_VALID ≠ 0) =
      decide (APOL_DOMAIN_TRANS_SEARCH_INVALID &&& APOL_DOMAIN_TRANS_SEARCH_VALID ≠ 0) := by
    decide
  simp only [if_pos h0, if_pos h2, hb]
  congr 1
  funext l1
  have hf : apol_domain_trans_filter_result_types cmp { dta with valid := 0 } l1 =
      apol_domain_trans_filter_result_types cmp
        { dta with valid := APOL_DOMAIN_TRANS_SEARCH_INVALID } l1 := by
    unfold apol_domain_trans_filter_result_types
    exact filter_result_types_loop_congr cmp { dta with valid := 0 }
      { dta with valid := APOL_DOMAIN_TRANS_SEARCH_INVALID } rfl rfl l1 []
  rw [hf]

/-- C39. Validity mode 0 is accepted by `apol_domain_trans_analysis_set_valid`,
which stores it; the validation of `apol_domain_trans_analysis_do` decides for a
request with mode 0 as for the same request with mode valid, so the mode is no
ground for rejection; a run with mode 0 returns what the run of the same
request with mode invalid returns, table and value; and every result of a
successful run with mode 0 has a valid flag that is false. -/
theorem valid_mode_zero_is_invalid (policy : apol_policy_t)
    (existing : Option apol_domain_trans_table_t)
    (by_name : String → Option Nat) (cmp : Option Nat → Option String → Int)
    (q : Option Nat → Nat → String → List String → List qpol_avrule_t)
    (dta : apol_domain_trans_analysis_t) :
    apol_domain_trans_analysis_set_valid dta 0 = .ok { dta with valid := 0 } ∧
      options_invalid { dta with valid := 0 } =
        options_invalid { dta with valid := APOL_DOMAIN_TRANS_SEARCH_VALID } ∧
      apol_domain_trans_analysis_do policy existing by_name cmp q { dta with valid := 0 } =
        apol_domain_trans_analysis_do policy existing by_name cmp q
          { dta with valid := APOL_DOMAIN_TRANS_SEARCH_INVALID } ∧
      ∀ tbl results,
        apol_domain_trans_analysis_do policy existing by_name cmp q { dta with valid := 0 } =
          (tbl, .ok results) →
        ∀ r ∈ results, r.valid = false := by
  have e0 : land_not 0 APOL_DOMAIN_TRANS_SEARCH_BOTH = 0 := by decide
  have e1 : land_not APOL_DOMAIN_TRANS_SEARCH_VALID APOL_DOMAIN_TRANS_SEARCH_BOTH = 0 := by
    decide
  have e2 : land_not APOL_DOMAIN_TRANS_SEARCH_INVALID APOL_DOMAIN_TRANS_SEARCH_BOTH = 0 := by
    decide
  refine ⟨?_, ?_, ?_, ?_⟩
  · unfold apol_domain_trans_analysis_set_valid
    rw [if_neg (by rw [e0]; exact fun h => h rfl)]
  · unfold options_invalid
    simp only [e0, e1]
  · unfold apol_domain_trans_analysis_do
    have ho : options_invalid { dta with valid := 0 } =
        options_invalid { dta with valid := APOL_DOMAIN_TRANS_SEARCH_INVALID } := by
      unfold options_invalid
      simp only [e0, e2]
    simp only [ho, filter_and_collect_mode_zero]
  · intro tbl results h
    unfold apol_domain_trans_analysis_do at h
    split at h
    · cases h
    split at h
    · cases h
    split at h
    · cases h
    split at h
    · cases h
    simp only [Prod.mk.injEq] at h
    have hne : (0 : Nat) ≠ APOL_DOMAIN_TRANS_SEARCH_BOTH := by decide
    have := filter_and_collect_valid_mode by_name cmp q { dta with valid := 0 } hne
      _ results h.2
    intro r hr
    rw [this r hr]
    show decide ((0 : Nat) &&& APOL_DOMAIN_TRANS_SEARCH_VALID ≠ 0) = false
    decide

theorem valid_mode_zero_is_invalid_witness :
    (value_or [] (apol_domain_trans_analysis_do self_policy none example_names
        example_match example_query mode_zero_request).2).map result_tuple =
        [(some 1, some 2, some 1, false)] ∧
      ∀ r ∈ value_or [] (apol_domain_trans_analysis_do self_policy none example_names
        example_match example_query mode_zero_request).2, r.valid = false :=
  ⟨rfl, (valid_mode_zero_is_invalid self_policy none example_names example_match
    example_query mode_zero_request).2.2.2 _ _ rfl⟩

/-! ## Class and permission sets of a request -/

/-- The lookup by class name fails exactly when no set has the class name. -/
theorem class_perm_index_none (v : List apol_obj_perm_t) (c : String) :
    class_perm_index v c = none ↔ c ∉ v.map fun op => op.obj_name := by
  induction v with
  | nil => simp [class_perm_index]
  | cons x xs ih =>
    unfold class_perm_index
    by_cases hx : x.obj_name = c
    · simp [hx]
    · rw [if_neg hx]
      simp only [Option.map_eq_none', ih, List.map_cons, List.mem_cons, not_or]
      constructor
      · intro h
        exact ⟨fun hc => hx hc.symm, h⟩
      · intro h
        exact h.2

/-- The lookup by class name returns the index of a set with the class name. -/
theorem class_perm_index_some (v : List apol_obj_perm_t) (c : String) (i : Nat)
    (h : class_perm_index v c = some i) :
    ∃ hi : i < v.length, v[i].obj_name = c := by
  induction v generalizing i with
  | nil => simp [class_perm_index] at h
  | cons x xs ih =>
    unfold class_perm_index at h
    by_cases hx : x.obj_name = c
    · rw [if_pos hx] at h
      cases h
      exact ⟨by simp, hx⟩
    · rw [if_neg hx] at h
      cases hr : class_perm_index xs c with
      | none => rw [hr] at h; cases h
      | some j =>
        rw [hr] at h
        cases h
        obtain ⟨hj, hjc⟩ := ih j hr
        exact ⟨by simp [hj], by simpa using hjc⟩

/-- Adding a permission leaves the class name. -/
theorem append_perm_obj_name (op : apol_obj_perm_t) (p : Option String) :
    (apol_obj_perm_append_perm op p).obj_name = op.obj_name := by
  unfold apol_obj_perm_append_perm
  cases p with
  | none => rfl
  | some q =>
    dsimp only
    split <;> rfl

/-- After a permission is added the set holds it. -/
theorem append_perm_mem (op : apol_obj_perm_t) (p : String) :
    p ∈ (apol_obj_perm_append_perm op (some p)).perms := by
  unfold apol_obj_perm_append_perm
  dsimp only
  split
  · assumption
  · simp

/-- Replacing a set by one of the same class name leaves the class names. -/
theorem names_set (v : List apol_obj_perm_t) (i : Nat) (hi : i < v.length)
    (op : apol_obj_perm_t) (h : op.obj_name = v[i].obj_name) :
    (v.set i op).map (fun o => o.obj_name) = v.map fun o => o.obj_name := by
  apply List.ext_getElem
  · simp
  · intro n h1 h2
    simp only [List.getElem_map, List.getElem_set]
    split
    · next heq => subst heq; exact h
    · rfl

/-- The outcome of one call, by cases. -/
theorem append_class_perm_cases (dta : apol_domain_trans_analysis_t)
    (class_name perm_name : Option String) :
    ∃ dta', apol_domain_trans_analysis_append_class_perm dta class_name perm_name = .ok dta' ∧
      (class_name = none → class_perms dta' = []) ∧
      (∀ c, class_name = some c → c ∈ class_names dta →
        ∃ i, ∃ hi : i < (class_perms dta).length, (class_perms dta)[i].obj_name = c ∧
          class_perms dta' =
            (class_perms dta).set i (apol_obj_perm_append_perm (class_perms dta)[i] perm_name)) ∧
      (∀ c p, class_name = some c → perm_name = some p → c ∉ class_names dta →
        class_perms dta' = class_perms dta ++ [{ obj_name := c, perms := [p] }]) ∧
      (∀ c, class_name = some c → perm_name = none → c ∉ class_names dta →
        class_perms dta' = class_perms dta) := by
  cases class_name with
  | none =>
    refine ⟨_, rfl, fun _ => rfl, ?_, ?_, ?_⟩
    · intro c h
      cases h
    · intro c p h
      cases h
    · intro c h
      cases h
  | some c =>
    unfold apol_domain_trans_analysis_append_class_perm
    dsimp only
    cases hidx : class_perm_index (class_perms dta) c with
    | none =>
      have hnot := (class_perm_index_none _ c).mp hidx
      cases perm_name with
      | none =>
        refine ⟨_, rfl, ?_, ?_, ?_, ?_⟩
        · intro h
          cases h
        · intro c' hc hmem
          cases hc
          exact absurd hmem hnot
        · intro c' p _ h2
          cases h2
        · intro c' _ _ _
          rfl
      | some p =>
        refine ⟨_, rfl, ?_, ?_, ?_, ?_⟩
        · intro h
          cases h
        · intro c' hc hmem
          cases hc
          exact absurd hmem hnot
        · intro c' p' hc hp _
          cases hc
          cases hp
          rfl
        · intro c' _ h2
          cases h2
    | some i =>
      obtain ⟨hi, hic⟩ := class_perm_index_some _ c i hidx
      dsimp only
      rw [List.getElem?_eq_getElem hi]
      refine ⟨_, rfl, ?_, ?_, ?_, ?_⟩
      · intro h
        cases h
      · intro c' hc _
        cases hc
        exact ⟨i, hi, hic, rfl⟩
      · intro c' p hc _ hnot
        cases hc
        exact absurd (List.mem_map.mpr ⟨_, List.getElem_mem hi, hic⟩) hnot
      · intro c' hc _ hnot
        cases hc
        exact absurd (List.mem_map.mpr ⟨_, List.getElem_mem hi, hic⟩) hnot


/-- One call keeps the class names pairwise distinct. -/
theorem append_class_perm_nodup (dta : apol_domain_trans_analysis_t)
    (class_name perm_name : Option String) (hd : (class_names dta).Nodup) :
    ∃ dta', apol_domain_trans_analysis_append_class_perm dta class_name perm_name = .ok dta' ∧
      (class_names dta').Nodup := by
  obtain ⟨dta', hok, hnull, hfound, hnew, hnone⟩ :=
    append_class_perm_cases dta class_name perm_name
  refine ⟨dta', hok, ?_⟩
  cases class_name with
  | none =>
    unfold class_names
    rw [hnull rfl]
    exact List.nodup_nil
  | some c =>
    by_cases hmem : c ∈ class_names dta
    · obtain ⟨i, hi, hic, heq⟩ := hfound c rfl hmem
      unfold class_names
      rw [heq, names_set _ i hi _ (append_perm_obj_name _ _)]
      exact hd
    · cases perm_name with
      | none =>
        unfold class_names
        rw [hnone c rfl rfl hmem]
        exact hd
      | some p =>
        unfold class_names
        rw [hnew c p rfl rfl hmem, List.map_append]
        refine List.Nodup.append hd (List.nodup_singleton _) ?_
        intro x hx hx'
        simp only [List.map_cons, List.map_nil, List.mem_singleton] at hx'
        subst hx'
        exact hmem hx

/-- C40. For a request whose class names are pairwise distinct, as those of a
fresh request are: every call of `apol_domain_trans_analysis_append_class_perm`
succeeds and leaves the class names pairwise distinct; a null class name leaves
no class and permission set; a class name that has a set, with a permission,
leaves the number of sets unchanged and replaces that set by itself with the
permission added; a class name without a set, with a permission, appends one
set of that class with that permission as its only one; a class name without a
set and a null permission leaves the sets as they are; and every sequence of
calls succeeds and ends with pairwise distinct class names. -/
theorem append_class_perm_distinct (dta : apol_domain_trans_analysis_t)
    (hd : (class_names dta).Nodup) :
    (∀ class_name perm_name,
        ∃ dta', apol_domain_trans_analysis_append_class_perm dta class_name perm_name =
            .ok dta' ∧
          (class_names dta').Nodup ∧
          (class_name = none → class_perms dta' = []) ∧
          (∀ c p, class_name = some c → perm_name = some p → c ∈ class_names dta →
            (class_perms dta').length = (class_perms dta).length ∧
            ∃ i, ∃ hi : i < (class_perms dta).length, (class_perms dta)[i].obj_name = c ∧
              class_perms dta' = (class_perms dta).set i
                (apol_obj_perm_append_perm (class_perms dta)[i] (some p)) ∧
              p ∈ (apol_obj_perm_append_perm (class_perms dta)[i] (some p)).perms) ∧
          (∀ c p, class_name = some c → perm_name = some p → c ∉ class_names dta →
            class_perms dta' = class_perms dta ++ [{ obj_name := c, perms := [p] }]) ∧
          (∀ c, class_name = some c → perm_name = none → c ∉ class_names dta →
            class_perms dta' = class_perms dta)) ∧
      ∀ calls, ∃ dta', append_class_perms dta calls = .ok dta' ∧ (class_names dta').Nodup := by
  constructor
  · intro class_name perm_name
    obtain ⟨dta', hok, hnull, hfound, hnew, hnone⟩ :=
      append_class_perm_cases dta class_name perm_name
    obtain ⟨dta2, hok2, hnd⟩ := append_class_perm_nodup dta class_name perm_name hd
    rw [hok] at hok2
    cases hok2
    refine ⟨dta', hok, hnd, hnull, ?_, hnew, hnone⟩
    intro c p hc hp hmem
    obtain ⟨i, hi, hic, heq⟩ := hfound c hc hmem
    subst hp
    refine ⟨by rw [heq, List.length_set], i, hi, hic, heq, append_perm_mem _ p⟩
  · intro calls
    exact foldlM_total calls (fun d => (class_names d).Nodup)
      (fun d c _ hdn => append_class_perm_nodup d c.1 c.2 hdn) dta hd

theorem append_class_perm_distinct_witness :
    ∃ dta', append_class_perms apol_domain_trans_analysis_create
        [(some "file", some "read"), (some "dir", some "search"), (some "file", some "write"),
          (some "lnk_file", none)] = .ok dta' ∧
      (class_names dta').Nodup :=
  (append_class_perm_distinct apol_domain_trans_analysis_create (by decide)).2 _

/-! ## The standalone check on valid candidates -/

/-- The lookups of the standalone check find nothing missing for a transition
for which the table holds what a valid transition needs. -/
theorem verify_trans_lookup_complete (policy : apol_policy_t)
    (t0 : apol_domain_trans_table_t) (hinv : table_inv policy t0)
    (t : apol_domain_trans_table_t) (hsh : same_shape t0 t) (a p b : Nat) (hp : 1 ≤ p)
    (htr : transition_in_table policy t0 a p b) :
    verify_trans_lookup policy t a p b = .ok 0 := by
  obtain ⟨hpt, hex, hep, hneeds⟩ := htr
  have ha := has_type_in_range hinv hex
  have hb := has_type_in_range hinv hpt
  have hsz : t0.size = policy.types.length := hinv.1.1
  have hdep : has_type (get_rules t0 .dom_ep (b - 1)) p := by
    have := (hinv.2 (b - 1) (p - 1)).mpr
      (by rw [Nat.sub_add_cancel hb.1]; exact hep)
    rw [Nat.sub_add_cancel hp] at this
    exact this
  obtain ⟨i1, e1, -, h1, -⟩ := find_at_found hinv hsh hpt
  obtain ⟨i2, e2, -, h2, -⟩ := find_at_found hinv hsh hex
  obtain ⟨i3, e3, -, h3, -⟩ := find_at_found hinv hsh hdep
  have hna : a - 1 < t0.size := by
    have := ha.1
    have := ha.2
    omega
  obtain ⟨r, hr⟩ := find_at_total hinv hsh .type_trans hna p
  unfold verify_trans_lookup
  simp only [node_index_pos ha.1, node_index_pos hp, node_index_pos hb.1, bind, Except.bind,
    h1, h2, h3, hr, Option.isNone_some, Bool.false_eq_true, if_false, pure, Except.pure]
  split
  · next hn =>
    have hor := hneeds hn
    have hset : (∀ i e, r = some (i, e) → type_value e.dflt ≠ b) ∨ r = none →
        has_type (get_rules t0 .setexec (a - 1)) a := by
      intro hcase
      rcases hor with htt | hs
      · exfalso
        obtain ⟨v0, hv0, e0, he0, hty0, hd0⟩ := htt
        obtain ⟨i', e', v', hf', hv', he', hty', -⟩ :=
          @find_at_found _ _ _ hinv hsh .type_trans (a - 1) p
            ⟨v0, hv0, e0, he0, hty0⟩
        rw [hr] at hf'
        obtain ⟨w, -, hw, hview, hsorted, -⟩ := rules_at_shape hinv hsh hv0
        rw [hv'] at hw
        cases hw
        obtain ⟨e0', he0', hv0'⟩ := mem_of_view hview he'
        have hty0' : e0'.type = e'.type := congrArg Prod.fst hv0'
        have hsame : e0' = e0 :=
          sorted_mem_unique (hinv.1.2.2.2 .type_trans _ v0 hv0).1 he0' he0
            (hty0'.trans (hty'.trans hty0.symm))
        have hd : e'.dflt = some b := by
          have : e0'.dflt = e'.dflt := congrArg (fun x => x.2.1) hv0'
          rw [← this, hsame, hd0]
        rcases hcase with hc | hc
        · cases hf'
          exact hc i' e' rfl (by rw [hd]; rfl)
        · rw [hc] at hf'
          cases hf'
      · exact hs
    cases r with
    | none =>
      obtain ⟨i4, e4, -, h4, -⟩ := find_at_found hinv hsh (hset (Or.inr rfl))
      simp only [Option.isNone_none, Bool.true_or, if_true, h4, Option.isNone_some,
        Bool.false_eq_true, if_false]
    | some x =>
      obtain ⟨i, e⟩ := x
      simp only [Option.isNone_some, Bool.false_or, decide_eq_true_eq]
      by_cases hd : type_value e.dflt = b
      · rw [if_neg (by simpa using hd)]
      · rw [if_pos (by simpa using hd)]
        obtain ⟨i4, e4, -, h4, -⟩ := find_at_found hinv hsh
          (hset (Or.inl (fun i' e' he' => by cases he'; exact hd)))
        simp only [h4, Option.isNone_some, Bool.false_eq_true, if_false]
  · rfl


/-- C38. For every table built from a well-formed policy and every candidate
with a valid flag that is true among those forward analysis returns over the
table as built: `apol_domain_trans_table_verify_trans` with the start,
entrypoint and end type of the candidate returns 0, on the policy with the
table as the analysis left it and on the policy with the table as built. -/
theorem valid_forward_candidate_verifies (policy : apol_policy_t) (hw : policy_wf policy)
    (table : apol_domain_trans_table_t)
    (hb : apol_policy_build_domain_trans_table policy none = .ok table) (S : Nat)
    (st : trans_state)
    (h : apol_domain_trans_table_get_all_forward_trans policy table [] S = .ok st)
    (c : apol_domain_trans_t) (hc : c ∈ st.2) (hv : c.valid = true) :
    apol_domain_trans_table_verify_trans policy (some st.1) c.start_type c.ep_type
        c.end_type = (some st.1, .ok 0) ∧
      apol_domain_trans_table_verify_trans policy (some table) c.start_type c.ep_type
        c.end_type = (some table, .ok 0) := by
  obtain ⟨hinv, -⟩ := build_table_built hw hb
  obtain ⟨hsh, hsound⟩ := forward_sound policy table hinv S st h
  obtain ⟨a, p, b, htri, -, hp, htr⟩ := hsound c hc hv
  simp only [triple, Prod.mk.injEq] at htri
  obtain ⟨h1, h2, h3⟩ := htri
  rw [h1, h2, h3]
  unfold apol_domain_trans_table_verify_trans
  simp only [apol_policy_build_domain_trans_table,
    verify_trans_lookup_complete policy table hinv st.1 hsh a p b hp htr,
    verify_trans_lookup_complete policy table hinv table (same_shape_refl _) a p b hp htr,
    and_self]

theorem valid_forward_candidate_verifies_witness :
    (∃ c ∈ (value_or (empty_table, []) (apol_domain_trans_table_get_all_forward_trans
        (complete_policy 20) (table_of (complete_policy 20)) [] 1)).2,
      triple c = (some 1, some 3, some 2) ∧ c.valid = true) ∧
    apol_domain_trans_table_verify_trans (complete_policy 20)
        (some (table_of (complete_policy 20))) (some 1) (some 3) (some 2) =
      (some (table_of (complete_policy 20)), .ok 0) :=
  ⟨⟨_, List.mem_cons_self _ _, rfl, rfl⟩,
    (valid_forward_candidate_verifies (complete_policy 20) (by decide)
      (table_of (complete_policy 20)) rfl 1 _ rfl _ (List.mem_cons_self _ _) rfl).2⟩

/-! ## The entrypoint lookup of the forward analysis -/

/-- A property of entry types that holds of the type inserted holds of the
vector after the insertion when it held before. -/
theorem add_rule_at_types {policy : apol_policy_t} {t t' : apol_domain_trans_table_t}
    {k : bucket_id} {val type : Nat} {dflt : Option Nat} {rule : rule_ref} {nt : Bool}
    (P : Nat → Prop) (hP : P type)
    (hs : ∀ n v, get_rules t k n = some v → ∀ e ∈ v, P e.type)
    (h : add_rule_at policy t k val type dflt rule nt = .ok t') :
    ∀ n v, get_rules t' k n = some v → ∀ e ∈ v, P e.type := by
  obtain ⟨w, w', hval, hw, hadd, rfl⟩ := add_rule_at_ok h
  intro n v hv e he
  rw [get_rules_put_rules] at hv
  split at hv
  · next hc =>
    obtain ⟨-, hn⟩ := hc
    subst hn
    rw [hw] at hv
    simp only [Option.map_some', Option.some.injEq] at hv
    subst hv
    rcases add_rule_to_list_cases policy w _ type dflt rule nt hadd with ⟨i, hi, -, hp⟩ | hp
    · rcases List.mem_or_eq_of_mem_set (hp.mem_iff.mp he) with hm | hm
      · exact hs _ w hw e hm
      · rw [hm]
        exact hs _ w hw w[i] (List.getElem_mem hi)
    · rcases List.mem_append.mp (hp.mem_iff.mp he) with hm | hm
      · exact hs _ w hw e hm
      · rw [List.mem_singleton.mp hm]
        exact hP
  · exact hs n v hv e he

/-- An insertion that succeeds was not for an attribute. -/
theorem add_rule_at_ok_not_attr {policy : apol_policy_t} {t t' : apol_domain_trans_table_t}
    {k : bucket_id} {val type : Nat} {dflt : Option Nat} {rule : rule_ref} {nt : Bool}
    (h : add_rule_at policy t k val type dflt rule nt = .ok t') :
    qpol_type_get_isattr policy type = false := by
  obtain ⟨w, w', -, -, hadd, -⟩ := add_rule_at_ok h
  exact add_rule_to_list_ok_not_attr policy w type dflt rule nt w' hadd

/-- An insertion leaves the vectors of the other kinds as they are. -/
theorem add_rule_at_other {policy : apol_policy_t} {t t' : apol_domain_trans_table_t}
    {k k' : bucket_id} {val type : Nat} {dflt : Option Nat} {rule : rule_ref} {nt : Bool}
    (hk : k' ≠ k) (h : add_rule_at policy t k val type dflt rule nt = .ok t') (n : Nat) :
    get_rules t' k' n = get_rules t k' n :=
  (add_rule_at_has_rule h).2.2 k' n (fun hc => hk hc.1)

/-- In every table the build returns, no entry has an attribute as its type, and
the entries of the entrypoint vectors of the domain nodes have types of value 1
or more. -/
theorem build_entry_types {policy : apol_policy_t} {t : apol_domain_trans_table_t}
    (h : apol_policy_build_domain_trans_table policy none = .ok t) :
    (∀ k n v, get_rules t k n = some v → ∀ e ∈ v, qpol_type_get_isattr policy e.type = false) ∧
      ∀ n v, get_rules t .dom_ep n = some v → ∀ e ∈ v, 1 ≤ e.type := by
  refine build_preserves
    (fun t => (∀ k n v, get_rules t k n = some v →
        ∀ e ∈ v, qpol_type_get_isattr policy e.type = false) ∧
      ∀ n v, get_rules t .dom_ep n = some v → ∀ e ∈ v, 1 ≤ e.type) ?_ ?_ ?_ h
  · constructor
    · intro k n v hv e he
      rw [get_rules_new policy k n v hv] at he
      cases he
    · intro n v hv e he
      rw [get_rules_new policy _ n v hv] at he
      cases he
  · intro rule s s' k val type dflt nt hk1 hk2 _ hs hs'
    constructor
    · intro k' n v hv
      by_cases hkk : k' = k
      · subst hkk
        exact add_rule_at_types (fun x => qpol_type_get_isattr policy x = false)
          (add_rule_at_ok_not_attr hs') (hs.1 k') hs' n v hv
      · rw [add_rule_at_other hkk hs'] at hv
        exact hs.1 k' n v hv
    · intro n v hv
      rw [add_rule_at_other (fun hc => hk1 hc.symm) hs'] at hv
      exact hs.2 n v hv
  · intro rule s s1 s2 src tgt hs hs1 hs2
    have hn1 : ∀ k n v, get_rules s1 k n = some v →
        ∀ e ∈ v, qpol_type_get_isattr policy e.type = false := by
      intro k' n v hv
      by_cases hkk : k' = .dom_ep
      · subst hkk
        exact add_rule_at_types (fun x => qpol_type_get_isattr policy x = false)
          (add_rule_at_ok_not_attr hs1) (hs.1 _) hs1 n v hv
      · rw [add_rule_at_other hkk hs1] at hv
        exact hs.1 k' n v hv
    constructor
    · intro k' n v hv
      by_cases hkk : k' = .exec_ep
      · subst hkk
        exact add_rule_at_types (fun x => qpol_type_get_isattr policy x = false)
          (add_rule_at_ok_not_attr hs2) (hn1 _) hs2 n v hv
      · rw [add_rule_at_other hkk hs2] at hv
        exact hn1 k' n v hv
    · intro n v hv
      rw [add_rule_at_other (by decide) hs2] at hv
      obtain ⟨-, -, htgt, -⟩ := add_rule_at_ok hs2
      exact add_rule_at_types (fun x => 1 ≤ x) htgt hs.2 hs1 n v hv


/-- A vector of a table of the same shape has a counterpart with the same
entries up to marks. -/
theorem view_of_shape {t0 t : apol_domain_trans_table_t} (hsh : same_shape t0 t)
    {k : bucket_id} {n : Nat} {v : List apol_domain_trans_rule_t}
    (hv : get_rules t k n = some v) :
    ∃ v0, get_rules t0 k n = some v0 ∧ v.map entry_view = v0.map entry_view := by
  have h := hsh.2 k n
  rw [hv] at h
  cases hv0 : get_rules t0 k n with
  | none => rw [hv0] at h; cases h
  | some v0 =>
    rw [hv0] at h
    simp only [Option.map_some', Option.some.injEq] at h
    exact ⟨v0, rfl, h⟩

/-- C33. For every table the build returns and every table that differs from it
in used marks only: for every entry of the entrypoint vector of a domain node,
the node of the type END with value `n + 1`, the type EP of the entry has a
value of 1 or more and the lookup of END in the entrypoint vector of the exec
node of EP returns an entry, of type END; so the read of the used flag of the
result, which the forward analysis makes without a test for NULL, reads an
entry. -/
theorem entrypoint_lookup_finds (policy : apol_policy_t) (table : apol_domain_trans_table_t)
    (hb : apol_policy_build_domain_trans_table policy none = .ok table)
    (t : apol_domain_trans_table_t) (hsh : same_shape table t) (n : Nat)
    (vd : List apol_domain_trans_rule_t) (hvd : get_rules t .dom_ep n = some vd)
    (e : apol_domain_trans_rule_t) (he : e ∈ vd) :
    1 ≤ e.type ∧
      ∃ k e2, find_at policy t .exec_ep (e.type - 1) (n + 1) = .ok (some (k, e2)) ∧
        e2.type = n + 1 := by
  obtain ⟨hsorted, hdual⟩ := build_dual_rules hb
  obtain ⟨hattr, hpos⟩ := build_entry_types hb
  obtain ⟨vd0, hvd0, hview⟩ := view_of_shape hsh hvd
  obtain ⟨e0, he0, hv0⟩ := mem_of_view hview he
  have hty : e0.type = e.type := congrArg Prod.fst hv0
  have h1 : 1 ≤ e.type := hty ▸ hpos n vd0 hvd0 e0 he0
  refine ⟨h1, ?_⟩
  have hent : has_entry (get_rules table .dom_ep n) (e.type - 1 + 1) e0.rules :=
    ⟨vd0, hvd0, e0, he0, by omega, rfl⟩
  obtain ⟨l0, hl0, e2, he2, hty2, -⟩ := (hdual n (e.type - 1) e0.rules).mp hent
  have hsh' : same_shape t table :=
    ⟨hsh.1.symm, fun k m => (hsh.2 k m).symm⟩
  obtain ⟨l, hl, hlview⟩ := view_of_shape hsh' hl0
  have hls : bucket_sorted l := by
    unfold bucket_sorted
    rw [← map_type_of_view hlview]
    exact (hsorted.2.2 .exec_ep (Or.inr (Or.inl rfl)) _ l0 hl0).1
  rcases find_at_spec policy hl hls (n + 1) with ⟨i, hi, hit, -, hf⟩ | ⟨-, hor⟩
  · exact ⟨i, l[i], hf, hit⟩
  · exfalso
    rcases hor with hor | hor
    · have := hattr _ _ l0 hl0 e2 he2
      rw [hty2, hor] at this
      cases this
    · obtain ⟨e', he', hv'⟩ := mem_of_view hlview he2
      have : e'.type = e2.type := congrArg Prod.fst hv'
      exact hor e' he' (this.trans hty2)

theorem entrypoint_lookup_finds_witness :
    used_at complete_table_after_forward .exec_ep 2 0 = true ∧
      1 ≤ complete_entrypoint_entry.type ∧
      ∃ k e2, find_at (complete_policy 20) complete_table_after_forward .exec_ep
          (complete_entrypoint_entry.type - 1) (1 + 1) = .ok (some (k, e2)) ∧
        e2.type = 1 + 1 :=
  ⟨rfl, entrypoint_lookup_finds (complete_policy 20) (table_of (complete_policy 20)) rfl
    complete_table_after_forward
    (same_shape_of_reset_eq (forward_reset (complete_policy 20)
      (table_of (complete_policy 20)) [] 1 _ rfl)).1 1
    [complete_entrypoint_entry] rfl complete_entrypoint_entry (List.mem_cons_self _ _)⟩
/-! ## The candidate list of the forward analysis, read off the table -/

/-- A loop over the indices below `n` whose every iteration takes the property
of index `i` to that of index `i + 1` ends with the property of `n`. -/
theorem foldlM_range_total {σ : Type} (f : σ → Nat → Except failure σ) (n : Nat)
    (I : Nat → σ → Prop)
    (hstep : ∀ i, i < n → ∀ s, I i s → ∃ s', f s i = .ok s' ∧ I (i + 1) s') :
    ∀ s, I 0 s → ∃ s', (List.range n).foldlM f s = .ok s' ∧ I n s' := by
  induction n with
  | zero =>
    intro s hs
    exact ⟨s, rfl, hs⟩
  | succ n ih =>
    intro s hs
    obtain ⟨s1, h1, hs1⟩ := ih (fun i hi => hstep i (Nat.lt_succ_of_lt hi)) s hs
    obtain ⟨s2, h2, hs2⟩ := hstep n (Nat.lt_succ_self n) s1 hs1
    refine ⟨s2, ?_, hs2⟩
    rw [List.range_succ, List.foldlM_append, h1]
    simp only [bind, Except.bind, List.foldlM, h2]
    rfl

theorem used_at_set_used_self {t : apol_domain_trans_table_t} {k : bucket_id} {n i : Nat}
    {v : List apol_domain_trans_rule_t} (hv : get_rules t k n = some v) (hi : i < v.length) :
    used_at (set_used t k n i) k n i = true := by
  unfold used_at
  rw [get_rules_set_used, if_pos ⟨rfl, rfl⟩, hv]
  simp only [Option.map_some', list_update_getElem?, if_true, List.getElem?_eq_getElem hi,
    Option.map_some']

theorem used_at_set_used_iff {t : apol_domain_trans_table_t} {k : bucket_id} {n i : Nat}
    {v : List apol_domain_trans_rule_t} (hv : get_rules t k n = some v) (hi : i < v.length)
    (k' : bucket_id) (n' i' : Nat) :
    used_at (set_used t k n i) k' n' i' =
      (decide (k' = k ∧ n' = n ∧ i' = i) || used_at t k' n' i') := by
  by_cases hc : k' = k ∧ n' = n ∧ i' = i
  · obtain ⟨rfl, rfl, rfl⟩ := hc
    rw [used_at_set_used_self hv hi]
    simp
  · rw [used_at_set_used _ _ _ _ _ _ _ hc]
    simp [hc]

/-- What a lookup in a table of the shape of one that satisfies the invariant
returns, in terms of the vector of that table. -/
theorem find_at_view {policy : apol_policy_t} {t0 t : apol_domain_trans_table_t}
    (hinv : table_inv policy t0) (hsh : same_shape t0 t) {k : bucket_id} {n : Nat}
    {v0 : List apol_domain_trans_rule_t} (hv0 : get_rules t0 k n = some v0) (x : Nat) :
    (∃ i, ∃ hi : i < v0.length, v0[i].type = x ∧
        ∃ e v, find_at policy t k n x = .ok (some (i, e)) ∧ get_rules t k n = some v ∧
          i < v.length ∧ e.type = x ∧ e.rules = v0[i].rules ∧ e.dflt = v0[i].dflt ∧
          e.used = used_at t k n i) ∨
      (find_at policy t k n x = .ok none ∧ ∀ e ∈ v0, e.type ≠ x) := by
  obtain ⟨v, -, hv, hview, hs, hok⟩ := rules_at_shape hinv hsh hv0
  have hlen := view_length hview
  rcases find_at_spec policy hv hs x with ⟨i, hi, hty, -, hf⟩ | ⟨hf, hor⟩
  · left
    have hi0 : i < v0.length := by omega
    have hvi := view_getElem hview hi hi0
    refine ⟨i, hi0, ?_, v[i], v, hf, hv, hi, hty, ?_, ?_, ?_⟩
    · rw [← hty]
      exact (congrArg Prod.fst hvi).symm
    · exact congrArg (fun p => p.2.2.1) hvi
    · exact congrArg (fun p => p.2.1) hvi
    · exact (used_at_eq hv hi).symm
  · right
    refine ⟨hf, ?_⟩
    intro e0 he0 hty
    obtain ⟨e, he, hve⟩ := mem_of_view hview.symm he0
    have hte : e.type = e0.type := congrArg Prod.fst hve
    rcases hor with hor | hor
    · have := (hok e he).2.1
      rw [hte, hty, hor] at this
      cases this
    · exact hor e he (hte.trans hty)


theorem find?_sorted {v : List apol_domain_trans_rule_t} (hs : bucket_sorted v) {i : Nat}
    (hi : i < v.length) :
    v.find? (fun e => decide (e.type = v[i].type)) = some v[i] := by
  cases hf : v.find? (fun e => decide (e.type = v[i].type)) with
  | none =>
    have := List.find?_eq_none.mp hf v[i] (List.getElem_mem hi)
    simp at this
  | some e =>
    have hm := List.mem_of_find?_eq_some hf
    have hp := List.find?_some hf
    simp only [decide_eq_true_eq] at hp
    rw [sorted_mem_unique hs hm (List.getElem_mem hi) hp]

theorem rules_for_found {t0 : apol_domain_trans_table_t} {k : bucket_id} {n : Nat}
    {v0 : List apol_domain_trans_rule_t} (hv0 : get_rules t0 k n = some v0)
    (hs : bucket_sorted v0) {i : Nat} (hi : i < v0.length) :
    rules_for t0 k n v0[i].type = some v0[i].rules := by
  unfold rules_for
  rw [hv0]
  simp only [find?_sorted hs hi, Option.map_some']

theorem rules_for_none {t0 : apol_domain_trans_table_t} {k : bucket_id} {n x : Nat}
    {v0 : List apol_domain_trans_rule_t} (hv0 : get_rules t0 k n = some v0)
    (h : ∀ e ∈ v0, e.type ≠ x) : rules_for t0 k n x = none := by
  unfold rules_for
  rw [hv0]
  have : v0.find? (fun e => decide (e.type = x)) = none := by
    rw [List.find?_eq_none]
    intro e he
    simpa using h e he
  simp only [this, Option.map_none']

/-- A lookup in a table of the shape of one that satisfies the invariant
succeeds; its rules are those the table holds for the type, and it returns the
index of the entry of the type, or NULL when the vector has none. -/
theorem find_at_full {policy : apol_policy_t} {t0 t : apol_domain_trans_table_t}
    (hinv : table_inv policy t0) (hsh : same_shape t0 t) {k : bucket_id} {n : Nat}
    {v0 : List apol_domain_trans_rule_t} (hv0 : get_rules t0 k n = some v0) (x : Nat) :
    ∃ r, find_at policy t k n x = .ok r ∧ found_rules r = rules_for t0 k n x ∧
      ((∃ i, ∃ hi : i < v0.length, v0[i].type = x ∧ ∃ e v, r = some (i, e) ∧
          get_rules t k n = some v ∧ i < v.length ∧ e.used = used_at t k n i ∧
          e.rules = v0[i].rules) ∨
        (r = none ∧ ∀ e ∈ v0, e.type ≠ x)) := by
  have hs0 := (hinv.1.2.2.2 k n v0 hv0).1
  rcases find_at_view hinv hsh hv0 x with
    ⟨i, hi, hty, e, v, hf, hv, hiv, hte, hre, -, hused⟩ | ⟨hf, hnone⟩
  · refine ⟨_, hf, ?_, Or.inl ⟨i, hi, hty, e, v, rfl, hv, hiv, hused, hre⟩⟩
    rw [← hty, rules_for_found hv0 hs0 hi]
    simp only [found_rules, hre]
  · refine ⟨_, hf, ?_, Or.inr ⟨rfl, hnone⟩⟩
    rw [rules_for_none hv0 hnone]
    rfl

theorem used_at_mark_found_of_some {t : apol_domain_trans_table_t} {k : bucket_id} {n i : Nat}
    {e : apol_domain_trans_rule_t} {v : List apol_domain_trans_rule_t}
    (hv : get_rules t k n = some v) (hi : i < v.length) (k' : bucket_id) (n' i' : Nat) :
    used_at (mark_found t k n (some (i, e))) k' n' i' =
      (decide (k' = k ∧ n' = n ∧ i' = i) || used_at t k' n' i') :=
  used_at_set_used_iff hv hi k' n' i'

/-- One pass of the type transition loop of the forward analysis, over a table of
the shape of one that satisfies the invariant: it succeeds, links the candidate
read off the table, marks the process transition entry for the default type and
no other, and marks entrypoint entries for the default type only. -/
theorem forward_type_trans_step_exact (policy : apol_policy_t)
    (t0 : apol_domain_trans_table_t) (hinv : table_inv policy t0) (S : Nat)
    (hS : type_in_range policy.types.length S)
    (vt0 vp0 : List apol_domain_trans_rule_t)
    (hvt0 : get_rules t0 .type_trans (S - 1) = some vt0)
    (hvp0 : get_rules t0 .proc_trans (S - 1) = some vp0)
    (i : Nat) (hi : i < vt0.length) (s : trans_state) (hsh : same_shape t0 s.1) :
    ∃ s', forward_type_trans_step policy S s i = .ok s' ∧
      s'.2 = type_trans_candidate policy t0 S vt0[i] :: s.2 ∧ same_shape t0 s'.1 ∧
      (∀ idx, ∀ hidx : idx < vp0.length, used_at s'.1 .proc_trans (S - 1) idx =
        (used_at s.1 .proc_trans (S - 1) idx ||
          decide (vp0[idx].type = type_value vt0[i].dflt))) ∧
      (∀ m k, used_at s'.1 .exec_ep m k = true → used_at s.1 .exec_ep m k = true ∨
        ∃ l0, get_rules t0 .exec_ep m = some l0 ∧ ∃ hk : k < l0.length,
          l0[k].type = type_value vt0[i].dflt) := by
  obtain ⟨v, hrules, hget, hview, hsorted, hok⟩ := rules_at_shape hinv hsh hvt0
  have hlen := view_length hview
  have hiv : i < v.length := by omega
  have hvi := view_getElem hview hiv hi
  have htype : v[i].type = vt0[i].type := congrArg Prod.fst hvi
  have hdflt : v[i].dflt = vt0[i].dflt := congrArg (fun p => p.2.1) hvi
  have hrl : v[i].rules = vt0[i].rules := congrArg (fun p => p.2.2.1) hvi
  have hentry := hok v[i] (List.getElem_mem hiv)
  have hP := hentry.1
  have hsz : t0.size = policy.types.length := hinv.1.1
  have hnP : v[i].type - 1 < t0.size := by
    have := hP.1
    have := hP.2
    omega
  have hnS : S - 1 < t0.size := by
    have := hS.1
    have := hS.2
    omega
  obtain ⟨ve0, hve0⟩ := get_rules_some_of_lt hinv .exec hnP
  obtain ⟨vq0, hvq0⟩ := get_rules_some_of_lt hinv .exec_ep hnP
  obtain ⟨vs0, hvs0⟩ := get_rules_some_of_lt hinv .setexec hnS
  have sh1 := same_shape_set_used hsh .type_trans (S - 1) i
  obtain ⟨r1, hr1, hfr1, hc1⟩ := find_at_full hinv sh1 hvp0 (type_value v[i].dflt)
  have sh2 := same_shape_mark_found sh1 .proc_trans (S - 1) r1
  obtain ⟨r2, hr2, hfr2, -⟩ := find_at_full hinv sh2 hve0 S
  have sh3 := same_shape_mark_found sh2 .exec (v[i].type - 1) r2
  obtain ⟨r3, hr3, hfr3, hc3⟩ := find_at_full hinv sh3 hvq0 (type_value v[i].dflt)
  have sh4 := same_shape_mark_found sh3 .exec_ep (v[i].type - 1) r3
  obtain ⟨r4, hr4, hfr4, -⟩ := find_at_full hinv sh4 hvs0 S
  unfold forward_type_trans_step
  simp only [node_index_pos hS.1, bind, Except.bind, hrules, element_at_lt hiv,
    node_index_pos hP.1, hr1, hr2, hr3, hr4, pure, Except.pure]
  refine ⟨_, rfl, ?_, sh4, ?_, ?_⟩
  · show _ :: s.2 = _
    congr 1
    simp only [type_trans_candidate, with_valid, hfr1, hfr2, hfr3, hfr4, htype, hdflt, hrl]
  · intro idx hidx
    show used_at (mark_found (mark_found (mark_found (set_used s.1 .type_trans (S - 1) i)
      .proc_trans (S - 1) r1) .exec (v[i].type - 1) r2) .exec_ep (v[i].type - 1) r3)
      .proc_trans (S - 1) idx = _
    rw [used_at_mark_found_ne _ _ _ _ _ _ _ (by decide),
      used_at_mark_found_ne _ _ _ _ _ _ _ (by decide)]
    have hbase : used_at (set_used s.1 .type_trans (S - 1) i) .proc_trans (S - 1) idx =
        used_at s.1 .proc_trans (S - 1) idx :=
      used_at_set_used _ _ _ _ _ _ _ (fun h => by cases h.1)
    have hps := (hinv.1.2.2.2 .proc_trans _ vp0 hvp0).1
    rcases hc1 with ⟨i1, hi1, hty1, e1, v1, rfl, hv1, hiv1, -, -⟩ | ⟨rfl, hnone⟩
    · rw [used_at_mark_found_of_some hv1 hiv1, hbase, Bool.or_comm]
      congr 1
      rw [← hdflt, ← hty1]
      by_cases hidx1 : idx = i1
      · subst hidx1
        simp
      · have : vp0[idx].type ≠ vp0[i1].type :=
          fun h => hidx1 (bucket_sorted_index_unique hps hidx hi1 h)
        simp [hidx1, this]
    · show used_at (set_used s.1 .type_trans (S - 1) i) .proc_trans (S - 1) idx = _
      rw [hbase, ← hdflt]
      have : vp0[idx].type ≠ type_value v[i].dflt := hnone _ (List.getElem_mem hidx)
      simp [this]
  · intro m k hused
    change used_at (mark_found (mark_found (mark_found (set_used s.1 .type_trans (S - 1) i)
      .proc_trans (S - 1) r1) .exec (v[i].type - 1) r2) .exec_ep (v[i].type - 1) r3)
      .exec_ep m k = true at hused
    have hbase : used_at (mark_found (mark_found (set_used s.1 .type_trans (S - 1) i)
        .proc_trans (S - 1) r1) .exec (v[i].type - 1) r2) .exec_ep m k =
        used_at s.1 .exec_ep m k := by
      rw [used_at_mark_found_ne _ _ _ _ _ _ _ (by decide),
        used_at_mark_found_ne _ _ _ _ _ _ _ (by decide)]
      exact used_at_set_used _ _ _ _ _ _ _ (fun h => by cases h.1)
    rcases hc3 with ⟨i3, hi3, hty3, e3, v3, rfl, hv3, hiv3, -, -⟩ | ⟨rfl, -⟩
    · rw [used_at_mark_found_of_some hv3 hiv3, hbase] at hused
      simp only [Bool.or_eq_true, decide_eq_true_eq] at hused
      rcases hused with ⟨-, hm, hk⟩ | hused
      · right
        subst hm
        subst hk
        exact ⟨vq0, hvq0, hi3, by rw [hty3, hdflt]⟩
      · exact Or.inl hused
    · left
      rw [← hbase]
      exact hused

/-- One pass of the loop over the entrypoints of the end type: the entrypoint has
an entry for the end type on the exec side; the pass succeeds, links the
candidate read off the table when that entry is not marked and nothing when it
is, and marks that entry only. -/
theorem forward_entrypoint_step_exact (policy : apol_policy_t)
    (t0 : apol_domain_trans_table_t) (hinv : table_inv policy t0) (S : Nat)
    (hS : type_in_range policy.types.length S) (rule_entry : apol_domain_trans_rule_t)
    (hB : type_in_range policy.types.length rule_entry.type)
    (eps0 : List apol_domain_trans_rule_t)
    (heps0 : get_rules t0 .dom_ep (rule_entry.type - 1) = some eps0) (j : Nat)
    (hj : j < eps0.length) (s : trans_state) (hsh : same_shape t0 s.1) :
    ∃ l0 k, get_rules t0 .exec_ep (eps0[j].type - 1) = some l0 ∧ ∃ hk : k < l0.length,
      l0[k].type = rule_entry.type ∧
      ∃ s', forward_entrypoint_step policy S rule_entry s j = .ok s' ∧ same_shape t0 s'.1 ∧
        (∀ idx, used_at s'.1 .proc_trans (S - 1) idx = used_at s.1 .proc_trans (S - 1) idx) ∧
        (∀ m k', used_at s'.1 .exec_ep m k' = true →
          used_at s.1 .exec_ep m k' = true ∨ (m = eps0[j].type - 1 ∧ k' = k)) ∧
        (used_at s.1 .exec_ep (eps0[j].type - 1) k = true → s'.2 = s.2) ∧
        (used_at s.1 .exec_ep (eps0[j].type - 1) k = false →
          s'.2 = proc_trans_candidate policy t0 S rule_entry.type rule_entry.rules eps0[j]
            :: s.2) := by
  obtain ⟨v, hrules, hget, hview, hsorted, hok⟩ := rules_at_shape hinv hsh heps0
  have hlen := view_length hview
  have hjv : j < v.length := by omega
  have hvj := view_getElem hview hjv hj
  have htype : v[j].type = eps0[j].type := congrArg Prod.fst hvj
  have hrl : v[j].rules = eps0[j].rules := congrArg (fun p => p.2.2.1) hvj
  have hP := (hok v[j] (List.getElem_mem hjv)).1
  have hsz : t0.size = policy.types.length := hinv.1.1
  have hnP : v[j].type - 1 < t0.size := by
    have := hP.1
    have := hP.2
    omega
  have hnS : S - 1 < t0.size := by
    have := hS.1
    have := hS.2
    omega
  obtain ⟨l0, hl0⟩ := get_rules_some_of_lt hinv .exec_ep hnP
  obtain ⟨ve0, hve0⟩ := get_rules_some_of_lt hinv .exec hnP
  obtain ⟨vs0, hvs0⟩ := get_rules_some_of_lt hinv .setexec hnS
  have sh1 := same_shape_set_used hsh .dom_ep (rule_entry.type - 1) j
  have hdual : has_type (get_rules t0 .exec_ep (v[j].type - 1)) rule_entry.type := by
    have h1 : has_type (get_rules t0 .dom_ep (rule_entry.type - 1)) (v[j].type - 1 + 1) := by
      rw [Nat.sub_add_cancel hP.1]
      exact ⟨eps0, heps0, eps0[j], List.getElem_mem hj, htype.symm⟩
    have := (hinv.2 (rule_entry.type - 1) (v[j].type - 1)).mp h1
    rw [Nat.sub_add_cancel hB.1] at this
    exact this
  obtain ⟨r, hr, -, hc⟩ := find_at_full hinv sh1 hl0 rule_entry.type
  rcases hc with ⟨k, hk, hkt, e, w, rfl, hw, hkw, hused, -⟩ | ⟨-, hnone⟩
  swap
  · exfalso
    obtain ⟨l, hl, e', he', hty'⟩ := hdual
    rw [hl0] at hl
    cases hl
    exact hnone e' he' hty'
  have hu : e.used = used_at s.1 .exec_ep (v[j].type - 1) k := by
    rw [hused]
    exact used_at_set_used _ _ _ _ _ _ _ (fun h => by cases h.1)
  have sh2 := same_shape_set_used sh1 .exec_ep (v[j].type - 1) k
  obtain ⟨r1, hr1, hfr1, -⟩ := find_at_full hinv sh2 hve0 S
  obtain ⟨r2, hr2, hfr2, -⟩ := find_at_full hinv sh2 hvs0 S
  refine ⟨l0, k, by rw [← htype]; exact hl0, hk, hkt, ?_⟩
  unfold forward_entrypoint_step
  simp only [node_index_pos hS.1, node_index_pos hB.1, bind, Except.bind, hrules,
    element_at_lt hjv, node_index_pos hP.1, hr]
  rw [hu, ← htype]
  by_cases hcase : used_at s.1 .exec_ep (v[j].type - 1) k = true
  · rw [if_pos hcase]
    refine ⟨_, rfl, sh1, ?_, ?_, fun _ => rfl, fun h => by rw [hcase] at h; cases h⟩
    · intro idx
      exact used_at_set_used _ _ _ _ _ _ _ (fun h => by cases h.1)
    · intro m k' h
      left
      rw [← h]
      exact (used_at_set_used _ _ _ _ _ _ _ (fun h => by cases h.1)).symm
  · rw [if_neg hcase]
    simp only [hr1, hr2, pure, Except.pure]
    refine ⟨_, rfl, sh2, ?_, ?_, fun h => absurd h hcase, ?_⟩
    · intro idx
      show used_at (set_used (set_used s.1 .dom_ep (rule_entry.type - 1) j) .exec_ep
        (v[j].type - 1) k) .proc_trans (S - 1) idx = _
      rw [used_at_set_used _ _ _ _ _ _ _ (fun h => by cases h.1),
        used_at_set_used _ _ _ _ _ _ _ (fun h => by cases h.1)]
    · intro m k' h
      change used_at (set_used (set_used s.1 .dom_ep (rule_entry.type - 1) j) .exec_ep
        (v[j].type - 1) k) .exec_ep m k' = true at h
      rw [used_at_set_used_iff hw hkw] at h
      simp only [Bool.or_eq_true, decide_eq_true_eq] at h
      rcases h with ⟨-, hm, hk'⟩ | h
      · exact Or.inr ⟨hm, hk'⟩
      · left
        rw [← h]
        exact (used_at_set_used _ _ _ _ _ _ _ (fun h => by cases h.1)).symm
    · intro _
      show _ :: s.2 = _
      congr 1
      simp only [proc_trans_candidate, with_valid, hfr1, hfr2, htype, hrl]

theorem take_succ_map_reverse {α β : Type} (f : α → β) (l : List α) (j : Nat)
    (hj : j < l.length) :
    ((l.take (j + 1)).map f).reverse = f l[j] :: ((l.take j).map f).reverse := by
  have h : l.take (j + 1) = l.take j ++ [l[j]] := by
    rw [List.take_succ, List.getElem?_eq_getElem hj]
    rfl
  rw [h, List.map_append, List.reverse_append]
  rfl

theorem emits_nil (X : Prop) : emits X [] [] := ⟨List.Sublist.refl _, fun _ => rfl⟩

theorem emits_skip {X : Prop} {new full : List apol_domain_trans_t} (c : apol_domain_trans_t)
    (h : emits X new full) (hX : ¬ X) : emits X new (c :: full) :=
  ⟨List.Sublist.cons c h.1, fun hx => absurd hx hX⟩

theorem emits_cons {X : Prop} {new full : List apol_domain_trans_t} (c : apol_domain_trans_t)
    (h : emits X new full) : emits X (c :: new) (c :: full) :=
  ⟨List.Sublist.cons₂ c h.1, fun hx => by rw [h.2 hx]⟩

theorem emits_append {X : Prop} {n1 f1 n2 f2 : List apol_domain_trans_t}
    (h1 : emits X n1 f1) (h2 : emits X n2 f2) : emits X (n1 ++ n2) (f1 ++ f2) :=
  ⟨List.Sublist.append h1.1 h2.1, fun hx => by rw [h1.2 hx, h2.2 hx]⟩

theorem emits_mono {X Y : Prop} {new full : List apol_domain_trans_t} (hxy : Y → X)
    (h : emits X new full) : emits Y new full :=
  ⟨h.1, fun hy => h.2 (hxy hy)⟩

/-- The loop over the entrypoints of the end type links a sublist of the
candidates of the entrypoints, all of them when no exec side entrypoint entry
for the end type is marked. -/
theorem forward_entrypoint_loop_exact (policy : apol_policy_t)
    (t0 : apol_domain_trans_table_t) (hinv : table_inv policy t0) (S : Nat)
    (hS : type_in_range policy.types.length S) (rule_entry : apol_domain_trans_rule_t)
    (hB : type_in_range policy.types.length rule_entry.type)
    (eps0 : List apol_domain_trans_rule_t)
    (heps0 : get_rules t0 .dom_ep (rule_entry.type - 1) = some eps0)
    (s : trans_state) (hsh : same_shape t0 s.1) :
    ∃ s', (List.range eps0.length).foldlM (forward_entrypoint_step policy S rule_entry) s
        = .ok s' ∧
      same_shape t0 s'.1 ∧
      (∃ new, s'.2 = new ++ s.2 ∧
        emits (∀ m k l0, get_rules t0 .exec_ep m = some l0 → ∀ hk : k < l0.length,
            l0[k].type = rule_entry.type → used_at s.1 .exec_ep m k = false) new
          ((eps0.map (proc_trans_candidate policy t0 S rule_entry.type
            rule_entry.rules)).reverse)) ∧
      (∀ idx, used_at s'.1 .proc_trans (S - 1) idx = used_at s.1 .proc_trans (S - 1) idx) ∧
      (∀ m k, used_at s'.1 .exec_ep m k = true → used_at s.1 .exec_ep m k = true ∨
        ∃ l0, get_rules t0 .exec_ep m = some l0 ∧ ∃ hk : k < l0.length,
          l0[k].type = rule_entry.type) := by
  have hsorted := (hinv.1.2.2.2 .dom_ep _ eps0 heps0).1
  have hpos : ∀ j (hj : j < eps0.length), 1 ≤ eps0[j].type := fun j hj =>
    ((hinv.1.2.2.2 .dom_ep _ eps0 heps0).2 _ (List.getElem_mem hj)).1.1
  obtain ⟨s', hfold, h1, ⟨new, hnew, hem⟩, h3, h4⟩ := foldlM_range_total
    (forward_entrypoint_step policy S rule_entry) eps0.length
    (fun j s' => same_shape t0 s'.1 ∧
      (∃ new, s'.2 = new ++ s.2 ∧
        emits (∀ m k l0, get_rules t0 .exec_ep m = some l0 → ∀ hk : k < l0.length,
            l0[k].type = rule_entry.type → used_at s.1 .exec_ep m k = false) new
          (((eps0.take j).map (proc_trans_candidate policy t0 S rule_entry.type
            rule_entry.rules)).reverse)) ∧
      (∀ idx, used_at s'.1 .proc_trans (S - 1) idx = used_at s.1 .proc_trans (S - 1) idx) ∧
      (∀ m k, used_at s'.1 .exec_ep m k = true → used_at s.1 .exec_ep m k = true ∨
        ∃ j', j' < j ∧ ∃ hj' : j' < eps0.length, m = eps0[j'].type - 1 ∧
          ∃ l0, get_rules t0 .exec_ep m = some l0 ∧ ∃ hk : k < l0.length,
            l0[k].type = rule_entry.type))
    (by
      intro j hj s1 ⟨hs1, ⟨new, hnew, hem⟩, hproc, hep⟩
      obtain ⟨l0, k, hl0, hk, hkt, s2, hstep, hs2, hproc2, hep2, hu, hn⟩ :=
        forward_entrypoint_step_exact policy t0 hinv S hS rule_entry hB eps0 heps0 j hj s1 hs1
      refine ⟨s2, hstep, hs2, ?_, fun idx => (hproc2 idx).trans (hproc idx), ?_⟩
      · rw [take_succ_map_reverse _ _ _ hj]
        by_cases hcase : used_at s1.1 .exec_ep (eps0[j].type - 1) k = true
        · refine ⟨new, (hu hcase).trans hnew, emits_skip _ hem ?_⟩
          intro hX
          rcases hep _ _ hcase with h | ⟨j', hj'lt, hj', hm, -⟩
          · rw [hX _ _ l0 hl0 hk hkt] at h
            cases h
          · have h1 := hpos j hj
            have h2 := hpos j' hj'
            have : eps0[j].type = eps0[j'].type := by omega
            have := bucket_sorted_index_unique hsorted hj hj' this
            omega
        · have hf : used_at s1.1 .exec_ep (eps0[j].type - 1) k = false := by
            simpa using hcase
          refine ⟨_ :: new, ?_, emits_cons _ hem⟩
          rw [hn hf, hnew]
          rfl
      · intro m k' h
        rcases hep2 m k' h with h | ⟨hm, hk'⟩
        · rcases hep m k' h with h | ⟨j', hj'lt, hj', hm, hrest⟩
          · exact Or.inl h
          · exact Or.inr ⟨j', Nat.lt_succ_of_lt hj'lt, hj', hm, hrest⟩
        · subst hm
          subst hk'
          exact Or.inr ⟨j, Nat.lt_succ_self j, hj, rfl, l0, hl0, hk, hkt⟩)
    s ⟨hsh, ⟨[], rfl, emits_nil _⟩, fun _ => rfl, fun _ _ h => Or.inl h⟩
  refine ⟨s', hfold, h1, ⟨new, hnew, ?_⟩, h3, ?_⟩
  · rw [List.take_length] at hem
    exact hem
  · intro m k h
    rcases h4 m k h with h | ⟨-, -, -, -, hrest⟩
    · exact Or.inl h
    · exact Or.inr hrest

/-- One pass of the process transition loop of the forward analysis: it links
nothing for an entry that is marked or is for the start type, and otherwise a
sublist of the candidates of the entry, all of them when no exec side
entrypoint entry for its type is marked. -/
theorem forward_proc_trans_step_exact (policy : apol_policy_t)
    (t0 : apol_domain_trans_table_t) (hinv : table_inv policy t0) (S : Nat)
    (hS : type_in_range policy.types.length S)
    (vp0 : List apol_domain_trans_rule_t)
    (hvp0 : get_rules t0 .proc_trans (S - 1) = some vp0) (idx : Nat) (hidx : idx < vp0.length)
    (s : trans_state) (hsh : same_shape t0 s.1) :
    ∃ s', forward_proc_trans_step policy S s idx = .ok s' ∧ same_shape t0 s'.1 ∧
      (∃ new, s'.2 = new ++ s.2 ∧
        emits (used_at s.1 .proc_trans (S - 1) idx = false ∧ vp0[idx].type ≠ S ∧
            ∀ m k l0, get_rules t0 .exec_ep m = some l0 → ∀ hk : k < l0.length,
              l0[k].type = vp0[idx].type → used_at s.1 .exec_ep m k = false) new
          (proc_trans_emitted policy t0 S vp0[idx]) ∧
        (used_at s.1 .proc_trans (S - 1) idx = true ∨ vp0[idx].type = S → new = [])) ∧
      (∀ idx', idx' ≠ idx →
        used_at s'.1 .proc_trans (S - 1) idx' = used_at s.1 .proc_trans (S - 1) idx') ∧
      (∀ m k, used_at s'.1 .exec_ep m k = true → used_at s.1 .exec_ep m k = true ∨
        ∃ l0, get_rules t0 .exec_ep m = some l0 ∧ ∃ hk : k < l0.length,
          l0[k].type = vp0[idx].type) := by
  obtain ⟨v, hrules, hget, hview, hsorted, hok⟩ := rules_at_shape hinv hsh hvp0
  have hlen := view_length hview
  have hiv : idx < v.length := by omega
  have hvi := view_getElem hview hiv hidx
  have htype : v[idx].type = vp0[idx].type := congrArg Prod.fst hvi
  have hrl : v[idx].rules = vp0[idx].rules := congrArg (fun p => p.2.2.1) hvi
  have hB : type_in_range policy.types.length v[idx].type :=
    (hok v[idx] (List.getElem_mem hiv)).1
  have hsz : t0.size = policy.types.length := hinv.1.1
  have hnB : v[idx].type - 1 < t0.size := by
    have := hB.1
    have := hB.2
    omega
  have hused : v[idx].used = used_at s.1 .proc_trans (S - 1) idx := (used_at_eq hget hiv).symm
  obtain ⟨eps0, heps0⟩ := get_rules_some_of_lt hinv .dom_ep hnB
  unfold forward_proc_trans_step
  simp only [node_index_pos hS.1, bind, Except.bind, hrules, element_at_lt hiv]
  rw [hused, htype]
  by_cases hu : used_at s.1 .proc_trans (S - 1) idx = true
  · rw [if_pos hu]
    refine ⟨_, rfl, hsh, ⟨[], rfl, ⟨List.nil_sublist _, ?_⟩, fun _ => rfl⟩, fun _ _ => rfl,
      fun _ _ h => Or.inl h⟩
    intro hX
    rw [hX.1] at hu
    cases hu
  rw [if_neg hu]
  by_cases hts : vp0[idx].type = S
  · rw [if_pos hts]
    refine ⟨_, rfl, hsh, ⟨[], rfl, ⟨List.nil_sublist _, ?_⟩, fun _ => rfl⟩, fun _ _ => rfl,
      fun _ _ h => Or.inl h⟩
    intro hX
    exact absurd hts hX.2.1
  rw [if_neg hts]
  have sh1 := same_shape_set_used hsh .proc_trans (S - 1) idx
  obtain ⟨eps, heps, -, hepsview, -, -⟩ := rules_at_shape hinv sh1 heps0
  have hepslen := view_length hepsview
  obtain ⟨s2, hfold, hs2, ⟨new, hnew, hem⟩, hproc, hep⟩ :=
    forward_entrypoint_loop_exact policy t0 hinv S hS v[idx] hB eps0 heps0
      (set_used s.1 .proc_trans (S - 1) idx, s.2) sh1
  have hB' : 1 ≤ vp0[idx].type := htype ▸ hB.1
  rw [htype] at heps
  simp only [node_index_pos hB', heps, hepslen, hfold, pure, Except.pure]
  have hfull : proc_trans_emitted policy t0 S vp0[idx] =
      if eps0.length = 0 then [forward_degenerate S vp0[idx].type vp0[idx].rules]
      else (eps0.map (proc_trans_candidate policy t0 S vp0[idx].type vp0[idx].rules)).reverse := by
    unfold proc_trans_emitted
    rw [← htype, heps0]
  have hepframe : ∀ m k, used_at (set_used s.1 .proc_trans (S - 1) idx) .exec_ep m k =
      used_at s.1 .exec_ep m k :=
    fun m k => used_at_set_used _ _ _ _ _ _ _ (fun h => by cases h.1)
  have hmarks1 : ∀ idx', idx' ≠ idx →
      used_at s2.1 .proc_trans (S - 1) idx' = used_at s.1 .proc_trans (S - 1) idx' := by
    intro idx' hne
    rw [hproc idx']
    exact used_at_set_used _ _ _ _ _ _ _ (fun h => hne h.2.2)
  have hmarks2 : ∀ m k, used_at s2.1 .exec_ep m k = true → used_at s.1 .exec_ep m k = true ∨
      ∃ l0, get_rules t0 .exec_ep m = some l0 ∧ ∃ hk : k < l0.length,
        l0[k].type = vp0[idx].type := by
    intro m k h
    rcases hep m k h with h | h
    · left
      rw [← hepframe]
      exact h
    · right
      rw [← htype]
      exact h
  by_cases hz : eps0.length = 0
  · rw [if_pos hz]
    have hnil : eps0 = [] := List.eq_nil_of_length_eq_zero hz
    have hnew0 : new = [] := by
      have := hem.1
      rw [hnil] at this
      simpa using this
    refine ⟨_, rfl, hs2, ⟨[forward_degenerate S vp0[idx].type vp0[idx].rules], ?_, ?_, ?_⟩,
      hmarks1, hmarks2⟩
    · show _ :: s2.2 = _
      rw [hnew, hnew0, hrl]
      rfl
    · rw [hfull, if_pos hz]
      exact ⟨List.Sublist.refl _, fun _ => rfl⟩
    · intro h
      rcases h with h | h
      · exact absurd h hu
      · exact absurd h hts
  · rw [if_neg hz]
    refine ⟨_, rfl, hs2, ⟨new, hnew, ?_, ?_⟩, hmarks1, hmarks2⟩
    · rw [hfull, if_neg hz, ← htype, ← hrl]
      refine emits_mono ?_ hem
      intro hX m k l0 hl0 hk hkt
      rw [hepframe]
      exact hX.2.2 m k l0 hl0 hk hkt
    · intro h
      rcases h with h | h
      · exact absurd h hu
      · exact absurd h hts

theorem take_succ_any {α : Type} (p : α → Bool) (l : List α) (j : Nat) (hj : j < l.length) :
    (l.take (j + 1)).any p = ((l.take j).any p || p l[j]) := by
  have h : l.take (j + 1) = l.take j ++ [l[j]] := by
    rw [List.take_succ, List.getElem?_eq_getElem hj]
    rfl
  rw [h, List.any_append]
  simp

theorem mem_take_succ {α : Type} (l : List α) (j : Nat) (hj : j < l.length) (x : α) :
    x ∈ l.take (j + 1) ↔ x ∈ l.take j ∨ x = l[j] := by
  have h : l.take (j + 1) = l.take j ++ [l[j]] := by
    rw [List.take_succ, List.getElem?_eq_getElem hj]
    rfl
  rw [h, List.mem_append]
  simp

/-- The type transition pass links the candidates of all type transition entries
of the start type, whatever the marks, and marks the process transition entries
for their default types. -/
theorem forward_type_trans_pass_exact (policy : apol_policy_t)
    (t0 : apol_domain_trans_table_t) (hinv : table_inv policy t0) (S : Nat)
    (hS : type_in_range policy.types.length S)
    (vt0 vp0 : List apol_domain_trans_rule_t)
    (hvt0 : get_rules t0 .type_trans (S - 1) = some vt0)
    (hvp0 : get_rules t0 .proc_trans (S - 1) = some vp0)
    (s : trans_state) (hsh : same_shape t0 s.1) :
    ∃ s', forward_type_trans_pass policy S s = .ok s' ∧
      s'.2 = type_trans_expected policy t0 S vt0 vt0.length ++ s.2 ∧ same_shape t0 s'.1 ∧
      (∀ idx, ∀ hidx : idx < vp0.length, used_at s'.1 .proc_trans (S - 1) idx =
        (used_at s.1 .proc_trans (S - 1) idx ||
          vt0.any fun e => decide (vp0[idx].type = type_value e.dflt))) ∧
      (∀ m k, used_at s'.1 .exec_ep m k = true → used_at s.1 .exec_ep m k = true ∨
        ∃ l0, get_rules t0 .exec_ep m = some l0 ∧ ∃ hk : k < l0.length,
          ∃ e ∈ vt0, l0[k].type = type_value e.dflt) := by
  obtain ⟨v, hrules, -, hview, -, -⟩ := rules_at_shape hinv hsh hvt0
  have hlen := view_length hview
  have hfold := foldlM_range_total (forward_type_trans_step policy S) vt0.length
    (fun i s' => s'.2 = type_trans_expected policy t0 S vt0 i ++ s.2 ∧ same_shape t0 s'.1 ∧
      (∀ idx, ∀ hidx : idx < vp0.length, used_at s'.1 .proc_trans (S - 1) idx =
        (used_at s.1 .proc_trans (S - 1) idx ||
          (vt0.take i).any fun e => decide (vp0[idx].type = type_value e.dflt))) ∧
      (∀ m k, used_at s'.1 .exec_ep m k = true → used_at s.1 .exec_ep m k = true ∨
        ∃ l0, get_rules t0 .exec_ep m = some l0 ∧ ∃ hk : k < l0.length,
          ∃ e ∈ vt0.take i, l0[k].type = type_value e.dflt))
    (by
      intro i hi s1 ⟨h1, h2, h3, h4⟩
      obtain ⟨s', hstep, hc, hsh', hm, he⟩ :=
        forward_type_trans_step_exact policy t0 hinv S hS vt0 vp0 hvt0 hvp0 i hi s1 h2
      refine ⟨s', hstep, ?_, hsh', ?_, ?_⟩
      · rw [hc, h1]
        unfold type_trans_expected
        rw [take_succ_map_reverse _ _ _ hi]
        rfl
      · intro idx hidx
        rw [hm idx hidx, h3 idx hidx, take_succ_any _ _ _ hi, Bool.or_assoc]
      · intro m k hu
        rcases he m k hu with h | ⟨l0, hl0, hk, hkt⟩
        · rcases h4 m k h with h | ⟨l0, hl0, hk, e, hemem, hkt⟩
          · exact Or.inl h
          · exact Or.inr ⟨l0, hl0, hk, e, (mem_take_succ _ _ hi _).2 (Or.inl hemem), hkt⟩
        · exact Or.inr ⟨l0, hl0, hk, vt0[i], (mem_take_succ _ _ hi _).2 (Or.inr rfl), hkt⟩)
    s (by
      refine ⟨?_, hsh, ?_, fun _ _ h => Or.inl h⟩
      · simp [type_trans_expected]
      · intro idx hidx
        simp)
  obtain ⟨s', hf, h1, h2, h3, h4⟩ := hfold
  unfold forward_type_trans_pass
  simp only [node_index_pos hS.1, bind, Except.bind, hrules, hlen]
  refine ⟨s', hf, h1, h2, ?_, ?_⟩
  · intro idx hidx
    rw [h3 idx hidx, List.take_length]
  · intro m k hu
    rcases h4 m k hu with h | ⟨l0, hl0, hk, e, hemem, hkt⟩
    · exact Or.inl h
    · exact Or.inr ⟨l0, hl0, hk, e, List.mem_of_mem_take hemem, hkt⟩

theorem proc_trans_expected_succ (policy : apol_policy_t) (t0 : apol_domain_trans_table_t)
    (S : Nat) (vt0 vp0 : List apol_domain_trans_rule_t) (i : Nat) (hi : i < vp0.length) :
    proc_trans_expected policy t0 S vt0 vp0 (i + 1) =
      (if proc_trans_selected S vt0 vp0[i] = true then proc_trans_emitted policy t0 S vp0[i]
        else []) ++ proc_trans_expected policy t0 S vt0 vp0 i := by
  unfold proc_trans_expected
  have h : vp0.take (i + 1) = vp0.take i ++ [vp0[i]] := by
    rw [List.take_succ, List.getElem?_eq_getElem hi]
    rfl
  rw [h, List.filter_append]
  by_cases hsel : proc_trans_selected S vt0 vp0[i] = true
  · rw [if_pos hsel]
    simp [List.filter_cons, hsel]
  · rw [if_neg hsel]
    simp [List.filter_cons, hsel]

/-- The process transition pass links a sublist of the candidates of the
selected process transition entries, all of them when none of these entries and
none of the exec side entrypoint entries for their types is marked. -/
theorem forward_proc_trans_pass_exact (policy : apol_policy_t)
    (t0 : apol_domain_trans_table_t) (hinv : table_inv policy t0) (S : Nat)
    (hS : type_in_range policy.types.length S)
    (vt0 vp0 : List apol_domain_trans_rule_t)
    (hvp0 : get_rules t0 .proc_trans (S - 1) = some vp0)
    (s : trans_state) (hsh : same_shape t0 s.1)
    (hm : ∀ idx, ∀ hidx : idx < vp0.length, proc_trans_selected S vt0 vp0[idx] = false →
      used_at s.1 .proc_trans (S - 1) idx = true ∨ vp0[idx].type = S) :
    ∃ s', forward_proc_trans_pass policy S s = .ok s' ∧ same_shape t0 s'.1 ∧
      ∃ new, s'.2 = new ++ s.2 ∧
        emits ((∀ idx, ∀ hidx : idx < vp0.length, proc_trans_selected S vt0 vp0[idx] = true →
            used_at s.1 .proc_trans (S - 1) idx = false) ∧
          (∀ idx, ∀ hidx : idx < vp0.length, proc_trans_selected S vt0 vp0[idx] = true →
            ∀ m k l0, get_rules t0 .exec_ep m = some l0 → ∀ hk : k < l0.length,
              l0[k].type = vp0[idx].type → used_at s.1 .exec_ep m k = false))
          new (proc_trans_expected policy t0 S vt0 vp0 vp0.length) := by
  obtain ⟨v, hrules, -, hview, -, -⟩ := rules_at_shape hinv hsh hvp0
  have hlen := view_length hview
  have hsorted : bucket_sorted vp0 := (hinv.1.2.2.2 _ _ _ hvp0).1
  have hdistinct : ∀ i j, ∀ hi : i < vp0.length, ∀ hj : j < vp0.length, j < i →
      vp0[j].type ≠ vp0[i].type := by
    intro i j hi hj hji
    have := List.pairwise_iff_getElem.1 hsorted j i (by simpa using hj) (by simpa using hi) hji
    simp only [List.getElem_map] at this
    omega
  have hfold := foldlM_range_total (forward_proc_trans_step policy S) vp0.length
    (fun i s' => same_shape t0 s'.1 ∧
      (∃ new, s'.2 = new ++ s.2 ∧
        emits ((∀ idx, ∀ hidx : idx < vp0.length, proc_trans_selected S vt0 vp0[idx] = true →
            used_at s.1 .proc_trans (S - 1) idx = false) ∧
          (∀ idx, ∀ hidx : idx < vp0.length, proc_trans_selected S vt0 vp0[idx] = true →
            ∀ m k l0, get_rules t0 .exec_ep m = some l0 → ∀ hk : k < l0.length,
              l0[k].type = vp0[idx].type → used_at s.1 .exec_ep m k = false))
          new (proc_trans_expected policy t0 S vt0 vp0 i)) ∧
      (∀ idx, i ≤ idx → used_at s'.1 .proc_trans (S - 1) idx =
        used_at s.1 .proc_trans (S - 1) idx) ∧
      (∀ m k, used_at s'.1 .exec_ep m k = true → used_at s.1 .exec_ep m k = true ∨
        ∃ l0, get_rules t0 .exec_ep m = some l0 ∧ ∃ hk : k < l0.length,
          ∃ j, ∃ hj : j < vp0.length, j < i ∧ l0[k].type = vp0[j].type))
    (by
      intro i hi s1 ⟨h1, ⟨new, hnew, hem⟩, h3, h4⟩
      obtain ⟨s', hstep, hsh', ⟨new1, hnew1, hem1, hskip⟩, hmarks, hep⟩ :=
        forward_proc_trans_step_exact policy t0 hinv S hS vp0 hvp0 i hi s1 h1
      refine ⟨s', hstep, hsh', ⟨new1 ++ new, ?_, ?_⟩, ?_, ?_⟩
      · rw [hnew1, hnew, List.append_assoc]
      · rw [proc_trans_expected_succ _ _ _ _ _ _ hi]
        refine emits_append ?_ hem
        by_cases hsel : proc_trans_selected S vt0 vp0[i] = true
        · rw [if_pos hsel]
          refine emits_mono ?_ hem1
          intro hX
          have hsel' := hsel
          unfold proc_trans_selected at hsel'
          simp only [Bool.and_eq_true, decide_eq_true_eq] at hsel'
          refine ⟨?_, hsel'.1, ?_⟩
          · rw [h3 i (Nat.le_refl _)]
            exact hX.1 i hi hsel
          · intro m k l0 hl0 hk hkt
            cases hu : used_at s1.1 .exec_ep m k with
            | false => rfl
            | true =>
              rcases h4 m k hu with h | ⟨l1, hl1, hk1, j, hj, hji, hjt⟩
              · rw [hX.2 i hi hsel m k l0 hl0 hk hkt] at h
                cases h
              · rw [hl0] at hl1
                cases hl1
                exact absurd (hjt.symm.trans hkt) (hdistinct i j hi hj hji)
        · rw [if_neg hsel]
          have hsel0 : proc_trans_selected S vt0 vp0[i] = false := by
            cases h : proc_trans_selected S vt0 vp0[i] with
            | false => rfl
            | true => exact absurd h hsel
          have hnil : new1 = [] := by
            apply hskip
            rcases hm i hi hsel0 with h | h
            · left
              rw [h3 i (Nat.le_refl _)]
              exact h
            · exact Or.inr h
          rw [hnil]
          exact emits_nil _
      · intro idx hle
        rw [hmarks idx (by omega), h3 idx (by omega)]
      · intro m k hu
        rcases hep m k hu with h | ⟨l0, hl0, hk, hkt⟩
        · rcases h4 m k h with h | ⟨l0, hl0, hk, j, hj, hji, hjt⟩
          · exact Or.inl h
          · exact Or.inr ⟨l0, hl0, hk, j, hj, by omega, hjt⟩
        · exact Or.inr ⟨l0, hl0, hk, i, hi, by omega, hkt⟩)
    s (by
      refine ⟨hsh, ⟨[], rfl, ?_⟩, fun _ _ => rfl, fun _ _ h => Or.inl h⟩
      have h0 : proc_trans_expected policy t0 S vt0 vp0 0 = [] := by
        simp [proc_trans_expected]
      rw [h0]
      exact emits_nil _)
  obtain ⟨s', hf, h1, h2, -, -⟩ := hfold
  unfold forward_proc_trans_pass
  simp only [node_index_pos hS.1, bind, Except.bind, hrules, hlen]
  exact ⟨s', hf, h1, h2⟩

/-- Forward analysis over a table of the shape of one that satisfies the
invariant succeeds for a start type of the policy that is not an attribute; the
candidates it links are a sublist of the list read off the table, and the whole
list when no process transition entry and no exec side entrypoint entry is
marked. -/
theorem forward_characterized (policy : apol_policy_t) (t0 : apol_domain_trans_table_t)
    (hinv : table_inv policy t0) (S : Nat) (hS : type_in_range policy.types.length S)
    (hSc : qpol_type_get_isattr policy S = false)
    (t : apol_domain_trans_table_t) (hsh : same_shape t0 t) (l : List apol_domain_trans_t) :
    ∃ st new, apol_domain_trans_table_get_all_forward_trans policy t l S = .ok st ∧
      same_shape t0 st.1 ∧ st.2 = new ++ l ∧
      new.Sublist (forward_expected policy t0 S) ∧
      ((∀ n i, used_at t .proc_trans n i = false) ∧
        (∀ n i, used_at t .exec_ep n i = false) → new = forward_expected policy t0 S) := by
  have hsz : t0.size = policy.types.length := hinv.1.1
  have hn : S - 1 < t0.size := by
    have := hS.1
    have := hS.2
    omega
  obtain ⟨vt0, hvt0⟩ := get_rules_some_of_lt hinv .type_trans hn
  obtain ⟨vp0, hvp0⟩ := get_rules_some_of_lt hinv .proc_trans hn
  obtain ⟨s1, h1, hc1, hsh1, hm1, he1⟩ :=
    forward_type_trans_pass_exact policy t0 hinv S hS vt0 vp0 hvt0 hvp0 (t, []) hsh
  have hsel : ∀ idx, ∀ hidx : idx < vp0.length, proc_trans_selected S vt0 vp0[idx] = false →
      used_at s1.1 .proc_trans (S - 1) idx = true ∨ vp0[idx].type = S := by
    intro idx hidx hf
    unfold proc_trans_selected at hf
    rw [Bool.and_eq_false_iff] at hf
    rcases hf with hf | hf
    · right
      simpa using hf
    · left
      rw [hm1 idx hidx]
      have : (vt0.any fun e => decide (vp0[idx].type = type_value e.dflt)) = true := by
        rw [List.any_eq_true]
        rw [List.all_eq_false] at hf
        obtain ⟨e, he, hx⟩ := hf
        refine ⟨e, he, ?_⟩
        simp only [decide_eq_true_eq, ne_eq, Decidable.not_not] at hx ⊢
        exact hx.symm
      rw [this, Bool.or_true]
  obtain ⟨s2, h2, hsh2, new, hnew, hem⟩ :=
    forward_proc_trans_pass_exact policy t0 hinv S hS vt0 vp0 hvp0 s1 hsh1 hsel
  have hfull : forward_expected policy t0 S =
      proc_trans_expected policy t0 S vt0 vp0 vp0.length ++
        type_trans_expected policy t0 S vt0 vt0.length := by
    unfold forward_expected
    rw [hvt0, hvp0]
  unfold apol_domain_trans_table_get_all_forward_trans
  simp only [hSc, Bool.false_eq_true, if_false, bind, Except.bind, h1, h2, pure, Except.pure]
  refine ⟨_, new ++ type_trans_expected policy t0 S vt0 vt0.length, rfl, hsh2, ?_, ?_, ?_⟩
  · show s2.2 ++ l = _
    rw [hnew, hc1]
    simp
  · rw [hfull]
    exact List.Sublist.append hem.1 (List.Sublist.refl _)
  · intro hun
    rw [hfull]
    congr 1
    apply hem.2
    have hall : ∀ e ∈ vt0, ∀ idx, ∀ hidx : idx < vp0.length,
        proc_trans_selected S vt0 vp0[idx] = true → type_value e.dflt ≠ vp0[idx].type := by
      intro e he idx hidx hs
      unfold proc_trans_selected at hs
      simp only [Bool.and_eq_true, decide_eq_true_eq, List.all_eq_true] at hs
      exact hs.2 e he
    refine ⟨?_, ?_⟩
    · intro idx hidx hs
      rw [hm1 idx hidx]
      show (used_at t .proc_trans (S - 1) idx || _) = false
      rw [hun.1, Bool.false_or]
      rw [List.any_eq_false]
      intro e he
      simp only [decide_eq_true_eq]
      exact fun h => hall e he idx hidx hs h.symm
    · intro idx hidx hs m k l0 hl0 hk hkt
      cases hu : used_at s1.1 .exec_ep m k with
      | false => rfl
      | true =>
        rcases he1 m k hu with h | ⟨l1, hl1, hk1, e, he, het⟩
        · have : used_at t .exec_ep m k = true := h
          rw [hun.2] at this
          cases this
        · rw [hl0] at hl1
          cases hl1
          exact absurd (het.symm.trans hkt) (hall e he idx hidx hs)

/-- A candidate of the list read off the table is the candidate of a type
transition entry or one of those of a selected process transition entry. -/
theorem forward_expected_mem {policy : apol_policy_t} {t0 : apol_domain_trans_table_t}
    {S : Nat} {c : apol_domain_trans_t} (hc : c ∈ forward_expected policy t0 S) :
    ∃ vt0 vp0, get_rules t0 .type_trans (S - 1) = some vt0 ∧
      get_rules t0 .proc_trans (S - 1) = some vp0 ∧
      ((∃ e ∈ vt0, c = type_trans_candidate policy t0 S e) ∨
        (∃ pe ∈ vp0, proc_trans_selected S vt0 pe = true ∧
          c ∈ proc_trans_emitted policy t0 S pe)) := by
  unfold forward_expected at hc
  cases hvt0 : get_rules t0 .type_trans (S - 1) with
  | none =>
    rw [hvt0] at hc
    cases hc
  | some vt0 =>
    cases hvp0 : get_rules t0 .proc_trans (S - 1) with
    | none =>
      rw [hvt0, hvp0] at hc
      cases hc
    | some vp0 =>
      rw [hvt0, hvp0] at hc
      refine ⟨vt0, vp0, rfl, rfl, ?_⟩
      simp only [proc_trans_expected, type_trans_expected, List.take_length, List.mem_append,
        List.mem_flatten, List.mem_reverse, List.mem_map, List.mem_filter] at hc
      rcases hc with ⟨l, ⟨pe, ⟨hpe, hsel⟩, rfl⟩, hcl⟩ | ⟨e, he, rfl⟩
      · exact Or.inr ⟨pe, hpe, hsel, hcl⟩
      · exact Or.inl ⟨e, he, rfl⟩

theorem proc_trans_emitted_mem {policy : apol_policy_t} {t0 : apol_domain_trans_table_t}
    {S : Nat} {pe : apol_domain_trans_rule_t} {c : apol_domain_trans_t}
    (hc : c ∈ proc_trans_emitted policy t0 S pe) :
    c = forward_degenerate S pe.type pe.rules ∨
      ∃ eps, get_rules t0 .dom_ep (pe.type - 1) = some eps ∧
        ∃ de ∈ eps, c = proc_trans_candidate policy t0 S pe.type pe.rules de := by
  unfold proc_trans_emitted at hc
  cases heps : get_rules t0 .dom_ep (pe.type - 1) with
  | none =>
    rw [heps] at hc
    cases hc
  | some eps =>
    rw [heps] at hc
    dsimp only at hc
    by_cases hz : eps.length = 0
    · rw [if_pos hz] at hc
      left
      simpa using hc
    · rw [if_neg hz] at hc
      right
      simp only [List.mem_reverse, List.mem_map] at hc
      obtain ⟨de, hde, rfl⟩ := hc
      exact ⟨eps, rfl, de, hde, rfl⟩

theorem nodup_map_of_sorted {β : Type} (f : apol_domain_trans_rule_t → β)
    {v : List apol_domain_trans_rule_t} (hs : bucket_sorted v)
    (hf : ∀ a b, f a = f b → a.type = b.type) : (v.map f).Nodup := by
  unfold bucket_sorted at hs
  rw [List.pairwise_map] at hs
  unfold List.Nodup
  rw [List.pairwise_map]
  refine hs.imp ?_
  intro a b hlt heq
  have := hf a b heq
  omega

theorem selected_spec {S : Nat} {vt0 : List apol_domain_trans_rule_t}
    {pe : apol_domain_trans_rule_t} (h : proc_trans_selected S vt0 pe = true) :
    pe.type ≠ S ∧ ∀ e ∈ vt0, type_value e.dflt ≠ pe.type := by
  unfold proc_trans_selected at h
  simpa using h

theorem proc_trans_emitted_nodup (policy : apol_policy_t) {t0 : apol_domain_trans_table_t}
    (hs : table_sorted t0) (S : Nat) (pe : apol_domain_trans_rule_t) :
    ((proc_trans_emitted policy t0 S pe).map triple).Nodup := by
  unfold proc_trans_emitted
  cases heps : get_rules t0 .dom_ep (pe.type - 1) with
  | none => exact List.nodup_nil
  | some eps =>
    show (List.map triple (if eps.length = 0 then _ else _)).Nodup
    by_cases hz : eps.length = 0
    · rw [if_pos hz]
      exact List.nodup_singleton _
    · rw [if_neg hz, List.map_reverse, List.nodup_reverse, List.map_map]
      refine nodup_map_of_sorted _ (hs _ _ _ heps) ?_
      intro a b hab
      have := congrArg (fun p => p.2.1) hab
      simpa [triple, proc_trans_candidate, with_valid] using this

theorem proc_trans_emitted_end {policy : apol_policy_t} {t0 : apol_domain_trans_table_t}
    {S : Nat} {pe : apol_domain_trans_rule_t} {c : apol_domain_trans_t}
    (hc : c ∈ proc_trans_emitted policy t0 S pe) : c.end_type = some pe.type := by
  rcases proc_trans_emitted_mem hc with rfl | ⟨eps, -, de, -, rfl⟩
  · rfl
  · rfl

/-- No two candidates of the list read off a table with strictly ascending
vectors have the same start, entrypoint and end type. -/
theorem forward_expected_nodup (policy : apol_policy_t) {t0 : apol_domain_trans_table_t}
    (hs : table_sorted t0) (S : Nat) :
    ((forward_expected policy t0 S).map triple).Nodup := by
  unfold forward_expected
  cases hvt0 : get_rules t0 .type_trans (S - 1) with
  | none => exact List.nodup_nil
  | some vt0 =>
    cases hvp0 : get_rules t0 .proc_trans (S - 1) with
    | none => exact List.nodup_nil
    | some vp0 =>
      show (List.map triple (_ ++ _)).Nodup
      rw [List.map_append, List.nodup_append]
      refine ⟨?_, ?_, ?_⟩
      · unfold proc_trans_expected
        rw [List.take_length, List.map_flatten, List.nodup_flatten]
        constructor
        · intro l hl
          simp only [List.mem_map, List.mem_reverse, List.mem_filter] at hl
          obtain ⟨l', ⟨pe, -, rfl⟩, rfl⟩ := hl
          exact proc_trans_emitted_nodup policy hs S pe
        · rw [List.map_reverse, List.pairwise_reverse, List.map_map, List.pairwise_map]
          have hsp := hs _ _ _ hvp0
          unfold bucket_sorted at hsp
          rw [List.pairwise_map] at hsp
          refine (hsp.filter _).imp ?_
          intro a b hlt
          intro x hxb hxa
          simp only [Function.comp, List.mem_map] at hxa hxb
          obtain ⟨ca, hca, rfl⟩ := hxa
          obtain ⟨cb, hcb, hcab⟩ := hxb
          have h1 := proc_trans_emitted_end hca
          have h2 := proc_trans_emitted_end hcb
          have h3 : cb.end_type = ca.end_type := congrArg (fun p => p.2.2) hcab
          rw [h1, h2] at h3
          have := Option.some.inj h3
          omega
      · unfold type_trans_expected
        rw [List.take_length, List.map_reverse, List.nodup_reverse, List.map_map]
        refine nodup_map_of_sorted _ (hs _ _ _ hvt0) ?_
        intro a b hab
        have := congrArg (fun p => p.2.1) hab
        simpa [triple, type_trans_candidate, with_valid] using this
      · intro x hxa hxb
        simp only [proc_trans_expected, type_trans_expected, List.take_length, List.mem_map,
          List.mem_flatten, List.mem_reverse, List.mem_filter] at hxa hxb
        obtain ⟨ca, ⟨l, ⟨pe, ⟨-, hsel⟩, rfl⟩, hca⟩, rfl⟩ := hxa
        obtain ⟨cb, ⟨e, he, rfl⟩, hcab⟩ := hxb
        have h1 := proc_trans_emitted_end hca
        have h3 : e.dflt = ca.end_type := congrArg (fun p => p.2.2) hcab
        rw [h1] at h3
        apply (selected_spec hsel).2 e he
        rw [h3]
        rfl

/-! ## What the forward analysis returns over a built table -/

/-- The rules of an entry of a strictly ascending vector are what the table
holds for its type. -/
theorem rules_for_mem {t0 : apol_domain_trans_table_t} {k : bucket_id} {n : Nat}
    {v0 : List apol_domain_trans_rule_t} (hv0 : get_rules t0 k n = some v0)
    (hs : bucket_sorted v0) {e : apol_domain_trans_rule_t} (he : e ∈ v0) :
    rules_for t0 k n e.type = some e.rules := by
  obtain ⟨i, hi, rfl⟩ := List.getElem_of_mem he
  exact rules_for_found hv0 hs hi

/-- A candidate with an entrypoint of the list read off a table that satisfies
the invariant and indexes entrypoint rules on both sides alike carries the rules
the table holds for its three types. -/
theorem forward_expected_evidence (policy : apol_policy_t) {t0 : apol_domain_trans_table_t}
    (hinv : table_inv policy t0) (hd : table_dual_rules t0) (S : Nat) (c : apol_domain_trans_t)
    (hc : c ∈ forward_expected policy t0 S) (EP END : Nat) (hep : c.ep_type = some EP)
    (hend : c.end_type = some END) :
    c.start_type = some S ∧
      c.proc_trans_rules = rules_for t0 .proc_trans (S - 1) END ∧
      c.exec_rules = rules_for t0 .exec (EP - 1) S ∧
      c.ep_rules = rules_for t0 .exec_ep (EP - 1) END ∧
      c.setexec_rules = rules_for t0 .setexec (S - 1) S ∧
      c.type_trans_rules = type_trans_rules_for t0 (S - 1) EP END := by
  have hs : table_sorted t0 := fun k n v hv => (hinv.1.2.2.2 k n v hv).1
  obtain ⟨vt0, vp0, hvt0, hvp0, hcase⟩ := forward_expected_mem hc
  rcases hcase with ⟨e, he, rfl⟩ | ⟨pe, hpe, hsel, hcm⟩
  · have h1 : e.type = EP := Option.some.inj hep
    have h2 : e.dflt = some END := hend
    subst h1
    refine ⟨rfl, ?_, rfl, ?_, rfl, ?_⟩
    · show rules_for t0 .proc_trans (S - 1) (type_value e.dflt) = _
      rw [h2]
      rfl
    · show rules_for t0 .exec_ep (e.type - 1) (type_value e.dflt) = _
      rw [h2]
      rfl
    · show some e.rules = _
      unfold type_trans_rules_for
      rw [hvt0]
      obtain ⟨i, hi, rfl⟩ := List.getElem_of_mem he
      simp only [find?_sorted (hs _ _ _ hvt0) hi, h2, if_true]
  · rcases proc_trans_emitted_mem hcm with rfl | ⟨eps, heps, de, hde, rfl⟩
    · cases hep
    · have h1 : de.type = EP := Option.some.inj hep
      have h2 : pe.type = END := Option.some.inj hend
      subst h1
      subst h2
      have hpe1 : 1 ≤ pe.type := ((hinv.1.2.2.2 _ _ _ hvp0).2 pe hpe).1.1
      have hde1 : 1 ≤ de.type := ((hinv.1.2.2.2 _ _ _ heps).2 de hde).1.1
      refine ⟨rfl, ?_, rfl, ?_, rfl, ?_⟩
      · show some pe.rules = _
        rw [rules_for_mem hvp0 (hs _ _ _ hvp0) hpe]
      · show some de.rules = _
        have hdual := (hd (pe.type - 1) (de.type - 1) de.rules).1
          ⟨eps, heps, de, hde, by omega, rfl⟩
        obtain ⟨l, hl, e, he, hety, herl⟩ := hdual
        have hety' : e.type = pe.type := by omega
        rw [← hety', rules_for_mem hl (hs _ _ _ hl) he, herl]
      · show none = _
        unfold type_trans_rules_for
        rw [hvt0]
        dsimp only
        cases hf : vt0.find? (fun e => decide (e.type = de.type)) with
        | none => rfl
        | some e =>
          have hm := List.mem_of_find?_eq_some hf
          have hne := (selected_spec hsel).2 e hm
          have : e.dflt ≠ some pe.type := by
            intro h
            rw [h] at hne
            exact hne rfl
          dsimp only
          rw [if_neg this]

/-- Forward analysis over the table as built links exactly the list read off the
table. -/
theorem forward_on_built (policy : apol_policy_t) (hw : policy_wf policy)
    (table : apol_domain_trans_table_t)
    (hb : apol_policy_build_domain_trans_table policy none = .ok table) (S : Nat)
    (hS : type_in_range policy.types.length S) (hSc : qpol_type_get_isattr policy S = false)
    (l : List apol_domain_trans_t) :
    ∃ st, apol_domain_trans_table_get_all_forward_trans policy table l S = .ok st ∧
      st.2 = forward_expected policy table S ++ l := by
  obtain ⟨hinv, hun⟩ := build_table_built hw hb
  obtain ⟨st, new, hf, -, hst, -, hex⟩ :=
    forward_characterized policy table hinv S hS hSc table (same_shape_refl _) l
  refine ⟨st, hf, ?_⟩
  rw [hst, hex ⟨fun _ _ => used_at_unmarked hun _ _ _, fun _ _ => used_at_unmarked hun _ _ _⟩]

/-- C31. For every table built from a well-formed policy and every start type S
that is a type of the policy and not an attribute, forward analysis from S over
the table as built succeeds, and every candidate it returns that has an
entrypoint EP and an end type END has start type S and carries what the table
holds for (S, EP, END): as process transition rules those of the process
transition entry of S for END, as execute rules those of the execute entry of EP
for S, as entrypoint rules those of the entrypoint entry of EP for END, as
setexec rules those of the setexec entry of S for S, and as type transition
rules those of the type transition entry of S for EP when the default type of
that entry is END; each is null when the table has no such entry. -/
theorem forward_evidence_is_table_content (policy : apol_policy_t) (hw : policy_wf policy)
    (table : apol_domain_trans_table_t)
    (hb : apol_policy_build_domain_trans_table policy none = .ok table) (S : Nat)
    (hS : type_in_range policy.types.length S) (hSc : qpol_type_get_isattr policy S = false) :
    ∃ st, apol_domain_trans_table_get_all_forward_trans policy table [] S = .ok st ∧
      ∀ c ∈ st.2, ∀ EP END, c.ep_type = some EP → c.end_type = some END →
        c.start_type = some S ∧
        c.proc_trans_rules = rules_for table .proc_trans (S - 1) END ∧
        c.exec_rules = rules_for table .exec (EP - 1) S ∧
        c.ep_rules = rules_for table .exec_ep (EP - 1) END ∧
        c.setexec_rules = rules_for table .setexec (S - 1) S ∧
        c.type_trans_rules = type_trans_rules_for table (S - 1) EP END := by
  obtain ⟨st, hf, hst⟩ := forward_on_built policy hw table hb S hS hSc []
  refine ⟨st, hf, ?_⟩
  intro c hc EP END hep hend
  rw [hst, List.append_nil] at hc
  exact forward_expected_evidence policy (build_table_built hw hb).1 (build_dual_rules hb).2 S c
    hc EP END hep hend

theorem forward_evidence_is_table_content_witness :
    ∃ st, apol_domain_trans_table_get_all_forward_trans two_pass_policy
        (table_of two_pass_policy) [] 1 = .ok st ∧
      ∀ c ∈ st.2, ∀ EP END, c.ep_type = some EP → c.end_type = some END →
        c.start_type = some 1 ∧
        c.proc_trans_rules = rules_for (table_of two_pass_policy) .proc_trans (1 - 1) END ∧
        c.exec_rules = rules_for (table_of two_pass_policy) .exec (EP - 1) 1 ∧
        c.ep_rules = rules_for (table_of two_pass_policy) .exec_ep (EP - 1) END ∧
        c.setexec_rules = rules_for (table_of two_pass_policy) .setexec (1 - 1) 1 ∧
        c.type_trans_rules = type_trans_rules_for (table_of two_pass_policy) (1 - 1) EP END :=
  forward_evidence_is_table_content two_pass_policy (by decide) (table_of two_pass_policy) rfl 1
    (by decide) (by decide)

/-- C35. For every table built from a well-formed policy and every start type S
that is a type of the policy and not an attribute, forward analysis from S over
the table as built succeeds and no two candidates it returns have the same
start, entrypoint and end type. -/
theorem forward_triples_distinct (policy : apol_policy_t) (hw : policy_wf policy)
    (table : apol_domain_trans_table_t)
    (hb : apol_policy_build_domain_trans_table policy none = .ok table) (S : Nat)
    (hS : type_in_range policy.types.length S) (hSc : qpol_type_get_isattr policy S = false) :
    ∃ st, apol_domain_trans_table_get_all_forward_trans policy table [] S = .ok st ∧
      (st.2.map triple).Nodup := by
  obtain ⟨st, hf, hst⟩ := forward_on_built policy hw table hb S hS hSc []
  refine ⟨st, hf, ?_⟩
  rw [hst, List.append_nil]
  exact forward_expected_nodup policy
    (fun k n v hv => ((build_table_built hw hb).1.1.2.2.2 k n v hv).1) S

theorem forward_triples_distinct_witness :
    ∃ st, apol_domain_trans_table_get_all_forward_trans two_pass_policy
        (table_of two_pass_policy) [] 1 = .ok st ∧
      (st.2.map triple).Nodup :=
  forward_triples_distinct two_pass_policy (by decide) (table_of two_pass_policy) rfl 1
    (by decide) (by decide)

/-- C36. For every table built from a well-formed policy, every table that
differs from it in used marks only, and every start type S that is a type of the
policy and not an attribute: forward analysis from S succeeds over the marked
table and over the table after the reset, and the candidate list of the first
run is a sublist of the candidate list of the second. -/
theorem stale_marks_only_suppress (policy : apol_policy_t) (hw : policy_wf policy)
    (table : apol_domain_trans_table_t)
    (hb : apol_policy_build_domain_trans_table policy none = .ok table)
    (t : apol_domain_trans_table_t) (hsh : same_shape table t) (S : Nat)
    (hS : type_in_range policy.types.length S) (hSc : qpol_type_get_isattr policy S = false) :
    ∃ st st0, apol_domain_trans_table_get_all_forward_trans policy t [] S = .ok st ∧
      apol_domain_trans_table_get_all_forward_trans policy
        (apol_policy_reset_domain_trans_table t) [] S = .ok st0 ∧
      st.2.Sublist st0.2 := by
  obtain ⟨hinv, -⟩ := build_table_built hw hb
  obtain ⟨st, new, hf, -, hst, hsub, -⟩ :=
    forward_characterized policy table hinv S hS hSc t hsh []
  obtain ⟨st0, new0, hf0, -, hst0, -, hex0⟩ :=
    forward_characterized policy table hinv S hS hSc (apol_policy_reset_domain_trans_table t)
      (same_shape_reset hsh) []
  refine ⟨st, st0, hf, hf0, ?_⟩
  rw [hst, hst0, hex0 ⟨fun _ _ => used_at_reset t .proc_trans (fun h => nomatch h) _ _,
    fun _ _ => used_at_reset t .exec_ep (fun h => nomatch h) _ _⟩]
  simpa using hsub

theorem stale_marks_only_suppress_witness :
    used_at two_pass_table_after_forward .proc_trans 0 1 = true ∧
      ∃ st st0, apol_domain_trans_table_get_all_forward_trans two_pass_policy
          two_pass_table_after_forward [] 1 = .ok st ∧
        apol_domain_trans_table_get_all_forward_trans two_pass_policy
          (apol_policy_reset_domain_trans_table two_pass_table_after_forward) [] 1 = .ok st0 ∧
        st.2.Sublist st0.2 :=
  ⟨rfl, stale_marks_only_suppress two_pass_policy (by decide) (table_of two_pass_policy) rfl
    two_pass_table_after_forward
    (same_shape_of_reset_eq (forward_reset two_pass_policy
      (table_of two_pass_policy) [] 1 _ rfl)).1 1 (by decide) (by decide)⟩

end Apol
